import Mathlib

/-!
Board-game engine: Gomoku (five in a row) and Go (capture, area scoring).

A shallow embedding of the engine sources (`GameTypes.h`, `GameMemento.h`,
`GomokuStrategy.h`, `GoStrategy.cpp`, `GoGame.cpp`, `AbstractGame.cpp`) and of
the controller (`GameSystem.cpp`), and theorems about them.

Conventions of the embedding:
* `int` coordinates are `Int`; the board size is a `Nat` (it is only ever
  compared with coordinates and used as a loop bound);
* `std::vector<std::vector<int>>` is `List (List Int)`; an access outside the
  vector (undefined in the source) reads `0` and a write outside is ignored;
* a function whose recursion or loop is bounded only by the board gets a fuel
  argument and returns `none` when the fuel runs out; the callers pass
  `size * size`, which is proved sufficient;
* an engine operation returns the exception it threw (if any) together with the
  state it left behind; observers are modelled by the list of events received.
-/

/-! ## GameTypes.h -/

/-- The enum `PieceColor { NONE, BLACK, WHITE }`. -/
inductive PieceColor
  | NONE
  | BLACK
  | WHITE
  deriving DecidableEq

/-- The enum `GameType { GOMOKU, GO }`. -/
inductive GameType
  | GOMOKU
  | GO
  deriving DecidableEq

/-- The four `GameException`s thrown by `AbstractGame`, named after their message. -/
inductive GameException
  /-- Thrown by `makeMove`: coordinates out of range. -/
  | outOfRange
  /-- Thrown by `makeMove`: the move strategy rejected the placement. -/
  | cannotPlaceHere
  /-- Thrown by `passTurn`: Gomoku has no pass. -/
  | gomokuCannotPass
  /-- Thrown by `undo`: no record to take back. -/
  | nothingToUndo
  deriving DecidableEq

/-! ## The board -/

/-- A board cell position, `struct Point { int x, y; }`. -/
abbrev Point := Int × Int

/-- The board, `std::vector<std::vector<int>>`: 0 empty, 1 black, 2 white. -/
abbrev Board := List (List Int)

/-- Read `board[x][y]`. -/
def Board.cell (board : Board) (x y : Int) : Int :=
  if 0 ≤ x ∧ 0 ≤ y then (board.getD x.toNat []).getD y.toNat 0 else 0

/-- Write `board[x][y] = v`. -/
def Board.setCell (board : Board) (x y : Int) (v : Int) : Board :=
  if 0 ≤ x ∧ 0 ≤ y then
    board.set x.toNat ((board.getD x.toNat []).set y.toNat v)
  else board

/-- The board built by `board.resize(size, std::vector<int>(size, 0))`. -/
def Board.fresh (size : Nat) : Board :=
  List.replicate size (List.replicate size 0)

/-- Every cell of the board holds 0, 1 or 2. -/
def Board.Valid (board : Board) : Prop :=
  ∀ row ∈ board, ∀ v ∈ row, v = 0 ∨ v = 1 ∨ v = 2

instance (board : Board) : Decidable board.Valid := by
  unfold Board.Valid; infer_instance

/-- The board has `size` rows of `size` cells. -/
def Board.Square (board : Board) (size : Nat) : Prop :=
  board.length = size ∧ ∀ row ∈ board, row.length = size

instance (board : Board) (size : Nat) : Decidable (board.Square size) := by
  unfold Board.Square; infer_instance

/-- The position lies in `[0, size) x [0, size)`. -/
def InGrid (size : Nat) (p : Point) : Prop :=
  0 ≤ p.1 ∧ p.1 < size ∧ 0 ≤ p.2 ∧ p.2 < size

instance (size : Nat) (p : Point) : Decidable (InGrid size p) := by
  unfold InGrid; infer_instance

/-- All positions of the grid in the order of the loops
`for i in [0, size) for j in [0, size)`. -/
def gridCells (size : Nat) : List Point :=
  (List.range size).flatMap fun (i : Nat) =>
    (List.range size).map fun (j : Nat) => ((i : Int), (j : Int))

/-- The number of grid positions that are not in `visited`. -/
def freeCells (size : Nat) (visited : List Point) : Nat :=
  ((gridCells size).filter fun p => p ∉ visited).length

/-- The neighbour offsets `dirs[4][2] = {{1,0}, {-1,0}, {0,1}, {0,-1}}`. -/
def dirs : List Point := [(1, 0), (-1, 0), (0, 1), (0, -1)]

/-- Orthogonal adjacency of two positions. -/
def Adj (p q : Point) : Prop :=
  q = (p.1 + 1, p.2) ∨ q = (p.1 - 1, p.2) ∨ q = (p.1, p.2 + 1) ∨ q = (p.1, p.2 - 1)

instance (p q : Point) : Decidable (Adj p q) := by
  unfold Adj; infer_instance

/-! ## GomokuStrategy.h -/

/-- The body of `GomokuMoveStrategy::isValid`. -/
def GomokuMoveStrategy.isValid (x y : Int) (board : Board) (_size : Nat) : Bool :=
  board.cell x y == 0

/-- The body of the two loops of `GomokuWinStrategy::checkWin` at one cell
`(i, j)`: `none` when the iteration falls through (or hits `continue`),
`some w` when it returns `w`. -/
def GomokuWinStrategy.checkAt (board : Board) (size : Nat) (i j : Int) : Option PieceColor :=
  let c := board.cell i j
  if c = 0 then none
  else if j + 4 < size ∧ board.cell i (j+1) = c ∧ board.cell i (j+2) = c
      ∧ board.cell i (j+3) = c ∧ board.cell i (j+4) = c then
    some (if c = 1 then PieceColor.BLACK else PieceColor.WHITE)
  else if i + 4 < size ∧ board.cell (i+1) j = c ∧ board.cell (i+2) j = c
      ∧ board.cell (i+3) j = c ∧ board.cell (i+4) j = c then
    some (if c = 1 then PieceColor.BLACK else PieceColor.WHITE)
  else if i + 4 < size ∧ j + 4 < size ∧ board.cell (i+1) (j+1) = c ∧ board.cell (i+2) (j+2) = c
      ∧ board.cell (i+3) (j+3) = c ∧ board.cell (i+4) (j+4) = c then
    some (if c = 1 then PieceColor.BLACK else PieceColor.WHITE)
  else if i + 4 < size ∧ j - 4 ≥ 0 ∧ board.cell (i+1) (j-1) = c ∧ board.cell (i+2) (j-2) = c
      ∧ board.cell (i+3) (j-3) = c ∧ board.cell (i+4) (j-4) = c then
    some (if c = 1 then PieceColor.BLACK else PieceColor.WHITE)
  else none

/-- The function `GomokuWinStrategy::checkWin`: the first cell in row-major order
whose iteration returns decides; `NONE` when no iteration returns. -/
def GomokuWinStrategy.checkWin (board : Board) (size : Nat) (_forceEnd : Bool) : PieceColor :=
  ((gridCells size).findSome? fun p => GomokuWinStrategy.checkAt board size p.1 p.2).getD
    PieceColor.NONE

/-- The four scan directions as (row step, column step): right, down,
down-right, down-left. -/
def scanDirs : List Point := [(0, 1), (1, 0), (1, 1), (1, -1)]

/-- Five consecutive cells starting at `(i, j)` in direction `d`, all inside the
grid and all holding the same non-empty value. -/
def FiveInRow (board : Board) (size : Nat) (i j : Int) (d : Point) : Prop :=
  board.cell i j ≠ 0 ∧
  ∀ k : Int, 0 ≤ k → k ≤ 4 →
    InGrid size (i + k * d.1, j + k * d.2) ∧
    board.cell (i + k * d.1) (j + k * d.2) = board.cell i j

/-! ## GoStrategy.h / GoStrategy.cpp -/

/-- The body of `GoMoveStrategy::isValid`. -/
def GoMoveStrategy.isValid (x y : Int) (board : Board) (_size : Nat) : Bool :=
  board.cell x y == 0

/-- The local variables of one flood fill in `GoWinStrategy::checkWin`
(`q`, `head`, `areaSize`, `touchBlack`, `touchWhite`) together with the
`visited` matrix, kept as the list of the cells marked `true`, the most
recently marked first. -/
structure FloodState where
  q : List Point
  head : Nat
  areaSize : Nat
  touchBlack : Bool
  touchWhite : Bool
  visited : List Point
  deriving DecidableEq

/-- The body of `for (auto& d : dirs)` inside the flood fill, for the neighbour
`(nx, ny)` of the dequeued cell. -/
def GoWinStrategy.visit (board : Board) (size : Nat) (st : FloodState) (nx ny : Int) :
    FloodState :=
  if nx ≥ 0 ∧ nx < size ∧ ny ≥ 0 ∧ ny < size then
    let val := board.cell nx ny
    if val = 1 then { st with touchBlack := true }
    else if val = 2 then { st with touchWhite := true }
    else if (nx, ny) ∉ st.visited then
      { st with visited := (nx, ny) :: st.visited, q := st.q ++ [(nx, ny)] }
    else st
  else st

/-- The loop `while (head < q.size())` of the flood fill. -/
def GoWinStrategy.floodLoop (board : Board) (size : Nat) : Nat → FloodState → Option FloodState
  | fuel, st =>
    if st.head < st.q.length then
      match fuel with
      | 0 => none
      | fuel + 1 =>
        let p := st.q.getD st.head (0, 0)
        let st1 := { st with head := st.head + 1, areaSize := st.areaSize + 1 }
        let st2 := dirs.foldl (fun s d => GoWinStrategy.visit board size s (p.1 + d.1) (p.2 + d.2)) st1
        GoWinStrategy.floodLoop board size fuel st2
    else some st

/-- The counters of `GoWinStrategy::checkWin` and the `visited` matrix. -/
structure Tally where
  blackCount : Nat
  whiteCount : Nat
  blackTerritory : Nat
  whiteTerritory : Nat
  visited : List Point
  deriving DecidableEq

/-- The body of the two counting loops of `GoWinStrategy::checkWin` at the
cell `(i, j)`. -/
def GoWinStrategy.tallyAt (board : Board) (size : Nat) (t : Tally) (i j : Int) : Option Tally :=
  if board.cell i j = 1 then some { t with blackCount := t.blackCount + 1 }
  else if board.cell i j = 2 then some { t with whiteCount := t.whiteCount + 1 }
  else if (i, j) ∉ t.visited then
    (GoWinStrategy.floodLoop board size (size * size)
      { q := [(i, j)], head := 0, areaSize := 0, touchBlack := false, touchWhite := false,
        visited := (i, j) :: t.visited }).map fun st =>
      if st.touchBlack ∧ ¬ st.touchWhite then
        { t with visited := st.visited, blackTerritory := t.blackTerritory + st.areaSize }
      else if ¬ st.touchBlack ∧ st.touchWhite then
        { t with visited := st.visited, whiteTerritory := t.whiteTerritory + st.areaSize }
      else { t with visited := st.visited }
  else some t

/-- The two counting loops of `GoWinStrategy::checkWin` (stones and territory). -/
def GoWinStrategy.tally (board : Board) (size : Nat) : Option Tally :=
  (gridCells size).foldlM (fun t p => GoWinStrategy.tallyAt board size t p.1 p.2)
    { blackCount := 0, whiteCount := 0, blackTerritory := 0, whiteTerritory := 0, visited := [] }

/-- The contents of `GoWinStrategy::resultDesc` after a settlement: the two
final scores (`double`s, here exact rationals) and the counters printed with
them. -/
structure ResultDesc where
  finalBlack : ℚ
  blackCount : Nat
  blackTerritory : Nat
  finalWhite : ℚ
  whiteCount : Nat
  whiteTerritory : Nat
  deriving DecidableEq

/-- The score `double finalBlack = blackCount + blackTerritory`. -/
def GoWinStrategy.finalBlack (t : Tally) : ℚ :=
  ((t.blackCount + t.blackTerritory : Nat) : ℚ)

/-- The score `double finalWhite = whiteCount + whiteTerritory + 3.75`. -/
def GoWinStrategy.finalWhite (t : Tally) : ℚ :=
  ((t.whiteCount + t.whiteTerritory : Nat) : ℚ) + 3.75

/-- The text written to `resultDesc` at a settlement: both final scores with
their stone and territory counts. -/
def GoWinStrategy.describe (t : Tally) : ResultDesc :=
  { finalBlack := GoWinStrategy.finalBlack t, blackCount := t.blackCount,
    blackTerritory := t.blackTerritory, finalWhite := GoWinStrategy.finalWhite t,
    whiteCount := t.whiteCount, whiteTerritory := t.whiteTerritory }

/-- The function `GoWinStrategy::checkWin`. It returns the winner and the new
value of the member `resultDesc` (`none` is the empty string). -/
def GoWinStrategy.checkWin (resultDesc : Option ResultDesc) (board : Board) (size : Nat)
    (forceEnd : Bool) : Option (PieceColor × Option ResultDesc) :=
  if ¬ forceEnd then some (PieceColor.NONE, resultDesc)
  else
    (GoWinStrategy.tally board size).map fun t =>
      let finalBlack := GoWinStrategy.finalBlack t
      let finalWhite := GoWinStrategy.finalWhite t
      let desc := GoWinStrategy.describe t
      if finalBlack > finalWhite then (PieceColor.BLACK, some desc)
      else (PieceColor.WHITE, some desc)

/-! ## GameMemento.h, Observer.h and the state of AbstractGame -/

/-- The class `GameMemento`: a snapshot of the match state. -/
structure GameMemento where
  boardData : Board
  currentPlayer : PieceColor
  boardSize : Nat
  type : GameType
  passCount : Int
  deriving DecidableEq

/-- The texts passed to `notifyMessage`, one constructor for each text of the
engine, with the values spliced into it. -/
inductive Message
  /-- Sent by `refresh`: whose turn it is. -/
  | currentTurn (c : PieceColor)
  /-- Sent by `makeMove`: the game is decided, with the winner. -/
  | decided (winner : PieceColor)
  /-- Sent by `makeMove` and `passTurn`: the side that moves next. -/
  | nextToMove (c : PieceColor)
  /-- Sent by `passTurn`: settlement banner, score details when the text is
  not empty, and the final result line. -/
  | settlement (details : Option ResultDesc) (winner : PieceColor)
  /-- Sent by `passTurn`: the side that passed. -/
  | passed (c : PieceColor)
  /-- Sent by `undo`: a move was taken back, with the side to move. -/
  | undone (c : PieceColor)
  /-- Sent by `resign`: the opponent resigned, with the winner. -/
  | resigned (winner : PieceColor)
  /-- Sent by `GoGame::removeDeadGroup`: the number of stones captured. -/
  | captured (count : Nat)
  deriving DecidableEq

/-- The three calls of `IGameObserver`. -/
inductive Event
  | boardUpdate (board : Board) (size : Nat)
  | message (msg : Message)
  | gameOver (winner : PieceColor)
  deriving DecidableEq

/-- The state of an `AbstractGame` object. `type` is the dynamic class
(`GomokuGame` or `GoGame`), which fixes `getType()`, the two strategies and
`postMoveProcess`; `history` has the top of the stack first; `resultDesc` is
the member of the `GoWinStrategy` the game holds; `events` is everything the
observers have been sent, oldest first. -/
structure AbstractGame where
  type : GameType
  size : Nat
  board : Board
  currentPlayer : PieceColor
  history : List GameMemento
  passCount : Int
  resultDesc : Option ResultDesc
  events : List Event
  deriving DecidableEq

/-- What a call of an engine operation leaves behind: the exception thrown, if
any, and the state of the object. -/
structure Outcome where
  thrown : Option GameException
  state : AbstractGame
  deriving DecidableEq

namespace AbstractGame

/-- The constructor `AbstractGame::AbstractGame`, reached through
`GomokuGame(s)` or `GoGame(s)`. -/
def create (type : GameType) (s : Nat) : AbstractGame :=
  { type := type, size := s, board := Board.fresh s, currentPlayer := PieceColor.BLACK,
    history := [], passCount := 0, resultDesc := none, events := [] }

/-- The function `AbstractGame::notifyBoardUpdate`. -/
def notifyBoardUpdate (g : AbstractGame) : AbstractGame :=
  { g with events := g.events ++ [Event.boardUpdate g.board g.size] }

/-- The function `AbstractGame::notifyMessage`. -/
def notifyMessage (g : AbstractGame) (msg : Message) : AbstractGame :=
  { g with events := g.events ++ [Event.message msg] }

/-- The function `AbstractGame::notifyGameOver`. -/
def notifyGameOver (g : AbstractGame) (winner : PieceColor) : AbstractGame :=
  { g with events := g.events ++ [Event.gameOver winner] }

/-- The function `AbstractGame::switchPlayer`. -/
def switchPlayer (g : AbstractGame) : AbstractGame :=
  { g with currentPlayer :=
      if g.currentPlayer = PieceColor.BLACK then PieceColor.WHITE else PieceColor.BLACK }

/-- The function `AbstractGame::saveStateToHistory`. -/
def saveStateToHistory (g : AbstractGame) : AbstractGame :=
  { g with history :=
      { boardData := g.board, currentPlayer := g.currentPlayer, boardSize := g.size,
        type := g.type, passCount := g.passCount } :: g.history }

/-- The function `AbstractGame::createMemento`. -/
def createMemento (g : AbstractGame) : GameMemento :=
  { boardData := g.board, currentPlayer := g.currentPlayer, boardSize := g.size,
    type := g.type, passCount := g.passCount }

/-- The function `AbstractGame::restoreMemento`. -/
def restoreMemento (g : AbstractGame) (mem : GameMemento) : AbstractGame :=
  { g with board := mem.boardData, currentPlayer := mem.currentPlayer, size := mem.boardSize,
           passCount := mem.passCount }

/-- The call `moveStrategy->isValid(x, y, board, size)`, dispatched on the class. -/
def isValid (g : AbstractGame) (x y : Int) : Bool :=
  match g.type with
  | GameType.GOMOKU => GomokuMoveStrategy.isValid x y g.board g.size
  | GameType.GO => GoMoveStrategy.isValid x y g.board g.size

/-- The call `winStrategy->checkWin(board, size, forceEnd)`, dispatched on the
class: the winner and the state after the call. -/
def checkWin (g : AbstractGame) (forceEnd : Bool) : Option (PieceColor × AbstractGame) :=
  match g.type with
  | GameType.GOMOKU => some (GomokuWinStrategy.checkWin g.board g.size forceEnd, g)
  | GameType.GO =>
    (GoWinStrategy.checkWin g.resultDesc g.board g.size forceEnd).map fun r =>
      (r.1, { g with resultDesc := r.2 })

/-- The call `winStrategy->getResultDescription()`: the base class returns the
empty string, `GoWinStrategy` its member. -/
def getResultDescription (g : AbstractGame) : Option ResultDesc :=
  match g.type with
  | GameType.GOMOKU => none
  | GameType.GO => g.resultDesc

end AbstractGame

/-! ## GoGame.cpp -/

namespace GoGame

/-- The function `GoGame::countLiberties` on the given board; the result is the
returned count and the `visited` set after the call (a list without
repetition, the most recently inserted point first). -/
def countLiberties (board : Board) (size : Nat) :
    Nat → Int → Int → Int → List Point → Option (Nat × List Point)
  | fuel, x, y, color, visited =>
    if x < 0 ∨ x ≥ size ∨ y < 0 ∨ y ≥ size then some (0, visited)
    else if board.cell x y = 0 then some (1, visited)
    else if board.cell x y ≠ color then some (0, visited)
    else if (x, y) ∈ visited then some (0, visited)
    else
      match fuel with
      | 0 => none
      | fuel + 1 =>
        dirs.foldlM (fun (acc : Nat × List Point) d =>
          (countLiberties board size fuel (x + d.1) (y + d.2) color acc.2).map fun r =>
            (acc.1 + r.1, r.2)) (0, (x, y) :: visited)

/-- The function `GoGame::removeDeadGroup`. The loop over `group` clears one
cell per point, so the order of the points does not matter. -/
def removeDeadGroup (g : AbstractGame) (x y color : Int) : Option AbstractGame :=
  (countLiberties g.board g.size (g.size * g.size) x y color []).map fun r =>
    if r.1 = 0 then
      let g1 := { g with board := r.2.foldl (fun b p => b.setCell p.1 p.2 0) g.board }
      if r.2 ≠ [] then g1.notifyMessage (Message.captured r.2.length) else g1
    else g

/-- The function `GoGame::postMoveProcess`. -/
def postMoveProcess (g : AbstractGame) (x y : Int) : Option AbstractGame :=
  let myColor := g.board.cell x y
  let opColor : Int := if myColor = 1 then 2 else 1
  dirs.foldlM (fun (g : AbstractGame) d =>
    let nx := x + d.1
    let ny := y + d.2
    if nx ≥ 0 ∧ nx < g.size ∧ ny ≥ 0 ∧ ny < g.size ∧ g.board.cell nx ny = opColor then
      removeDeadGroup g nx ny opColor
    else some g) g

/-- One step inside a group of stones of `color`: from `p` to an orthogonal
neighbour `q` that lies in the grid and holds `color`. -/
def Link (board : Board) (size : Nat) (color : Int) (p q : Point) : Prop :=
  Adj p q ∧ InGrid size q ∧ board.cell q.1 q.2 = color

/-- The stone at `q` belongs to the group of the stone at `p`: the group is the
maximal 4-connected set of stones of `color` around `p`. -/
def SameGroup (board : Board) (size : Nat) (color : Int) (p q : Point) : Prop :=
  Relation.ReflTransGen (Link board size color) p q

/-- The cell `p` has a liberty: an orthogonal neighbour in the grid that is Empty. -/
def HasLiberty (board : Board) (size : Nat) (p : Point) : Prop :=
  ∃ e, Adj p e ∧ InGrid size e ∧ board.cell e.1 e.2 = 0

/-- What a call `countLiberties(p.1, p.2, color, visited)` achieves when it
returns `n` and leaves the set `v`: the set only grows, by stones of the
group of `p`; it contains `p` when `p` is a stone of `color`; every stone
of `color` next to a newly inserted stone is in the set; and `n` is zero
exactly when neither `p` is an Empty grid cell nor a newly inserted stone has a
liberty. -/
structure CallSpec (board : Board) (size : Nat) (color : Int) (visited : List Point)
    (p : Point) (n : Nat) (v : List Point) : Prop where
  extends_visited : ∃ new, v = new ++ visited
  stones : ∀ q ∈ v, q ∉ visited →
    (InGrid size p ∧ board.cell p.1 p.2 = color) ∧
    (InGrid size q ∧ board.cell q.1 q.2 = color) ∧ SameGroup board size color p q
  self_mem : InGrid size p → board.cell p.1 p.2 = color → p ∈ v
  closed : ∀ q ∈ v, q ∉ visited → ∀ r, Link board size color q r → r ∈ v
  zero_iff : n = 0 ↔
    ¬ (InGrid size p ∧ board.cell p.1 p.2 = 0) ∧
    ∀ q ∈ v, q ∉ visited → ¬ HasLiberty board size q
  nodup : visited.Nodup → v.Nodup

/-- The state of the loop over `dirs` inside `countLiberties` at the stone `c`
after the directions `done`: `n` is the running sum and `v` the set, which
started as `c :: visited`. -/
structure LoopSpec (board : Board) (size : Nat) (color : Int) (visited : List Point)
    (c : Point) (done : List Point) (n : Nat) (v : List Point) : Prop where
  extends_visited : ∃ new, v = new ++ c :: visited
  stones : ∀ q ∈ v, q ∉ c :: visited →
    (InGrid size q ∧ board.cell q.1 q.2 = color) ∧ SameGroup board size color c q
  done_mem : ∀ d ∈ done, InGrid size (c.1 + d.1, c.2 + d.2) →
    board.cell (c.1 + d.1) (c.2 + d.2) = color → (c.1 + d.1, c.2 + d.2) ∈ v
  closed : ∀ q ∈ v, q ∉ c :: visited → ∀ r, Link board size color q r → r ∈ v
  zero_iff : n = 0 ↔
    (∀ d ∈ done, ¬ (InGrid size (c.1 + d.1, c.2 + d.2) ∧ board.cell (c.1 + d.1) (c.2 + d.2) = 0)) ∧
    ∀ q ∈ v, q ∉ c :: visited → ¬ HasLiberty board size q
  nodup : (c :: visited).Nodup → v.Nodup

/-- The cell `p` holds a stone of `color` whose group has no liberty. -/
def DeadStone (board : Board) (size : Nat) (color : Int) (p : Point) : Prop :=
  InGrid size p ∧ board.cell p.1 p.2 = color ∧
    ∀ q, SameGroup board size color p q → ¬ HasLiberty board size q

/-- The cell `p` is captured by a stone placed at `(r, c)`: it holds a stone of
`color`, its group contains an orthogonal neighbour of `(r, c)`, and the group
has no liberty. -/
def Captured (board : Board) (size : Nat) (color : Int) (r c : Int) (p : Point) : Prop :=
  DeadStone board size color p ∧
    ∃ n, Adj (r, c) n ∧ InGrid size n ∧ board.cell n.1 n.2 = color ∧
      SameGroup board size color n p

/-- The cell `p` is captured through one of the directions in `done`: as
`Captured`, with the neighbour of `(r, c)` taken in one of these directions. -/
def CapturedVia (board : Board) (size : Nat) (color : Int) (r c : Int) (done : List Point)
    (p : Point) : Prop :=
  DeadStone board size color p ∧
    ∃ d ∈ done, InGrid size (r + d.1, c + d.2) ∧ board.cell (r + d.1) (c + d.2) = color ∧
      SameGroup board size color (r + d.1, c + d.2) p

/-- The state `g` of the loop of `postMoveProcess(r, c)`, started in `g0`, after
the directions `done`, `color` being the opposing colour: the cells captured
through these directions are Empty, all other cells are as in `g0`, the
observers were sent capture messages only, and nothing else changed. -/
structure CaptureInv (color : Int) (r c : Int) (done : List Point) (g0 g : AbstractGame) :
    Prop where
  square : g.board.Square g0.size
  size_eq : g.size = g0.size
  type_eq : g.type = g0.type
  currentPlayer_eq : g.currentPlayer = g0.currentPlayer
  history_eq : g.history = g0.history
  passCount_eq : g.passCount = g0.passCount
  resultDesc_eq : g.resultDesc = g0.resultDesc
  events_eq : ∃ counts : List Nat,
    g.events = g0.events ++ counts.map fun k => Event.message (Message.captured k)
  cleared : ∀ p, CapturedVia g0.board g0.size color r c done p → g.board.cell p.1 p.2 = 0
  kept : ∀ p, ¬ CapturedVia g0.board g0.size color r c done p →
    g.board.cell p.1 p.2 = g0.board.cell p.1 p.2

/-- What `removeDeadGroup` and `postMoveProcess` leave alone when they take the
state `g0` to `g`: everything but the board, and the observers are sent capture
messages only. -/
structure CaptureFrame (g0 g : AbstractGame) : Prop where
  size_eq : g.size = g0.size
  type_eq : g.type = g0.type
  currentPlayer_eq : g.currentPlayer = g0.currentPlayer
  history_eq : g.history = g0.history
  passCount_eq : g.passCount = g0.passCount
  resultDesc_eq : g.resultDesc = g0.resultDesc
  events_eq : ∃ counts : List Nat,
    g.events = g0.events ++ counts.map fun k => Event.message (Message.captured k)

end GoGame

/-! ## Vocabulary for the territory count -/

namespace GoWinStrategy

/-- The number of grid cells that hold `color`. -/
def stoneCount (board : Board) (size : Nat) (color : Int) : Nat :=
  ((gridCells size).filter fun p => board.cell p.1 p.2 = color).length

/-- The position `p` is an Empty cell of the grid. -/
def EmptyCell (board : Board) (size : Nat) (p : Point) : Prop :=
  InGrid size p ∧ board.cell p.1 p.2 = 0

/-- The cell `q` belongs to the region of the Empty cell `p`: the region is the
maximal 4-connected set of Empty cells around `p`. -/
def SameRegion (board : Board) (size : Nat) (p q : Point) : Prop :=
  GoGame.SameGroup board size 0 p q

/-- The cell `p` has an orthogonal neighbour in the grid that holds `color`. -/
def Touches (board : Board) (size : Nat) (color : Int) (p : Point) : Prop :=
  ∃ t, Adj p t ∧ InGrid size t ∧ board.cell t.1 t.2 = color

/-- The region of `p` is adjacent to at least one stone of `color`. -/
def RegionTouches (board : Board) (size : Nat) (color : Int) (p : Point) : Prop :=
  ∃ q, SameRegion board size p q ∧ Touches board size color q

/-- The Empty cell `p` lies in a region adjacent to a stone of `color` and to
no stone of `other`. -/
def TerritoryOf (board : Board) (size : Nat) (color other : Int) (p : Point) : Prop :=
  EmptyCell board size p ∧ RegionTouches board size color p ∧ ¬ RegionTouches board size other p

/-- The state `st` of a flood fill started at `s` with the cells `v0` already
marked, when the first `k` cells of the queue have been handled completely and
the cell at index `k` for the directions `done`. -/
structure FloodInv (board : Board) (size : Nat) (v0 : List Point) (s : Point) (k : Nat)
    (done : List Point) (st : FloodState) : Prop where
  visited_eq : st.visited = st.q.reverse ++ v0
  nodup : st.visited.Nodup
  start_mem : s ∈ st.q
  region : ∀ p ∈ st.q, EmptyCell board size p ∧ SameRegion board size s p
  closed : ∀ p ∈ st.q.take k, ∀ r, GoGame.Link board size 0 p r → r ∈ st.visited
  closed_cur : ∀ d ∈ done, ∀ p, st.q[k]? = some p →
    EmptyCell board size (p.1 + d.1, p.2 + d.2) → (p.1 + d.1, p.2 + d.2) ∈ st.visited
  black_iff : st.touchBlack = true ↔
    (∃ p ∈ st.q.take k, Touches board size 1 p) ∨
    (∃ d ∈ done, ∃ p, st.q[k]? = some p ∧ InGrid size (p.1 + d.1, p.2 + d.2) ∧
      board.cell (p.1 + d.1) (p.2 + d.2) = 1)
  white_iff : st.touchWhite = true ↔
    (∃ p ∈ st.q.take k, Touches board size 2 p) ∨
    (∃ d ∈ done, ∃ p, st.q[k]? = some p ∧ InGrid size (p.1 + d.1, p.2 + d.2) ∧
      board.cell (p.1 + d.1) (p.2 + d.2) = 2)

/-- What bounds a flood fill on any board: the queue holds the cells marked
since the start, each once, and all of them lie in the grid. -/
structure FloodBound (size : Nat) (v0 : List Point) (st : FloodState) : Prop where
  visited_eq : st.visited = st.q.reverse ++ v0
  nodup : st.visited.Nodup
  inGrid : ∀ p ∈ st.q, InGrid size p

/-- The counters after the cells `pre` of the grid have been handled: `visited`
is a union of whole regions and covers the Empty cells of `pre`; the stone
counters count the cells of `pre` holding 1 and 2; each territory counter is
the number of marked cells whose region touches that side only. -/
structure TallyInv (board : Board) (size : Nat) (pre : List Point) (t : Tally) : Prop where
  nodup : t.visited.Nodup
  empty : ∀ p ∈ t.visited, EmptyCell board size p
  closed : ∀ p ∈ t.visited, ∀ q, SameRegion board size p q → q ∈ t.visited
  covers : ∀ p ∈ pre, EmptyCell board size p → p ∈ t.visited
  blackCount_eq : t.blackCount = (pre.filter fun p => board.cell p.1 p.2 = 1).length
  whiteCount_eq : t.whiteCount = (pre.filter fun p => board.cell p.1 p.2 = 2).length
  black : ∃ l : List Point, l.Nodup ∧
    (∀ p, p ∈ l ↔ p ∈ t.visited ∧ TerritoryOf board size 1 2 p) ∧ t.blackTerritory = l.length
  white : ∃ l : List Point, l.Nodup ∧
    (∀ p, p ∈ l ↔ p ∈ t.visited ∧ TerritoryOf board size 2 1 p) ∧ t.whiteTerritory = l.length

end GoWinStrategy

/-! ## AbstractGame.cpp: the operations -/

namespace AbstractGame

/-- The virtual call `postMoveProcess(x, y)`: nothing for `GomokuGame`, the
capture step for `GoGame`. -/
def postMoveProcess (g : AbstractGame) (x y : Int) : Option AbstractGame :=
  match g.type with
  | GameType.GOMOKU => some g
  | GameType.GO => GoGame.postMoveProcess g x y

/-- The three statements of `makeMove` after the checks: `passCount = 0`,
`saveStateToHistory()` and `board[x][y] = (currentPlayer == BLACK) ? 1 : 2`. -/
def placeStone (g : AbstractGame) (x y : Int) : AbstractGame :=
  let g1 := { g with passCount := 0 }
  let g2 := g1.saveStateToHistory
  let stone : Int := if g2.currentPlayer = PieceColor.BLACK then 1 else 2
  { g2 with board := g2.board.setCell x y stone }

/-- The function `AbstractGame::makeMove`. -/
def makeMove (g : AbstractGame) (x y : Int) : Option Outcome :=
  if x < 0 ∨ x ≥ g.size ∨ y < 0 ∨ y ≥ g.size then
    some { thrown := some GameException.outOfRange, state := g }
  else if ¬ g.isValid x y then
    some { thrown := some GameException.cannotPlaceHere, state := g }
  else
    let g3 := g.placeStone x y
    (g3.postMoveProcess x y).bind fun g4 =>
    (g4.checkWin false).map fun r =>
      let winner := r.1
      let g5 := r.2.notifyBoardUpdate
      if winner ≠ PieceColor.NONE then
        let g6 := g5.notifyMessage (Message.decided winner)
        { thrown := none, state := g6.notifyGameOver winner }
      else
        let g6 := g5.switchPlayer
        { thrown := none, state := g6.notifyMessage (Message.nextToMove g6.currentPlayer) }

/-- The value of `passCount` right after `passCount++` in `passTurn`. -/
def passCountAfterIncrement (g : AbstractGame) : Int :=
  g.passCount + 1

/-- The function `AbstractGame::passTurn`. -/
def passTurn (g : AbstractGame) : Option Outcome :=
  if g.type = GameType.GOMOKU then
    some { thrown := some GameException.gomokuCannotPass, state := g }
  else
    let g1 := g.saveStateToHistory
    let g2 := { g1 with passCount := g.passCountAfterIncrement }
    if g2.passCount ≥ 2 then
      (g2.checkWin true).map fun r =>
        let winner := r.1
        let details := r.2.getResultDescription
        let g3 := r.2.notifyMessage (Message.settlement details winner)
        let g4 := g3.notifyGameOver winner
        { thrown := none, state := { g4 with passCount := 0 } }
    else
      let g3 := g2.switchPlayer
      let g4 := g3.notifyMessage (Message.passed
        (if g3.currentPlayer = PieceColor.BLACK then PieceColor.WHITE else PieceColor.BLACK))
      some { thrown := none, state := g4.notifyMessage (Message.nextToMove g4.currentPlayer) }

/-- The function `AbstractGame::undo`. -/
def undo (g : AbstractGame) : Outcome :=
  match g.history with
  | [] => { thrown := some GameException.nothingToUndo, state := g }
  | mem :: rest =>
    let g1 := { g with history := rest }
    let g2 := g1.restoreMemento mem
    let g3 := g2.notifyMessage (Message.undone g2.currentPlayer)
    { thrown := none, state := g3.notifyBoardUpdate }

/-- The function `AbstractGame::resign`. -/
def resign (g : AbstractGame) : Outcome :=
  let winner :=
    if g.currentPlayer = PieceColor.BLACK then PieceColor.WHITE else PieceColor.BLACK
  let g1 := g.notifyMessage (Message.resigned winner)
  { thrown := none, state := g1.notifyGameOver winner }

/-- The function `AbstractGame::refresh`. -/
def refresh (g : AbstractGame) : AbstractGame :=
  g.notifyBoardUpdate.notifyMessage (Message.currentTurn g.currentPlayer)

end AbstractGame

/-! ## Sequences of calls -/

/-- A call of `makeMove` or `passTurn`. -/
inductive Call
  | makeMove (x y : Int)
  | passTurn
  deriving DecidableEq

/-- What a call did: it threw, it placed a stone, it passed without
settlement, or it passed and the counter reached 2 (settlement). -/
inductive Effect
  | failed
  | moved
  | passed
  | settled
  deriving DecidableEq

namespace AbstractGame

/-- Perform one call. -/
def call (g : AbstractGame) : Call → Option Outcome
  | Call.makeMove x y => g.makeMove x y
  | Call.passTurn => g.passTurn

/-- Classify the call `c` made in state `g` with outcome `o`; a pass settles
when the incremented counter passes the test `passCount >= 2`. -/
def effectOf (g : AbstractGame) (c : Call) (o : Outcome) : Effect :=
  match o.thrown, c with
  | some _, _ => Effect.failed
  | none, Call.makeMove _ _ => Effect.moved
  | none, Call.passTurn =>
    if g.passCountAfterIncrement ≥ 2 then Effect.settled else Effect.passed

/-- Perform a sequence of calls, each on the state the previous one left
(also when it threw); the result is the final state and the effects in order. -/
def run (g : AbstractGame) (cs : List Call) : Option (AbstractGame × List Effect) :=
  cs.foldlM (fun (acc : AbstractGame × List Effect) c =>
    (acc.1.call c).map fun o => (o.state, acc.2 ++ [effectOf acc.1 c o])) (g, [])

end AbstractGame

/-- The effect of the last call that did not throw. -/
def lastSuccessful (es : List Effect) : Option Effect :=
  (es.filter fun e => e ≠ Effect.failed).getLast?

/-- The colour of the side that is not to move: 2 when BLACK is to move, else 1
(the value `opColor` of `postMoveProcess` after a placement by the side to move). -/
def AbstractGame.opposing (g : AbstractGame) : Int :=
  if g.currentPlayer = PieceColor.BLACK then 2 else 1

/-- The pass counter is 1 exactly when the last call that did not throw was a
pass without settlement, and 0 otherwise. -/
def PassInv (g : AbstractGame) (es : List Effect) : Prop :=
  g.type = GameType.GO ∧
  ((g.passCount = 0 ∧ lastSuccessful es ≠ some Effect.passed) ∨
   (g.passCount = 1 ∧ lastSuccessful es = some Effect.passed))

/-! ## Concrete positions -/

/-- An 8 x 8 Gomoku board with Black on (0,0)..(0,3): a run of exactly four. -/
def fourInRowBoard : Board :=
  ((((Board.fresh 8).setCell 0 0 1).setCell 0 1 1).setCell 0 2 1).setCell 0 3 1

/-- An 8 x 8 Gomoku board with a mixed run of five on (0,0)..(0,4): Black,
Black, White, Black, Black. -/
def mixedFiveBoard : Board :=
  (((((Board.fresh 8).setCell 0 0 1).setCell 0 1 1).setCell 0 2 2).setCell 0 3 1).setCell 0 4 1

/-- A Go state on an 8 x 8 board, BLACK to move: a White stone in the corner
(0,0) with Black on (1,0), and its last liberty at (0,1). -/
def cornerAtari : AbstractGame :=
  { AbstractGame.create GameType.GO 8 with
    board := ((Board.fresh 8).setCell 0 0 2).setCell 1 0 1 }

/-- An 8 x 8 Go board: one Black stone at (0,0) and one White stone at (7,7). -/
def twoStonesBoard : Board :=
  ((Board.fresh 8).setCell 0 0 1).setCell 7 7 2

/-! ## Counting liberties -/

namespace GoGame

/-- The number of directions in which the cell `q` faces an Empty grid cell. -/
def libertyFaces (board : Board) (size : Nat) (q : Point) : Nat :=
  (dirs.filter fun d =>
    InGrid size (q.1 + d.1, q.2 + d.2) ∧ board.cell (q.1 + d.1) (q.2 + d.2) = 0).length

/-- The number of distinct Empty grid cells that are orthogonally adjacent to at
least one cell of `group`. -/
def distinctLiberties (board : Board) (size : Nat) (group : List Point) : Nat :=
  ((gridCells size).filter fun e => board.cell e.1 e.2 = 0 ∧ ∃ q ∈ group, Adj q e).length

end GoGame

/-- An 8 x 8 Go board after three moves of each side: Black on (0,0), (0,1) and
(1,0), White on (7,7), (7,6) and (0,2). The Empty cell (1,1) is adjacent to two
stones of the Black group. -/
def sharedLibertyBoard : Board :=
  ((((((Board.fresh 8).setCell 0 0 1).setCell 7 7 2).setCell 0 1 1).setCell 7 6 2).setCell 1 0
    1).setCell 0 2 2

/-! ## Reachable states -/

/-- A call of one of the four operations of the engine. -/
inductive Op
  | makeMove (x y : Int)
  | passTurn
  | undo
  | resign
  deriving DecidableEq

/-- Perform one operation. -/
def AbstractGame.perform (g : AbstractGame) : Op → Option Outcome
  | Op.makeMove x y => g.makeMove x y
  | Op.passTurn => g.passTurn
  | Op.undo => some g.undo
  | Op.resign => some g.resign

/-- The states reachable from a freshly constructed match of the given variant
and size by any sequence of operations, each performed on the state the
previous one left behind, whether it threw or not. -/
inductive Reachable (type : GameType) (n : Nat) : AbstractGame → Prop
  | fresh : Reachable type n (AbstractGame.create type n)
  | step (g : AbstractGame) (op : Op) (o : Outcome) :
      Reachable type n g → g.perform op = some o → Reachable type n o.state

/-- The invariant of the reachable states of a size-`n` match: the size field,
the shape and contents of the grid, and the same for every snapshot in the
history. -/
structure WellFormed (n : Nat) (g : AbstractGame) : Prop where
  size_eq : g.size = n
  square : g.board.Square n
  valid : g.board.Valid
  history : ∀ m ∈ g.history, m.boardSize = n ∧ m.boardData.Square n ∧ m.boardData.Valid

/-! ## GameTypes.h: colour names; GameMemento.h: the save text -/

/-- The function `colorToString`. -/
def colorToString (c : PieceColor) : String :=
  if c = PieceColor.BLACK then "BLACK"
  else if c = PieceColor.WHITE then "WHITE"
  else "NONE"

/-- The function `stringToColor`. -/
def stringToColor (s : String) : PieceColor :=
  if s = "BLACK" then PieceColor.BLACK
  else if s = "WHITE" then PieceColor.WHITE
  else PieceColor.NONE

/-- One whitespace-separated item of a text stream. The spaces and newlines
that `serialize` writes between the items only separate them for `>>`, so a
text is kept as the list of its items; an `int` written by `<<` is read back
by `>>` as the same `int`. -/
inductive Token
  | word (s : String)
  | number (n : Int)
  deriving DecidableEq

/-- What `is >> str` stores for this item. -/
def Token.asWord : Token → String
  | Token.word s => s
  | Token.number n => toString n

/-- What `is >> n` reads from this item, `none` when it is not an integer. -/
def Token.asInt : Token → Option Int
  | Token.word _ => none
  | Token.number n => some n

/-- An input stream: the items still to be read, or `none` once an extraction
has failed (then every later extraction leaves its variable untouched). -/
abbrev InStream := Option (List Token)

/-- The statement `is >> str` for a string that is still empty. -/
def readWord : InStream → String × InStream
  | some (t :: ts) => (t.asWord, some ts)
  | _ => ("", none)

/-- The statement `is >> data[i][j]` for a cell that still holds 0: a failed
extraction leaves 0 in the cell. -/
def readCell : InStream → Int × InStream
  | some (t :: ts) =>
    match t.asInt with
    | some v => (v, some ts)
    | none => (0, none)
  | _ => (0, none)

/-- The inner loop `for j` of `deserialize`, reading `k` cells of one row. -/
def readRow : Nat → InStream → List Int × InStream
  | 0, s => ([], s)
  | k + 1, s =>
    let r := readCell s
    let rest := readRow k r.2
    (r.1 :: rest.1, rest.2)

/-- The outer loop `for i` of `deserialize`, reading `rows` rows of `k` cells. -/
def readRows : Nat → Nat → InStream → List (List Int)
  | 0, _, _ => []
  | rows + 1, k, s =>
    let r := readRow k s
    r.1 :: readRows rows k r.2

namespace GameMemento

/-- The function `GameMemento::serialize`. -/
def serialize (m : GameMemento) : List Token :=
  [Token.word (if m.type = GameType.GOMOKU then "GOMOKU" else "GO"),
   Token.number m.boardSize, Token.number m.passCount,
   Token.word (colorToString m.currentPlayer)] ++
  (List.range m.boardSize).flatMap fun (i : Nat) =>
    (List.range m.boardSize).map fun (j : Nat) => Token.number (m.boardData.cell i j)

/-- The function `GameMemento::deserialize`. The result is `none` where the
source has no defined result: when `size` or `pass` is used without having
been read (the text has fewer than three items, or the size item is not an
integer), and when `size` is negative (the vector cannot be built). -/
def deserialize (tokens : List Token) : Option GameMemento :=
  match tokens with
  | typeTok :: sizeTok :: passTok :: rest =>
    match sizeTok.asInt with
    | none => none
    | some size =>
      let s3 : Int × InStream :=
        match passTok.asInt with
        | some v => (v, some rest)
        | none => (0, none)
      let s4 := readWord s3.2
      if size < 0 then none
      else some
        { boardData := readRows size.toNat size.toNat s4.2,
          currentPlayer := stringToColor s4.1,
          boardSize := size.toNat,
          type := if typeTok.asWord = "GOMOKU" then GameType.GOMOKU else GameType.GO,
          passCount := s3.1 }
  | _ => none

end GameMemento

/-! ## GameSystem.cpp: save and load -/

namespace GameSystem

/-- The text written by the `save` command: `game->createMemento()->serialize()`. -/
def saveText (g : AbstractGame) : List Token :=
  g.createMemento.serialize

/-- The engine built by the `load` command from the text of the file: the
snapshot is parsed, a fresh game of the recorded variant and size is created,
`restoreMemento` is called on it, and after the observer is added `refresh()`
sends the first two events. -/
def loadGame (tokens : List Token) : Option AbstractGame :=
  (GameMemento.deserialize tokens).map fun mem =>
    ((AbstractGame.create mem.type mem.boardSize).restoreMemento mem).refresh

end GameSystem

/-! ## More concrete positions -/

/-- An 8 x 8 Go board with a single Black stone at (0,0). -/
def singleBlackBoard : Board :=
  (Board.fresh 8).setCell 0 0 1

/-- The result text of the settlement of `singleBlackBoard`: Black 64 (1 stone
and 63 territory), White 3.75 (no stone, no territory, and the bonus). -/
def singleBlackDesc : ResultDesc :=
  { finalBlack := 64, blackCount := 1, blackTerritory := 63,
    finalWhite := 3.75, whiteCount := 0, whiteTerritory := 0 }

/-- An 8 x 8 Gomoku state seeded with Black on (0,0)..(0,3), BLACK to move. -/
def fourInRowGame : AbstractGame :=
  { AbstractGame.create GameType.GOMOKU 8 with board := fourInRowBoard }

/-- The events of Black's winning move at (0,4) in `fourInRowGame`. -/
def winningMoveEvents : List Event :=
  [Event.boardUpdate (fourInRowBoard.setCell 0 4 1) 8,
   Event.message (Message.decided PieceColor.BLACK),
   Event.gameOver PieceColor.BLACK]

/-- The side that moves after `c`, as `switchPlayer` computes it. -/
def PieceColor.next (c : PieceColor) : PieceColor :=
  if c = PieceColor.BLACK then PieceColor.WHITE else PieceColor.BLACK

/-- The stone a side places: 1 for BLACK, 2 otherwise. -/
def PieceColor.stone (c : PieceColor) : Int :=
  if c = PieceColor.BLACK then 1 else 2

/-- The outcome of `passTurn()` on a fresh Go match of size 8: WHITE to move,
pass counter 1, one snapshot in the history. -/
def afterFirstPass : Outcome :=
  { thrown := none,
    state :=
      { type := GameType.GO, size := 8, board := Board.fresh 8,
        currentPlayer := PieceColor.WHITE,
        history := [(AbstractGame.create GameType.GO 8).createMemento],
        passCount := 1, resultDesc := none,
        events := [Event.message (Message.passed PieceColor.BLACK),
                   Event.message (Message.nextToMove PieceColor.WHITE)] } }

/-! ## GameSystem.cpp: the controller -/

/-- What `processCommand` can catch: the six `GameException`s the controller
throws itself, named after their message, an exception of the engine, and the
`std::length_error` of a vector that cannot be built. -/
inductive SystemError
  /-- Thrown by `start`: the size is not between 8 and 19. -/
  | badSize
  /-- Thrown by `start`: the variant is neither `go` nor `gomoku`. -/
  | unknownType
  /-- Thrown by `move`, `pass`, `undo`, `resign` and `save`: no game was started. -/
  | notStarted
  /-- Thrown by `save`: the file could not be created. -/
  | cannotCreateFile
  /-- Thrown by `load`: the file could not be opened. -/
  | cannotReadFile
  /-- Thrown for a command word that is none of the ten. -/
  | unknownCommand
  /-- Thrown by the engine. -/
  | engine (e : GameException)
  /-- Thrown by the standard library while `deserialize` builds the board. -/
  | lengthError
  deriving DecidableEq

/-- The texts the controller itself passes to `ui->onMessage`. -/
inductive Notice
  | help
  | saved (file : String)
  | loaded (file : String)
  | error (e : SystemError)
  deriving DecidableEq

/-- A call received by the `ConsoleUI` object: from the controller, or from the
engine it observes. -/
inductive UiCall
  | onMessage (n : Notice)
  | updateGameStatus (t : GameType)
  | toggleHints
  | render
  | engine (e : Event)
  deriving DecidableEq

/-- A command line after the extractions of `processCommand`: the command word
with the arguments read from the rest of the line. `save` carries whether the
output file could be created. -/
inductive Command
  | exit
  | help
  | start (typeStr : String) (size : Int)
  | move (r c : Int)
  | pass
  | undo
  | resign
  | save (file : String) (created : Bool)
  | load (file : String)
  | hint
  | unknown
  deriving DecidableEq

/-- The pointer `data` of the UI's `BoardComponent`. `BoardComponent::update`,
reached from `onBoardUpdate`, stores the address of the board it is passed, and
the engine passes its own member `board`; `BoardComponent::draw` reads the
board behind the pointer unless the pointer is null. -/
inductive BoardRef
  /-- The null pointer the component starts with: `draw` returns at once. -/
  | null
  /-- The address of `board` in the engine the controller holds. -/
  | held
  /-- The address of `board` in an engine that has been destroyed. -/
  | freed
  deriving DecidableEq

/-- The pointer once the controller has given up the engine it held, by
`game = nullptr` or by assigning a new engine to `game`: the controller was the
only owner, the engine is destroyed with its board, and a pointer to that board
dangles. -/
def BoardRef.release : BoardRef → BoardRef
  | BoardRef.held => BoardRef.freed
  | r => r

/-- The state of the `GameSystem` object, with what lies around it: the engine
held (`none` is the null pointer), the flag `running`, the calls the UI has
received, oldest first, the files by name, the most recently written first,
and the pointer `data` of the UI's `BoardComponent`. -/
structure GameSystem where
  game : Option AbstractGame
  running : Bool
  ui : List UiCall
  files : List (String × List Token)
  boardData : BoardRef
  deriving DecidableEq

namespace GameSystem

/-- The state built by `GameSystem::GameSystem`, with the given files on disk. -/
def initial (files : List (String × List Token)) : GameSystem :=
  { game := none, running := true, ui := [], files := files, boardData := BoardRef.null }

/-- The events the engine sent while it went from `before` to `after`. -/
def newEvents (before after : AbstractGame) : List Event :=
  after.events.drop before.events.length

/-- Whether the event is a call of `onBoardUpdate`. -/
def isBoardUpdate : Event → Bool
  | Event.boardUpdate _ _ => true
  | _ => false

/-- Deliver to the UI what the engine held has sent during a call. A call of
`onBoardUpdate` among it leaves the `BoardComponent` with the address of that
engine's board. -/
def observe (s : GameSystem) (before after : AbstractGame) : GameSystem :=
  { s with ui := s.ui ++ (newEvents before after).map UiCall.engine,
           boardData := if (newEvents before after).any isBoardUpdate then BoardRef.held
                        else s.boardData }

/-- The last four statements of the `start` and `load` branches for the new
engine `g`: it replaces the engine held, which is destroyed, the status line is
set, the UI is added as observer and `refresh()` is called. -/
def install (s : GameSystem) (g : AbstractGame) : GameSystem :=
  observe { s with game := some g.refresh, ui := s.ui ++ [UiCall.updateGameStatus g.type],
                   boardData := s.boardData.release }
    g g.refresh

/-- The result of an engine call made by the controller: the engine is still
held, in the state the call left; the UI has received its events; an exception
is passed on. -/
def afterCall (s : GameSystem) (g : AbstractGame) (o : Outcome) :
    Option SystemError × GameSystem :=
  (o.thrown.map SystemError.engine, observe { s with game := some o.state } g o.state)

/-- The function `ConsoleUI::render`: the UI tree is drawn, and with it the
`BoardComponent`, which reads the board behind its pointer unless the pointer
is null. `none`: the call has no defined result, because the board it reads is
that of a destroyed engine. -/
def render (s : GameSystem) : Option GameSystem :=
  if s.boardData = BoardRef.freed then none
  else some { s with ui := s.ui ++ [UiCall.render] }

/-- The `try` block of `processCommand`: the exception that reaches the `catch`
clause, if any, and the state at that point. `none` when the block has no
defined result: `toggleHints` renders the board of a destroyed engine, or an
engine call runs out of fuel (which none does, see `tryCommand_defined`). In
the `resign` branch the statement `game = nullptr` destroys the engine, and the
`BoardComponent` is left with the address of its board. For a file on which
`deserialize` has no result the load is taken to end in the `catch` clause, as
it does for a negative size. -/
def tryCommand (s : GameSystem) : Command → Option (Option SystemError × GameSystem)
  | Command.exit => some (none, { s with running := false })
  | Command.help => some (none, { s with ui := s.ui ++ [UiCall.onMessage Notice.help] })
  | Command.start typeStr size =>
    if size < 8 ∨ size > 19 then some (some SystemError.badSize, s)
    else if typeStr = "go" then
      some (none, install s (AbstractGame.create GameType.GO size.toNat))
    else if typeStr = "gomoku" then
      some (none, install s (AbstractGame.create GameType.GOMOKU size.toNat))
    else some (some SystemError.unknownType, s)
  | Command.move r c =>
    match s.game with
    | none => some (some SystemError.notStarted, s)
    | some g => (g.makeMove (r - 1) (c - 1)).map fun o => afterCall s g o
  | Command.pass =>
    match s.game with
    | none => some (some SystemError.notStarted, s)
    | some g => g.passTurn.map fun o => afterCall s g o
  | Command.undo =>
    match s.game with
    | none => some (some SystemError.notStarted, s)
    | some g => some (afterCall s g g.undo)
  | Command.resign =>
    match s.game with
    | none => some (some SystemError.notStarted, s)
    | some g =>
      let r := afterCall s g g.resign
      some (r.1, { r.2 with game := none, boardData := r.2.boardData.release })
  | Command.save file created =>
    match s.game with
    | none => some (some SystemError.notStarted, s)
    | some g =>
      if ¬ created then some (some SystemError.cannotCreateFile, s)
      else
        some (none, { s with files := (file, saveText g) :: s.files,
                             ui := s.ui ++ [UiCall.onMessage (Notice.saved file)] })
  | Command.load file =>
    match s.files.lookup file with
    | none => some (some SystemError.cannotReadFile, s)
    | some text =>
      match GameMemento.deserialize text with
      | none => some (some SystemError.lengthError, s)
      | some mem =>
        let s1 := install s ((AbstractGame.create mem.type mem.boardSize).restoreMemento mem)
        some (none, { s1 with ui := s1.ui ++ [UiCall.onMessage (Notice.loaded file)] })
  | Command.hint =>
    (render { s with ui := s.ui ++ [UiCall.toggleHints] }).map fun s1 => (none, s1)
  | Command.unknown => some (some SystemError.unknownCommand, s)

/-- The function `GameSystem::processCommand`: the `try` block, the `catch`
clause, which shows the error, and the final `render` unless the command was
`exit`. `none`: the call has no defined result. That is so for `resign` with an
engine held: the engine is destroyed in the `try` block and the final `render`
reads its board (see `processCommand_eq_none_iff`). -/
def processCommand (s : GameSystem) (cmd : Command) : Option GameSystem :=
  (tryCommand s cmd).bind fun r =>
    let s1 : GameSystem :=
      match r.1 with
      | some e => { r.2 with ui := r.2.ui ++ [UiCall.onMessage (Notice.error e)] }
      | none => r.2
    if s1.running ∧ cmd ≠ Command.exit then render s1 else some s1

/-- The loop of `GameSystem::run` over the given command lines, which stops
once `running` is false. `none` when a command has no defined result. -/
def runCommands (s : GameSystem) : List Command → Option GameSystem
  | [] => some s
  | cmd :: rest =>
    if s.running then (processCommand s cmd).bind fun s1 => runCommands s1 rest
    else some s

end GameSystem

/-! ## Vocabulary for the invariants of play and the order of the scan -/

/-- The side to move is BLACK or WHITE, in the state and in every snapshot of
the history. -/
structure SideInv (g : AbstractGame) : Prop where
  side : g.currentPlayer = PieceColor.BLACK ∨ g.currentPlayer = PieceColor.WHITE
  history : ∀ m ∈ g.history,
    m.currentPlayer = PieceColor.BLACK ∨ m.currentPlayer = PieceColor.WHITE

/-- The cell `p` comes before `q`, or is `q`, in row-major order. -/
def RowMajorLE (p q : Point) : Prop :=
  p.1 < q.1 ∨ (p.1 = q.1 ∧ p.2 ≤ q.2)

/-- The cell `p` comes strictly before `q` in row-major order. -/
def RowMajorLT (p q : Point) : Prop :=
  p.1 < q.1 ∨ (p.1 = q.1 ∧ p.2 < q.2)

/-- A line of five starts at the cell `p` in one of the four scan directions. -/
def StartsFive (board : Board) (size : Nat) (p : Point) : Prop :=
  ∃ d, d ∈ scanDirs ∧ FiveInRow board size p.1 p.2 d

/-! ## Concrete positions and command lines -/

/-- A snapshot that says size 8 and whose board has 8 rows, the first of them
with 7 cells only. -/
def raggedMemento : GameMemento :=
  { boardData := List.replicate 7 0 :: List.replicate 7 (List.replicate 8 0),
    currentPlayer := PieceColor.WHITE, boardSize := 8, type := GameType.GO, passCount := 0 }

/-- An 8 x 8 Gomoku board with two lines of five: White on (0,3)..(0,7) and
Black on (1,0)..(1,4). -/
def twoFivesBoard : Board :=
  [[0, 0, 0, 2, 2, 2, 2, 2],
   [1, 1, 1, 1, 1, 0, 0, 0],
   [0, 0, 0, 0, 0, 0, 0, 0],
   [0, 0, 0, 0, 0, 0, 0, 0],
   [0, 0, 0, 0, 0, 0, 0, 0],
   [0, 0, 0, 0, 0, 0, 0, 0],
   [0, 0, 0, 0, 0, 0, 0, 0],
   [0, 0, 0, 0, 0, 0, 0, 0]]

/-- An 8 x 8 Gomoku board after five moves of each side, without a line of five:
Black on (0,0)..(0,3) and (0,5), leaving the gap (0,4); White scattered. -/
def sixGapBoard : Board :=
  [[1, 1, 1, 1, 0, 1, 0, 0],
   [0, 0, 0, 0, 0, 0, 0, 0],
   [0, 0, 0, 0, 0, 0, 0, 0],
   [0, 0, 0, 0, 0, 0, 0, 0],
   [0, 0, 0, 0, 0, 0, 0, 0],
   [0, 0, 0, 0, 0, 2, 0, 0],
   [0, 0, 0, 0, 0, 0, 0, 0],
   [2, 0, 2, 0, 2, 0, 2, 0]]

/-- A Go state on an 8 x 8 board, WHITE to move: Black on (0,1) and (1,0), so
that a White stone placed in the corner (0,0) has no liberty. -/
def cornerSuicide : AbstractGame :=
  { AbstractGame.create GameType.GO 8 with
    board := ((Board.fresh 8).setCell 0 1 1).setCell 1 0 1,
    currentPlayer := PieceColor.WHITE }

/-- An 8 x 8 Go board: a White stone in the corner (0,0) shut in by Black on
(0,1) and (1,0). -/
def deadCornerBoard : Board :=
  (((Board.fresh 8).setCell 0 1 1).setCell 1 0 1).setCell 0 0 2

/-- A Gomoku match of size 8 in which Black completes (0,0)..(0,4) with the
ninth move, typed as command lines with 1-based coordinates. -/
def winningCommands : List Command :=
  [Command.start "gomoku" 8, Command.move 1 1, Command.move 2 1, Command.move 1 2,
   Command.move 2 2, Command.move 1 3, Command.move 2 3, Command.move 1 4, Command.move 2 4,
   Command.move 1 5]

/-- A Go match of size 8 that is settled at once by two passes. -/
def settlingCommands : List Command :=
  [Command.start "go" 8, Command.pass, Command.pass]

/-- A Go match of size 8 that Black resigns at once. -/
def resigningCommands : List Command :=
  [Command.start "go" 8, Command.resign]

/-- The text of a save file that records a Go match on a 3 x 3 board: the
header `GO 3 0 BLACK` and nine Empty cells. -/
def smallSaveText : List Token :=
  [Token.word "GO", Token.number 3, Token.number 0, Token.word "BLACK"] ++
    List.replicate 9 (Token.number 0)

/-- The snapshot recorded by `smallSaveText`. -/
def smallMemento : GameMemento :=
  { boardData := Board.fresh 3, currentPlayer := PieceColor.BLACK, boardSize := 3,
    type := GameType.GO, passCount := 0 }

/-! ## The capture step with the neighbours taken in a given order -/

namespace GoGame

/-- The function `GoGame::postMoveProcess` with the array `dirs` replaced by the
list `ds`: the same loop body, run over the directions of `ds` in their order.
With `ds = dirs` this is `postMoveProcess`. -/
def postMoveProcessIn (ds : List Point) (g : AbstractGame) (x y : Int) : Option AbstractGame :=
  let myColor := g.board.cell x y
  let opColor : Int := if myColor = 1 then 2 else 1
  ds.foldlM (fun (g : AbstractGame) d =>
    let nx := x + d.1
    let ny := y + d.2
    if nx ≥ 0 ∧ nx < g.size ∧ ny ≥ 0 ∧ ny < g.size ∧ g.board.cell nx ny = opColor then
      removeDeadGroup g nx ny opColor
    else some g) g

/-- The numbers of stones reported by the capture messages among `events`, in
order: one number for each group taken off by `removeDeadGroup`, the number of
cells it has set to 0. -/
def capturedCounts : List Event → List Nat
  | [] => []
  | Event.message (Message.captured k) :: es => k :: capturedCounts es
  | _ :: es => capturedCounts es

/-- The state `g` of the capture loop started in `g0`: the cells that differ
from `g0` are listed in `changed`, each once; they are Empty now and were not
before; and the stones reported in the capture messages sent since `g0` add up
to the number of these cells. -/
structure ClearedOnce (g0 g : AbstractGame) (changed : List Point) : Prop where
  nodup : changed.Nodup
  mem_iff : ∀ p : Point, p ∈ changed ↔ g.board.cell p.1 p.2 ≠ g0.board.cell p.1 p.2
  empty : ∀ p ∈ changed, g.board.cell p.1 p.2 = 0
  events_eq : ∃ counts : List Nat,
    g.events = g0.events ++ (counts.map fun k => Event.message (Message.captured k)) ∧
    counts.sum = changed.length

end GoGame

/-! ## Sequences of moves and of undos -/

namespace AbstractGame

/-- The two states agree in every field of the engine proper: variant, size,
grid, side to move, pass counter and history. The result text of the scoring
strategy and what the observers were sent are left out. -/
def SameState (a b : AbstractGame) : Prop :=
  a.type = b.type ∧ a.size = b.size ∧ a.board = b.board ∧
  a.currentPlayer = b.currentPlayer ∧ a.passCount = b.passCount ∧ a.history = b.history

instance (a b : AbstractGame) : Decidable (SameState a b) := by
  unfold SameState; infer_instance

/-- A sequence of `makeMove` calls, each on the state the previous one left, all
of which succeed: the states in which the calls were made, in order, and the
state after the last call. `none` when a call throws. -/
def playMoves (g : AbstractGame) : List Point → Option (List AbstractGame × AbstractGame)
  | [] => some ([], g)
  | m :: ms =>
    match g.makeMove m.1 m.2 with
    | none => none
    | some o =>
      if o.thrown = none then (playMoves o.state ms).map fun r => (g :: r.1, r.2) else none

/-- A sequence of `i` calls of `undo`, each on the state the previous one left,
all of which succeed: the state after the last call. `none` when a call
throws. -/
def undoTimes : Nat → AbstractGame → Option AbstractGame
  | 0, g => some g
  | i + 1, g => if g.undo.thrown = none then undoTimes i g.undo.state else none

end AbstractGame

/-! ## gchess_main.cpp: the win check of the single-file program -/

namespace Monolithic

/-- The array `dirs[4][2] = {{1,0}, {0,1}, {1,1}, {1,-1}}` of
`GomokuWinStrategy::checkWin` in `gchess_main.cpp`. -/
def dirs : List Point := [(1, 0), (0, 1), (1, 1), (1, -1)]

/-- The loop `for (int k = 1; k < 5; ++k)` of `checkWin` over the values of `k`
still to come, with its `break`: the value of `count` after the loop. -/
def countLine (board : Board) (size : Nat) (i j currentVal : Int) (d : Point) :
    List Int → Nat → Nat
  | [], count => count
  | k :: ks, count =>
    let ni := i + d.1 * k
    let nj := j + d.2 * k
    if ni < 0 ∨ ni ≥ size ∨ nj < 0 ∨ nj ≥ size ∨ board.cell ni nj ≠ currentVal then count
    else countLine board size i j currentVal d ks (count + 1)

/-- The body of the two outer loops of `checkWin` at one cell `(i, j)`: `none`
when the iteration falls through (or hits `continue`), `some w` when it
returns `w`. -/
def checkAt (board : Board) (size : Nat) (i j : Int) : Option PieceColor :=
  if board.cell i j = 0 then none
  else
    let currentVal := board.cell i j
    dirs.findSome? fun d =>
      if countLine board size i j currentVal d [1, 2, 3, 4] 1 = 5 then
        some (if currentVal = 1 then PieceColor.BLACK else PieceColor.WHITE)
      else none

/-- The function `GomokuWinStrategy::checkWin` of `gchess_main.cpp`. -/
def checkWin (board : Board) (size : Nat) (_forceEnd : Bool) : PieceColor :=
  ((gridCells size).findSome? fun p => checkAt board size p.1 p.2).getD PieceColor.NONE

end Monolithic

/-! ## Settlement: the sizes of the regions, and the two sides exchanged -/

namespace GoWinStrategy

/-- The body of the two counting loops of `checkWin` at the cell `(i, j)`,
as `tallyAt`, with a log: when a flood fill is run, the value of `areaSize`
at its end is appended to `areas`. -/
def tallyAtLog (board : Board) (size : Nat) (acc : Tally × List Nat) (i j : Int) :
    Option (Tally × List Nat) :=
  let t := acc.1
  if board.cell i j = 1 then some ({ t with blackCount := t.blackCount + 1 }, acc.2)
  else if board.cell i j = 2 then some ({ t with whiteCount := t.whiteCount + 1 }, acc.2)
  else if (i, j) ∉ t.visited then
    (GoWinStrategy.floodLoop board size (size * size)
      { q := [(i, j)], head := 0, areaSize := 0, touchBlack := false, touchWhite := false,
        visited := (i, j) :: t.visited }).map fun st =>
      (if st.touchBlack ∧ ¬ st.touchWhite then
        { t with visited := st.visited, blackTerritory := t.blackTerritory + st.areaSize }
      else if ¬ st.touchBlack ∧ st.touchWhite then
        { t with visited := st.visited, whiteTerritory := t.whiteTerritory + st.areaSize }
      else { t with visited := st.visited }, acc.2 ++ [st.areaSize])
  else some acc

/-- The two counting loops of `checkWin`, as `tally`, with the log of the region
sizes: the counters, and the value of `areaSize` at the end of each flood fill,
in order. -/
def tallyLog (board : Board) (size : Nat) : Option (Tally × List Nat) :=
  (gridCells size).foldlM (fun acc p => tallyAtLog board size acc p.1 p.2)
    ({ blackCount := 0, whiteCount := 0, blackTerritory := 0, whiteTerritory := 0,
       visited := [] }, [])

/-- The other side's stone: 1 for 2 and 2 for 1; any other value is kept. -/
def swapCell (v : Int) : Int :=
  if v = 1 then 2 else if v = 2 then 1 else v

/-- The grid with the two sides exchanged in every cell. -/
def swapSides (board : Board) : Board :=
  board.map fun row => row.map swapCell

/-- The counters with the two sides exchanged. -/
def Tally.swap (t : Tally) : Tally :=
  { blackCount := t.whiteCount, whiteCount := t.blackCount,
    blackTerritory := t.whiteTerritory, whiteTerritory := t.blackTerritory,
    visited := t.visited }

/-- The state of a flood fill with the two flags exchanged. -/
def FloodState.swap (st : FloodState) : FloodState :=
  { st with touchBlack := st.touchWhite, touchWhite := st.touchBlack }

end GoWinStrategy

/-! ## More positions -/

/-- A Go state on an 8 x 8 board, BLACK to move, in which the move at (1,1)
takes two White groups at once: the stone (0,1), shut in by Black on (0,0) and
(0,2), and the stone (1,0), shut in by Black on (0,0) and (2,0). -/
def doubleAtari : AbstractGame :=
  { AbstractGame.create GameType.GO 8 with
    board :=
      [[1, 2, 1, 0, 0, 0, 0, 0],
       [2, 0, 0, 0, 0, 0, 0, 0],
       [1, 0, 0, 0, 0, 0, 0, 0],
       [0, 0, 0, 0, 0, 0, 0, 0],
       [0, 0, 0, 0, 0, 0, 0, 0],
       [0, 0, 0, 0, 0, 0, 0, 0],
       [0, 0, 0, 0, 0, 0, 0, 0],
       [0, 0, 0, 0, 0, 0, 0, 0]] }

/-- Three opening moves of a Gomoku match, as 0-based positions. -/
def openingMoves : List Point := [(3, 3), (3, 4), (4, 4)]

/-- The run of `openingMoves` on a fresh Gomoku match of size 8: the states in
which the three moves were made, and the state after the third. -/
def openingRun : List AbstractGame × AbstractGame :=
  ((AbstractGame.create GameType.GOMOKU 8).playMoves openingMoves).getD
    ([], AbstractGame.create GameType.GOMOKU 8)

/-- The state in which `postMoveProcess(1, 1)` is called when Black moves at
(1,1) in `doubleAtari`: the stone is placed, nothing is taken off yet. -/
def doubleAtariPlaced : AbstractGame :=
  doubleAtari.placeStone 1 1

/-- The grid of `doubleAtari` after Black's move at (1,1) and the capture of the
two White stones. -/
def doubleAtariAfter : Board :=
  [[1, 0, 1, 0, 0, 0, 0, 0],
   [0, 1, 0, 0, 0, 0, 0, 0],
   [1, 0, 0, 0, 0, 0, 0, 0],
   [0, 0, 0, 0, 0, 0, 0, 0],
   [0, 0, 0, 0, 0, 0, 0, 0],
   [0, 0, 0, 0, 0, 0, 0, 0],
   [0, 0, 0, 0, 0, 0, 0, 0],
   [0, 0, 0, 0, 0, 0, 0, 0]]

/-! ## The program with checked vector accesses

The definitions above read 0 for `board[x][y]` outside the vector and ignore a
write outside. Here the same functions are given once more with every access
to the grid checked against the extent of the vector: a run ends in
`outOfBounds` as soon as an index lies outside. The control flow is that of the
source, with the short-circuit evaluation of `&&` kept, so that a cell is read
only when the tests in front of it have passed.
-/

/-- The result of a run with checked accesses: a value, an access outside the
vector, or no fuel left for a recursion or loop bounded by the board. -/
inductive Checked (α : Type) where
  | ok (a : α)
  | outOfBounds
  | outOfFuel
  deriving DecidableEq

/-- Sequencing: the second part runs only when the first has given a value. -/
def Checked.bind {α β : Type} : Checked α → (α → Checked β) → Checked β
  | Checked.ok a, f => f a
  | Checked.outOfBounds, _ => Checked.outOfBounds
  | Checked.outOfFuel, _ => Checked.outOfFuel

/-- The result of a function of the unchecked program, which can only run out of
fuel. -/
def Checked.ofOption {α : Type} : Option α → Checked α
  | some a => Checked.ok a
  | none => Checked.outOfFuel

/-- A loop over a list with a checked body. -/
def Checked.foldl {α β : Type} (f : β → α → Checked β) : β → List α → Checked β
  | b, [] => Checked.ok b
  | b, a :: rest => (f b a).bind fun b1 => Checked.foldl f b1 rest

/-- The read access `board[x][y]`, checked. -/
def Board.read (board : Board) (x y : Int) : Checked Int :=
  if 0 ≤ x ∧ x < board.length then
    if 0 ≤ y ∧ y < (board.getD x.toNat []).length then Checked.ok (board.cell x y)
    else Checked.outOfBounds
  else Checked.outOfBounds

/-- The write access `board[x][y] = v`, checked. -/
def Board.write (board : Board) (x y v : Int) : Checked Board :=
  if 0 ≤ x ∧ x < board.length then
    if 0 ≤ y ∧ y < (board.getD x.toNat []).length then Checked.ok (board.setCell x y v)
    else Checked.outOfBounds
  else Checked.outOfBounds

/-- A chain `board[p1] == c && board[p2] == c && ...`: the cells are read in
order, and none after the first that differs. -/
def Checked.allEqual (board : Board) (c : Int) : List Point → Checked Bool
  | [] => Checked.ok true
  | p :: ps =>
    (board.read p.1 p.2).bind fun v =>
      if v = c then Checked.allEqual board c ps else Checked.ok false

/-- A test `guard && board[p1] == c && ...`: no cell is read when the guard
fails. -/
def Checked.probe (board : Board) (c : Int) (guard : Bool) (cells : List Point) : Checked Bool :=
  if guard then Checked.allEqual board c cells else Checked.ok false

/-! ### GomokuStrategy.h -/

/-- The body of the two loops of `GomokuWinStrategy::checkWin` at one cell,
checked. -/
def Checked.GomokuWinStrategy.checkAt (board : Board) (size : Nat) (i j : Int) :
    Checked (Option PieceColor) :=
  (board.read i j).bind fun c =>
    if c = 0 then Checked.ok none
    else
      let w : PieceColor := if c = 1 then PieceColor.BLACK else PieceColor.WHITE
      (Checked.probe board c (decide (j + 4 < size))
        [(i, j+1), (i, j+2), (i, j+3), (i, j+4)]).bind fun h =>
      if h then Checked.ok (some w) else
      (Checked.probe board c (decide (i + 4 < size))
        [(i+1, j), (i+2, j), (i+3, j), (i+4, j)]).bind fun v =>
      if v then Checked.ok (some w) else
      (Checked.probe board c (decide (i + 4 < size ∧ j + 4 < size))
        [(i+1, j+1), (i+2, j+2), (i+3, j+3), (i+4, j+4)]).bind fun d =>
      if d then Checked.ok (some w) else
      (Checked.probe board c (decide (i + 4 < size ∧ j - 4 ≥ 0))
        [(i+1, j-1), (i+2, j-2), (i+3, j-3), (i+4, j-4)]).bind fun a =>
      if a then Checked.ok (some w) else Checked.ok none

/-- The two loops of `GomokuWinStrategy::checkWin` over the cells still to come,
checked. -/
def Checked.GomokuWinStrategy.scan (board : Board) (size : Nat) : List Point → Checked PieceColor
  | [] => Checked.ok PieceColor.NONE
  | p :: ps =>
    (Checked.GomokuWinStrategy.checkAt board size p.1 p.2).bind fun r =>
      match r with
      | some w => Checked.ok w
      | none => Checked.GomokuWinStrategy.scan board size ps

/-- The function `GomokuWinStrategy::checkWin`, checked. -/
def Checked.GomokuWinStrategy.checkWin (board : Board) (size : Nat) (_forceEnd : Bool) :
    Checked PieceColor :=
  Checked.GomokuWinStrategy.scan board size (gridCells size)

/-! ### GoStrategy.cpp -/

/-- The body of `for (auto& d : dirs)` inside the flood fill, checked. -/
def Checked.GoWinStrategy.visit (board : Board) (size : Nat) (st : FloodState) (nx ny : Int) :
    Checked FloodState :=
  if nx ≥ 0 ∧ nx < size ∧ ny ≥ 0 ∧ ny < size then
    (board.read nx ny).bind fun val =>
      if val = 1 then Checked.ok { st with touchBlack := true }
      else if val = 2 then Checked.ok { st with touchWhite := true }
      else if (nx, ny) ∉ st.visited then
        Checked.ok { st with visited := (nx, ny) :: st.visited, q := st.q ++ [(nx, ny)] }
      else Checked.ok st
  else Checked.ok st

/-- The loop `while (head < q.size())` of the flood fill, checked. -/
def Checked.GoWinStrategy.floodLoop (board : Board) (size : Nat) :
    Nat → FloodState → Checked FloodState
  | fuel, st =>
    if st.head < st.q.length then
      match fuel with
      | 0 => Checked.outOfFuel
      | fuel + 1 =>
        let p := st.q.getD st.head (0, 0)
        let st1 := { st with head := st.head + 1, areaSize := st.areaSize + 1 }
        (Checked.foldl (fun s d => Checked.GoWinStrategy.visit board size s (p.1 + d.1) (p.2 + d.2))
          st1 dirs).bind fun st2 =>
        Checked.GoWinStrategy.floodLoop board size fuel st2
    else Checked.ok st

/-- The body of the two counting loops of `GoWinStrategy::checkWin` at the cell
`(i, j)`, checked. -/
def Checked.GoWinStrategy.tallyAt (board : Board) (size : Nat) (t : Tally) (i j : Int) :
    Checked Tally :=
  (board.read i j).bind fun v =>
    if v = 1 then Checked.ok { t with blackCount := t.blackCount + 1 }
    else if v = 2 then Checked.ok { t with whiteCount := t.whiteCount + 1 }
    else if (i, j) ∉ t.visited then
      (Checked.GoWinStrategy.floodLoop board size (size * size)
        { q := [(i, j)], head := 0, areaSize := 0, touchBlack := false, touchWhite := false,
          visited := (i, j) :: t.visited }).bind fun st =>
        Checked.ok
          (if st.touchBlack ∧ ¬ st.touchWhite then
            { t with visited := st.visited, blackTerritory := t.blackTerritory + st.areaSize }
          else if ¬ st.touchBlack ∧ st.touchWhite then
            { t with visited := st.visited, whiteTerritory := t.whiteTerritory + st.areaSize }
          else { t with visited := st.visited })
    else Checked.ok t

/-- The two counting loops of `GoWinStrategy::checkWin`, checked. -/
def Checked.GoWinStrategy.tally (board : Board) (size : Nat) : Checked Tally :=
  Checked.foldl (fun t p => Checked.GoWinStrategy.tallyAt board size t p.1 p.2)
    { blackCount := 0, whiteCount := 0, blackTerritory := 0, whiteTerritory := 0, visited := [] }
    (gridCells size)

/-- The function `GoWinStrategy::checkWin`, checked. -/
def Checked.GoWinStrategy.checkWin (resultDesc : Option ResultDesc) (board : Board) (size : Nat)
    (forceEnd : Bool) : Checked (PieceColor × Option ResultDesc) :=
  if ¬ forceEnd then Checked.ok (PieceColor.NONE, resultDesc)
  else
    (Checked.GoWinStrategy.tally board size).bind fun t =>
      let finalBlack := GoWinStrategy.finalBlack t
      let finalWhite := GoWinStrategy.finalWhite t
      let desc := GoWinStrategy.describe t
      if finalBlack > finalWhite then Checked.ok (PieceColor.BLACK, some desc)
      else Checked.ok (PieceColor.WHITE, some desc)

/-! ### GoGame.cpp -/

/-- The function `GoGame::countLiberties`, checked. -/
def Checked.GoGame.countLiberties (board : Board) (size : Nat) :
    Nat → Int → Int → Int → List Point → Checked (Nat × List Point)
  | fuel, x, y, color, visited =>
    if x < 0 ∨ x ≥ size ∨ y < 0 ∨ y ≥ size then Checked.ok (0, visited)
    else
      (board.read x y).bind fun v =>
        if v = 0 then Checked.ok (1, visited)
        else if v ≠ color then Checked.ok (0, visited)
        else if (x, y) ∈ visited then Checked.ok (0, visited)
        else
          match fuel with
          | 0 => Checked.outOfFuel
          | fuel + 1 =>
            Checked.foldl (fun (acc : Nat × List Point) d =>
              (Checked.GoGame.countLiberties board size fuel (x + d.1) (y + d.2) color acc.2).bind
                fun r => Checked.ok (acc.1 + r.1, r.2)) (0, (x, y) :: visited) dirs

/-- The function `GoGame::removeDeadGroup`, checked. -/
def Checked.GoGame.removeDeadGroup (g : AbstractGame) (x y color : Int) : Checked AbstractGame :=
  (Checked.GoGame.countLiberties g.board g.size (g.size * g.size) x y color []).bind fun r =>
    if r.1 = 0 then
      (Checked.foldl (fun (b : Board) (p : Point) => b.write p.1 p.2 0) g.board r.2).bind fun b =>
        let g1 := { g with board := b }
        Checked.ok (if r.2 ≠ [] then g1.notifyMessage (Message.captured r.2.length) else g1)
    else Checked.ok g

/-- The function `GoGame::postMoveProcess`, checked. -/
def Checked.GoGame.postMoveProcess (g : AbstractGame) (x y : Int) : Checked AbstractGame :=
  (g.board.read x y).bind fun myColor =>
    let opColor : Int := if myColor = 1 then 2 else 1
    Checked.foldl (fun (g : AbstractGame) d =>
      let nx := x + d.1
      let ny := y + d.2
      if nx ≥ 0 ∧ nx < g.size ∧ ny ≥ 0 ∧ ny < g.size then
        (g.board.read nx ny).bind fun v =>
          if v = opColor then Checked.GoGame.removeDeadGroup g nx ny opColor
          else Checked.ok g
      else Checked.ok g) g dirs

/-! ### AbstractGame.cpp -/

/-- The call `moveStrategy->isValid(x, y, board, size)`, checked: both move rules
read `board[x][y]`. -/
def Checked.AbstractGame.isValid (g : AbstractGame) (x y : Int) : Checked Bool :=
  (g.board.read x y).bind fun v => Checked.ok (v == 0)

/-- The virtual call `postMoveProcess(x, y)`, checked. -/
def Checked.AbstractGame.postMoveProcess (g : AbstractGame) (x y : Int) : Checked AbstractGame :=
  match g.type with
  | GameType.GOMOKU => Checked.ok g
  | GameType.GO => Checked.GoGame.postMoveProcess g x y

/-- The call `winStrategy->checkWin(board, size, forceEnd)`, checked. -/
def Checked.AbstractGame.checkWin (g : AbstractGame) (forceEnd : Bool) :
    Checked (PieceColor × AbstractGame) :=
  match g.type with
  | GameType.GOMOKU =>
    (Checked.GomokuWinStrategy.checkWin g.board g.size forceEnd).bind fun w => Checked.ok (w, g)
  | GameType.GO =>
    (Checked.GoWinStrategy.checkWin g.resultDesc g.board g.size forceEnd).bind fun r =>
      Checked.ok (r.1, { g with resultDesc := r.2 })

/-- The function `AbstractGame::makeMove`, checked. -/
def Checked.AbstractGame.makeMove (g : AbstractGame) (x y : Int) : Checked Outcome :=
  if x < 0 ∨ x ≥ g.size ∨ y < 0 ∨ y ≥ g.size then
    Checked.ok { thrown := some GameException.outOfRange, state := g }
  else
    (Checked.AbstractGame.isValid g x y).bind fun valid =>
      if ¬ valid then Checked.ok { thrown := some GameException.cannotPlaceHere, state := g }
      else
        let g1 := { g with passCount := 0 }
        let g2 := g1.saveStateToHistory
        let stone : Int := if g2.currentPlayer = PieceColor.BLACK then 1 else 2
        (g2.board.write x y stone).bind fun b =>
        let g3 := { g2 with board := b }
        (Checked.AbstractGame.postMoveProcess g3 x y).bind fun g4 =>
        (Checked.AbstractGame.checkWin g4 false).bind fun r =>
          let winner := r.1
          let g5 := r.2.notifyBoardUpdate
          Checked.ok
            (if winner ≠ PieceColor.NONE then
              let g6 := g5.notifyMessage (Message.decided winner)
              { thrown := none, state := g6.notifyGameOver winner }
            else
              let g6 := g5.switchPlayer
              { thrown := none, state := g6.notifyMessage (Message.nextToMove g6.currentPlayer) })

/-! ## Board lemmas -/

theorem Board.cell_setCell_other (b : Board) (x y v x' y' : Int) (h : (x', y') ≠ (x, y)) :
    (b.setCell x y v).cell x' y' = b.cell x' y' := by
  unfold Board.setCell Board.cell
  by_cases hxy : 0 ≤ x ∧ 0 ≤ y
  · by_cases hxy' : 0 ≤ x' ∧ 0 ≤ y'
    · simp only [hxy, hxy', and_self, if_true]
      by_cases hx : x'.toNat = x.toNat
      · have hxx : x' = x := by omega
        have hyy : y'.toNat ≠ y.toNat := by
          intro hy
          apply h
          have : y' = y := by omega
          rw [hxx, this]
        rw [hx]
        by_cases hlt : x.toNat < b.length
        · simp [List.getD_eq_getElem?_getD, List.getElem?_set, hlt, hyy, Ne.symm hyy]
        · have hnone : b[x.toNat]? = none := List.getElem?_eq_none (by omega)
          simp [List.getD_eq_getElem?_getD, List.getElem?_set, hlt, hnone]
      · simp [List.getD_eq_getElem?_getD, List.getElem?_set, hx, Ne.symm hx]
    · simp [hxy']
  · simp [hxy]

theorem Board.cell_setCell_same (b : Board) (n : Nat) (x y v : Int) (hb : b.Square n)
    (hin : InGrid n (x, y)) : (b.setCell x y v).cell x y = v := by
  obtain ⟨hlen, hrow⟩ := hb
  obtain ⟨hx0, hx1, hy0, hy1⟩ := hin
  simp only at hx0 hx1 hy0 hy1
  have hxn : x.toNat < b.length := by omega
  have hrl : (b[x.toNat]).length = n := hrow _ (List.getElem_mem _)
  have hyn : y.toNat < (b[x.toNat]).length := by omega
  unfold Board.setCell Board.cell
  simp [hx0, hy0, List.getD_eq_getElem?_getD, List.getElem?_set, hxn, hyn]

theorem Board.square_setCell (b : Board) (n : Nat) (x y v : Int) (hb : b.Square n) :
    (b.setCell x y v).Square n := by
  obtain ⟨hlen, hrow⟩ := hb
  unfold Board.setCell
  split
  · refine ⟨by simpa using hlen, ?_⟩
    intro row hmem
    by_cases hlt : x.toNat < b.length
    · rcases List.mem_or_eq_of_mem_set hmem with h | h
      · exact hrow row h
      · subst h
        rw [List.length_set, List.getD_eq_getElem?_getD, List.getElem?_eq_getElem hlt]
        exact hrow _ (List.getElem_mem _)
    · rw [List.set_eq_of_length_le (by omega)] at hmem
      exact hrow row hmem
  · exact ⟨hlen, hrow⟩

theorem Board.fresh_square (n : Nat) : (Board.fresh n).Square n := by
  refine ⟨by simp [Board.fresh], ?_⟩
  intro row hmem
  rw [Board.fresh, List.mem_replicate] at hmem
  rw [hmem.2, List.length_replicate]

theorem Board.cell_fresh (n : Nat) (x y : Int) : (Board.fresh n).cell x y = 0 := by
  unfold Board.cell Board.fresh
  split
  · simp only [List.getD_eq_getElem?_getD, List.getElem?_replicate]
    split
    · simp only [Option.getD_some, List.getElem?_replicate]
      split <;> simp
    · simp
  · rfl

theorem mem_gridCells (n : Nat) (p : Point) : p ∈ gridCells n ↔ InGrid n p := by
  unfold gridCells InGrid
  simp only [List.mem_flatMap, List.mem_range, List.mem_map]
  constructor
  · rintro ⟨i, hi, j, hj, rfl⟩
    simp only
    omega
  · rintro ⟨h1, h2, h3, h4⟩
    refine ⟨p.1.toNat, by omega, p.2.toNat, by omega, ?_⟩
    ext <;> simp <;> omega

theorem nodup_gridCells (n : Nat) : (gridCells n).Nodup := by
  unfold gridCells
  rw [List.nodup_flatMap]
  refine ⟨?_, ?_⟩
  · intro i _
    refine List.Nodup.map ?_ (List.nodup_range n)
    intro a b hab
    simpa using hab
  · refine List.Pairwise.imp_of_mem ?_ (List.nodup_range n)
    intro a b _ _ hab
    intro x hx hy
    simp only [List.mem_map, List.mem_range] at hx hy
    obtain ⟨j, _, rfl⟩ := hx
    obtain ⟨k, _, hk⟩ := hy
    apply hab
    have := congrArg Prod.fst hk
    simp only at this
    omega

theorem length_gridCells (n : Nat) : (gridCells n).length = n * n := by
  unfold gridCells
  simp [List.length_flatMap, Function.comp_def]

theorem Board.cell_of_valid (b : Board) (hb : b.Valid) (x y : Int) :
    b.cell x y = 0 ∨ b.cell x y = 1 ∨ b.cell x y = 2 := by
  unfold Board.cell
  split
  · rw [List.getD_eq_getElem?_getD, List.getD_eq_getElem?_getD]
    cases hrow : b[x.toNat]? with
    | none => left; simp
    | some row =>
      simp only [Option.getD_some]
      cases hv : row[y.toNat]? with
      | none => left; rfl
      | some v => exact hb row (List.getElem?_mem hrow) v (List.getElem?_mem hv)
  · left; rfl

theorem Board.fresh_valid (n : Nat) : (Board.fresh n).Valid := by
  intro row hrow v hv
  rw [Board.fresh, List.mem_replicate] at hrow
  rw [hrow.2, List.mem_replicate] at hv
  exact Or.inl hv.2

/-! ## Gomoku: the line scan -/

theorem forall_zero_to_four (P : Int → Prop) :
    (∀ k : Int, 0 ≤ k → k ≤ 4 → P k) ↔ P 0 ∧ P 1 ∧ P 2 ∧ P 3 ∧ P 4 := by
  constructor
  · intro h
    exact ⟨h 0 (by norm_num) (by norm_num), h 1 (by norm_num) (by norm_num),
      h 2 (by norm_num) (by norm_num), h 3 (by norm_num) (by norm_num),
      h 4 (by norm_num) (by norm_num)⟩
  · rintro ⟨h0, h1, h2, h3, h4⟩ k hk0 hk4
    obtain rfl | rfl | rfl | rfl | rfl : k = 0 ∨ k = 1 ∨ k = 2 ∨ k = 3 ∨ k = 4 := by omega
    all_goals assumption

theorem GomokuWinStrategy.checkAt_ne_NONE (board : Board) (size : Nat) (i j : Int)
    (w : PieceColor) (h : GomokuWinStrategy.checkAt board size i j = some w) :
    w ≠ PieceColor.NONE := by
  unfold GomokuWinStrategy.checkAt at h
  simp only at h
  split_ifs at h <;> simp at h <;> subst h <;> simp

/-- One iteration of the scan returns exactly when the cell is occupied and one
of the four forward probes succeeds. -/
theorem GomokuWinStrategy.checkAt_isSome (board : Board) (size : Nat) (i j : Int) :
    (GomokuWinStrategy.checkAt board size i j).isSome ↔
      board.cell i j ≠ 0 ∧
      ((j + 4 < size ∧ board.cell i (j+1) = board.cell i j ∧ board.cell i (j+2) = board.cell i j
          ∧ board.cell i (j+3) = board.cell i j ∧ board.cell i (j+4) = board.cell i j) ∨
       (i + 4 < size ∧ board.cell (i+1) j = board.cell i j ∧ board.cell (i+2) j = board.cell i j
          ∧ board.cell (i+3) j = board.cell i j ∧ board.cell (i+4) j = board.cell i j) ∨
       (i + 4 < size ∧ j + 4 < size ∧ board.cell (i+1) (j+1) = board.cell i j
          ∧ board.cell (i+2) (j+2) = board.cell i j
          ∧ board.cell (i+3) (j+3) = board.cell i j ∧ board.cell (i+4) (j+4) = board.cell i j) ∨
       (i + 4 < size ∧ j - 4 ≥ 0 ∧ board.cell (i+1) (j-1) = board.cell i j
          ∧ board.cell (i+2) (j-2) = board.cell i j
          ∧ board.cell (i+3) (j-3) = board.cell i j ∧ board.cell (i+4) (j-4) = board.cell i j)) := by
  unfold GomokuWinStrategy.checkAt
  simp only
  by_cases h0 : board.cell i j = 0
  · simp [h0]
  · rw [if_neg h0]
    by_cases h1 : (j + 4 < size ∧ board.cell i (j+1) = board.cell i j
        ∧ board.cell i (j+2) = board.cell i j
        ∧ board.cell i (j+3) = board.cell i j ∧ board.cell i (j+4) = board.cell i j)
    · rw [if_pos h1]; simp only [Option.isSome_some, true_iff]; exact ⟨h0, Or.inl h1⟩
    · rw [if_neg h1]
      by_cases h2 : (i + 4 < size ∧ board.cell (i+1) j = board.cell i j
          ∧ board.cell (i+2) j = board.cell i j
          ∧ board.cell (i+3) j = board.cell i j ∧ board.cell (i+4) j = board.cell i j)
      · rw [if_pos h2]; simp only [Option.isSome_some, true_iff]; exact ⟨h0, Or.inr (Or.inl h2)⟩
      · rw [if_neg h2]
        by_cases h3 : (i + 4 < size ∧ j + 4 < size ∧ board.cell (i+1) (j+1) = board.cell i j
            ∧ board.cell (i+2) (j+2) = board.cell i j
            ∧ board.cell (i+3) (j+3) = board.cell i j ∧ board.cell (i+4) (j+4) = board.cell i j)
        · rw [if_pos h3]; simp only [Option.isSome_some, true_iff]
          exact ⟨h0, Or.inr (Or.inr (Or.inl h3))⟩
        · rw [if_neg h3]
          by_cases h4 : (i + 4 < size ∧ j - 4 ≥ 0 ∧ board.cell (i+1) (j-1) = board.cell i j
              ∧ board.cell (i+2) (j-2) = board.cell i j
              ∧ board.cell (i+3) (j-3) = board.cell i j ∧ board.cell (i+4) (j-4) = board.cell i j)
          · rw [if_pos h4]; simp only [Option.isSome_some, true_iff]
            exact ⟨h0, Or.inr (Or.inr (Or.inr h4))⟩
          · rw [if_neg h4]
            simp only [Option.isSome_none, Bool.false_eq_true, false_iff, not_and]
            rintro _ (h | h | h | h)
            · exact h1 h
            · exact h2 h
            · exact h3 h
            · exact h4 h

/-- At a grid cell, one iteration of the scan returns exactly when a line of
five starts there in one of the four scan directions. -/
theorem GomokuWinStrategy.checkAt_isSome_iff (board : Board) (size : Nat) (i j : Int)
    (hin : InGrid size (i, j)) :
    (GomokuWinStrategy.checkAt board size i j).isSome ↔
      ∃ d, d ∈ scanDirs ∧ FiveInRow board size i j d := by
  obtain ⟨hi0, hi1, hj0, hj1⟩ := hin
  simp only at hi0 hi1 hj0 hj1
  rw [GomokuWinStrategy.checkAt_isSome]
  simp only [scanDirs, List.mem_cons, List.mem_singleton, List.not_mem_nil, or_false,
    exists_eq_or_imp, exists_eq_left, FiveInRow, forall_zero_to_four, InGrid,
    mul_zero, add_zero, one_mul, zero_mul, mul_one, mul_neg, ← sub_eq_add_neg]
  constructor
  · rintro ⟨h0, ⟨a, b1, b2, b3, b4⟩ | ⟨a, b1, b2, b3, b4⟩ | ⟨a, a', b1, b2, b3, b4⟩ |
      ⟨a, a', b1, b2, b3, b4⟩⟩
    · refine Or.inl ⟨h0, ⟨⟨?_, ?_, ?_, ?_⟩, trivial⟩, ⟨⟨?_, ?_, ?_, ?_⟩, b1⟩,
        ⟨⟨?_, ?_, ?_, ?_⟩, b2⟩, ⟨⟨?_, ?_, ?_, ?_⟩, b3⟩, ⟨?_, ?_, ?_, ?_⟩, b4⟩ <;> omega
    · refine Or.inr (Or.inl ⟨h0, ⟨⟨?_, ?_, ?_, ?_⟩, trivial⟩, ⟨⟨?_, ?_, ?_, ?_⟩, b1⟩,
        ⟨⟨?_, ?_, ?_, ?_⟩, b2⟩, ⟨⟨?_, ?_, ?_, ?_⟩, b3⟩, ⟨?_, ?_, ?_, ?_⟩, b4⟩) <;> omega
    · refine Or.inr (Or.inr (Or.inl ⟨h0, ⟨⟨?_, ?_, ?_, ?_⟩, trivial⟩, ⟨⟨?_, ?_, ?_, ?_⟩, b1⟩,
        ⟨⟨?_, ?_, ?_, ?_⟩, b2⟩, ⟨⟨?_, ?_, ?_, ?_⟩, b3⟩, ⟨?_, ?_, ?_, ?_⟩, b4⟩)) <;> omega
    · refine Or.inr (Or.inr (Or.inr ⟨h0, ⟨⟨?_, ?_, ?_, ?_⟩, trivial⟩, ⟨⟨?_, ?_, ?_, ?_⟩, b1⟩,
        ⟨⟨?_, ?_, ?_, ?_⟩, b2⟩, ⟨⟨?_, ?_, ?_, ?_⟩, b3⟩, ⟨?_, ?_, ?_, ?_⟩, b4⟩)) <;> omega
  · rintro (⟨h0, -, ⟨-, b1⟩, ⟨-, b2⟩, ⟨-, b3⟩, ⟨a, b4⟩⟩ | ⟨h0, -, ⟨-, b1⟩, ⟨-, b2⟩, ⟨-, b3⟩, ⟨a, b4⟩⟩ |
      ⟨h0, -, ⟨-, b1⟩, ⟨-, b2⟩, ⟨-, b3⟩, ⟨a, b4⟩⟩ | ⟨h0, -, ⟨-, b1⟩, ⟨-, b2⟩, ⟨-, b3⟩, ⟨a, b4⟩⟩)
    · exact ⟨h0, Or.inl ⟨by omega, b1, b2, b3, b4⟩⟩
    · exact ⟨h0, Or.inr (Or.inl ⟨by omega, b1, b2, b3, b4⟩)⟩
    · exact ⟨h0, Or.inr (Or.inr (Or.inl ⟨by omega, by omega, b1, b2, b3, b4⟩))⟩
    · exact ⟨h0, Or.inr (Or.inr (Or.inr ⟨by omega, by omega, b1, b2, b3, b4⟩))⟩

/-- The scan returns a winner exactly when some grid cell starts a line of five. -/
theorem GomokuWinStrategy.checkWin_ne_NONE_iff (board : Board) (size : Nat) (forceEnd : Bool) :
    GomokuWinStrategy.checkWin board size forceEnd ≠ PieceColor.NONE ↔
      ∃ i j d, d ∈ scanDirs ∧ FiveInRow board size i j d := by
  unfold GomokuWinStrategy.checkWin
  constructor
  · intro h
    cases hf : (gridCells size).findSome? fun p => GomokuWinStrategy.checkAt board size p.1 p.2 with
    | none => rw [hf] at h; simp at h
    | some w =>
      obtain ⟨p, hp, hw⟩ := List.exists_of_findSome?_eq_some hf
      have hin : InGrid size (p.1, p.2) := (mem_gridCells size p).1 hp
      obtain ⟨d, hd, hfive⟩ :=
        (GomokuWinStrategy.checkAt_isSome_iff board size p.1 p.2 hin).1 (by rw [hw]; rfl)
      exact ⟨p.1, p.2, d, hd, hfive⟩
  · rintro ⟨i, j, d, hd, hfive⟩
    have hin : InGrid size (i, j) := by
      have := (hfive.2 0 (le_refl 0) (by norm_num)).1
      simpa using this
    have hsome := (GomokuWinStrategy.checkAt_isSome_iff board size i j hin).2 ⟨d, hd, hfive⟩
    cases hf : (gridCells size).findSome? fun p => GomokuWinStrategy.checkAt board size p.1 p.2 with
    | none =>
      rw [List.findSome?_eq_none_iff] at hf
      have := hf (i, j) ((mem_gridCells size (i, j)).2 hin)
      simp only at this
      rw [this] at hsome
      simp at hsome
    | some w =>
      obtain ⟨p, _, hw⟩ := List.exists_of_findSome?_eq_some hf
      simpa using GomokuWinStrategy.checkAt_ne_NONE board size p.1 p.2 w hw

/-! ## Go: liberties and capture -/

theorem freeCells_le_of_subset (size : Nat) (v w : List Point) (h : ∀ p, p ∈ v → p ∈ w) :
    freeCells size w ≤ freeCells size v := by
  unfold freeCells
  apply List.Sublist.length_le
  apply List.monotone_filter_right
  intro p hp
  simp only [decide_eq_true_eq] at hp ⊢
  exact fun hv => hp (h p hv)

theorem freeCells_cons_lt (size : Nat) (v : List Point) (p : Point) (hin : InGrid size p)
    (hp : p ∉ v) : freeCells size (p :: v) < freeCells size v := by
  unfold freeCells
  have h1 : (gridCells size).filter (fun q => decide (q ∉ p :: v)) =
      ((gridCells size).filter (fun q => decide (q ∉ v))).filter (fun q => decide (q ≠ p)) := by
    rw [List.filter_filter]
    congr 1
    funext q
    simp only [List.mem_cons, not_or, Bool.decide_and, Bool.decide_eq_true]
  rw [h1]
  apply List.length_filter_lt_length_iff_exists.2
  refine ⟨p, ?_, by simp⟩
  simp only [List.mem_filter, decide_eq_true_eq]
  exact ⟨(mem_gridCells size p).2 hin, hp⟩

theorem freeCells_le (size : Nat) (v : List Point) : freeCells size v ≤ size * size := by
  unfold freeCells
  calc ((gridCells size).filter _).length ≤ (gridCells size).length := List.length_filter_le _ _
    _ = size * size := length_gridCells size

theorem adj_of_mem_dirs (c d : Point) (hd : d ∈ dirs) : Adj c (c.1 + d.1, c.2 + d.2) := by
  simp only [dirs, List.mem_cons, List.mem_singleton, List.not_mem_nil, or_false] at hd
  unfold Adj
  rcases hd with rfl | rfl | rfl | rfl
  · left; simp
  · right; left; simp [sub_eq_add_neg]
  · right; right; left; simp
  · right; right; right; simp [sub_eq_add_neg]

theorem exists_dir_of_adj (c q : Point) (h : Adj c q) :
    ∃ d, d ∈ dirs ∧ q = (c.1 + d.1, c.2 + d.2) := by
  unfold Adj at h
  rcases h with rfl | rfl | rfl | rfl
  · exact ⟨(1, 0), by simp [dirs], by simp⟩
  · exact ⟨(-1, 0), by simp [dirs], by simp [sub_eq_add_neg]⟩
  · exact ⟨(0, 1), by simp [dirs], by simp⟩
  · exact ⟨(0, -1), by simp [dirs], by simp [sub_eq_add_neg]⟩

theorem adj_symm (p q : Point) (h : Adj p q) : Adj q p := by
  unfold Adj at h ⊢
  rcases h with rfl | rfl | rfl | rfl
  · right; left; simp
  · left; simp
  · right; right; right; simp
  · right; right; left; simp

namespace GoGame

theorem LoopSpec.loop_step {board : Board} {size : Nat} {color : Int} {visited : List Point}
    {c : Point} {done : List Point} {n : Nat} {v : List Point} {d : Point} {m : Nat}
    {v' : List Point}
    (hd : d ∈ dirs) (inv : LoopSpec board size color visited c done n v)
    (call : CallSpec board size color v (c.1 + d.1, c.2 + d.2) m v') :
    LoopSpec board size color visited c (done ++ [d]) (n + m) v' := by
  obtain ⟨new1, hnew1⟩ := inv.extends_visited
  obtain ⟨new2, hnew2⟩ := call.extends_visited
  have hsub : ∀ q, q ∈ v → q ∈ v' := by
    intro q hq; rw [hnew2]; exact List.mem_append_right _ hq
  have hbase : ∀ q, q ∈ c :: visited → q ∈ v := by
    intro q hq; rw [hnew1]; exact List.mem_append_right _ hq
  refine ⟨⟨new2 ++ new1, by rw [hnew2, hnew1, List.append_assoc]⟩, ?_, ?_, ?_, ?_, ?_⟩
  · intro q hq hqb
    by_cases hqv : q ∈ v
    · exact inv.stones q hqv hqb
    · obtain ⟨hs, hqs, hgrp⟩ := call.stones q hq hqv
      refine ⟨hqs, ?_⟩
      exact Relation.ReflTransGen.head ⟨adj_of_mem_dirs c d hd, hs.1, hs.2⟩ hgrp
  · intro d' hd' hin hcol
    rcases List.mem_append.1 hd' with h | h
    · exact hsub _ (inv.done_mem d' h hin hcol)
    · rw [List.mem_singleton] at h
      subst h
      exact call.self_mem hin hcol
  · intro q hq hqb r hr
    by_cases hqv : q ∈ v
    · exact hsub _ (inv.closed q hqv hqb r hr)
    · exact call.closed q hq hqv r hr
  · rw [Nat.add_eq_zero_iff, inv.zero_iff, call.zero_iff]
    constructor
    · rintro ⟨⟨h1, h2⟩, h3, h4⟩
      refine ⟨?_, ?_⟩
      · intro d' hd'
        rcases List.mem_append.1 hd' with h | h
        · exact h1 d' h
        · rw [List.mem_singleton] at h
          subst h
          exact h3
      · intro q hq hqb
        by_cases hqv : q ∈ v
        · exact h2 q hqv hqb
        · exact h4 q hq hqv
    · rintro ⟨h1, h2⟩
      refine ⟨⟨fun d' hd' => h1 d' (List.mem_append_left _ hd'),
        fun q hq hqb => h2 q (hsub q hq) hqb⟩, h1 d (by simp), ?_⟩
      intro q hq hqv
      exact h2 q hq (fun hqb => hqv (hbase q hqb))
  · intro hnd
    exact call.nodup (inv.nodup hnd)

theorem LoopSpec.init (board : Board) (size : Nat) (color : Int) (visited : List Point)
    (c : Point) : LoopSpec board size color visited c [] 0 (c :: visited) := by
  refine ⟨⟨[], rfl⟩, ?_, ?_, ?_, ?_, ?_⟩
  · intro q hq hqb; exact absurd hq hqb
  · intro d hd; simp at hd
  · intro q hq hqb; exact absurd hq hqb
  · simp only [List.not_mem_nil, false_imp_iff, implies_true, true_and, true_iff]
    intro q hq hqb; exact absurd hq hqb
  · exact id

theorem LoopSpec.finish {board : Board} {size : Nat} {color : Int} {visited : List Point}
    {c : Point} {n : Nat} {v : List Point}
    (hc : InGrid size c ∧ board.cell c.1 c.2 = color) (hcol : color ≠ 0) (hcv : c ∉ visited)
    (inv : LoopSpec board size color visited c dirs n v) :
    CallSpec board size color visited c n v := by
  obtain ⟨new1, hnew1⟩ := inv.extends_visited
  have hcmem : c ∈ v := by rw [hnew1]; simp
  refine ⟨⟨new1 ++ [c], by rw [hnew1]; simp⟩, ?_, fun _ _ => hcmem, ?_, ?_, ?_⟩
  · intro q hq hqv
    by_cases hqc : q = c
    · subst hqc
      exact ⟨hc, hc, Relation.ReflTransGen.refl⟩
    · have hqb : q ∉ c :: visited := by simp [hqc, hqv]
      obtain ⟨h1, h2⟩ := inv.stones q hq hqb
      exact ⟨hc, h1, h2⟩
  · intro q hq hqv r hr
    by_cases hqc : q = c
    · subst hqc
      obtain ⟨d, hd, rfl⟩ := exists_dir_of_adj q r hr.1
      exact inv.done_mem d hd hr.2.1 hr.2.2
    · have hqb : q ∉ c :: visited := by simp [hqc, hqv]
      exact inv.closed q hq hqb r hr
  · rw [inv.zero_iff]
    have hne : ¬ (InGrid size c ∧ board.cell c.1 c.2 = 0) := by
      rintro ⟨_, h0⟩
      exact hcol (hc.2.symm.trans h0)
    constructor
    · rintro ⟨h1, h2⟩
      refine ⟨hne, ?_⟩
      intro q hq hqv
      by_cases hqc : q = c
      · subst hqc
        rintro ⟨e, hadj, hin, he⟩
        obtain ⟨d, hd, rfl⟩ := exists_dir_of_adj q e hadj
        exact h1 d hd ⟨hin, he⟩
      · have hqb : q ∉ c :: visited := by simp [hqc, hqv]
        exact h2 q hq hqb
    · rintro ⟨_, h2⟩
      refine ⟨?_, ?_⟩
      · rintro d hd ⟨hin, he⟩
        exact h2 c hcmem hcv ⟨_, adj_of_mem_dirs c d hd, hin, he⟩
      · intro q hq hqb
        exact h2 q hq (fun hqv => hqb (List.mem_cons_of_mem _ hqv))
  · intro hnd
    exact inv.nodup (List.nodup_cons.2 ⟨hcv, hnd⟩)

/-- The loop over the directions, given that every recursive call with the
remaining fuel meets its specification. -/
theorem countLiberties_loop (board : Board) (size : Nat) (color : Int) (fuel : Nat)
    (visited : List Point) (c : Point)
    (ih : ∀ x y v, freeCells size v ≤ fuel →
      ∃ n v', countLiberties board size fuel x y color v = some (n, v') ∧
        CallSpec board size color v (x, y) n v')
    (hfree : freeCells size (c :: visited) ≤ fuel) :
    ∀ (ds done : List Point) (n : Nat) (v : List Point), (∀ d ∈ ds, d ∈ dirs) →
      LoopSpec board size color visited c done n v →
      ∃ n' v', ds.foldlM (fun (acc : Nat × List Point) d =>
          (countLiberties board size fuel (c.1 + d.1) (c.2 + d.2) color acc.2).map fun r =>
            (acc.1 + r.1, r.2)) (n, v) = some (n', v') ∧
        LoopSpec board size color visited c (done ++ ds) n' v' := by
  intro ds
  induction ds with
  | nil =>
    intro done n v _ inv
    exact ⟨n, v, rfl, by simpa using inv⟩
  | cons d ds ihds =>
    intro done n v hds inv
    obtain ⟨new1, hnew1⟩ := inv.extends_visited
    have hfv : freeCells size v ≤ fuel := by
      refine le_trans (freeCells_le_of_subset size (c :: visited) v ?_) hfree
      intro q hq; rw [hnew1]; exact List.mem_append_right _ hq
    obtain ⟨m, v1, hcall, hspec⟩ := ih (c.1 + d.1) (c.2 + d.2) v hfv
    have inv1 := LoopSpec.loop_step (hds d (List.mem_cons_self _ _)) inv hspec
    obtain ⟨n', v', hfold, inv'⟩ := ihds (done ++ [d]) (n + m) v1
      (fun d' hd' => hds d' (List.mem_cons_of_mem _ hd')) inv1
    refine ⟨n', v', ?_, by simpa using inv'⟩
    rw [List.foldlM_cons]
    simp only [hcall, Option.map_some', Option.bind_eq_bind, Option.some_bind]
    exact hfold

theorem CallSpec.leaf {board : Board} {size : Nat} {color : Int} {visited : List Point}
    {p : Point} {n : Nat}
    (hself : InGrid size p → board.cell p.1 p.2 = color → p ∈ visited)
    (hzero : n = 0 ↔ ¬ (InGrid size p ∧ board.cell p.1 p.2 = 0)) :
    CallSpec board size color visited p n visited := by
  refine ⟨⟨[], rfl⟩, ?_, hself, ?_, ?_, id⟩
  · intro q hq hqv; exact absurd hq hqv
  · intro q hq hqv; exact absurd hq hqv
  · rw [hzero]
    constructor
    · intro h; exact ⟨h, fun q hq hqv => absurd hq hqv⟩
    · intro h; exact h.1

/-- With fuel for every grid cell not yet in `visited`, `countLiberties` returns
and meets its specification. -/
theorem countLiberties_spec (board : Board) (size : Nat) (color : Int) (hcol : color ≠ 0) :
    ∀ (fuel : Nat) (x y : Int) (visited : List Point), freeCells size visited ≤ fuel →
      ∃ n v', countLiberties board size fuel x y color visited = some (n, v') ∧
        CallSpec board size color visited (x, y) n v' := by
  intro fuel
  induction fuel with
  | zero =>
    intro x y visited hfree
    unfold countLiberties
    by_cases h1 : x < 0 ∨ x ≥ size ∨ y < 0 ∨ y ≥ size
    · rw [if_pos h1]
      refine ⟨0, visited, rfl, CallSpec.leaf ?_ ?_⟩
      · intro hin; unfold InGrid at hin; simp only at hin; omega
      · simp only [true_iff, not_and]
        intro hin; unfold InGrid at hin; simp only at hin; omega
    · rw [if_neg h1]
      by_cases h2 : board.cell x y = 0
      · rw [if_pos h2]
        refine ⟨1, visited, rfl, CallSpec.leaf ?_ ?_⟩
        · intro _ h; exact absurd (h.symm.trans h2) hcol
        · simp only [one_ne_zero, false_iff, not_not]
          refine ⟨?_, h2⟩
          unfold InGrid; simp only; omega
      · rw [if_neg h2]
        by_cases h3 : board.cell x y ≠ color
        · rw [if_pos h3]
          refine ⟨0, visited, rfl, CallSpec.leaf ?_ ?_⟩
          · intro _ h; exact absurd h h3
          · simp only [true_iff, not_and]
            intro _; exact h2
        · rw [if_neg h3]
          by_cases h4 : (x, y) ∈ visited
          · rw [if_pos h4]
            refine ⟨0, visited, rfl, CallSpec.leaf (fun _ _ => h4) ?_⟩
            simp only [true_iff, not_and]
            intro _; exact h2
          · exfalso
            have hin : InGrid size (x, y) := by unfold InGrid; simp only; omega
            have := freeCells_cons_lt size visited (x, y) hin h4
            omega
  | succ fuel ih =>
    intro x y visited hfree
    unfold countLiberties
    by_cases h1 : x < 0 ∨ x ≥ size ∨ y < 0 ∨ y ≥ size
    · rw [if_pos h1]
      refine ⟨0, visited, rfl, CallSpec.leaf ?_ ?_⟩
      · intro hin; unfold InGrid at hin; simp only at hin; omega
      · simp only [true_iff, not_and]
        intro hin; unfold InGrid at hin; simp only at hin; omega
    · rw [if_neg h1]
      by_cases h2 : board.cell x y = 0
      · rw [if_pos h2]
        refine ⟨1, visited, rfl, CallSpec.leaf ?_ ?_⟩
        · intro _ h; exact absurd (h.symm.trans h2) hcol
        · simp only [one_ne_zero, false_iff, not_not]
          refine ⟨?_, h2⟩
          unfold InGrid; simp only; omega
      · rw [if_neg h2]
        by_cases h3 : board.cell x y ≠ color
        · rw [if_pos h3]
          refine ⟨0, visited, rfl, CallSpec.leaf ?_ ?_⟩
          · intro _ h; exact absurd h h3
          · simp only [true_iff, not_and]
            intro _; exact h2
        · rw [if_neg h3]
          by_cases h4 : (x, y) ∈ visited
          · rw [if_pos h4]
            refine ⟨0, visited, rfl, CallSpec.leaf (fun _ _ => h4) ?_⟩
            simp only [true_iff, not_and]
            intro _; exact h2
          · rw [if_neg h4]
            have hin : InGrid size (x, y) := by unfold InGrid; simp only; omega
            have hc : InGrid size (x, y) ∧ board.cell x y = color := ⟨hin, not_not.1 h3⟩
            have hlt := freeCells_cons_lt size visited (x, y) hin h4
            obtain ⟨n, v', hfold, inv⟩ := countLiberties_loop board size color fuel visited (x, y)
              ih (by omega) dirs [] 0 ((x, y) :: visited) (fun d hd => hd)
              (LoopSpec.init board size color visited (x, y))
            exact ⟨n, v', hfold, LoopSpec.finish hc hcol h4 (by simpa using inv)⟩

/-- Started on a stone with an empty `visited` set and fuel `size * size`,
`countLiberties` returns; the set it leaves is the group of the stone, without
repetition, and the count is zero exactly when no stone of the group has a
liberty. -/
theorem countLiberties_group (board : Board) (size : Nat) (color : Int) (hcol : color ≠ 0)
    (p : Point) (hin : InGrid size p) (hp : board.cell p.1 p.2 = color) :
    ∃ n group, countLiberties board size (size * size) p.1 p.2 color [] = some (n, group) ∧
      group.Nodup ∧ (∀ q, q ∈ group ↔ SameGroup board size color p q) ∧
      (n = 0 ↔ ∀ q, SameGroup board size color p q → ¬ HasLiberty board size q) := by
  obtain ⟨n, group, hcall, spec⟩ := countLiberties_spec board size color hcol (size * size)
    p.1 p.2 [] (freeCells_le size [])
  have hmem : ∀ q, q ∈ group ↔ SameGroup board size color p q := by
    intro q
    constructor
    · intro hq
      exact (spec.stones q hq (List.not_mem_nil q)).2.2
    · intro hq
      induction hq with
      | refl => exact spec.self_mem hin hp
      | tail _ hbc ih => exact spec.closed _ ih (List.not_mem_nil _) _ hbc
  refine ⟨n, group, hcall, spec.nodup List.nodup_nil, hmem, ?_⟩
  rw [spec.zero_iff]
  constructor
  · rintro ⟨_, h⟩ q hq
    exact h q ((hmem q).2 hq) (List.not_mem_nil q)
  · intro h
    refine ⟨?_, fun q hq _ => h q ((hmem q).1 hq)⟩
    rintro ⟨_, h0⟩
    exact hcol (hp.symm.trans h0)

/-- Membership in a group is symmetric between stones. -/
theorem SameGroup.group_symm {board : Board} {size : Nat} {color : Int} {p q : Point}
    (hp : InGrid size p ∧ board.cell p.1 p.2 = color) (h : SameGroup board size color p q) :
    (InGrid size q ∧ board.cell q.1 q.2 = color) ∧ SameGroup board size color q p := by
  induction h with
  | refl => exact ⟨hp, Relation.ReflTransGen.refl⟩
  | tail _ hbc ih =>
    refine ⟨hbc.2, ?_⟩
    exact Relation.ReflTransGen.head ⟨adj_symm _ _ hbc.1, ih.1.1, ih.1.2⟩ ih.2

/-- Clearing a list of cells: the cells of the list read 0, the others are unchanged. -/
theorem cell_clear (size : Nat) (l : List Point) (hl : ∀ p ∈ l, InGrid size p) :
    ∀ (b : Board), b.Square size →
      (l.foldl (fun b p => b.setCell p.1 p.2 0) b).Square size ∧
      ∀ x y, ((x, y) ∈ l → (l.foldl (fun b p => b.setCell p.1 p.2 0) b).cell x y = 0) ∧
        ((x, y) ∉ l → (l.foldl (fun b p => b.setCell p.1 p.2 0) b).cell x y = b.cell x y) := by
  induction l with
  | nil =>
    intro b hb
    exact ⟨hb, fun x y => ⟨fun h => absurd h (List.not_mem_nil _), fun _ => rfl⟩⟩
  | cons p l ih =>
    intro b hb
    have hb1 : (b.setCell p.1 p.2 0).Square size := Board.square_setCell b size p.1 p.2 0 hb
    obtain ⟨hsq, hcell⟩ := ih (fun q hq => hl q (List.mem_cons_of_mem _ hq)) _ hb1
    refine ⟨hsq, ?_⟩
    intro x y
    simp only [List.foldl_cons]
    constructor
    · intro hmem
      by_cases hxl : (x, y) ∈ l
      · exact (hcell x y).1 hxl
      · rw [(hcell x y).2 hxl]
        have hxp : (x, y) = p := by
          rcases List.mem_cons.1 hmem with h | h
          · exact h
          · exact absurd h hxl
        have hpin := hl p (List.mem_cons_self _ _)
        rw [← hxp] at hpin ⊢
        exact Board.cell_setCell_same b size x y 0 hb hpin
    · intro hmem
      have hxl : (x, y) ∉ l := fun h => hmem (List.mem_cons_of_mem _ h)
      have hxp : (x, y) ≠ (p.1, p.2) := fun h => hmem (by rw [h]; exact List.mem_cons_self _ _)
      rw [(hcell x y).2 hxl]
      exact Board.cell_setCell_other b p.1 p.2 0 x y hxp

theorem DeadStone.dead_of_sameGroup {board : Board} {size : Nat} {color : Int} {p q : Point}
    (hp : DeadStone board size color p) (h : SameGroup board size color p q) :
    DeadStone board size color q :=
  ⟨(SameGroup.group_symm ⟨hp.1, hp.2.1⟩ h).1.1, (SameGroup.group_symm ⟨hp.1, hp.2.1⟩ h).1.2,
    fun q' hq' => hp.2.2 q' (Relation.ReflTransGen.trans h hq')⟩

theorem CapturedVia.captured_of_sameGroup {board : Board} {size : Nat} {color : Int} {r c : Int}
    {done : List Point} {p q : Point} (hp : CapturedVia board size color r c done p)
    (h : SameGroup board size color p q) : CapturedVia board size color r c done q := by
  obtain ⟨hdead, d, hd, hin, hcell, hgrp⟩ := hp
  exact ⟨hdead.dead_of_sameGroup h, d, hd, hin, hcell, Relation.ReflTransGen.trans hgrp h⟩

/-- Removing whole groups of `color` from `b1` changes neither the group nor
the liberties of a stone of `color` that is still on the board. -/
theorem group_stable (b1 b2 : Board) (size : Nat) (color : Int) (hcol : color ≠ 0)
    (D : Point → Prop)
    (hstone : ∀ p, D p → InGrid size p ∧ b1.cell p.1 p.2 = color)
    (hclosed : ∀ p q, D p → SameGroup b1 size color p q → D q)
    (hclr : ∀ p, D p → b2.cell p.1 p.2 = 0)
    (hkeep : ∀ p, ¬ D p → b2.cell p.1 p.2 = b1.cell p.1 p.2)
    (n : Point) (hn : InGrid size n) (hnc : b2.cell n.1 n.2 = color) :
    ¬ D n ∧ b1.cell n.1 n.2 = color ∧
    (∀ q, SameGroup b2 size color n q ↔ SameGroup b1 size color n q) ∧
    (∀ q, SameGroup b1 size color n q → (HasLiberty b2 size q ↔ HasLiberty b1 size q)) := by
  have hnot : ∀ p, b2.cell p.1 p.2 = color → ¬ D p := by
    intro p hp hD
    exact hcol (hp.symm.trans (hclr p hD))
  have hnD : ¬ D n := hnot n hnc
  have hn1 : b1.cell n.1 n.2 = color := by rw [← hkeep n hnD]; exact hnc
  have hfwd : ∀ q, SameGroup b2 size color n q → SameGroup b1 size color n q := by
    intro q hq
    refine Relation.ReflTransGen.mono ?_ hq
    rintro s t ⟨hadj, hin, hcell⟩
    exact ⟨hadj, hin, by rw [← hkeep t (hnot t hcell)]; exact hcell⟩
  have hbwd : ∀ q, SameGroup b1 size color n q → ¬ D q ∧ SameGroup b2 size color n q := by
    intro q hq
    induction hq with
    | refl => exact ⟨hnD, Relation.ReflTransGen.refl⟩
    | @tail s t hs hst ih =>
      have hsstone := (SameGroup.group_symm ⟨hn, hn1⟩ hs).1
      have htD : ¬ D t := by
        intro hD
        apply ih.1
        exact hclosed t s hD
          (Relation.ReflTransGen.single ⟨adj_symm _ _ hst.1, hsstone.1, hsstone.2⟩)
      refine ⟨htD, Relation.ReflTransGen.tail ih.2 ⟨hst.1, hst.2.1, ?_⟩⟩
      rw [hkeep t htD]; exact hst.2.2
  refine ⟨hnD, hn1, fun q => ⟨hfwd q, fun h => (hbwd q h).2⟩, ?_⟩
  intro q hq
  have hqD := (hbwd q hq).1
  have hqstone := (SameGroup.group_symm ⟨hn, hn1⟩ hq).1
  constructor
  · rintro ⟨e, hadj, hin, he⟩
    by_cases heD : D e
    · exfalso
      apply hqD
      exact hclosed e q heD
        (Relation.ReflTransGen.single ⟨adj_symm _ _ hadj, hqstone.1, hqstone.2⟩)
    · exact ⟨e, hadj, hin, by rw [← hkeep e heD]; exact he⟩
  · rintro ⟨e, hadj, hin, he⟩
    have heD : ¬ D e := by
      intro hD
      exact hcol ((hstone e hD).2.symm.trans he)
    exact ⟨e, hadj, hin, by rw [hkeep e heD]; exact he⟩

theorem CapturedVia.append_iff (board : Board) (size : Nat) (color : Int) (r c : Int)
    (done : List Point) (d p : Point) :
    CapturedVia board size color r c (done ++ [d]) p ↔
      CapturedVia board size color r c done p ∨
      (DeadStone board size color p ∧ InGrid size (r + d.1, c + d.2) ∧
        board.cell (r + d.1) (c + d.2) = color ∧
        SameGroup board size color (r + d.1, c + d.2) p) := by
  unfold CapturedVia
  constructor
  · rintro ⟨hdead, d', hd', h⟩
    rcases List.mem_append.1 hd' with hm | hm
    · exact Or.inl ⟨hdead, d', hm, h⟩
    · rw [List.mem_singleton] at hm
      subst hm
      exact Or.inr ⟨hdead, h⟩
  · rintro (⟨hdead, d', hd', h⟩ | ⟨hdead, h⟩)
    · exact ⟨hdead, d', List.mem_append_left _ hd', h⟩
    · exact ⟨hdead, d, by simp, h⟩

/-- One iteration of the loop of `postMoveProcess` keeps the invariant. -/
theorem postMoveProcess_step (color : Int) (hcol : color ≠ 0) (r c : Int) (done : List Point)
    (d : Point) (g0 g : AbstractGame) (inv : CaptureInv color r c done g0 g) :
    ∃ g', (if r + d.1 ≥ 0 ∧ r + d.1 < g.size ∧ c + d.2 ≥ 0 ∧ c + d.2 < g.size ∧
            g.board.cell (r + d.1) (c + d.2) = color
          then removeDeadGroup g (r + d.1) (c + d.2) color else some g) = some g' ∧
      CaptureInv color r c (done ++ [d]) g0 g' := by
  have hclosedD : ∀ p q, CapturedVia g0.board g0.size color r c done p →
      SameGroup g0.board g0.size color p q → CapturedVia g0.board g0.size color r c done q :=
    fun p q hp h => hp.captured_of_sameGroup h
  by_cases hcond : r + d.1 ≥ 0 ∧ r + d.1 < g.size ∧ c + d.2 ≥ 0 ∧ c + d.2 < g.size ∧
      g.board.cell (r + d.1) (c + d.2) = color
  · rw [if_pos hcond]
    have hin : InGrid g0.size (r + d.1, c + d.2) := by
      rw [← inv.size_eq]; unfold InGrid; simp only; omega
    obtain ⟨hnD, hn1, hgrp, hlib⟩ := group_stable g0.board g.board g0.size color hcol
      (CapturedVia g0.board g0.size color r c done) (fun p hp => ⟨hp.1.1, hp.1.2.1⟩)
      hclosedD inv.cleared inv.kept (r + d.1, c + d.2) hin hcond.2.2.2.2
    obtain ⟨n, group, hcall, hnodup, hmem, hzero⟩ := countLiberties_group g.board g0.size color
      hcol (r + d.1, c + d.2) hin hcond.2.2.2.2
    have hmem1 : ∀ q, q ∈ group ↔ SameGroup g0.board g0.size color (r + d.1, c + d.2) q :=
      fun q => (hmem q).trans (hgrp q)
    have hzero1 : n = 0 ↔
        ∀ q, SameGroup g0.board g0.size color (r + d.1, c + d.2) q →
          ¬ HasLiberty g0.board g0.size q := by
      rw [hzero]
      constructor
      · intro h q hq hl
        exact h q ((hgrp q).2 hq) ((hlib q hq).2 hl)
      · intro h q hq hl
        exact h q ((hgrp q).1 hq) ((hlib q ((hgrp q).1 hq)).1 hl)
    have hcall1 : countLiberties g.board g.size (g.size * g.size) (r + d.1) (c + d.2) color [] =
        some (n, group) := by rw [inv.size_eq]; exact hcall
    unfold removeDeadGroup
    rw [hcall1]
    simp only [Option.map_some']
    by_cases hn0 : n = 0
    · rw [if_pos hn0]
      have hdead := hzero1.1 hn0
      have hgin : ∀ q ∈ group, InGrid g0.size q := fun q hq =>
        (SameGroup.group_symm ⟨hin, hn1⟩ ((hmem1 q).1 hq)).1.1
      obtain ⟨hsq, hcell⟩ := cell_clear g0.size group hgin g.board inv.square
      obtain ⟨counts, hev⟩ := inv.events_eq
      have key : CaptureInv color r c (done ++ [d]) g0
          { g with board := group.foldl (fun b p => b.setCell p.1 p.2 0) g.board } := by
        refine ⟨hsq, inv.size_eq, inv.type_eq, inv.currentPlayer_eq, inv.history_eq,
          inv.passCount_eq, inv.resultDesc_eq, ⟨counts, hev⟩, ?_, ?_⟩
        · intro p hp
          by_cases hpg : p ∈ group
          · exact (hcell p.1 p.2).1 hpg
          · rw [(hcell p.1 p.2).2 hpg]
            rcases (CapturedVia.append_iff _ _ _ _ _ _ _ _).1 hp with h | h
            · exact inv.cleared p h
            · exact absurd ((hmem1 p).2 h.2.2.2) hpg
        · intro p hp
          have hp1 : ¬ CapturedVia g0.board g0.size color r c done p := fun h =>
            hp ((CapturedVia.append_iff _ _ _ _ _ _ _ _).2 (Or.inl h))
          have hpg : p ∉ group := by
            intro hpg
            apply hp
            have hsg := (hmem1 p).1 hpg
            have hst := (SameGroup.group_symm ⟨hin, hn1⟩ hsg).1
            refine (CapturedVia.append_iff _ _ _ _ _ _ _ _).2 (Or.inr ⟨⟨hst.1, hst.2, ?_⟩,
              hin, hn1, hsg⟩)
            intro q hq
            exact hdead q (Relation.ReflTransGen.trans hsg hq)
          rw [(hcell p.1 p.2).2 hpg]
          exact inv.kept p hp1
      by_cases hne : group ≠ []
      · rw [if_pos hne]
        refine ⟨_, rfl, ?_⟩
        refine ⟨key.square, key.size_eq, key.type_eq, key.currentPlayer_eq, key.history_eq,
          key.passCount_eq, key.resultDesc_eq, ⟨counts ++ [group.length], ?_⟩, key.cleared,
          key.kept⟩
        simp only [AbstractGame.notifyMessage, hev, List.map_append, List.map_cons, List.map_nil,
          List.append_assoc]
      · rw [if_neg hne]
        exact ⟨_, rfl, key⟩
    · rw [if_neg hn0]
      refine ⟨g, rfl, inv.square, inv.size_eq, inv.type_eq, inv.currentPlayer_eq, inv.history_eq,
        inv.passCount_eq, inv.resultDesc_eq, inv.events_eq, ?_, ?_⟩
      · intro p hp
        rcases (CapturedVia.append_iff _ _ _ _ _ _ _ _).1 hp with h | h
        · exact inv.cleared p h
        · exfalso
          apply hn0
          rw [hzero1]
          intro q hq
          have hback := (SameGroup.group_symm ⟨hin, hn1⟩ h.2.2.2).2
          exact h.1.2.2 q (Relation.ReflTransGen.trans hback hq)
      · intro p hp
        exact inv.kept p (fun h => hp ((CapturedVia.append_iff _ _ _ _ _ _ _ _).2 (Or.inl h)))
  · rw [if_neg hcond]
    refine ⟨g, rfl, inv.square, inv.size_eq, inv.type_eq, inv.currentPlayer_eq, inv.history_eq,
      inv.passCount_eq, inv.resultDesc_eq, inv.events_eq, ?_, ?_⟩
    · intro p hp
      rcases (CapturedVia.append_iff _ _ _ _ _ _ _ _).1 hp with h | h
      · exact inv.cleared p h
      · obtain ⟨hdead, hin, hn1, hsg⟩ := h
        by_cases hD : CapturedVia g0.board g0.size color r c done (r + d.1, c + d.2)
        · exact inv.cleared p (hD.captured_of_sameGroup hsg)
        · exfalso
          apply hcond
          have := inv.kept _ hD
          simp only at this
          rw [inv.size_eq]
          unfold InGrid at hin
          simp only at hin
          exact ⟨hin.1, hin.2.1, hin.2.2.1, hin.2.2.2, this.trans hn1⟩
    · intro p hp
      exact inv.kept p (fun h => hp ((CapturedVia.append_iff _ _ _ _ _ _ _ _).2 (Or.inl h)))

theorem postMoveProcess_loop (color : Int) (hcol : color ≠ 0) (r c : Int) (g0 : AbstractGame) :
    ∀ (ds done : List Point) (g : AbstractGame), CaptureInv color r c done g0 g →
      ∃ g', ds.foldlM (fun (g : AbstractGame) d =>
          if r + d.1 ≥ 0 ∧ r + d.1 < g.size ∧ c + d.2 ≥ 0 ∧ c + d.2 < g.size ∧
              g.board.cell (r + d.1) (c + d.2) = color
          then removeDeadGroup g (r + d.1) (c + d.2) color else some g) g = some g' ∧
        CaptureInv color r c (done ++ ds) g0 g' := by
  intro ds
  induction ds with
  | nil =>
    intro done g inv
    exact ⟨g, rfl, by simpa using inv⟩
  | cons d ds ih =>
    intro done g inv
    obtain ⟨g1, hstep, inv1⟩ := postMoveProcess_step color hcol r c done d g0 g inv
    obtain ⟨g', hfold, inv'⟩ := ih (done ++ [d]) g1 inv1
    refine ⟨g', ?_, by simpa using inv'⟩
    rw [List.foldlM_cons, hstep]
    exact hfold

theorem CapturedVia.dirs_iff (board : Board) (size : Nat) (color : Int) (r c : Int) (p : Point) :
    CapturedVia board size color r c dirs p ↔ Captured board size color r c p := by
  unfold CapturedVia Captured
  constructor
  · rintro ⟨hdead, d, hd, hin, hcell, hgrp⟩
    exact ⟨hdead, _, adj_of_mem_dirs (r, c) d hd, hin, hcell, hgrp⟩
  · rintro ⟨hdead, n, hadj, hin, hcell, hgrp⟩
    obtain ⟨d, hd, rfl⟩ := exists_dir_of_adj (r, c) n hadj
    exact ⟨hdead, d, hd, hin, hcell, hgrp⟩

/-- The capture step returns, and it clears exactly the captured cells: the
opposing stones whose group touches `(r, c)` and has no liberty. Nothing else
in the state changes, apart from the capture messages sent. -/
theorem postMoveProcess_spec (g0 : AbstractGame) (r c : Int)
    (hsq : g0.board.Square g0.size) :
    ∃ g, postMoveProcess g0 r c = some g ∧
      CaptureInv (if g0.board.cell r c = 1 then 2 else 1) r c dirs g0 g := by
  have hcol : (if g0.board.cell r c = 1 then (2 : Int) else 1) ≠ 0 := by
    split <;> norm_num
  have init : CaptureInv (if g0.board.cell r c = 1 then 2 else 1) r c [] g0 g0 := by
    refine ⟨hsq, rfl, rfl, rfl, rfl, rfl, rfl, ⟨[], by simp⟩, ?_, fun _ _ => rfl⟩
    rintro p ⟨_, d, hd, _⟩
    exact absurd hd (List.not_mem_nil d)
  obtain ⟨g, hfold, inv⟩ := postMoveProcess_loop _ hcol r c g0 dirs [] g0 init
  exact ⟨g, hfold, by simpa using inv⟩

end GoGame

/-! ## Go: the flood fill and the territory count -/

namespace GoWinStrategy

/-- Handling one more direction without touching the queue: only the two flags
may change. -/
theorem FloodInv.next_dir {board : Board} {size : Nat} {v0 : List Point} {s : Point} {k : Nat}
    {done : List Point} {st st' : FloodState} {d p : Point}
    (inv : FloodInv board size v0 s k done st) (hp : st.q[k]? = some p)
    (hq : st'.q = st.q) (hv : st'.visited = st.visited)
    (hcur : EmptyCell board size (p.1 + d.1, p.2 + d.2) → (p.1 + d.1, p.2 + d.2) ∈ st.visited)
    (hb : st'.touchBlack = true ↔ (st.touchBlack = true ∨
      (InGrid size (p.1 + d.1, p.2 + d.2) ∧ board.cell (p.1 + d.1) (p.2 + d.2) = 1)))
    (hw : st'.touchWhite = true ↔ (st.touchWhite = true ∨
      (InGrid size (p.1 + d.1, p.2 + d.2) ∧ board.cell (p.1 + d.1) (p.2 + d.2) = 2))) :
    FloodInv board size v0 s k (done ++ [d]) st' := by
  refine ⟨by rw [hv, hq]; exact inv.visited_eq, by rw [hv]; exact inv.nodup,
    by rw [hq]; exact inv.start_mem, by rw [hq]; exact inv.region,
    by rw [hq, hv]; exact inv.closed, ?_, ?_, ?_⟩
  · intro d' hd' p' hp' he
    rw [hq] at hp'
    rw [hv]
    rcases List.mem_append.1 hd' with h | h
    · exact inv.closed_cur d' h p' hp' he
    · rw [List.mem_singleton] at h; subst h
      rw [hp] at hp'; cases hp'
      exact hcur he
  · rw [hb, inv.black_iff, hq]
    constructor
    · rintro ((h1 | ⟨d', hd', h2⟩) | ⟨hin, hc⟩)
      · exact Or.inl h1
      · exact Or.inr ⟨d', List.mem_append_left _ hd', h2⟩
      · exact Or.inr ⟨d, by simp, p, hp, hin, hc⟩
    · rintro (h1 | ⟨d', hd', p', hp', hin, hc⟩)
      · exact Or.inl (Or.inl h1)
      · rcases List.mem_append.1 hd' with h | h
        · exact Or.inl (Or.inr ⟨d', h, p', hp', hin, hc⟩)
        · rw [List.mem_singleton] at h; subst h
          rw [hp] at hp'; cases hp'
          exact Or.inr ⟨hin, hc⟩
  · rw [hw, inv.white_iff, hq]
    constructor
    · rintro ((h1 | ⟨d', hd', h2⟩) | ⟨hin, hc⟩)
      · exact Or.inl h1
      · exact Or.inr ⟨d', List.mem_append_left _ hd', h2⟩
      · exact Or.inr ⟨d, by simp, p, hp, hin, hc⟩
    · rintro (h1 | ⟨d', hd', p', hp', hin, hc⟩)
      · exact Or.inl (Or.inl h1)
      · rcases List.mem_append.1 hd' with h | h
        · exact Or.inl (Or.inr ⟨d', h, p', hp', hin, hc⟩)
        · rw [List.mem_singleton] at h; subst h
          rw [hp] at hp'; cases hp'
          exact Or.inr ⟨hin, hc⟩

/-- Handling a direction that leads to an unmarked Empty cell: the cell is
marked and enqueued. -/
theorem FloodInv.enqueue {board : Board} {size : Nat} {v0 : List Point} {s : Point} {k : Nat}
    {done : List Point} {st : FloodState} {d p : Point}
    (inv : FloodInv board size v0 s k done st) (hp : st.q[k]? = some p) (hd : d ∈ dirs)
    (he : EmptyCell board size (p.1 + d.1, p.2 + d.2))
    (hv : (p.1 + d.1, p.2 + d.2) ∉ st.visited) :
    FloodInv board size v0 s k (done ++ [d])
      { st with visited := (p.1 + d.1, p.2 + d.2) :: st.visited,
                q := st.q ++ [(p.1 + d.1, p.2 + d.2)] } := by
  have hklt : k < st.q.length := (List.getElem?_eq_some_iff.1 hp).1
  have hpq : p ∈ st.q := List.getElem?_mem hp
  have hget : (st.q ++ [(p.1 + d.1, p.2 + d.2)])[k]? = st.q[k]? :=
    List.getElem?_append_left hklt
  have htake : (st.q ++ [(p.1 + d.1, p.2 + d.2)]).take k = st.q.take k :=
    List.take_append_of_le_length (le_of_lt hklt)
  have hne1 : board.cell (p.1 + d.1) (p.2 + d.2) ≠ 1 := by
    have := he.2; simp only at this; rw [this]; norm_num
  have hne2 : board.cell (p.1 + d.1) (p.2 + d.2) ≠ 2 := by
    have := he.2; simp only at this; rw [this]; norm_num
  refine ⟨?_, ?_, ?_, ?_, ?_, ?_, ?_, ?_⟩
  · simp only [List.reverse_append, List.reverse_cons, List.reverse_nil, List.nil_append,
      List.singleton_append, List.cons_append]
    rw [inv.visited_eq]
  · exact List.nodup_cons.2 ⟨hv, inv.nodup⟩
  · exact List.mem_append_left _ inv.start_mem
  · intro p' hp'
    rcases List.mem_append.1 hp' with h | h
    · exact inv.region p' h
    · rw [List.mem_singleton] at h; subst h
      refine ⟨he, ?_⟩
      exact Relation.ReflTransGen.tail (inv.region p hpq).2 ⟨adj_of_mem_dirs p d hd, he.1, he.2⟩
  · intro p' hp' r hr
    simp only at hp' ⊢
    rw [htake] at hp'
    exact List.mem_cons_of_mem _ (inv.closed p' hp' r hr)
  · intro d' hd' p' hp' he'
    simp only at hp' ⊢
    rw [hget] at hp'
    rcases List.mem_append.1 hd' with h | h
    · exact List.mem_cons_of_mem _ (inv.closed_cur d' h p' hp' he')
    · rw [List.mem_singleton] at h; subst h
      rw [hp] at hp'; cases hp'
      exact List.mem_cons_self _ _
  · simp only
    rw [htake, hget, inv.black_iff]
    constructor
    · rintro (h1 | ⟨d', hd', h2⟩)
      · exact Or.inl h1
      · exact Or.inr ⟨d', List.mem_append_left _ hd', h2⟩
    · rintro (h1 | ⟨d', hd', p', hp', hin, hc⟩)
      · exact Or.inl h1
      · rcases List.mem_append.1 hd' with h | h
        · exact Or.inr ⟨d', h, p', hp', hin, hc⟩
        · rw [List.mem_singleton] at h; subst h
          rw [hp] at hp'; cases hp'
          exact absurd hc hne1
  · simp only
    rw [htake, hget, inv.white_iff]
    constructor
    · rintro (h1 | ⟨d', hd', h2⟩)
      · exact Or.inl h1
      · exact Or.inr ⟨d', List.mem_append_left _ hd', h2⟩
    · rintro (h1 | ⟨d', hd', p', hp', hin, hc⟩)
      · exact Or.inl h1
      · rcases List.mem_append.1 hd' with h | h
        · exact Or.inr ⟨d', h, p', hp', hin, hc⟩
        · rw [List.mem_singleton] at h; subst h
          rw [hp] at hp'; cases hp'
          exact absurd hc hne2

/-- One direction of the inner loop of the flood fill keeps the invariant. -/
theorem visit_step (board : Board) (size : Nat)
    (hcells : ∀ x y, board.cell x y = 0 ∨ board.cell x y = 1 ∨ board.cell x y = 2)
    (v0 : List Point) (s : Point) (k : Nat) (done : List Point) (st : FloodState)
    (d : Point) (hd : d ∈ dirs) (p : Point) (hp : st.q[k]? = some p)
    (inv : FloodInv board size v0 s k done st) :
    FloodInv board size v0 s k (done ++ [d]) (visit board size st (p.1 + d.1) (p.2 + d.2)) ∧
    (visit board size st (p.1 + d.1) (p.2 + d.2)).q[k]? = some p ∧
    (visit board size st (p.1 + d.1) (p.2 + d.2)).head = st.head ∧
    (visit board size st (p.1 + d.1) (p.2 + d.2)).areaSize = st.areaSize := by
  have hklt : k < st.q.length := (List.getElem?_eq_some_iff.1 hp).1
  unfold visit
  by_cases hin : p.1 + d.1 ≥ 0 ∧ p.1 + d.1 < size ∧ p.2 + d.2 ≥ 0 ∧ p.2 + d.2 < size
  · have hgrid : InGrid size (p.1 + d.1, p.2 + d.2) := by
      unfold InGrid; simp only; omega
    rw [if_pos hin]
    simp only
    by_cases h1 : board.cell (p.1 + d.1) (p.2 + d.2) = 1
    · rw [if_pos h1]
      refine ⟨?_, hp, rfl, rfl⟩
      refine inv.next_dir hp rfl rfl ?_ ?_ ?_
      · intro he; have := he.2; simp only at this; rw [h1] at this; norm_num at this
      · simp only [true_iff]; exact Or.inr ⟨hgrid, h1⟩
      · simp only [h1]; norm_num
    · rw [if_neg h1]
      by_cases h2 : board.cell (p.1 + d.1) (p.2 + d.2) = 2
      · rw [if_pos h2]
        refine ⟨?_, hp, rfl, rfl⟩
        refine inv.next_dir hp rfl rfl ?_ ?_ ?_
        · intro he; have := he.2; simp only at this; rw [h2] at this; norm_num at this
        · simp only [h2]; norm_num
        · simp only [true_iff]; exact Or.inr ⟨hgrid, h2⟩
      · rw [if_neg h2]
        have h0 : board.cell (p.1 + d.1) (p.2 + d.2) = 0 := by
          rcases hcells (p.1 + d.1) (p.2 + d.2) with h | h | h
          · exact h
          · exact absurd h h1
          · exact absurd h h2
        by_cases hv : (p.1 + d.1, p.2 + d.2) ∉ st.visited
        · rw [if_pos hv]
          refine ⟨inv.enqueue hp hd ⟨hgrid, h0⟩ hv, ?_, rfl, rfl⟩
          simp only
          rw [List.getElem?_append_left hklt]
          exact hp
        · rw [if_neg hv]
          refine ⟨?_, hp, rfl, rfl⟩
          refine inv.next_dir hp rfl rfl (fun _ => not_not.1 hv) ?_ ?_
          · simp only [h1, and_false, or_false]
          · simp only [h2, and_false, or_false]
  · rw [if_neg hin]
    refine ⟨?_, hp, rfl, rfl⟩
    have hnot : ¬ InGrid size (p.1 + d.1, p.2 + d.2) := by
      intro hg
      apply hin
      unfold InGrid at hg; simp only at hg; omega
    refine inv.next_dir hp rfl rfl (fun he => absurd he.1 hnot) ?_ ?_
    · simp only [hnot, false_and, or_false]
    · simp only [hnot, false_and, or_false]

/-- The inner loop over the directions keeps the invariant. -/
theorem visit_loop (board : Board) (size : Nat)
    (hcells : ∀ x y, board.cell x y = 0 ∨ board.cell x y = 1 ∨ board.cell x y = 2)
    (v0 : List Point) (s : Point) (k : Nat) (p : Point) :
    ∀ (ds done : List Point) (st : FloodState), (∀ d ∈ ds, d ∈ dirs) → st.q[k]? = some p →
      FloodInv board size v0 s k done st →
      FloodInv board size v0 s k (done ++ ds)
        (ds.foldl (fun s d => visit board size s (p.1 + d.1) (p.2 + d.2)) st) ∧
      (ds.foldl (fun s d => visit board size s (p.1 + d.1) (p.2 + d.2)) st).q[k]? = some p ∧
      (ds.foldl (fun s d => visit board size s (p.1 + d.1) (p.2 + d.2)) st).head = st.head ∧
      (ds.foldl (fun s d => visit board size s (p.1 + d.1) (p.2 + d.2)) st).areaSize
        = st.areaSize := by
  intro ds
  induction ds with
  | nil =>
    intro done st _ hp inv
    exact ⟨by simpa using inv, hp, rfl, rfl⟩
  | cons d ds ih =>
    intro done st hds hp inv
    obtain ⟨inv1, hp1, hh1, ha1⟩ := visit_step board size hcells v0 s k done st d
      (hds d (List.mem_cons_self _ _)) p hp inv
    obtain ⟨inv2, hp2, hh2, ha2⟩ := ih (done ++ [d]) _
      (fun d' hd' => hds d' (List.mem_cons_of_mem _ hd')) hp1 inv1
    simp only [List.foldl_cons]
    exact ⟨by simpa using inv2, hp2, hh2.trans hh1, ha2.trans ha1⟩

/-- When all four directions of the cell at index `k` are handled, the first
`k + 1` cells of the queue are handled completely. -/
theorem FloodInv.advance {board : Board} {size : Nat} {v0 : List Point} {s : Point} {k : Nat}
    {st : FloodState} {p : Point} (hp : st.q[k]? = some p)
    (inv : FloodInv board size v0 s k dirs st) :
    FloodInv board size v0 s (k + 1) [] st := by
  have htake : st.q.take (k + 1) = st.q.take k ++ [p] := by
    rw [List.take_succ, hp]; rfl
  refine ⟨inv.visited_eq, inv.nodup, inv.start_mem, inv.region, ?_, ?_, ?_, ?_⟩
  · intro p' hp' r hr
    rw [htake] at hp'
    rcases List.mem_append.1 hp' with h | h
    · exact inv.closed p' h r hr
    · rw [List.mem_singleton] at h; subst h
      obtain ⟨d, hd, rfl⟩ := exists_dir_of_adj p' r hr.1
      exact inv.closed_cur d hd p' hp ⟨hr.2.1, hr.2.2⟩
  · intro d hd; exact absurd hd (List.not_mem_nil d)
  · rw [inv.black_iff, htake]
    constructor
    · rintro (⟨p', hp', ht⟩ | ⟨d, hd, p', hp', hin, hc⟩)
      · exact Or.inl ⟨p', List.mem_append_left _ hp', ht⟩
      · rw [hp] at hp'; cases hp'
        exact Or.inl ⟨p, by simp, _, adj_of_mem_dirs p d hd, hin, hc⟩
    · rintro (⟨p', hp', ht⟩ | ⟨d, hd, _⟩)
      · rcases List.mem_append.1 hp' with h | h
        · exact Or.inl ⟨p', h, ht⟩
        · rw [List.mem_singleton] at h; subst h
          obtain ⟨t, hadj, hin, hc⟩ := ht
          obtain ⟨d, hd, rfl⟩ := exists_dir_of_adj p' t hadj
          exact Or.inr ⟨d, hd, p', hp, hin, hc⟩
      · exact absurd hd (List.not_mem_nil d)
  · rw [inv.white_iff, htake]
    constructor
    · rintro (⟨p', hp', ht⟩ | ⟨d, hd, p', hp', hin, hc⟩)
      · exact Or.inl ⟨p', List.mem_append_left _ hp', ht⟩
      · rw [hp] at hp'; cases hp'
        exact Or.inl ⟨p, by simp, _, adj_of_mem_dirs p d hd, hin, hc⟩
    · rintro (⟨p', hp', ht⟩ | ⟨d, hd, _⟩)
      · rcases List.mem_append.1 hp' with h | h
        · exact Or.inl ⟨p', h, ht⟩
        · rw [List.mem_singleton] at h; subst h
          obtain ⟨t, hadj, hin, hc⟩ := ht
          obtain ⟨d, hd, rfl⟩ := exists_dir_of_adj p' t hadj
          exact Or.inr ⟨d, hd, p', hp, hin, hc⟩
      · exact absurd hd (List.not_mem_nil d)

/-- The queue never holds more cells than the grid has. -/
theorem FloodInv.queue_length_le {board : Board} {size : Nat} {v0 : List Point} {s : Point} {k : Nat}
    {done : List Point} {st : FloodState} (inv : FloodInv board size v0 s k done st) :
    st.q.length ≤ size * size := by
  have hnd : st.q.Nodup := by
    have := inv.nodup
    rw [inv.visited_eq] at this
    exact List.nodup_reverse.1 (List.Nodup.of_append_left this)
  have hsub : st.q ⊆ gridCells size := fun p hp => (mem_gridCells size p).2 (inv.region p hp).1.1
  have := (List.subperm_of_subset hnd hsub).length_le
  rwa [length_gridCells] at this

/-- The loop of the flood fill returns when it has fuel for the grid cells not
yet dequeued, and it ends with the whole queue handled. -/
theorem floodLoop_spec (board : Board) (size : Nat)
    (hcells : ∀ x y, board.cell x y = 0 ∨ board.cell x y = 1 ∨ board.cell x y = 2)
    (v0 : List Point) (s : Point) :
    ∀ (fuel : Nat) (st : FloodState), FloodInv board size v0 s st.head [] st →
      st.areaSize = st.head → st.head ≤ st.q.length → size * size ≤ fuel + st.head →
      ∃ st', floodLoop board size fuel st = some st' ∧
        FloodInv board size v0 s st'.q.length [] st' ∧ st'.areaSize = st'.q.length := by
  intro fuel
  induction fuel with
  | zero =>
    intro st inv harea hle hfuel
    have hlen := inv.queue_length_le
    have heq : st.head = st.q.length := by omega
    unfold floodLoop
    rw [if_neg (by omega)]
    exact ⟨st, rfl, by rw [← heq]; exact inv, by rw [harea, heq]⟩
  | succ fuel ih =>
    intro st inv harea hle hfuel
    unfold floodLoop
    by_cases hlt : st.head < st.q.length
    · rw [if_pos hlt]
      simp only
      have hp : st.q[st.head]? = some (st.q.getD st.head (0, 0)) := by
        rw [List.getD_eq_getElem?_getD, List.getElem?_eq_getElem hlt]; rfl
      have inv1 : FloodInv board size v0 s st.head []
          { st with head := st.head + 1, areaSize := st.areaSize + 1 } :=
        ⟨inv.visited_eq, inv.nodup, inv.start_mem, inv.region, inv.closed, inv.closed_cur,
          inv.black_iff, inv.white_iff⟩
      obtain ⟨inv2, hp2, hh2, ha2⟩ := visit_loop board size hcells v0 s st.head
        (st.q.getD st.head (0, 0)) dirs []
        { st with head := st.head + 1, areaSize := st.areaSize + 1 } (fun d hd => hd) hp inv1
      simp only [List.nil_append] at inv2
      have inv3 := FloodInv.advance hp2 inv2
      have hlt3 := (List.getElem?_eq_some_iff.1 hp2).1
      apply ih
      · rw [hh2]; exact inv3
      · rw [hh2, ha2, harea]
      · rw [hh2]; exact hlt3
      · rw [hh2]; simp only; omega
    · rw [if_neg hlt]
      have heq : st.head = st.q.length := by omega
      exact ⟨st, rfl, by rw [← heq]; exact inv, by rw [harea, heq]⟩

theorem SameRegion.region_symm {board : Board} {size : Nat} {p q : Point}
    (hp : EmptyCell board size p) (h : SameRegion board size p q) :
    EmptyCell board size q ∧ SameRegion board size q p :=
  GoGame.SameGroup.group_symm hp h

/-- Cells of one region touch the same colours. -/
theorem RegionTouches.congr {board : Board} {size : Nat} {color : Int} {p q : Point}
    (hp : EmptyCell board size p) (h : SameRegion board size p q) :
    RegionTouches board size color q ↔ RegionTouches board size color p := by
  constructor
  · rintro ⟨r, hr, ht⟩
    exact ⟨r, Relation.ReflTransGen.trans h hr, ht⟩
  · rintro ⟨r, hr, ht⟩
    exact ⟨r, Relation.ReflTransGen.trans (SameRegion.region_symm hp h).2 hr, ht⟩

/-- One flood fill, started at an unmarked Empty cell `s` when the marked cells
`v0` are a union of whole regions: it returns; the queue holds the region of
`s`, each cell once; the newly marked cells are those of the queue; the area is
the size of the region; the flags tell which colours the region touches. -/
theorem flood_spec (board : Board) (size : Nat)
    (hcells : ∀ x y, board.cell x y = 0 ∨ board.cell x y = 1 ∨ board.cell x y = 2)
    (v0 : List Point) (s : Point) (hs : EmptyCell board size s) (hsv : s ∉ v0)
    (hnd : v0.Nodup) (hclosed : ∀ p ∈ v0, ∀ q, SameRegion board size p q → q ∈ v0) :
    ∃ st, floodLoop board size (size * size)
        { q := [s], head := 0, areaSize := 0, touchBlack := false, touchWhite := false,
          visited := s :: v0 } = some st ∧
      st.q.Nodup ∧ (∀ p, p ∈ st.q ↔ SameRegion board size s p) ∧
      st.visited = st.q.reverse ++ v0 ∧ st.visited.Nodup ∧ st.areaSize = st.q.length ∧
      (st.touchBlack = true ↔ RegionTouches board size 1 s) ∧
      (st.touchWhite = true ↔ RegionTouches board size 2 s) := by
  have init : FloodInv board size v0 s 0 []
      { q := [s], head := 0, areaSize := 0, touchBlack := false, touchWhite := false,
        visited := s :: v0 } := by
    refine ⟨rfl, List.nodup_cons.2 ⟨hsv, hnd⟩, List.mem_singleton_self s, ?_, ?_, ?_, ?_, ?_⟩
    · intro p hp
      rw [List.mem_singleton] at hp; subst hp
      exact ⟨hs, Relation.ReflTransGen.refl⟩
    · intro p hp; simp at hp
    · intro d hd; exact absurd hd (List.not_mem_nil d)
    · simp
    · simp
  obtain ⟨st, hloop, inv, harea⟩ := floodLoop_spec board size hcells v0 s (size * size)
    { q := [s], head := 0, areaSize := 0, touchBlack := false, touchWhite := false,
      visited := s :: v0 } init rfl (Nat.zero_le _) (le_refl _)
  have hqnd : st.q.Nodup := by
    have := inv.nodup
    rw [inv.visited_eq] at this
    exact List.nodup_reverse.1 (List.Nodup.of_append_left this)
  have hv0 : ∀ p ∈ v0, ¬ SameRegion board size s p := by
    intro p hp hsp
    exact hsv (hclosed p hp s (SameRegion.region_symm hs hsp).2)
  have hall : ∀ p ∈ st.q, ∀ r, GoGame.Link board size 0 p r → r ∈ st.q := by
    intro p hp r hr
    have hmem := inv.closed p (by rw [List.take_length]; exact hp) r hr
    rw [inv.visited_eq] at hmem
    rcases List.mem_append.1 hmem with h | h
    · exact List.mem_reverse.1 h
    · exact absurd (Relation.ReflTransGen.tail (inv.region p hp).2 hr) (hv0 r h)
  have hmem : ∀ p, p ∈ st.q ↔ SameRegion board size s p := by
    intro p
    constructor
    · intro hp; exact (inv.region p hp).2
    · intro hp
      induction hp with
      | refl => exact inv.start_mem
      | tail _ hbc ih => exact hall _ ih _ hbc
  refine ⟨st, hloop, hqnd, hmem, inv.visited_eq, inv.nodup, harea, ?_, ?_⟩
  · rw [inv.black_iff, List.take_length]
    constructor
    · rintro (⟨p, hp, ht⟩ | ⟨d, hd, _⟩)
      · exact ⟨p, (hmem p).1 hp, ht⟩
      · exact absurd hd (List.not_mem_nil d)
    · rintro ⟨p, hp, ht⟩
      exact Or.inl ⟨p, (hmem p).2 hp, ht⟩
  · rw [inv.white_iff, List.take_length]
    constructor
    · rintro (⟨p, hp, ht⟩ | ⟨d, hd, _⟩)
      · exact ⟨p, (hmem p).1 hp, ht⟩
      · exact absurd hd (List.not_mem_nil d)
    · rintro ⟨p, hp, ht⟩
      exact Or.inl ⟨p, (hmem p).2 hp, ht⟩

/-- Crediting a newly filled region `q` whose cells all satisfy `T`. -/
theorem territory_add (T : Point → Prop) (v0 q l : List Point) (n a : Nat) (hl : l.Nodup)
    (hlmem : ∀ p, p ∈ l ↔ p ∈ v0 ∧ T p) (hn : n = l.length) (hq : q.Nodup)
    (hdisj : ∀ p ∈ q, p ∉ v0) (hT : ∀ p ∈ q, T p) (ha : a = q.length) :
    ∃ l' : List Point, l'.Nodup ∧ (∀ p, p ∈ l' ↔ p ∈ q.reverse ++ v0 ∧ T p) ∧
      n + a = l'.length := by
  refine ⟨l ++ q, ?_, ?_, by rw [List.length_append, hn, ha]⟩
  · refine List.Nodup.append hl hq ?_
    intro p hpl hpq
    exact hdisj p hpq ((hlmem p).1 hpl).1
  · intro p
    simp only [List.mem_append, List.mem_reverse]
    constructor
    · rintro (h | h)
      · exact ⟨Or.inr ((hlmem p).1 h).1, ((hlmem p).1 h).2⟩
      · exact ⟨Or.inl h, hT p h⟩
    · rintro ⟨h | h, hTp⟩
      · exact Or.inr h
      · exact Or.inl ((hlmem p).2 ⟨h, hTp⟩)

/-- Not crediting a newly filled region `q` none of whose cells satisfies `T`. -/
theorem territory_keep (T : Point → Prop) (v0 q l : List Point) (n : Nat) (hl : l.Nodup)
    (hlmem : ∀ p, p ∈ l ↔ p ∈ v0 ∧ T p) (hn : n = l.length) (hT : ∀ p ∈ q, ¬ T p) :
    ∃ l' : List Point, l'.Nodup ∧ (∀ p, p ∈ l' ↔ p ∈ q.reverse ++ v0 ∧ T p) ∧
      n = l'.length := by
  refine ⟨l, hl, ?_, hn⟩
  intro p
  simp only [List.mem_append, List.mem_reverse]
  constructor
  · intro h
    exact ⟨Or.inr ((hlmem p).1 h).1, ((hlmem p).1 h).2⟩
  · rintro ⟨h | h, hTp⟩
    · exact absurd hTp (hT p h)
    · exact (hlmem p).2 ⟨h, hTp⟩

/-- One iteration of the counting loops keeps the invariant. -/
theorem tallyAt_spec (board : Board) (size : Nat)
    (hcells : ∀ x y, board.cell x y = 0 ∨ board.cell x y = 1 ∨ board.cell x y = 2)
    (pre : List Point) (t : Tally) (c : Point) (hc : InGrid size c)
    (inv : TallyInv board size pre t) :
    ∃ t', tallyAt board size t c.1 c.2 = some t' ∧ TallyInv board size (pre ++ [c]) t' := by
  unfold tallyAt
  by_cases h1 : board.cell c.1 c.2 = 1
  · rw [if_pos h1]
    refine ⟨_, rfl, inv.nodup, inv.empty, inv.closed, ?_, ?_, ?_, inv.black, inv.white⟩
    · intro p hp he
      rcases List.mem_append.1 hp with h | h
      · exact inv.covers p h he
      · rw [List.mem_singleton] at h; subst h
        have := he.2; rw [h1] at this; norm_num at this
    · simp only [List.filter_append, List.length_append, inv.blackCount_eq]
      simp [List.filter, h1]
    · simp only [List.filter_append, List.length_append, inv.whiteCount_eq]
      simp [List.filter, h1]
  · rw [if_neg h1]
    by_cases h2 : board.cell c.1 c.2 = 2
    · rw [if_pos h2]
      refine ⟨_, rfl, inv.nodup, inv.empty, inv.closed, ?_, ?_, ?_, inv.black, inv.white⟩
      · intro p hp he
        rcases List.mem_append.1 hp with h | h
        · exact inv.covers p h he
        · rw [List.mem_singleton] at h; subst h
          have := he.2; rw [h2] at this; norm_num at this
      · simp only [List.filter_append, List.length_append, inv.blackCount_eq]
        simp [List.filter, h2]
      · simp only [List.filter_append, List.length_append, inv.whiteCount_eq]
        simp [List.filter, h2]
    · rw [if_neg h2]
      have h0 : board.cell c.1 c.2 = 0 := by
        rcases hcells c.1 c.2 with h | h | h
        · exact h
        · exact absurd h h1
        · exact absurd h h2
      have hbc : t.blackCount =
          ((pre ++ [c]).filter fun p => board.cell p.1 p.2 = 1).length := by
        simp only [List.filter_append, List.length_append, inv.blackCount_eq]
        simp [List.filter, h0]
      have hwc : t.whiteCount =
          ((pre ++ [c]).filter fun p => board.cell p.1 p.2 = 2).length := by
        simp only [List.filter_append, List.length_append, inv.whiteCount_eq]
        simp [List.filter, h0]
      by_cases hv : (c.1, c.2) ∉ t.visited
      · rw [if_pos hv]
        obtain ⟨st, hloop, hqnd, hqmem, hvis, hvnd, harea, hblack, hwhite⟩ :=
          flood_spec board size hcells t.visited c ⟨hc, h0⟩ hv inv.nodup inv.closed
        have hloop1 : floodLoop board size (size * size)
            { q := [(c.1, c.2)], head := 0, areaSize := 0, touchBlack := false,
              touchWhite := false, visited := (c.1, c.2) :: t.visited } = some st := hloop
        rw [hloop1]
        simp only [Option.map_some']
        have hdisj : ∀ p ∈ st.q, p ∉ t.visited := by
          intro p hp hpv
          rw [hvis] at hvnd
          exact (List.nodup_append.1 hvnd).2.2 (List.mem_reverse.2 hp) hpv
        have hqempty : ∀ p ∈ st.q, EmptyCell board size p := fun p hp =>
          (SameRegion.region_symm ⟨hc, h0⟩ ((hqmem p).1 hp)).1
        have hempty : ∀ p ∈ st.visited, EmptyCell board size p := by
          intro p hp
          rw [hvis] at hp
          rcases List.mem_append.1 hp with h | h
          · exact hqempty p (List.mem_reverse.1 h)
          · exact inv.empty p h
        have hclosed : ∀ p ∈ st.visited, ∀ r, SameRegion board size p r → r ∈ st.visited := by
          intro p hp r hr
          rw [hvis] at hp ⊢
          rcases List.mem_append.1 hp with h | h
          · refine List.mem_append_left _ (List.mem_reverse.2 ((hqmem r).2 ?_))
            exact Relation.ReflTransGen.trans ((hqmem p).1 (List.mem_reverse.1 h)) hr
          · exact List.mem_append_right _ (inv.closed p h r hr)
        have hcovers : ∀ p ∈ pre ++ [c], EmptyCell board size p → p ∈ st.visited := by
          intro p hp he
          rw [hvis]
          rcases List.mem_append.1 hp with h | h
          · exact List.mem_append_right _ (inv.covers p h he)
          · rw [List.mem_singleton] at h; subst h
            exact List.mem_append_left _
              (List.mem_reverse.2 ((hqmem p).2 Relation.ReflTransGen.refl))
        have hterr : ∀ (a b : Int), ∀ p ∈ st.q,
            (TerritoryOf board size a b p ↔
              RegionTouches board size a c ∧ ¬ RegionTouches board size b c) := by
          intro a b p hp
          unfold TerritoryOf
          rw [RegionTouches.congr ⟨hc, h0⟩ ((hqmem p).1 hp),
            RegionTouches.congr ⟨hc, h0⟩ ((hqmem p).1 hp)]
          exact ⟨fun h => h.2, fun h => ⟨hqempty p hp, h⟩⟩
        obtain ⟨lb, hlb, hlbmem, hlblen⟩ := inv.black
        obtain ⟨lw, hlw, hlwmem, hlwlen⟩ := inv.white
        by_cases hb : st.touchBlack = true ∧ ¬ st.touchWhite = true
        · rw [if_pos hb]
          refine ⟨_, rfl, hvnd, hempty, hclosed, hcovers, hbc, hwc, ?_, ?_⟩
          · simp only [hvis]
            exact territory_add _ t.visited st.q lb _ _ hlb hlbmem hlblen hqnd hdisj
              (fun p hp => (hterr 1 2 p hp).2 ⟨hblack.1 hb.1, fun h => hb.2 (hwhite.2 h)⟩) harea
          · simp only [hvis]
            exact territory_keep _ t.visited st.q lw _ hlw hlwmem hlwlen
              (fun p hp h => ((hterr 2 1 p hp).1 h).2 (hblack.1 hb.1))
        · rw [if_neg hb]
          by_cases hw : ¬ st.touchBlack = true ∧ st.touchWhite = true
          · rw [if_pos hw]
            refine ⟨_, rfl, hvnd, hempty, hclosed, hcovers, hbc, hwc, ?_, ?_⟩
            · simp only [hvis]
              exact territory_keep _ t.visited st.q lb _ hlb hlbmem hlblen
                (fun p hp h => ((hterr 1 2 p hp).1 h).2 (hwhite.1 hw.2))
            · simp only [hvis]
              exact territory_add _ t.visited st.q lw _ _ hlw hlwmem hlwlen hqnd hdisj
                (fun p hp => (hterr 2 1 p hp).2 ⟨hwhite.1 hw.2, fun h => hw.1 (hblack.2 h)⟩)
                harea
          · rw [if_neg hw]
            refine ⟨_, rfl, hvnd, hempty, hclosed, hcovers, hbc, hwc, ?_, ?_⟩
            · simp only [hvis]
              refine territory_keep _ t.visited st.q lb _ hlb hlbmem hlblen ?_
              intro p hp h
              have := (hterr 1 2 p hp).1 h
              exact hb ⟨hblack.2 this.1, fun h' => this.2 (hwhite.1 h')⟩
            · simp only [hvis]
              refine territory_keep _ t.visited st.q lw _ hlw hlwmem hlwlen ?_
              intro p hp h
              have := (hterr 2 1 p hp).1 h
              exact hw ⟨fun h' => this.2 (hblack.1 h'), hwhite.2 this.1⟩
      · rw [if_neg hv]
        refine ⟨t, rfl, inv.nodup, inv.empty, inv.closed, ?_, hbc, hwc, inv.black, inv.white⟩
        intro p hp he
        rcases List.mem_append.1 hp with h | h
        · exact inv.covers p h he
        · rw [List.mem_singleton] at h; subst h
          exact not_not.1 hv

theorem tally_loop (board : Board) (size : Nat)
    (hcells : ∀ x y, board.cell x y = 0 ∨ board.cell x y = 1 ∨ board.cell x y = 2) :
    ∀ (cs pre : List Point) (t : Tally), (∀ c ∈ cs, InGrid size c) →
      TallyInv board size pre t →
      ∃ t', cs.foldlM (fun t p => tallyAt board size t p.1 p.2) t = some t' ∧
        TallyInv board size (pre ++ cs) t' := by
  intro cs
  induction cs with
  | nil =>
    intro pre t _ inv
    exact ⟨t, rfl, by simpa using inv⟩
  | cons c cs ih =>
    intro pre t hcs inv
    obtain ⟨t1, hstep, inv1⟩ := tallyAt_spec board size hcells pre t c
      (hcs c (List.mem_cons_self _ _)) inv
    obtain ⟨t', hfold, inv'⟩ := ih (pre ++ [c]) t1
      (fun c' hc' => hcs c' (List.mem_cons_of_mem _ hc')) inv1
    refine ⟨t', ?_, by simpa using inv'⟩
    rw [List.foldlM_cons, hstep]
    exact hfold

/-- The counting loops of `checkWin` return, and their result satisfies the
invariant for the whole grid. -/
theorem tally_spec (board : Board) (size : Nat)
    (hcells : ∀ x y, board.cell x y = 0 ∨ board.cell x y = 1 ∨ board.cell x y = 2) :
    ∃ t, tally board size = some t ∧ TallyInv board size (gridCells size) t := by
  have init : TallyInv board size []
      { blackCount := 0, whiteCount := 0, blackTerritory := 0, whiteTerritory := 0,
        visited := [] } := by
    refine ⟨List.nodup_nil, ?_, ?_, ?_, rfl, rfl, ⟨[], List.nodup_nil, ?_, rfl⟩,
      ⟨[], List.nodup_nil, ?_, rfl⟩⟩
    · intro p hp; exact absurd hp (List.not_mem_nil p)
    · intro p hp; exact absurd hp (List.not_mem_nil p)
    · intro p hp; exact absurd hp (List.not_mem_nil p)
    · intro p; simp
    · intro p; simp
  obtain ⟨t, hfold, inv⟩ := tally_loop board size hcells (gridCells size) [] _
    (fun c hc => (mem_gridCells size c).1 hc) init
  exact ⟨t, hfold, by simpa using inv⟩

/-- After the counting loops the marked cells are exactly the Empty cells of the grid. -/
theorem TallyInv.mem_visited_iff {board : Board} {size : Nat} {t : Tally}
    (inv : TallyInv board size (gridCells size) t) (p : Point) :
    p ∈ t.visited ↔ EmptyCell board size p :=
  ⟨inv.empty p, fun h => inv.covers p ((mem_gridCells size p).2 h.1) h⟩

/-! ### Termination on every board -/

theorem visit_bound (board : Board) (size : Nat) (v0 : List Point) (st : FloodState)
    (nx ny : Int) (inv : FloodBound size v0 st) :
    FloodBound size v0 (visit board size st nx ny) ∧
    (visit board size st nx ny).head = st.head ∧
    st.q.length ≤ (visit board size st nx ny).q.length := by
  unfold visit
  by_cases hin : nx ≥ 0 ∧ nx < size ∧ ny ≥ 0 ∧ ny < size
  · rw [if_pos hin]
    simp only
    by_cases h1 : board.cell nx ny = 1
    · rw [if_pos h1]
      exact ⟨⟨inv.visited_eq, inv.nodup, inv.inGrid⟩, rfl, le_refl _⟩
    · rw [if_neg h1]
      by_cases h2 : board.cell nx ny = 2
      · rw [if_pos h2]
        exact ⟨⟨inv.visited_eq, inv.nodup, inv.inGrid⟩, rfl, le_refl _⟩
      · rw [if_neg h2]
        by_cases hv : (nx, ny) ∉ st.visited
        · rw [if_pos hv]
          refine ⟨⟨?_, List.nodup_cons.2 ⟨hv, inv.nodup⟩, ?_⟩, rfl, by simp⟩
          · simp only [List.reverse_append, List.reverse_cons, List.reverse_nil, List.nil_append,
              List.singleton_append, List.cons_append]
            rw [inv.visited_eq]
          · intro p hp
            rcases List.mem_append.1 hp with h | h
            · exact inv.inGrid p h
            · rw [List.mem_singleton] at h; subst h
              unfold InGrid; simp only; omega
        · rw [if_neg hv]
          exact ⟨inv, rfl, le_refl _⟩
  · rw [if_neg hin]
    exact ⟨inv, rfl, le_refl _⟩

theorem visit_loop_bound (board : Board) (size : Nat) (v0 : List Point) (x y : Int) :
    ∀ (ds : List Point) (st : FloodState), FloodBound size v0 st →
      FloodBound size v0 (ds.foldl (fun s d => visit board size s (x + d.1) (y + d.2)) st) ∧
      (ds.foldl (fun s d => visit board size s (x + d.1) (y + d.2)) st).head = st.head ∧
      st.q.length ≤ (ds.foldl (fun s d => visit board size s (x + d.1) (y + d.2)) st).q.length := by
  intro ds
  induction ds with
  | nil => intro st inv; exact ⟨inv, rfl, le_refl _⟩
  | cons d ds ih =>
    intro st inv
    obtain ⟨inv1, hh1, hl1⟩ := visit_bound board size v0 st (x + d.1) (y + d.2) inv
    obtain ⟨inv2, hh2, hl2⟩ := ih _ inv1
    simp only [List.foldl_cons]
    exact ⟨inv2, hh2.trans hh1, le_trans hl1 hl2⟩

theorem FloodBound.queue_bounded {size : Nat} {v0 : List Point} {st : FloodState}
    (inv : FloodBound size v0 st) : st.q.length ≤ size * size := by
  have hnd : st.q.Nodup := by
    have := inv.nodup
    rw [inv.visited_eq] at this
    exact List.nodup_reverse.1 (List.Nodup.of_append_left this)
  have hsub : st.q ⊆ gridCells size := fun p hp => (mem_gridCells size p).2 (inv.inGrid p hp)
  have := (List.subperm_of_subset hnd hsub).length_le
  rwa [length_gridCells] at this

/-- On every board the loop of the flood fill returns when it has fuel for the
grid cells not yet dequeued. -/
theorem floodLoop_total (board : Board) (size : Nat) (v0 : List Point) :
    ∀ (fuel : Nat) (st : FloodState), FloodBound size v0 st →
      st.head ≤ st.q.length → size * size ≤ fuel + st.head →
      ∃ st', floodLoop board size fuel st = some st' ∧ FloodBound size v0 st' := by
  intro fuel
  induction fuel with
  | zero =>
    intro st inv hle hfuel
    have hlen := inv.queue_bounded
    unfold floodLoop
    rw [if_neg (by omega)]
    exact ⟨st, rfl, inv⟩
  | succ fuel ih =>
    intro st inv hle hfuel
    unfold floodLoop
    by_cases hlt : st.head < st.q.length
    · rw [if_pos hlt]
      simp only
      have inv1 : FloodBound size v0
          { st with head := st.head + 1, areaSize := st.areaSize + 1 } :=
        ⟨inv.visited_eq, inv.nodup, inv.inGrid⟩
      obtain ⟨inv2, hh2, hl2⟩ := visit_loop_bound board size v0
        (st.q.getD st.head (0, 0)).1 (st.q.getD st.head (0, 0)).2 dirs _ inv1
      apply ih _ inv2
      · rw [hh2]; simp only at hl2 ⊢; omega
      · rw [hh2]; simp only; omega
    · rw [if_neg hlt]
      exact ⟨st, rfl, inv⟩

theorem tallyAt_total (board : Board) (size : Nat) (t : Tally) (c : Point)
    (hc : InGrid size c) (hnd : t.visited.Nodup) :
    ∃ t', tallyAt board size t c.1 c.2 = some t' ∧ t'.visited.Nodup := by
  unfold tallyAt
  by_cases h1 : board.cell c.1 c.2 = 1
  · rw [if_pos h1]; exact ⟨_, rfl, hnd⟩
  rw [if_neg h1]
  by_cases h2 : board.cell c.1 c.2 = 2
  · rw [if_pos h2]; exact ⟨_, rfl, hnd⟩
  rw [if_neg h2]
  by_cases hv : (c.1, c.2) ∉ t.visited
  · rw [if_pos hv]
    have init : FloodBound size t.visited
        { q := [(c.1, c.2)], head := 0, areaSize := 0, touchBlack := false,
          touchWhite := false, visited := (c.1, c.2) :: t.visited } := by
      refine ⟨rfl, List.nodup_cons.2 ⟨hv, hnd⟩, ?_⟩
      intro p hp
      rw [List.mem_singleton] at hp; subst hp
      exact hc
    obtain ⟨st, hloop, inv⟩ := floodLoop_total board size t.visited (size * size) _ init
      (Nat.zero_le _) (le_refl _)
    rw [hloop]
    simp only [Option.map_some']
    split_ifs
    · exact ⟨_, rfl, inv.nodup⟩
    · exact ⟨_, rfl, inv.nodup⟩
    · exact ⟨_, rfl, inv.nodup⟩
  · rw [if_neg hv]; exact ⟨_, rfl, hnd⟩

/-- On every board the counting loops of `checkWin` return. -/
theorem tally_total (board : Board) (size : Nat) : ∃ t, tally board size = some t := by
  have key : ∀ (cs : List Point) (t : Tally), (∀ c ∈ cs, InGrid size c) → t.visited.Nodup →
      ∃ t', cs.foldlM (fun t p => tallyAt board size t p.1 p.2) t = some t' := by
    intro cs
    induction cs with
    | nil => intro t _ _; exact ⟨t, rfl⟩
    | cons c cs ih =>
      intro t hcs hnd
      obtain ⟨t1, hstep, hnd1⟩ := tallyAt_total board size t c (hcs c (List.mem_cons_self _ _)) hnd
      obtain ⟨t', hfold⟩ := ih t1 (fun c' hc' => hcs c' (List.mem_cons_of_mem _ hc')) hnd1
      exact ⟨t', by rw [List.foldlM_cons, hstep]; exact hfold⟩
  exact key (gridCells size) _ (fun c hc => (mem_gridCells size c).1 hc) List.nodup_nil

end GoWinStrategy

/-! ## The engine operations -/

namespace GoGame

theorem CaptureFrame.refl (g : AbstractGame) : CaptureFrame g g :=
  ⟨rfl, rfl, rfl, rfl, rfl, rfl, ⟨[], by simp⟩⟩

theorem CaptureFrame.trans {g0 g1 g2 : AbstractGame} (h1 : CaptureFrame g0 g1)
    (h2 : CaptureFrame g1 g2) : CaptureFrame g0 g2 := by
  obtain ⟨c1, e1⟩ := h1.events_eq
  obtain ⟨c2, e2⟩ := h2.events_eq
  exact ⟨h2.size_eq.trans h1.size_eq, h2.type_eq.trans h1.type_eq,
    h2.currentPlayer_eq.trans h1.currentPlayer_eq, h2.history_eq.trans h1.history_eq,
    h2.passCount_eq.trans h1.passCount_eq, h2.resultDesc_eq.trans h1.resultDesc_eq,
    ⟨c1 ++ c2, by rw [e2, e1, List.map_append, List.append_assoc]⟩⟩

/-- On every board `removeDeadGroup` returns, changing nothing but the board
and sending at most one capture message. -/
theorem removeDeadGroup_frame (g : AbstractGame) (x y color : Int) (hcol : color ≠ 0) :
    ∃ g', removeDeadGroup g x y color = some g' ∧ CaptureFrame g g' := by
  obtain ⟨n, v, hcall, _⟩ := countLiberties_spec g.board g.size color hcol (g.size * g.size)
    x y [] (freeCells_le g.size [])
  unfold removeDeadGroup
  rw [hcall]
  simp only [Option.map_some']
  split_ifs
  · exact ⟨_, rfl, rfl, rfl, rfl, rfl, rfl, rfl, ⟨[v.length], by simp [AbstractGame.notifyMessage]⟩⟩
  · exact ⟨_, rfl, rfl, rfl, rfl, rfl, rfl, rfl, ⟨[], by simp⟩⟩
  · exact ⟨_, rfl, CaptureFrame.refl g⟩

/-- On every board `postMoveProcess` returns, changing nothing but the board
and sending capture messages only. -/
theorem postMoveProcess_frame (g : AbstractGame) (r c : Int) :
    ∃ g', postMoveProcess g r c = some g' ∧ CaptureFrame g g' := by
  have hcol : (if g.board.cell r c = 1 then (2 : Int) else 1) ≠ 0 := by
    split <;> norm_num
  have key : ∀ (color : Int), color ≠ 0 → ∀ (ds : List Point) (g1 : AbstractGame),
      CaptureFrame g g1 →
      ∃ g', ds.foldlM (fun (a : AbstractGame) d =>
          if r + d.1 ≥ 0 ∧ r + d.1 < a.size ∧ c + d.2 ≥ 0 ∧ c + d.2 < a.size ∧
              a.board.cell (r + d.1) (c + d.2) = color
          then removeDeadGroup a (r + d.1) (c + d.2) color
          else some a) g1 = some g' ∧ CaptureFrame g g' := by
    intro color hcolor ds
    induction ds with
    | nil => intro g1 h1; exact ⟨g1, rfl, h1⟩
    | cons d ds ih =>
      intro g1 h1
      rw [List.foldlM_cons]
      by_cases hcond : r + d.1 ≥ 0 ∧ r + d.1 < g1.size ∧ c + d.2 ≥ 0 ∧ c + d.2 < g1.size ∧
          g1.board.cell (r + d.1) (c + d.2) = color
      · rw [if_pos hcond]
        obtain ⟨g2, hrem, h2⟩ := removeDeadGroup_frame g1 (r + d.1) (c + d.2) color hcolor
        rw [hrem]
        exact ih g2 (h1.trans h2)
      · rw [if_neg hcond]
        exact ih g1 h1
  exact key _ hcol dirs g (CaptureFrame.refl g)

end GoGame

namespace AbstractGame

theorem isValid_iff (g : AbstractGame) (x y : Int) :
    g.isValid x y = true ↔ g.board.cell x y = 0 := by
  unfold isValid
  cases g.type <;> simp [GomokuMoveStrategy.isValid, GoMoveStrategy.isValid]

theorem makeMove_outOfRange (g : AbstractGame) (x y : Int)
    (h : x < 0 ∨ x ≥ g.size ∨ y < 0 ∨ y ≥ g.size) :
    g.makeMove x y = some { thrown := some GameException.outOfRange, state := g } := by
  unfold makeMove
  rw [if_pos h]

theorem makeMove_occupied (g : AbstractGame) (x y : Int)
    (h : ¬ (x < 0 ∨ x ≥ g.size ∨ y < 0 ∨ y ≥ g.size)) (hc : g.board.cell x y ≠ 0) :
    g.makeMove x y = some { thrown := some GameException.cannotPlaceHere, state := g } := by
  unfold makeMove
  rw [if_neg h, if_pos]
  rw [isValid_iff]
  exact hc

/-- The virtual `postMoveProcess` returns on every board and changes nothing
but the board and the events. -/
theorem postMoveProcess_virtual_frame (g : AbstractGame) (x y : Int) :
    ∃ g', g.postMoveProcess x y = some g' ∧ GoGame.CaptureFrame g g' := by
  unfold postMoveProcess
  cases g.type with
  | GOMOKU => exact ⟨g, rfl, GoGame.CaptureFrame.refl g⟩
  | GO => exact GoGame.postMoveProcess_frame g x y

/-- The call `checkWin(board, size, false)` returns on every board and changes
nothing in the state. -/
theorem checkWin_false (g : AbstractGame) :
    ∃ w, g.checkWin false = some (w, g) := by
  obtain ⟨ty, _, _, _, _, _, _, _⟩ := g
  cases ty
  · exact ⟨_, rfl⟩
  · exact ⟨PieceColor.NONE, rfl⟩

/-- A placement on an Empty grid cell succeeds: nothing is thrown, the pass
counter is 0 afterwards, and the history has one more entry. -/
theorem makeMove_legal (g : AbstractGame) (x y : Int)
    (h : ¬ (x < 0 ∨ x ≥ g.size ∨ y < 0 ∨ y ≥ g.size)) (hc : g.board.cell x y = 0) :
    ∃ o, g.makeMove x y = some o ∧ o.thrown = none ∧ o.state.passCount = 0 ∧
      o.state.type = g.type ∧ o.state.size = g.size ∧
      o.state.history = (g.placeStone x y).history := by
  unfold makeMove
  rw [if_neg h, if_neg (by rw [isValid_iff]; exact not_not.2 hc)]
  simp only
  obtain ⟨g4, hpost, frame⟩ := postMoveProcess_virtual_frame (g.placeStone x y) x y
  rw [hpost]
  obtain ⟨w, hwin⟩ := checkWin_false g4
  simp only [Option.some_bind, hwin, Option.map_some']
  refine ⟨_, rfl, ?_⟩
  split_ifs
  · exact ⟨rfl, frame.passCount_eq, frame.type_eq, frame.size_eq, frame.history_eq⟩
  · exact ⟨rfl, frame.passCount_eq, frame.type_eq, frame.size_eq, frame.history_eq⟩

/-- On every state `makeMove` returns. -/
theorem makeMove_total (g : AbstractGame) (x y : Int) : ∃ o, g.makeMove x y = some o := by
  by_cases h : x < 0 ∨ x ≥ g.size ∨ y < 0 ∨ y ≥ g.size
  · exact ⟨_, makeMove_outOfRange g x y h⟩
  · by_cases hc : g.board.cell x y = 0
    · obtain ⟨o, ho, _⟩ := makeMove_legal g x y h hc
      exact ⟨o, ho⟩
    · exact ⟨_, makeMove_occupied g x y h hc⟩

theorem passTurn_gomoku (g : AbstractGame) (h : g.type = GameType.GOMOKU) :
    g.passTurn = some { thrown := some GameException.gomokuCannotPass, state := g } := by
  unfold passTurn
  rw [if_pos h]

/-- The settlement call `checkWin(board, size, true)` of a Go game returns on
every board; only `resultDesc` changes. -/
theorem checkWin_true_go (g : AbstractGame) (h : g.type = GameType.GO) :
    ∃ w d, g.checkWin true = some (w, { g with resultDesc := some d }) := by
  obtain ⟨t, ht⟩ := GoWinStrategy.tally_total g.board g.size
  obtain ⟨ty, sz, b, cp, hist, pc, rd, ev⟩ := g
  simp only at h ht
  subst h
  simp only [checkWin, GoWinStrategy.checkWin, ht, not_true_eq_false, if_false,
    Option.map_some']
  by_cases hgt : GoWinStrategy.finalBlack t > GoWinStrategy.finalWhite t
  · rw [if_pos hgt]; exact ⟨_, _, rfl⟩
  · rw [if_neg hgt]; exact ⟨_, _, rfl⟩

/-- In a Go game `passTurn` returns without throwing; the counter is then 0
after a settlement and one more than before otherwise, and the history has
one more entry. -/
theorem passTurn_go (g : AbstractGame) (h : g.type = GameType.GO) :
    ∃ o, g.passTurn = some o ∧ o.thrown = none ∧ o.state.type = GameType.GO ∧
      o.state.passCount = (if g.passCountAfterIncrement ≥ 2 then 0 else g.passCount + 1) ∧
      o.state.history = g.createMemento :: g.history := by
  unfold passTurn
  rw [if_neg (by rw [h]; decide)]
  simp only
  by_cases h2 : g.passCountAfterIncrement ≥ 2
  · rw [if_pos h2, if_pos h2]
    obtain ⟨w, d, hwin⟩ := checkWin_true_go
      { g.saveStateToHistory with passCount := g.passCountAfterIncrement } h
    rw [hwin]
    exact ⟨_, rfl, rfl, h, rfl, rfl⟩
  · rw [if_neg h2, if_neg h2]
    exact ⟨_, rfl, rfl, h, rfl, rfl⟩

/-- On every state `passTurn` returns. -/
theorem passTurn_total (g : AbstractGame) : ∃ o, g.passTurn = some o := by
  cases h : g.type with
  | GOMOKU => exact ⟨_, passTurn_gomoku g h⟩
  | GO =>
    obtain ⟨o, ho, _⟩ := passTurn_go g h
    exact ⟨o, ho⟩

/-- On every state a call returns. -/
theorem call_total (g : AbstractGame) (c : Call) : ∃ o, g.call c = some o := by
  cases c with
  | makeMove x y => exact makeMove_total g x y
  | passTurn => exact passTurn_total g

theorem run_append (g : AbstractGame) (cs : List Call) (c : Call) :
    g.run (cs ++ [c]) = (g.run cs).bind fun r =>
      (r.1.call c).map fun o => (o.state, r.2 ++ [effectOf r.1 c o]) := by
  unfold run
  rw [List.foldlM_append]
  simp only [List.foldlM_cons, List.foldlM_nil, Option.bind_eq_bind]
  congr 1
  funext r
  simp [Option.map_eq_bind]

end AbstractGame

/-! ## Sequences of calls: the pass counter -/

theorem lastSuccessful_append (es : List Effect) (e : Effect) :
    lastSuccessful (es ++ [e]) = if e = Effect.failed then lastSuccessful es else some e := by
  unfold lastSuccessful
  rw [List.filter_append]
  by_cases he : e = Effect.failed
  · subst he
    simp
  · rw [if_neg he]
    have : List.filter (fun e => decide (e ≠ Effect.failed)) [e] = [e] := by
      simp [List.filter, he]
    rw [this, List.getLast?_append]
    simp

/-- One call keeps the relation between the pass counter and the effects. -/
theorem PassInv.pass_step {g : AbstractGame} {es : List Effect} (inv : PassInv g es) (c : Call) :
    ∃ o, g.call c = some o ∧ PassInv o.state (es ++ [g.effectOf c o]) ∧
      (g.effectOf c o = Effect.moved → o.state.passCount = 0) ∧
      (g.effectOf c o = Effect.settled ↔
        c = Call.passTurn ∧ lastSuccessful es = some Effect.passed) ∧
      (g.effectOf c o = Effect.settled → g.passCountAfterIncrement = 2) := by
  obtain ⟨hty, hcount⟩ := inv
  cases c with
  | makeMove x y =>
    by_cases h : x < 0 ∨ x ≥ g.size ∨ y < 0 ∨ y ≥ g.size
    · refine ⟨_, AbstractGame.makeMove_outOfRange g x y h, ?_, ?_, ?_, ?_⟩
      · simp only [AbstractGame.effectOf]
        exact ⟨hty, by rw [lastSuccessful_append]; simpa using hcount⟩
      · simp [AbstractGame.effectOf]
      · simp [AbstractGame.effectOf]
      · simp [AbstractGame.effectOf]
    · by_cases hc : g.board.cell x y = 0
      · obtain ⟨o, ho, hthrown, hpass, htype, _, _⟩ := AbstractGame.makeMove_legal g x y h hc
        have heff : g.effectOf (Call.makeMove x y) o = Effect.moved := by
          simp [AbstractGame.effectOf, hthrown]
        refine ⟨o, ho, ?_, fun _ => hpass, ?_, ?_⟩
        · rw [heff]
          refine ⟨htype.trans hty, Or.inl ⟨hpass, ?_⟩⟩
          rw [lastSuccessful_append]
          simp
        · rw [heff]; simp
        · rw [heff]; simp
      · refine ⟨_, AbstractGame.makeMove_occupied g x y h hc, ?_, ?_, ?_, ?_⟩
        · simp only [AbstractGame.effectOf]
          exact ⟨hty, by rw [lastSuccessful_append]; simpa using hcount⟩
        · simp [AbstractGame.effectOf]
        · simp [AbstractGame.effectOf]
        · simp [AbstractGame.effectOf]
  | passTurn =>
    obtain ⟨o, ho, hthrown, htype, hpass, _⟩ := AbstractGame.passTurn_go g hty
    refine ⟨o, ho, ?_, ?_, ?_, ?_⟩
    · rcases hcount with ⟨h0, hl⟩ | ⟨h1, hl⟩
      · have hlt : ¬ g.passCountAfterIncrement ≥ 2 := by
          unfold AbstractGame.passCountAfterIncrement; omega
        have heff : g.effectOf Call.passTurn o = Effect.passed := by
          simp [AbstractGame.effectOf, hthrown, hlt]
        rw [heff]
        refine ⟨htype, Or.inr ⟨?_, ?_⟩⟩
        · rw [hpass, if_neg hlt, h0]; rfl
        · rw [lastSuccessful_append]; simp
      · have hge : g.passCountAfterIncrement ≥ 2 := by
          unfold AbstractGame.passCountAfterIncrement; omega
        have heff : g.effectOf Call.passTurn o = Effect.settled := by
          simp [AbstractGame.effectOf, hthrown, hge]
        rw [heff]
        refine ⟨htype, Or.inl ⟨?_, ?_⟩⟩
        · rw [hpass, if_pos hge]
        · rw [lastSuccessful_append]; simp
    · simp only [AbstractGame.effectOf, hthrown]
      split_ifs <;> simp
    · rcases hcount with ⟨h0, hl⟩ | ⟨h1, hl⟩
      · have hlt : ¬ g.passCountAfterIncrement ≥ 2 := by
          unfold AbstractGame.passCountAfterIncrement; omega
        simp only [AbstractGame.effectOf, hthrown, if_neg hlt]
        simp only [true_and]
        constructor
        · intro h; cases h
        · intro h; exact absurd h hl
      · have hge : g.passCountAfterIncrement ≥ 2 := by
          unfold AbstractGame.passCountAfterIncrement; omega
        simp only [AbstractGame.effectOf, hthrown, if_pos hge]
        simp [hl]
    · rcases hcount with ⟨h0, hl⟩ | ⟨h1, hl⟩
      · have hlt : ¬ g.passCountAfterIncrement ≥ 2 := by
          unfold AbstractGame.passCountAfterIncrement; omega
        simp only [AbstractGame.effectOf, hthrown, if_neg hlt]
        intro h; cases h
      · intro _
        unfold AbstractGame.passCountAfterIncrement; omega

/-- Every sequence of calls on a fresh Go match returns, and the relation
between the pass counter and the effects holds at its end. -/
theorem PassInv.run_fresh (n : Nat) (cs : List Call) :
    ∃ g es, (AbstractGame.create GameType.GO n).run cs = some (g, es) ∧ PassInv g es := by
  induction cs using List.reverseRecOn with
  | nil =>
    refine ⟨_, [], rfl, rfl, Or.inl ⟨rfl, ?_⟩⟩
    simp [lastSuccessful]
  | append_singleton cs c ih =>
    obtain ⟨g, es, hrun, inv⟩ := ih
    obtain ⟨o, ho, inv', _⟩ := inv.pass_step c
    refine ⟨o.state, es ++ [g.effectOf c o], ?_, inv'⟩
    rw [AbstractGame.run_append, hrun]
    simp [ho]

/-! ## Go: what `countLiberties` counts -/

namespace GoGame

/-- The loop over the directions adds, for every direction, what the recursive
call returns: 1 for an Empty grid cell and the faces of the newly inserted
stones. -/
theorem countLiberties_loop_count (board : Board) (size : Nat) (color : Int) (fuel : Nat)
    (c : Point)
    (ih : ∀ x y v n v', countLiberties board size fuel x y color v = some (n, v') →
      ∃ new, v' = new ++ v ∧
        n = (if InGrid size (x, y) ∧ board.cell x y = 0 then 1 else 0) +
          (new.map (libertyFaces board size)).sum) :
    ∀ (ds : List Point) (n : Nat) (v : List Point) (n' : Nat) (v' : List Point),
      ds.foldlM (fun (acc : Nat × List Point) d =>
          (countLiberties board size fuel (c.1 + d.1) (c.2 + d.2) color acc.2).map fun r =>
            (acc.1 + r.1, r.2)) (n, v) = some (n', v') →
      ∃ new, v' = new ++ v ∧
        n' = n + (ds.filter fun d =>
            InGrid size (c.1 + d.1, c.2 + d.2) ∧ board.cell (c.1 + d.1) (c.2 + d.2) = 0).length +
          (new.map (libertyFaces board size)).sum := by
  intro ds
  induction ds with
  | nil =>
    intro n v n' v' h
    simp only [List.foldlM_nil, Option.pure_def, Option.some.injEq, Prod.mk.injEq] at h
    exact ⟨[], by simp [h.2], by simp [h.1]⟩
  | cons d ds ihds =>
    intro n v n' v' h
    rw [List.foldlM_cons] at h
    cases hcall : countLiberties board size fuel (c.1 + d.1) (c.2 + d.2) color v with
    | none => simp [hcall] at h
    | some r =>
      obtain ⟨m, v1⟩ := r
      simp only [hcall, Option.map_some', Option.bind_eq_bind, Option.some_bind] at h
      obtain ⟨new1, hv1, hm⟩ := ih _ _ _ _ _ hcall
      obtain ⟨new2, hv2, hn2⟩ := ihds _ _ _ _ h
      refine ⟨new2 ++ new1, by rw [hv2, hv1, List.append_assoc], ?_⟩
      rw [hn2, hm, List.filter_cons, List.map_append, List.sum_append]
      by_cases he : InGrid size (c.1 + d.1, c.2 + d.2) ∧ board.cell (c.1 + d.1) (c.2 + d.2) = 0
      · simp only [he, and_self, decide_True, if_true, List.length_cons]
        omega
      · simp only [he, decide_False, if_false]
        simp only [Bool.false_eq_true, if_false]
        omega

/-- Whenever `countLiberties` returns, the set has grown by a list `new` of
stones, and the count is 1 for an Empty grid cell plus the faces of the stones
in `new`. -/
theorem countLiberties_count (board : Board) (size : Nat) (color : Int) :
    ∀ (fuel : Nat) (x y : Int) (v : List Point) (n : Nat) (v' : List Point),
      countLiberties board size fuel x y color v = some (n, v') →
      ∃ new, v' = new ++ v ∧
        n = (if InGrid size (x, y) ∧ board.cell x y = 0 then 1 else 0) +
          (new.map (libertyFaces board size)).sum := by
  have leaf : ∀ (x y : Int) (v : List Point) (n : Nat) (v' : List Point) (k : Nat),
      some (k, v) = some (n, v') →
      k = (if InGrid size (x, y) ∧ board.cell x y = 0 then 1 else 0) →
      ∃ new, v' = new ++ v ∧
        n = (if InGrid size (x, y) ∧ board.cell x y = 0 then 1 else 0) +
          (new.map (libertyFaces board size)).sum := by
    intro x y v n v' k h hk
    simp only [Option.some.injEq, Prod.mk.injEq] at h
    exact ⟨[], by simp [h.2], by simp [← h.1, hk]⟩
  have hleaf : ∀ (fuel : Nat) (x y : Int) (v : List Point) (n : Nat) (v' : List Point),
      countLiberties board size fuel x y color v = some (n, v') →
      (x < 0 ∨ x ≥ size ∨ y < 0 ∨ y ≥ size) ∨ board.cell x y = 0 ∨ board.cell x y ≠ color ∨
        (x, y) ∈ v →
      ∃ new, v' = new ++ v ∧
        n = (if InGrid size (x, y) ∧ board.cell x y = 0 then 1 else 0) +
          (new.map (libertyFaces board size)).sum := by
    intro fuel x y v n v' h hcase
    unfold countLiberties at h
    by_cases h1 : x < 0 ∨ x ≥ size ∨ y < 0 ∨ y ≥ size
    · rw [if_pos h1] at h
      refine leaf x y v n v' 0 h ?_
      rw [if_neg]
      rintro ⟨hin, _⟩
      unfold InGrid at hin; simp only at hin; omega
    · rw [if_neg h1] at h
      have hin : InGrid size (x, y) := by unfold InGrid; simp only; omega
      by_cases h2 : board.cell x y = 0
      · rw [if_pos h2] at h
        exact leaf x y v n v' 1 h (by rw [if_pos ⟨hin, h2⟩])
      · rw [if_neg h2] at h
        have hz : (if InGrid size (x, y) ∧ board.cell x y = 0 then 1 else 0) = 0 := by
          rw [if_neg]; exact fun hh => h2 hh.2
        by_cases h3 : board.cell x y ≠ color
        · rw [if_pos h3] at h
          exact leaf x y v n v' 0 h hz.symm
        · rw [if_neg h3] at h
          by_cases h4 : (x, y) ∈ v
          · rw [if_pos h4] at h
            exact leaf x y v n v' 0 h hz.symm
          · exfalso
            rcases hcase with hc | hc | hc | hc
            · exact h1 hc
            · exact h2 hc
            · exact h3 hc
            · exact h4 hc
  intro fuel
  induction fuel with
  | zero =>
    intro x y v n v' h
    by_cases hcase : (x < 0 ∨ x ≥ size ∨ y < 0 ∨ y ≥ size) ∨ board.cell x y = 0 ∨
        board.cell x y ≠ color ∨ (x, y) ∈ v
    · exact hleaf 0 x y v n v' h hcase
    · exfalso
      have c1 := (not_or.1 hcase).1
      have c2 := (not_or.1 (not_or.1 hcase).2).1
      have c3 := (not_or.1 (not_or.1 (not_or.1 hcase).2).2).1
      have c4 := (not_or.1 (not_or.1 (not_or.1 hcase).2).2).2
      unfold countLiberties at h
      rw [if_neg c1, if_neg c2, if_neg c3, if_neg c4] at h
      simp at h
  | succ fuel ih =>
    intro x y v n v' h
    by_cases hcase : (x < 0 ∨ x ≥ size ∨ y < 0 ∨ y ≥ size) ∨ board.cell x y = 0 ∨
        board.cell x y ≠ color ∨ (x, y) ∈ v
    · exact hleaf (fuel + 1) x y v n v' h hcase
    · have c1 := (not_or.1 hcase).1
      have c2 := (not_or.1 (not_or.1 hcase).2).1
      have c3 := (not_or.1 (not_or.1 (not_or.1 hcase).2).2).1
      have c4 := (not_or.1 (not_or.1 (not_or.1 hcase).2).2).2
      unfold countLiberties at h
      rw [if_neg c1, if_neg c2, if_neg c3, if_neg c4] at h
      simp only at h
      obtain ⟨new, hv', hn⟩ := countLiberties_loop_count board size color fuel (x, y) ih
        dirs 0 ((x, y) :: v) n v' h
      refine ⟨new ++ [(x, y)], by rw [hv']; simp, ?_⟩
      rw [hn, if_neg (fun hh => c2 hh.2), List.map_append, List.sum_append]
      simp only [List.map_cons, List.map_nil, List.sum_cons, List.sum_nil, libertyFaces]
      omega

/-- Started on a stone with an empty set, `countLiberties` returns the sum, over
the stones of the group, of the number of directions in which the stone faces
an Empty grid cell. -/
theorem countLiberties_faces (board : Board) (size : Nat) (color : Int) (hcol : color ≠ 0)
    (p : Point) (hin : InGrid size p) (hp : board.cell p.1 p.2 = color) :
    ∃ n group, countLiberties board size (size * size) p.1 p.2 color [] = some (n, group) ∧
      group.Nodup ∧ (∀ q, q ∈ group ↔ SameGroup board size color p q) ∧
      n = (group.map (libertyFaces board size)).sum ∧
      (n = 0 ↔ ∀ q, SameGroup board size color p q → ¬ HasLiberty board size q) := by
  obtain ⟨n, group, hcall, hnd, hmem, hzero⟩ :=
    countLiberties_group board size color hcol p hin hp
  obtain ⟨new, hnew, hn⟩ := countLiberties_count board size color _ _ _ _ _ _ hcall
  refine ⟨n, group, hcall, hnd, hmem, ?_, hzero⟩
  rw [List.append_nil] at hnew
  rw [hn, hnew, if_neg, Nat.zero_add]
  rintro ⟨_, h0⟩
  exact hcol (hp.symm.trans h0)

end GoGame

/-! ## The engine operations in full -/

namespace AbstractGame

/-- A placement on an Empty grid cell, step by step: the capture step returns a
state `g4`, the win check on it returns a winner `w` and leaves the state as it
is, and the outcome is the state after the notifications of the branch taken. -/
theorem makeMove_legal_full (g : AbstractGame) (x y : Int)
    (h : ¬ (x < 0 ∨ x ≥ g.size ∨ y < 0 ∨ y ≥ g.size)) (hc : g.board.cell x y = 0) :
    ∃ g4 w, (g.placeStone x y).postMoveProcess x y = some g4 ∧
      GoGame.CaptureFrame (g.placeStone x y) g4 ∧
      g4.checkWin false = some (w, g4) ∧
      g.makeMove x y = some
        (if w ≠ PieceColor.NONE then
          { thrown := none,
            state := ((g4.notifyBoardUpdate).notifyMessage (Message.decided w)).notifyGameOver w }
        else
          { thrown := none,
            state := (g4.notifyBoardUpdate.switchPlayer).notifyMessage
              (Message.nextToMove (g4.notifyBoardUpdate.switchPlayer).currentPlayer) }) := by
  obtain ⟨g4, hpost, frame⟩ := postMoveProcess_virtual_frame (g.placeStone x y) x y
  obtain ⟨w, hwin⟩ := checkWin_false g4
  refine ⟨g4, w, hpost, frame, hwin, ?_⟩
  unfold makeMove
  rw [if_neg h, if_neg (by rw [isValid_iff]; exact not_not.2 hc)]
  simp only [hpost, Option.some_bind, hwin, Option.map_some']

/-- In a Go game with pass counter 0, `passTurn` in full. -/
theorem passTurn_first (g : AbstractGame) (h : g.type = GameType.GO) (h0 : g.passCount = 0) :
    ∃ o, g.passTurn = some o ∧ o.thrown = none ∧ o.state.board = g.board ∧
      o.state.size = g.size ∧ o.state.type = g.type ∧
      o.state.currentPlayer =
        (if g.currentPlayer = PieceColor.BLACK then PieceColor.WHITE else PieceColor.BLACK) ∧
      o.state.passCount = 1 ∧ o.state.history = g.createMemento :: g.history ∧
      o.state.events = g.events ++
        [Event.message (Message.passed
          (if (if g.currentPlayer = PieceColor.BLACK then PieceColor.WHITE else PieceColor.BLACK)
              = PieceColor.BLACK then PieceColor.WHITE else PieceColor.BLACK)),
         Event.message (Message.nextToMove
          (if g.currentPlayer = PieceColor.BLACK then PieceColor.WHITE else PieceColor.BLACK))] := by
  unfold passTurn
  rw [if_neg (by rw [h]; decide)]
  have hlt : ¬ (g.passCountAfterIncrement ≥ 2) := by
    unfold passCountAfterIncrement; omega
  simp only [if_neg hlt]
  refine ⟨_, rfl, rfl, rfl, rfl, rfl, rfl, ?_, rfl, ?_⟩
  · show g.passCountAfterIncrement = 1
    unfold passCountAfterIncrement; omega
  · simp [notifyMessage, switchPlayer, saveStateToHistory]

/-- In a Go game with pass counter 1, `passTurn` in full: the settlement. -/
theorem passTurn_second (g : AbstractGame) (h : g.type = GameType.GO) (h1 : g.passCount = 1) :
    ∃ o w d, GoWinStrategy.checkWin g.resultDesc g.board g.size true = some (w, d) ∧
      g.passTurn = some o ∧ o.thrown = none ∧ o.state.board = g.board ∧
      o.state.size = g.size ∧ o.state.type = g.type ∧
      o.state.currentPlayer = g.currentPlayer ∧ o.state.passCount = 0 ∧
      o.state.history = g.createMemento :: g.history ∧
      o.state.events = g.events ++
        [Event.message (Message.settlement d w), Event.gameOver w] := by
  have hge : g.passCountAfterIncrement ≥ 2 := by
    unfold passCountAfterIncrement; omega
  obtain ⟨t, ht⟩ := GoWinStrategy.tally_total g.board g.size
  obtain ⟨ty, sz, b, cp, hist, pc, rd, ev⟩ := g
  simp only at h ht h1
  subst h
  have hgo : ∃ w d, GoWinStrategy.checkWin rd b sz true = some (w, d) := by
    by_cases hgt : GoWinStrategy.finalBlack t > GoWinStrategy.finalWhite t
    · exact ⟨PieceColor.BLACK, some (GoWinStrategy.describe t), by
        simp only [GoWinStrategy.checkWin, ht, not_true_eq_false, if_false, Option.map_some',
          if_pos hgt]⟩
    · exact ⟨PieceColor.WHITE, some (GoWinStrategy.describe t), by
        simp only [GoWinStrategy.checkWin, ht, not_true_eq_false, if_false, Option.map_some',
          if_neg hgt]⟩
  obtain ⟨w, d, hgo⟩ := hgo
  refine ⟨{ thrown := none,
            state :=
              { type := GameType.GO, size := sz, board := b, currentPlayer := cp,
                history :=
                  { boardData := b, currentPlayer := cp, boardSize := sz, type := GameType.GO,
                    passCount := pc } :: hist,
                passCount := 0, resultDesc := d,
                events := ev ++ [Event.message (Message.settlement d w), Event.gameOver w] } },
    w, d, hgo, ?_, rfl, rfl, rfl, rfl, rfl, rfl, rfl, rfl⟩
  unfold passTurn
  simp only [if_pos hge, checkWin, saveStateToHistory, hgo, Option.map_some', notifyMessage,
    notifyGameOver, getResultDescription, List.append_assoc, List.singleton_append]
  rfl

end AbstractGame

/-! ## Well-formed states -/

theorem Board.valid_setCell (b : Board) (x y v : Int) (hv : v = 0 ∨ v = 1 ∨ v = 2)
    (hb : b.Valid) : (b.setCell x y v).Valid := by
  unfold Board.setCell
  split
  · intro row hrow w hw
    rcases List.mem_or_eq_of_mem_set hrow with h | h
    · exact hb row h w hw
    · subst h
      rcases List.mem_or_eq_of_mem_set hw with h' | h'
      · by_cases hlt : x.toNat < b.length
        · rw [List.getD_eq_getElem?_getD, List.getElem?_eq_getElem hlt] at h'
          exact hb _ (List.getElem_mem _) w h'
        · rw [List.getD_eq_getElem?_getD, List.getElem?_eq_none (by omega)] at h'
          simp at h'
      · rw [h']; exact hv
  · exact hb

namespace GoGame

theorem clear_wellFormed (n : Nat) (l : List Point) :
    ∀ (b : Board), b.Square n → b.Valid →
      (l.foldl (fun b p => b.setCell p.1 p.2 0) b).Square n ∧
      (l.foldl (fun b p => b.setCell p.1 p.2 0) b).Valid := by
  induction l with
  | nil => intro b hs hv; exact ⟨hs, hv⟩
  | cons p l ih =>
    intro b hs hv
    simp only [List.foldl_cons]
    exact ih _ (Board.square_setCell b n p.1 p.2 0 hs)
      (Board.valid_setCell b p.1 p.2 0 (Or.inl rfl) hv)

/-- The capture step keeps the grid square and its cells in {0, 1, 2}. -/
theorem removeDeadGroup_wellFormed (n : Nat) (g g' : AbstractGame) (x y color : Int)
    (h : removeDeadGroup g x y color = some g') (hs : g.board.Square n) (hv : g.board.Valid) :
    g'.board.Square n ∧ g'.board.Valid := by
  unfold removeDeadGroup at h
  cases hcall : countLiberties g.board g.size (g.size * g.size) x y color [] with
  | none => simp [hcall] at h
  | some r =>
    simp only [hcall, Option.map_some', Option.some.injEq] at h
    obtain ⟨hs1, hv1⟩ := clear_wellFormed n r.2 g.board hs hv
    split_ifs at h <;> subst h
    · exact ⟨hs1, hv1⟩
    · exact ⟨hs1, hv1⟩
    · exact ⟨hs, hv⟩

theorem postMoveProcess_wellFormed (n : Nat) (g g' : AbstractGame) (r c : Int)
    (h : postMoveProcess g r c = some g') (hs : g.board.Square n) (hv : g.board.Valid) :
    g'.board.Square n ∧ g'.board.Valid := by
  have key : ∀ (color : Int) (ds : List Point) (g1 g2 : AbstractGame),
      ds.foldlM (fun (a : AbstractGame) d =>
          if r + d.1 ≥ 0 ∧ r + d.1 < a.size ∧ c + d.2 ≥ 0 ∧ c + d.2 < a.size ∧
              a.board.cell (r + d.1) (c + d.2) = color
          then removeDeadGroup a (r + d.1) (c + d.2) color
          else some a) g1 = some g2 →
      g1.board.Square n → g1.board.Valid → g2.board.Square n ∧ g2.board.Valid := by
    intro color ds
    induction ds with
    | nil =>
      intro g1 g2 h hs hv
      simp only [List.foldlM_nil, Option.pure_def, Option.some.injEq] at h
      subst h
      exact ⟨hs, hv⟩
    | cons d ds ih =>
      intro g1 g2 h hs hv
      rw [List.foldlM_cons] at h
      by_cases hcond : r + d.1 ≥ 0 ∧ r + d.1 < g1.size ∧ c + d.2 ≥ 0 ∧ c + d.2 < g1.size ∧
          g1.board.cell (r + d.1) (c + d.2) = color
      · rw [if_pos hcond] at h
        cases hrem : removeDeadGroup g1 (r + d.1) (c + d.2) color with
        | none => simp [hrem] at h
        | some g3 =>
          simp only [hrem, Option.bind_eq_bind, Option.some_bind] at h
          obtain ⟨hs3, hv3⟩ := removeDeadGroup_wellFormed n g1 g3 _ _ _ hrem hs hv
          exact ih g3 g2 h hs3 hv3
      · rw [if_neg hcond] at h
        simp only [Option.bind_eq_bind, Option.some_bind] at h
        exact ih g1 g2 h hs hv
  exact key _ dirs g g' h hs hv

end GoGame

namespace AbstractGame

/-- In a Go game `passTurn` returns without throwing and changes neither the
grid nor the size; the history gets the snapshot of the state before the call. -/
theorem passTurn_go_frame (g : AbstractGame) (h : g.type = GameType.GO) :
    ∃ o, g.passTurn = some o ∧ o.thrown = none ∧ o.state.board = g.board ∧
      o.state.size = g.size ∧ o.state.history = g.createMemento :: g.history := by
  unfold passTurn
  rw [if_neg (by rw [h]; decide)]
  simp only
  by_cases h2 : g.passCountAfterIncrement ≥ 2
  · rw [if_pos h2]
    obtain ⟨w, d, hwin⟩ := checkWin_true_go
      { g.saveStateToHistory with passCount := g.passCountAfterIncrement } h
    rw [hwin]
    exact ⟨_, rfl, rfl, rfl, rfl, rfl⟩
  · rw [if_neg h2]
    exact ⟨_, rfl, rfl, rfl, rfl, rfl⟩

theorem create_wellFormed (type : GameType) (n : Nat) : WellFormed n (create type n) :=
  ⟨rfl, Board.fresh_square n, Board.fresh_valid n, fun m hm => absurd hm (List.not_mem_nil m)⟩

/-- Every operation returns, and it keeps the state well formed. -/
theorem perform_wellFormed (n : Nat) (g : AbstractGame) (op : Op) (wf : WellFormed n g) :
    ∃ o, g.perform op = some o ∧ WellFormed n o.state := by
  have hmem : WellFormed n g → ∀ m ∈ g.createMemento :: g.history,
      m.boardSize = n ∧ m.boardData.Square n ∧ m.boardData.Valid := by
    intro wf m hm
    rcases List.mem_cons.1 hm with h | h
    · subst h; exact ⟨wf.size_eq, wf.square, wf.valid⟩
    · exact wf.history m h
  cases op with
  | makeMove x y =>
    by_cases h : x < 0 ∨ x ≥ g.size ∨ y < 0 ∨ y ≥ g.size
    · exact ⟨_, makeMove_outOfRange g x y h, wf⟩
    · by_cases hc : g.board.cell x y = 0
      · obtain ⟨g4, w, hpost, frame, _, hmove⟩ := makeMove_legal_full g x y h hc
        have hs3 : (g.placeStone x y).board.Square n :=
          Board.square_setCell g.board n x y _ wf.square
        have hstone : ∀ cp : PieceColor,
            (if cp = PieceColor.BLACK then (1 : Int) else 2) = 0 ∨
            (if cp = PieceColor.BLACK then (1 : Int) else 2) = 1 ∨
            (if cp = PieceColor.BLACK then (1 : Int) else 2) = 2 := by
          intro cp; split <;> simp
        have hv3 : (g.placeStone x y).board.Valid :=
          Board.valid_setCell g.board x y _ (hstone _) wf.valid
        have h4 : g4.board.Square n ∧ g4.board.Valid := by
          unfold postMoveProcess at hpost
          cases hty : (g.placeStone x y).type with
          | GOMOKU =>
            rw [hty] at hpost
            simp only [Option.some.injEq] at hpost
            subst hpost
            exact ⟨hs3, hv3⟩
          | GO =>
            rw [hty] at hpost
            exact GoGame.postMoveProcess_wellFormed n _ _ x y hpost hs3 hv3
        have hhist : ∀ m ∈ g4.history,
            m.boardSize = n ∧ m.boardData.Square n ∧ m.boardData.Valid := by
          rw [frame.history_eq]
          intro m hm
          rcases List.mem_cons.1 hm with h | h
          · subst h; exact ⟨wf.size_eq, wf.square, wf.valid⟩
          · exact wf.history m h
        have hsz : g4.size = n := frame.size_eq.trans wf.size_eq
        refine ⟨_, hmove, ?_⟩
        split_ifs
        · exact ⟨hsz, h4.1, h4.2, hhist⟩
        · exact ⟨hsz, h4.1, h4.2, hhist⟩
      · exact ⟨_, makeMove_occupied g x y h hc, wf⟩
  | passTurn =>
    cases hty : g.type with
    | GOMOKU => exact ⟨_, passTurn_gomoku g hty, wf⟩
    | GO =>
      obtain ⟨o, ho, _, hb, hsz, hh⟩ := passTurn_go_frame g hty
      refine ⟨o, ho, ?_⟩
      refine ⟨hsz.trans wf.size_eq, by rw [hb]; exact wf.square, by rw [hb]; exact wf.valid, ?_⟩
      rw [hh]
      exact hmem wf
  | undo =>
    refine ⟨g.undo, rfl, ?_⟩
    unfold undo
    cases hh : g.history with
    | nil => exact wf
    | cons m rest =>
      have hm := wf.history m (by rw [hh]; exact List.mem_cons_self _ _)
      refine ⟨hm.1, hm.2.1, hm.2.2, ?_⟩
      intro m' hm'
      exact wf.history m' (by rw [hh]; exact List.mem_cons_of_mem _ hm')
  | resign =>
    exact ⟨g.resign, rfl, wf.size_eq, wf.square, wf.valid, wf.history⟩

/-- Every reachable state is well formed. -/
theorem Reachable.wellFormed {type : GameType} {n : Nat} {g : AbstractGame}
    (h : Reachable type n g) : WellFormed n g := by
  induction h with
  | fresh => exact create_wellFormed type n
  | step g op o _ hperf ih =>
    obtain ⟨o', ho', wf'⟩ := perform_wellFormed n g op ih
    rw [hperf] at ho'
    cases ho'
    exact wf'

end AbstractGame

/-! ## Settlement of a one-sided board -/

theorem Board.cell_outside (b : Board) (n : Nat) (x y : Int) (hb : b.Square n)
    (hout : ¬ InGrid n (x, y)) : b.cell x y = 0 := by
  obtain ⟨hlen, hrow⟩ := hb
  unfold Board.cell
  split
  · rename_i hxy
    rw [List.getD_eq_getElem?_getD, List.getD_eq_getElem?_getD]
    by_cases hx : x.toNat < b.length
    · rw [List.getElem?_eq_getElem hx]
      simp only [Option.getD_some]
      have hrl : (b[x.toNat]).length = n := hrow _ (List.getElem_mem _)
      have hy : ¬ y.toNat < (b[x.toNat]).length := by
        intro hy
        apply hout
        unfold InGrid; simp only; omega
      have hnone : (b[x.toNat])[y.toNat]? = none := List.getElem?_eq_none (by omega)
      rw [hnone]
      rfl
    · have hnone : b[x.toNat]? = none := List.getElem?_eq_none (by omega)
      rw [hnone]
      rfl
  · rfl

theorem length_filter_add_of_split {α : Type} (l : List α) (p q : α → Bool)
    (h : ∀ a ∈ l, (p a = true ∧ q a = false) ∨ (p a = false ∧ q a = true)) :
    (l.filter p).length + (l.filter q).length = l.length := by
  induction l with
  | nil => rfl
  | cons a l ih =>
    have ih' := ih (fun b hb => h b (List.mem_cons_of_mem _ hb))
    rcases h a (List.mem_cons_self _ _) with ⟨hp, hq⟩ | ⟨hp, hq⟩
    · simp only [List.filter_cons, hp, hq, if_true, List.length_cons]
      simp only [Bool.false_eq_true, if_false]
      omega
    · simp only [List.filter_cons, hp, hq, if_true, List.length_cons]
      simp only [Bool.false_eq_true, if_false]
      omega

namespace GoWinStrategy

/-- On a grid, the region of an Empty cell reaches every occupied cell: some
cell of the region has an occupied neighbour. -/
theorem region_touches_stone (board : Board) (size : Nat) (s : Point) (hs : InGrid size s)
    (hsc : board.cell s.1 s.2 ≠ 0) :
    ∀ (d : Nat) (p : Point), (p.1 - s.1).natAbs + (p.2 - s.2).natAbs = d →
      EmptyCell board size p →
      ∃ q t, SameRegion board size p q ∧ Adj q t ∧ InGrid size t ∧ board.cell t.1 t.2 ≠ 0 := by
  intro d
  induction d with
  | zero =>
    intro p hd hp
    exfalso
    apply hsc
    have h1 : p.1 = s.1 := by omega
    have h2 : p.2 = s.2 := by omega
    rw [← h1, ← h2]
    exact hp.2
  | succ d ih =>
    intro p hd hp
    obtain ⟨⟨hp0, hp1, hp2, hp3⟩, hpc⟩ := hp
    obtain ⟨hs0, hs1, hs2, hs3⟩ := hs
    have next : ∃ p', Adj p p' ∧ InGrid size p' ∧
        (p'.1 - s.1).natAbs + (p'.2 - s.2).natAbs = d := by
      by_cases hlt : p.1 < s.1
      · exact ⟨(p.1 + 1, p.2), Or.inl rfl, by unfold InGrid; simp only; omega,
          by simp only; omega⟩
      · by_cases hgt : p.1 > s.1
        · exact ⟨(p.1 - 1, p.2), Or.inr (Or.inl rfl), by unfold InGrid; simp only; omega,
            by simp only; omega⟩
        · by_cases hlt2 : p.2 < s.2
          · exact ⟨(p.1, p.2 + 1), Or.inr (Or.inr (Or.inl rfl)),
              by unfold InGrid; simp only; omega, by simp only; omega⟩
          · exact ⟨(p.1, p.2 - 1), Or.inr (Or.inr (Or.inr rfl)),
              by unfold InGrid; simp only; omega, by simp only; omega⟩
    obtain ⟨p', hadj, hin', hd'⟩ := next
    by_cases hc' : board.cell p'.1 p'.2 = 0
    · obtain ⟨q, t, hreg, ht⟩ := ih p' hd' ⟨hin', hc'⟩
      exact ⟨q, t, Relation.ReflTransGen.head ⟨hadj, hin', hc'⟩ hreg, ht⟩
    · exact ⟨p, p', Relation.ReflTransGen.refl, hadj, hin', hc'⟩

/-- On a grid that holds stones of `color` only, and at least one, every Empty
cell is territory of `color` and none is territory of `other`. -/
theorem one_sided_territory (board : Board) (size : Nat) (color other : Int)
    (hcol : color ≠ 0) (hoth : other ≠ 0) (hne : other ≠ color)
    (hone : ∀ p, InGrid size p → board.cell p.1 p.2 = 0 ∨ board.cell p.1 p.2 = color)
    (hstone : ∃ s, InGrid size s ∧ board.cell s.1 s.2 = color) :
    (∀ p, TerritoryOf board size color other p ↔ EmptyCell board size p) ∧
    (∀ p, ¬ TerritoryOf board size other color p) := by
  have hno : ∀ p, ¬ RegionTouches board size other p := by
    rintro p ⟨q, _, t, _, hin, hc⟩
    rcases hone t hin with h | h
    · exact hoth (hc.symm.trans h)
    · exact hne (hc.symm.trans h)
  refine ⟨fun p => ⟨fun h => h.1, fun h => ⟨h, ?_, hno p⟩⟩, fun p h => hno p h.2.1⟩
  obtain ⟨s, hs, hsc⟩ := hstone
  obtain ⟨q, t, hreg, hadj, hin, hc⟩ := region_touches_stone board size s hs
    (by rw [hsc]; exact hcol) _ p rfl h
  refine ⟨q, hreg, t, hadj, hin, ?_⟩
  rcases hone t hin with h0 | h0
  · exact absurd h0 hc
  · exact h0

/-- The counts on a grid that holds stones of `color` only, and at least one:
a duplicate-free list of the territory of `color` has as many entries as there
are Empty cells, a list of the territory of `other` is empty, the stones of
`color` and the Empty cells make up the grid, and there is no stone of `other`. -/
theorem one_sided_counts (board : Board) (size : Nat) (color other : Int)
    (hcol : color ≠ 0) (hoth : other ≠ 0) (hne : other ≠ color)
    (hone : ∀ p, InGrid size p → board.cell p.1 p.2 = 0 ∨ board.cell p.1 p.2 = color)
    (hstone : ∃ s, InGrid size s ∧ board.cell s.1 s.2 = color)
    (visited : List Point) (hvis : ∀ p, p ∈ visited ↔ EmptyCell board size p) :
    (∀ l : List Point, l.Nodup →
      (∀ p, p ∈ l ↔ p ∈ visited ∧ TerritoryOf board size color other p) →
      l.length = stoneCount board size 0) ∧
    (∀ l : List Point, (∀ p, p ∈ l ↔ p ∈ visited ∧ TerritoryOf board size other color p) →
      l.length = 0) ∧
    stoneCount board size color + stoneCount board size 0 = size * size ∧
    stoneCount board size other = 0 := by
  obtain ⟨hterr, hnone⟩ := one_sided_territory board size color other hcol hoth hne hone hstone
  refine ⟨?_, ?_, ?_, ?_⟩
  · intro l hl hmem
    unfold stoneCount
    refine List.Perm.length_eq ((List.perm_ext_iff_of_nodup hl
      ((nodup_gridCells size).filter _)).2 ?_)
    intro p
    rw [hmem, hvis, hterr, List.mem_filter, mem_gridCells]
    simp only [and_self, decide_eq_true_eq]
    rfl
  · intro l hmem
    rw [List.length_eq_zero, List.eq_nil_iff_forall_not_mem]
    intro p hp
    exact hnone p ((hmem p).1 hp).2
  · unfold stoneCount
    rw [← length_gridCells size]
    apply length_filter_add_of_split
    intro p hp
    rcases hone p ((mem_gridCells size p).1 hp) with h | h
    · right
      simp only [h, decide_eq_false_iff_not, decide_eq_true_eq, and_true]
      exact fun hh => hcol hh.symm
    · left
      simp only [h, decide_eq_false_iff_not, decide_eq_true_eq, true_and]
      exact hcol
  · unfold stoneCount
    rw [List.length_eq_zero, List.filter_eq_nil_iff]
    intro p hp
    simp only [decide_eq_true_eq]
    rcases hone p ((mem_gridCells size p).1 hp) with h | h
    · rw [h]; exact fun hh => hoth hh.symm
    · rw [h]; exact fun hh => hne hh.symm

end GoWinStrategy

/-! ## Gomoku: the winning move -/

theorem GomokuWinStrategy.checkAt_color (board : Board) (size : Nat) (i j : Int)
    (w : PieceColor) (h : GomokuWinStrategy.checkAt board size i j = some w) :
    w = if board.cell i j = 1 then PieceColor.BLACK else PieceColor.WHITE := by
  unfold GomokuWinStrategy.checkAt at h
  simp only at h
  by_cases h0 : board.cell i j = 0
  · rw [if_pos h0] at h; cases h
  · rw [if_neg h0] at h
    split_ifs at h <;> (cases h; simp [*])

/-- When the scan returns a winner, it is the colour found at the start cell of
a line of five. -/
theorem GomokuWinStrategy.checkWin_color (board : Board) (size : Nat) (forceEnd : Bool)
    (h : GomokuWinStrategy.checkWin board size forceEnd ≠ PieceColor.NONE) :
    ∃ i j d, d ∈ scanDirs ∧ FiveInRow board size i j d ∧
      GomokuWinStrategy.checkWin board size forceEnd =
        if board.cell i j = 1 then PieceColor.BLACK else PieceColor.WHITE := by
  unfold GomokuWinStrategy.checkWin at h ⊢
  cases hf : (gridCells size).findSome? fun p => GomokuWinStrategy.checkAt board size p.1 p.2 with
  | none => rw [hf] at h; simp at h
  | some w =>
    obtain ⟨p, hp, hw⟩ := List.exists_of_findSome?_eq_some hf
    have hin : InGrid size (p.1, p.2) := (mem_gridCells size p).1 hp
    obtain ⟨d, hd, hfive⟩ :=
      (GomokuWinStrategy.checkAt_isSome_iff board size p.1 p.2 hin).1 (by rw [hw]; rfl)
    refine ⟨p.1, p.2, d, hd, hfive, ?_⟩
    simp only [Option.getD_some]
    exact GomokuWinStrategy.checkAt_color board size p.1 p.2 w hw

/-- On a grid without a line of five, every line of five that exists after one
cell is set passes through that cell and holds its value. -/
theorem five_through_placed (board : Board) (size : Nat) (r c s : Int)
    (hsq : board.Square size) (hin : InGrid size (r, c))
    (hnone : ¬ ∃ i j d, d ∈ scanDirs ∧ FiveInRow board size i j d)
    (i j : Int) (d : Point) (hd : d ∈ scanDirs)
    (hfive : FiveInRow (board.setCell r c s) size i j d) :
    (board.setCell r c s).cell i j = s ∧
    ∃ k : Int, 0 ≤ k ∧ k ≤ 4 ∧ (i + k * d.1, j + k * d.2) = (r, c) := by
  have hex : ∃ k : Int, 0 ≤ k ∧ k ≤ 4 ∧ (i + k * d.1, j + k * d.2) = (r, c) := by
    by_contra hno
    apply hnone
    have hother : ∀ k : Int, 0 ≤ k → k ≤ 4 →
        (board.setCell r c s).cell (i + k * d.1) (j + k * d.2) =
          board.cell (i + k * d.1) (j + k * d.2) := by
      intro k hk0 hk4
      exact Board.cell_setCell_other board r c s _ _ (fun h => hno ⟨k, hk0, hk4, h⟩)
    have h0 := hother 0 (le_refl 0) (by norm_num)
    simp only [zero_mul, add_zero] at h0
    refine ⟨i, j, d, hd, ?_, ?_⟩
    · rw [← h0]; exact hfive.1
    · intro k hk0 hk4
      refine ⟨(hfive.2 k hk0 hk4).1, ?_⟩
      rw [← hother k hk0 hk4, ← h0]
      exact (hfive.2 k hk0 hk4).2
  refine ⟨?_, hex⟩
  obtain ⟨k, hk0, hk4, hk⟩ := hex
  have h1 := (hfive.2 k hk0 hk4).2
  have h2 : (board.setCell r c s).cell (i + k * d.1) (j + k * d.2) = s := by
    have e1 : i + k * d.1 = r := congrArg Prod.fst hk
    have e2 : j + k * d.2 = c := congrArg Prod.snd hk
    rw [e1, e2]
    exact Board.cell_setCell_same board size r c s hsq hin
  rw [← h1, h2]

/-! ## The save text -/

theorem stringToColor_colorToString (c : PieceColor) : stringToColor (colorToString c) = c := by
  cases c <;> decide

theorem readRow_numbers (row : List Int) (rest : List Token) :
    readRow row.length (some (row.map Token.number ++ rest)) = (row, some rest) := by
  induction row with
  | nil => rfl
  | cons v row ih =>
    simp only [List.length_cons, List.map_cons, List.cons_append, readRow, readCell, Token.asInt]
    rw [ih]

theorem readRows_numbers (k : Nat) (rows : List (List Int)) (hrows : ∀ row ∈ rows, row.length = k)
    (rest : List Token) :
    readRows rows.length k (some (rows.flatMap (fun row => row.map Token.number) ++ rest)) =
      rows := by
  induction rows with
  | nil => rfl
  | cons row rows ih =>
    have hk : row.length = k := hrows row (List.mem_cons_self _ _)
    simp only [List.length_cons, List.flatMap_cons, List.append_assoc, readRows]
    rw [← hk, readRow_numbers]
    simp only
    rw [hk, ih (fun r hr => hrows r (List.mem_cons_of_mem _ hr))]

/-- Reading a square board cell by cell in row-major order gives its rows. -/
theorem Board.rows_eq (b : Board) (n : Nat) (hb : b.Square n) :
    ((List.range n).map fun (i : Nat) => (List.range n).map fun (j : Nat) =>
      b.cell (i : Int) (j : Int)) = b := by
  obtain ⟨hlen, hrow⟩ := hb
  apply List.ext_getElem
  · simp [hlen]
  · intro i h1 h2
    have hrl : (b[i]).length = n := hrow _ (List.getElem_mem _)
    apply List.ext_getElem
    · simp [hrl]
    · intro j h3 h4
      simp only [List.getElem_map, List.getElem_range]
      unfold Board.cell
      simp [List.getD_eq_getElem?_getD, List.getElem?_eq_getElem h2, List.getElem?_eq_getElem h4]

/-- The cell items written by `serialize` are the rows of the board, one after
the other. -/
theorem serialize_cells (b : Board) (n : Nat) (hb : b.Square n) :
    ((List.range n).flatMap fun (i : Nat) =>
      (List.range n).map fun (j : Nat) => Token.number (b.cell (i : Int) (j : Int))) =
    b.flatMap fun row => row.map Token.number := by
  conv_rhs => rw [← Board.rows_eq b n hb]
  rw [List.flatMap_map]
  congr 1
  funext i
  rw [List.map_map]
  rfl

/-- Reading back the text of a snapshot with a square board gives the snapshot. -/
theorem GameMemento.deserialize_serialize (m : GameMemento)
    (hsq : m.boardData.Square m.boardSize) : GameMemento.deserialize m.serialize = some m := by
  obtain ⟨b, cp, n, ty, pc⟩ := m
  simp only at hsq
  unfold GameMemento.serialize GameMemento.deserialize
  simp only [List.cons_append, List.nil_append, Token.asInt, readWord, Token.asWord]
  rw [if_neg (by omega)]
  simp only [Int.toNat_ofNat, stringToColor_colorToString, Option.some.injEq]
  have hcells := serialize_cells b n hsq
  have hread := readRows_numbers n b hsq.2 []
  rw [List.append_nil, hsq.1] at hread
  rw [hcells, hread]
  cases ty <;> simp

/-! ## undo in full -/

namespace AbstractGame

theorem undo_nil (g : AbstractGame) (h : g.history = []) :
    g.undo = { thrown := some GameException.nothingToUndo, state := g } := by
  unfold undo
  rw [h]

theorem undo_cons (g : AbstractGame) (m : GameMemento) (rest : List GameMemento)
    (h : g.history = m :: rest) :
    g.undo.thrown = none ∧ g.undo.state.history = rest ∧ g.undo.state.board = m.boardData ∧
    g.undo.state.currentPlayer = m.currentPlayer ∧ g.undo.state.size = m.boardSize ∧
    g.undo.state.passCount = m.passCount ∧ g.undo.state.type = g.type := by
  unfold undo
  rw [h]
  exact ⟨rfl, rfl, rfl, rfl, rfl, rfl, rfl⟩

end AbstractGame

theorem singleBlackBoard_one_sided (p : Point) (_hin : InGrid 8 p) :
    singleBlackBoard.cell p.1 p.2 = 0 ∨ singleBlackBoard.cell p.1 p.2 = 1 := by
  unfold singleBlackBoard
  by_cases hp : (p.1, p.2) = (0, 0)
  · right
    have e1 : p.1 = 0 := congrArg Prod.fst hp
    have e2 : p.2 = 0 := congrArg Prod.snd hp
    rw [e1, e2]
    exact Board.cell_setCell_same (Board.fresh 8) 8 0 0 1 (Board.fresh_square 8) (by decide)
  · left
    rw [Board.cell_setCell_other (Board.fresh 8) 0 0 1 p.1 p.2 hp]
    exact Board.cell_fresh 8 p.1 p.2

/-! ## Snapshots: what their producers guarantee -/

theorem readRow_length (k : Nat) (s : InStream) : (readRow k s).1.length = k := by
  induction k generalizing s with
  | zero => rfl
  | succ k ih => simp [readRow, ih]

theorem readRows_square (rows k : Nat) (s : InStream) :
    (readRows rows k s).length = rows ∧ ∀ row ∈ readRows rows k s, row.length = k := by
  induction rows generalizing s with
  | zero => exact ⟨rfl, fun _ h => absurd h (List.not_mem_nil _)⟩
  | succ rows ih =>
    refine ⟨by simp [readRows, (ih _).1], ?_⟩
    intro row hrow
    simp only [readRows, List.mem_cons] at hrow
    rcases hrow with rfl | hrow
    · exact readRow_length k s
    · exact (ih _).2 row hrow

/-- A snapshot returned by `deserialize` has `boardSize` rows of `boardSize`
cells. -/
theorem GameMemento.deserialize_square (tokens : List Token) (mem : GameMemento)
    (h : GameMemento.deserialize tokens = some mem) : mem.boardData.Square mem.boardSize := by
  unfold GameMemento.deserialize at h
  match tokens, h with
  | typeTok :: sizeTok :: passTok :: rest, h =>
    simp only at h
    cases hs : sizeTok.asInt with
    | none => rw [hs] at h; cases h
    | some size =>
      rw [hs] at h
      simp only at h
      by_cases hneg : size < 0
      · rw [if_pos hneg] at h; cases h
      · rw [if_neg hneg] at h
        cases h
        exact readRows_square _ _ _

/-! ## A legal placement: what happens to the grid -/

namespace AbstractGame

theorem placeStone_board (g : AbstractGame) (x y : Int) :
    (g.placeStone x y).board = g.board.setCell x y g.currentPlayer.stone := rfl

theorem stone_ne_opposing (g : AbstractGame) : g.currentPlayer.stone ≠ g.opposing := by
  unfold PieceColor.stone opposing
  split <;> norm_num

theorem opposing_eq (g : AbstractGame) :
    (if g.currentPlayer.stone = 1 then (2 : Int) else 1) = g.opposing := by
  unfold PieceColor.stone opposing
  split <;> norm_num

/-- The capture step after a placement at a grid cell of a square board: the
placed stone stays, and a cell that differs afterwards held an opposing stone
and is Empty. -/
theorem postMoveProcess_placed (g g4 : AbstractGame) (x y : Int)
    (hsq : g.board.Square g.size) (hin : InGrid g.size (x, y))
    (hpost : (g.placeStone x y).postMoveProcess x y = some g4) :
    g4.board.cell x y = g.currentPlayer.stone ∧
    ∀ p : Point, g4.board.cell p.1 p.2 ≠ (g.placeStone x y).board.cell p.1 p.2 →
      g.type = GameType.GO ∧ g.board.cell p.1 p.2 = g.opposing ∧ g4.board.cell p.1 p.2 = 0 := by
  have hsame : (g.placeStone x y).board.cell x y = g.currentPlayer.stone := by
    rw [placeStone_board]
    exact Board.cell_setCell_same g.board g.size x y _ hsq hin
  unfold postMoveProcess at hpost
  have hty : (g.placeStone x y).type = g.type := rfl
  rw [hty] at hpost
  cases hg : g.type with
  | GOMOKU =>
    rw [hg] at hpost
    simp only [Option.some.injEq] at hpost
    subst hpost
    exact ⟨hsame, fun p hp => absurd rfl hp⟩
  | GO =>
    rw [hg] at hpost
    simp only at hpost
    have hsq0 : (g.placeStone x y).board.Square (g.placeStone x y).size := by
      rw [placeStone_board]
      exact Board.square_setCell g.board g.size x y _ hsq
    obtain ⟨g', hg', inv⟩ := GoGame.postMoveProcess_spec (g.placeStone x y) x y hsq0
    rw [hpost] at hg'
    cases hg'
    rw [hsame, opposing_eq] at inv
    have hdead : ∀ p : Point,
        GoGame.CapturedVia (g.placeStone x y).board (g.placeStone x y).size g.opposing x y dirs p →
          (g.placeStone x y).board.cell p.1 p.2 = g.opposing :=
      fun p h => h.1.2.1
    refine ⟨?_, ?_⟩
    · rw [inv.kept (x, y)]
      · exact hsame
      · intro hcap
        have := hdead (x, y) hcap
        rw [hsame] at this
        exact stone_ne_opposing g this
    · intro p hp
      by_cases hcap : GoGame.CapturedVia (g.placeStone x y).board (g.placeStone x y).size
          g.opposing x y dirs p
      · refine ⟨rfl, ?_, inv.cleared p hcap⟩
        have hop := hdead p hcap
        have hne : (p.1, p.2) ≠ (x, y) := by
          intro heq
          have e1 : p.1 = x := congrArg Prod.fst heq
          have e2 : p.2 = y := congrArg Prod.snd heq
          rw [e1, e2, hsame] at hop
          exact stone_ne_opposing g hop
        rw [placeStone_board, Board.cell_setCell_other g.board x y _ p.1 p.2 hne] at hop
        exact hop
      · exact absurd (inv.kept p hcap) hp

/-- A placement on an Empty grid cell of a square board returns without
throwing; the placed cell holds the stone of the side that was to move; and a
cell that differs from the grid with the stone placed held an opposing stone
and is Empty (which happens in Go only). -/
theorem makeMove_placed (g : AbstractGame) (x y : Int) (hsq : g.board.Square g.size)
    (h : ¬ (x < 0 ∨ x ≥ g.size ∨ y < 0 ∨ y ≥ g.size)) (hc : g.board.cell x y = 0) :
    ∃ o, g.makeMove x y = some o ∧ o.thrown = none ∧
      o.state.board.cell x y = g.currentPlayer.stone ∧
      ∀ p : Point,
        o.state.board.cell p.1 p.2 ≠ (g.board.setCell x y g.currentPlayer.stone).cell p.1 p.2 →
        g.type = GameType.GO ∧ g.board.cell p.1 p.2 = g.opposing ∧
          o.state.board.cell p.1 p.2 = 0 := by
  obtain ⟨g4, w, hpost, _, _, hmove⟩ := makeMove_legal_full g x y h hc
  have hin : InGrid g.size (x, y) := by
    unfold InGrid
    simp only
    omega
  obtain ⟨h1, h2⟩ := postMoveProcess_placed g g4 x y hsq hin hpost
  rw [placeStone_board] at h2
  refine ⟨_, hmove, ?_⟩
  split_ifs
  · exact ⟨rfl, h1, h2⟩
  · exact ⟨rfl, h1, h2⟩

/-- A call of `makeMove` that does not throw was made on an Empty grid cell. -/
theorem makeMove_ok_legal (g : AbstractGame) (x y : Int) (o : Outcome)
    (hm : g.makeMove x y = some o) (hok : o.thrown = none) :
    ¬ (x < 0 ∨ x ≥ g.size ∨ y < 0 ∨ y ≥ g.size) ∧ g.board.cell x y = 0 := by
  by_cases h : x < 0 ∨ x ≥ g.size ∨ y < 0 ∨ y ≥ g.size
  · rw [makeMove_outOfRange g x y h] at hm
    cases hm
    cases hok
  · by_cases hc : g.board.cell x y = 0
    · exact ⟨h, hc⟩
    · rw [makeMove_occupied g x y h hc] at hm
      cases hm
      cases hok

end AbstractGame

/-! ## The side to move is never NONE -/

namespace AbstractGame

theorem next_side (c : PieceColor) :
    (if c = PieceColor.BLACK then PieceColor.WHITE else PieceColor.BLACK) = PieceColor.BLACK ∨
    (if c = PieceColor.BLACK then PieceColor.WHITE else PieceColor.BLACK) = PieceColor.WHITE := by
  split
  · exact Or.inr rfl
  · exact Or.inl rfl

/-- In a Go game `passTurn` leaves the side to move as it is (settlement) or
switches it, and puts the snapshot of the state before the call on the history. -/
theorem passTurn_go_side (g : AbstractGame) (h : g.type = GameType.GO) :
    ∃ o, g.passTurn = some o ∧
      (o.state.currentPlayer = g.currentPlayer ∨
        o.state.currentPlayer =
          if g.currentPlayer = PieceColor.BLACK then PieceColor.WHITE else PieceColor.BLACK) ∧
      o.state.history = g.createMemento :: g.history := by
  unfold passTurn
  rw [if_neg (by rw [h]; decide)]
  simp only
  by_cases h2 : g.passCountAfterIncrement ≥ 2
  · rw [if_pos h2]
    obtain ⟨w, d, hwin⟩ := checkWin_true_go
      { g.saveStateToHistory with passCount := g.passCountAfterIncrement } h
    rw [hwin]
    exact ⟨_, rfl, Or.inl rfl, rfl⟩
  · rw [if_neg h2]
    exact ⟨_, rfl, Or.inr rfl, rfl⟩

theorem create_sideInv (type : GameType) (n : Nat) : SideInv (create type n) :=
  ⟨Or.inl rfl, fun m hm => absurd hm (List.not_mem_nil m)⟩

/-- Every operation keeps the side to move, and the sides recorded in the
history, away from NONE. -/
theorem perform_sideInv (g : AbstractGame) (op : Op) (o : Outcome) (inv : SideInv g)
    (hperf : g.perform op = some o) : SideInv o.state := by
  have hpush : ∀ m ∈ g.createMemento :: g.history,
      m.currentPlayer = PieceColor.BLACK ∨ m.currentPlayer = PieceColor.WHITE := by
    intro m hm
    rcases List.mem_cons.1 hm with h | h
    · subst h; exact inv.side
    · exact inv.history m h
  cases op with
  | makeMove x y =>
    simp only [perform] at hperf
    by_cases h : x < 0 ∨ x ≥ g.size ∨ y < 0 ∨ y ≥ g.size
    · rw [makeMove_outOfRange g x y h] at hperf
      cases hperf
      exact inv
    · by_cases hc : g.board.cell x y = 0
      · obtain ⟨g4, w, _, frame, _, hmove⟩ := makeMove_legal_full g x y h hc
        rw [hmove] at hperf
        have hhist : ∀ m ∈ g4.history,
            m.currentPlayer = PieceColor.BLACK ∨ m.currentPlayer = PieceColor.WHITE := by
          rw [frame.history_eq]
          intro m hm
          rcases List.mem_cons.1 hm with h | h
          · subst h; exact inv.side
          · exact inv.history m h
        have hside : g4.currentPlayer = g.currentPlayer := frame.currentPlayer_eq
        split_ifs at hperf
        · cases hperf
          exact ⟨by show g4.currentPlayer = _ ∨ g4.currentPlayer = _; rw [hside]; exact inv.side,
            hhist⟩
        · cases hperf
          exact ⟨next_side g4.currentPlayer, hhist⟩
      · rw [makeMove_occupied g x y h hc] at hperf
        cases hperf
        exact inv
  | passTurn =>
    simp only [perform] at hperf
    cases hty : g.type with
    | GOMOKU =>
      rw [passTurn_gomoku g hty] at hperf
      cases hperf
      exact inv
    | GO =>
      obtain ⟨o', ho', hs, hh⟩ := passTurn_go_side g hty
      rw [hperf] at ho'
      cases ho'
      refine ⟨?_, by rw [hh]; exact hpush⟩
      rcases hs with hs | hs
      · rw [hs]; exact inv.side
      · rw [hs]; exact next_side g.currentPlayer
  | undo =>
    simp only [perform, Option.some.injEq] at hperf
    subst hperf
    unfold undo
    cases hh : g.history with
    | nil => exact inv
    | cons m rest =>
      refine ⟨inv.history m (by rw [hh]; exact List.mem_cons_self _ _), ?_⟩
      intro m' hm'
      exact inv.history m' (by rw [hh]; exact List.mem_cons_of_mem _ hm')
  | resign =>
    simp only [perform, Option.some.injEq] at hperf
    subst hperf
    exact ⟨inv.side, inv.history⟩

/-- In every reachable state the side to move is BLACK or WHITE. -/
theorem Reachable.sideInv {type : GameType} {n : Nat} {g : AbstractGame}
    (h : Reachable type n g) : SideInv g := by
  induction h with
  | fresh => exact create_sideInv type n
  | step g op o _ hperf ih => exact perform_sideInv g op o ih hperf

end AbstractGame

/-! ## Gomoku: the scan is row-major -/

/-- The loops of the scan visit the cells in strictly increasing row-major
order. -/
theorem gridCells_pairwise (n : Nat) : (gridCells n).Pairwise RowMajorLT := by
  unfold gridCells
  rw [List.pairwise_flatMap]
  refine ⟨?_, ?_⟩
  · intro i _
    rw [List.pairwise_map]
    refine List.Pairwise.imp ?_ (List.pairwise_lt_range n)
    intro a b hab
    exact Or.inr ⟨rfl, by simpa using hab⟩
  · refine List.Pairwise.imp ?_ (List.pairwise_lt_range n)
    intro a b hab x hx y hy
    simp only [List.mem_map, List.mem_range] at hx hy
    obtain ⟨j, _, rfl⟩ := hx
    obtain ⟨k, _, rfl⟩ := hy
    exact Or.inl (by simpa using hab)

/-- When the grid holds a line of five, the scan returns the colour of the
first cell in row-major order at which a line of five starts. -/
theorem GomokuWinStrategy.checkWin_first (board : Board) (size : Nat) (forceEnd : Bool)
    (h : ∃ i j d, d ∈ scanDirs ∧ FiveInRow board size i j d) :
    ∃ p, InGrid size p ∧ StartsFive board size p ∧
      (∀ q, InGrid size q → StartsFive board size q → RowMajorLE p q) ∧
      GomokuWinStrategy.checkWin board size forceEnd =
        if board.cell p.1 p.2 = 1 then PieceColor.BLACK else PieceColor.WHITE := by
  have hne := (GomokuWinStrategy.checkWin_ne_NONE_iff board size forceEnd).2 h
  unfold GomokuWinStrategy.checkWin at hne ⊢
  cases hf : (gridCells size).findSome? fun p => GomokuWinStrategy.checkAt board size p.1 p.2 with
  | none => rw [hf] at hne; simp at hne
  | some w =>
    obtain ⟨l1, p, l2, hsplit, hw, hbefore⟩ := List.findSome?_eq_some_iff.1 hf
    have hmem : p ∈ gridCells size := by rw [hsplit]; simp
    have hin : InGrid size p := (mem_gridCells size p).1 hmem
    have hpw := gridCells_pairwise size
    rw [hsplit, List.pairwise_append] at hpw
    refine ⟨p, hin, ?_, ?_, ?_⟩
    · exact (GomokuWinStrategy.checkAt_isSome_iff board size p.1 p.2 hin).1 (by rw [hw]; rfl)
    · intro q hq hfive
      have hqm : q ∈ gridCells size := (mem_gridCells size q).2 hq
      rw [hsplit, List.mem_append, List.mem_cons] at hqm
      rcases hqm with hq1 | rfl | hq2
      · have hnone := hbefore q hq1
        have hsome := (GomokuWinStrategy.checkAt_isSome_iff board size q.1 q.2 hq).2 hfive
        rw [hnone] at hsome
        cases hsome
      · exact Or.inr ⟨rfl, le_refl _⟩
      · rcases (List.pairwise_cons.1 hpw.2.1).1 q hq2 with hlt | ⟨he, hlt⟩
        · exact Or.inl hlt
        · exact Or.inr ⟨he, le_of_lt hlt⟩
    · simp only [Option.getD_some]
      exact GomokuWinStrategy.checkAt_color board size p.1 p.2 w hw

/-! ## Go: a placement never settles -/

namespace AbstractGame

/-- In a Go game the win check of `makeMove` answers NONE and leaves the state
as it is. -/
theorem checkWin_false_go (g : AbstractGame) (h : g.type = GameType.GO) :
    g.checkWin false = some (PieceColor.NONE, g) := by
  obtain ⟨ty, _, _, _, _, _, _, _⟩ := g
  simp only at h
  subst h
  rfl

/-- A placement on an Empty grid cell in a Go game: nothing is thrown, the
observers get the capture messages, the board and the message naming the next
side, and the side to move is switched. -/
theorem makeMove_go_legal (g : AbstractGame) (x y : Int) (hty : g.type = GameType.GO)
    (h : ¬ (x < 0 ∨ x ≥ g.size ∨ y < 0 ∨ y ≥ g.size)) (hc : g.board.cell x y = 0) :
    ∃ (o : Outcome) (counts : List Nat), g.makeMove x y = some o ∧ o.thrown = none ∧
      o.state.events = g.events ++
        (counts.map fun k => Event.message (Message.captured k)) ++
        [Event.boardUpdate o.state.board o.state.size,
         Event.message (Message.nextToMove g.currentPlayer.next)] ∧
      o.state.currentPlayer = g.currentPlayer.next ∧
      o.state.resultDesc = g.resultDesc := by
  obtain ⟨g4, w, _, frame, hwin, hmove⟩ := makeMove_legal_full g x y h hc
  have hty4 : g4.type = GameType.GO := frame.type_eq.trans hty
  rw [checkWin_false_go g4 hty4] at hwin
  have hw : w = PieceColor.NONE := by
    have := congrArg (fun r => r.map Prod.fst) hwin
    simpa using this.symm
  subst hw
  rw [if_neg (by simp)] at hmove
  obtain ⟨counts, hev⟩ := frame.events_eq
  have hcp : g4.currentPlayer = g.currentPlayer := frame.currentPlayer_eq
  refine ⟨_, counts, hmove, rfl, ?_, ?_, frame.resultDesc_eq⟩
  · show g4.events ++ [Event.boardUpdate g4.board g4.size] ++
        [Event.message (Message.nextToMove
          (if g4.currentPlayer = PieceColor.BLACK then PieceColor.WHITE else PieceColor.BLACK))] = _
    rw [hev, hcp]
    simp only [PieceColor.next, placeStone, saveStateToHistory, List.append_assoc,
      List.singleton_append, List.append_cancel_left_eq, List.cons.injEq, and_true,
      Event.boardUpdate.injEq]
    exact ⟨rfl, rfl⟩
  · show (if g4.currentPlayer = PieceColor.BLACK then PieceColor.WHITE else PieceColor.BLACK) = _
    rw [hcp]
    rfl

end AbstractGame

/-! ## The controller -/

namespace GameSystem

/-- The events of `refresh` include a call of `onBoardUpdate`. -/
theorem newEvents_refresh (g : AbstractGame) :
    (newEvents g g.refresh).any isBoardUpdate = true := by
  simp [newEvents, AbstractGame.refresh, AbstractGame.notifyBoardUpdate,
    AbstractGame.notifyMessage, isBoardUpdate]

/-- The events of `resign` include no call of `onBoardUpdate`. -/
theorem newEvents_resign (g : AbstractGame) :
    (newEvents g g.resign.state).any isBoardUpdate = false := by
  simp [newEvents, AbstractGame.resign, AbstractGame.notifyGameOver,
    AbstractGame.notifyMessage, isBoardUpdate]

/-- Delivering the events of the engine held never leaves the `BoardComponent`
with a dangling pointer that it did not have. -/
theorem observe_boardData (s : GameSystem) (before after : AbstractGame)
    (h : s.boardData ≠ BoardRef.freed) : (observe s before after).boardData ≠ BoardRef.freed := by
  unfold observe
  simp only
  split_ifs
  · exact fun h => by cases h
  · exact h

/-- After `start` or `load` has put a new engine in place, the `BoardComponent`
has the address of its board. -/
theorem install_boardData (s : GameSystem) (g : AbstractGame) :
    (install s g).boardData = BoardRef.held := by
  unfold install observe
  simp only [newEvents_refresh, if_true]

/-- The `try` block has a defined result on every state in which the
`BoardComponent` has no dangling pointer; in particular no engine call runs
out of fuel. After it the pointer dangles exactly when the command is `resign`
and the controller held an engine whose board the `BoardComponent` had; the
flag `running` is cleared by `exit` only. -/
theorem tryCommand_defined (s : GameSystem) (cmd : Command)
    (h : s.boardData ≠ BoardRef.freed) :
    ∃ r, tryCommand s cmd = some r ∧
      (r.2.boardData = BoardRef.freed ↔
        cmd = Command.resign ∧ s.game.isSome = true ∧ s.boardData = BoardRef.held) ∧
      (cmd ≠ Command.exit → r.2.running = s.running) := by
  cases cmd with
  | exit => exact ⟨_, rfl, by simp [h], fun hne => absurd rfl hne⟩
  | help => exact ⟨_, rfl, by simp [h], fun _ => rfl⟩
  | start typeStr size =>
    simp only [tryCommand]
    split_ifs
    · exact ⟨_, rfl, by simp [h], fun _ => rfl⟩
    · exact ⟨_, rfl, by simp [install_boardData], fun _ => rfl⟩
    · exact ⟨_, rfl, by simp [install_boardData], fun _ => rfl⟩
    · exact ⟨_, rfl, by simp [h], fun _ => rfl⟩
  | move r c =>
    cases hg : s.game with
    | none => simp only [tryCommand, hg]; exact ⟨_, rfl, by simp [h], fun _ => rfl⟩
    | some g =>
      obtain ⟨o, ho⟩ := AbstractGame.makeMove_total g (r - 1) (c - 1)
      simp only [tryCommand, hg, ho, Option.map_some']
      refine ⟨_, rfl, ?_, fun _ => rfl⟩
      have := observe_boardData { s with game := some o.state } g o.state h
      simp [afterCall, this]
  | pass =>
    cases hg : s.game with
    | none => simp only [tryCommand, hg]; exact ⟨_, rfl, by simp [h], fun _ => rfl⟩
    | some g =>
      obtain ⟨o, ho⟩ := AbstractGame.passTurn_total g
      simp only [tryCommand, hg, ho, Option.map_some']
      refine ⟨_, rfl, ?_, fun _ => rfl⟩
      have := observe_boardData { s with game := some o.state } g o.state h
      simp [afterCall, this]
  | undo =>
    cases hg : s.game with
    | none => simp only [tryCommand, hg]; exact ⟨_, rfl, by simp [h], fun _ => rfl⟩
    | some g =>
      simp only [tryCommand, hg]
      refine ⟨_, rfl, ?_, fun _ => rfl⟩
      have := observe_boardData { s with game := some g.undo.state } g g.undo.state h
      simp [afterCall, this]
  | resign =>
    cases hg : s.game with
    | none => simp only [tryCommand, hg]; exact ⟨_, rfl, by simp [h], fun _ => rfl⟩
    | some g =>
      simp only [tryCommand, hg]
      refine ⟨_, rfl, ?_, fun _ => rfl⟩
      simp only [afterCall, observe, newEvents_resign, Bool.false_eq_true, if_false,
        Option.isSome_some, true_and]
      cases hb : s.boardData with
      | null => simp [BoardRef.release]
      | held => simp [BoardRef.release]
      | freed => exact absurd hb h
  | save file created =>
    cases hg : s.game with
    | none => simp only [tryCommand, hg]; exact ⟨_, rfl, by simp [h], fun _ => rfl⟩
    | some g =>
      simp only [tryCommand, hg]
      split_ifs <;> exact ⟨_, rfl, by simp [h], fun _ => rfl⟩
  | load file =>
    cases hf : s.files.lookup file with
    | none => simp only [tryCommand, hf]; exact ⟨_, rfl, by simp [h], fun _ => rfl⟩
    | some text =>
      cases hm : GameMemento.deserialize text with
      | none => simp only [tryCommand, hf, hm]; exact ⟨_, rfl, by simp [h], fun _ => rfl⟩
      | some mem =>
        simp only [tryCommand, hf, hm]
        exact ⟨_, rfl, by simp [install_boardData], fun _ => rfl⟩
  | hint =>
    simp only [tryCommand, render, if_neg h, Option.map_some']
    exact ⟨_, rfl, by simp [h], fun _ => rfl⟩
  | unknown => exact ⟨_, rfl, by simp [h], fun _ => rfl⟩

/-- On a state in which the `BoardComponent` has no dangling pointer,
`processCommand` has a defined result for every command but one: `resign`
while the loop runs, an engine is held and the `BoardComponent` has the address
of its board. -/
theorem processCommand_eq_none_iff (s : GameSystem) (cmd : Command)
    (h : s.boardData ≠ BoardRef.freed) :
    processCommand s cmd = none ↔
      cmd = Command.resign ∧ s.running = true ∧ s.game.isSome = true ∧
        s.boardData = BoardRef.held := by
  obtain ⟨r, hr, hfreed, hrun⟩ := tryCommand_defined s cmd h
  have hb : ∀ (t : GameSystem) (e : SystemError),
      ({ t with ui := t.ui ++ [UiCall.onMessage (Notice.error e)] } : GameSystem).boardData
        = t.boardData := fun _ _ => rfl
  unfold processCommand
  rw [hr]
  simp only [Option.some_bind]
  by_cases hexit : cmd = Command.exit
  · subst hexit
    cases hr1 : r.1 <;> simp
  · have hrun1 := hrun hexit
    cases hr1 : r.1 with
    | none =>
      simp only [render]
      by_cases hrn : s.running = true
      · rw [if_pos ⟨by rw [hrun1]; exact hrn, hexit⟩]
        by_cases hf : r.2.boardData = BoardRef.freed
        · rw [if_pos hf]
          have := hfreed.1 hf
          simp [this.1, this.2.1, this.2.2, hrn]
        · rw [if_neg hf]
          simp only [reduceCtorEq, false_iff]
          intro hc
          exact hf (hfreed.2 ⟨hc.1, hc.2.2.1, hc.2.2.2⟩)
      · rw [if_neg (fun hc => hrn (by rw [← hrun1]; exact hc.1))]
        simp [hrn]
    | some e =>
      simp only [render]
      by_cases hrn : s.running = true
      · rw [if_pos ⟨by show r.2.running = true; rw [hrun1]; exact hrn, hexit⟩]
        by_cases hf : r.2.boardData = BoardRef.freed
        · rw [if_pos (by show r.2.boardData = BoardRef.freed; exact hf)]
          have := hfreed.1 hf
          simp [this.1, this.2.1, this.2.2, hrn]
        · rw [if_neg (by show ¬ r.2.boardData = BoardRef.freed; exact hf)]
          simp only [reduceCtorEq, false_iff]
          intro hc
          exact hf (hfreed.2 ⟨hc.1, hc.2.2.1, hc.2.2.2⟩)
      · rw [if_neg (fun hc => hrn (by rw [← hrun1]; exact hc.1))]
        simp [hrn]

/-- The engine held after one command: `resign` is the only command after
which a controller that held an engine holds none. -/
theorem processCommand_game (s s1 : GameSystem) (cmd : Command) (g : AbstractGame)
    (hg : s.game = some g) (hcmd : cmd ≠ Command.resign)
    (h : processCommand s cmd = some s1) : s1.game.isSome = true := by
  unfold processCommand at h
  cases hr : tryCommand s cmd with
  | none => rw [hr] at h; cases h
  | some r =>
    rw [hr] at h
    simp only [Option.some_bind] at h
    have hrender : ∀ t t1 : GameSystem, render t = some t1 → t1.game = t.game := by
      intro t t1 ht
      unfold render at ht
      split_ifs at ht
      cases ht
      rfl
    have hgame : r.2.game.isSome = true := by
      cases cmd with
      | exit => cases hr; simp [hg]
      | help => cases hr; simp [hg]
      | start typeStr size =>
        simp only [tryCommand] at hr
        split_ifs at hr <;> cases hr <;> simp [hg, install, observe]
      | move r c =>
        simp only [tryCommand] at hr
        rw [hg] at hr
        simp only at hr
        obtain ⟨o, ho⟩ := AbstractGame.makeMove_total g (r - 1) (c - 1)
        rw [ho] at hr
        cases hr
        rfl
      | pass =>
        simp only [tryCommand] at hr
        rw [hg] at hr
        simp only at hr
        obtain ⟨o, ho⟩ := AbstractGame.passTurn_total g
        rw [ho] at hr
        cases hr
        rfl
      | undo =>
        simp only [tryCommand] at hr
        rw [hg] at hr
        cases hr
        rfl
      | resign => exact absurd rfl hcmd
      | save file created =>
        simp only [tryCommand] at hr
        rw [hg] at hr
        simp only at hr
        split_ifs at hr <;> cases hr <;> simp [hg]
      | load file =>
        simp only [tryCommand] at hr
        cases hf : s.files.lookup file with
        | none => rw [hf] at hr; cases hr; simp [hg]
        | some text =>
          rw [hf] at hr
          simp only at hr
          cases hm : GameMemento.deserialize text with
          | none => rw [hm] at hr; cases hr; simp [hg]
          | some mem => rw [hm] at hr; cases hr; rfl
      | hint =>
        simp only [tryCommand, render] at hr
        split_ifs at hr <;>
          simp only [Option.map_some', Option.map_none', Option.some.injEq, reduceCtorEq] at hr
        rw [← hr]
        exact (congrArg Option.isSome hg).trans rfl
      | unknown => cases hr; simp [hg]
    cases hr1 : r.1 with
    | none =>
      rw [hr1] at h
      simp only at h
      split_ifs at h
      · rw [hrender _ _ h]; exact hgame
      · cases h; exact hgame
    | some e =>
      rw [hr1] at h
      simp only at h
      split_ifs at h
      · rw [hrender _ _ h]; exact hgame
      · cases h; exact hgame

end GameSystem

/-! ## A move or a pass, then undo -/

namespace AbstractGame

/-- A placement on an Empty grid cell followed by `undo`: both calls succeed, and
grid, side to move, size, history and variant are as before the move; the pass
counter is the 0 that `makeMove` had stored before it took the snapshot. -/
theorem makeMove_undo (g : AbstractGame) (x y : Int)
    (h : ¬ (x < 0 ∨ x ≥ g.size ∨ y < 0 ∨ y ≥ g.size)) (hc : g.board.cell x y = 0) :
    ∃ o, g.makeMove x y = some o ∧ o.thrown = none ∧ o.state.undo.thrown = none ∧
      o.state.undo.state.board = g.board ∧
      o.state.undo.state.currentPlayer = g.currentPlayer ∧
      o.state.undo.state.size = g.size ∧
      o.state.undo.state.history = g.history ∧
      o.state.undo.state.type = g.type ∧
      o.state.undo.state.passCount = 0 := by
  obtain ⟨o, ho, hok, _, hty, _, hhist⟩ := makeMove_legal g x y h hc
  have hh : o.state.history =
      { boardData := g.board, currentPlayer := g.currentPlayer, boardSize := g.size,
        type := g.type, passCount := 0 } :: g.history := hhist
  obtain ⟨h1, h2, h3, h4, h5, h6, h7⟩ := undo_cons o.state _ _ hh
  exact ⟨o, ho, hok, h1, h3, h4, h5, h2, h7.trans hty, h6⟩

/-- In a Go game `passTurn` followed by `undo`: both calls succeed, and grid,
side to move, size, pass counter, history and variant are as before the pass. -/
theorem passTurn_undo (g : AbstractGame) (hty : g.type = GameType.GO) :
    ∃ o, g.passTurn = some o ∧ o.thrown = none ∧ o.state.undo.thrown = none ∧
      o.state.undo.state.board = g.board ∧
      o.state.undo.state.currentPlayer = g.currentPlayer ∧
      o.state.undo.state.size = g.size ∧
      o.state.undo.state.passCount = g.passCount ∧
      o.state.undo.state.history = g.history ∧
      o.state.undo.state.type = g.type := by
  obtain ⟨o, ho, hok, hty', _, hhist⟩ := passTurn_go g hty
  obtain ⟨h1, h2, h3, h4, h5, h6, h7⟩ := undo_cons o.state _ _ hhist
  exact ⟨o, ho, hok, h1, h3, h4, h5, h6, h2, h7.trans (hty'.trans hty.symm)⟩

end AbstractGame

/-! ## Settlement: the two scores never tie -/

namespace GoWinStrategy

/-- A whole number exceeds a whole number plus 3.75 exactly when it exceeds it
by 4 or more, and it never equals it. -/
theorem score_gap (b w : Nat) :
    (((b : Nat) : ℚ) > ((w : Nat) : ℚ) + 3.75 ↔ b ≥ w + 4) ∧
    ((b : Nat) : ℚ) ≠ ((w : Nat) : ℚ) + 3.75 := by
  have h375 : (3.75 : ℚ) = 15 / 4 := by norm_num
  refine ⟨⟨?_, ?_⟩, ?_⟩
  · intro h
    by_contra hlt
    have h3 : b ≤ w + 3 := by omega
    have h3q : (b : ℚ) ≤ (w : ℚ) + 3 := by exact_mod_cast h3
    rw [h375] at h
    linarith
  · intro h
    have h4q : (w : ℚ) + 4 ≤ (b : ℚ) := by exact_mod_cast h
    rw [h375]
    linarith
  · intro h
    rw [h375] at h
    have h4 : (4 * b : ℚ) = 4 * w + 15 := by linarith
    have h4n : 4 * b = 4 * w + 15 := by exact_mod_cast h4
    omega

/-- The settlement returns on every grid; the two final scores differ; BLACK is
returned exactly when Black's stones and territory exceed White's by 4 or more,
and WHITE otherwise. -/
theorem checkWin_gap (rd : Option ResultDesc) (board : Board) (size : Nat) :
    ∃ t w, tally board size = some t ∧
      checkWin rd board size true = some (w, some (describe t)) ∧
      finalBlack t = ((t.blackCount + t.blackTerritory : Nat) : ℚ) ∧
      finalWhite t = ((t.whiteCount + t.whiteTerritory : Nat) : ℚ) + 3.75 ∧
      finalBlack t ≠ finalWhite t ∧
      (w = PieceColor.BLACK ↔
        t.blackCount + t.blackTerritory ≥ t.whiteCount + t.whiteTerritory + 4) ∧
      (w = PieceColor.WHITE ↔
        t.blackCount + t.blackTerritory < t.whiteCount + t.whiteTerritory + 4) ∧
      (w = PieceColor.WHITE → finalBlack t < finalWhite t) := by
  obtain ⟨t, ht⟩ := tally_total board size
  obtain ⟨hgap, hne⟩ := score_gap (t.blackCount + t.blackTerritory)
    (t.whiteCount + t.whiteTerritory)
  have hb : finalBlack t = ((t.blackCount + t.blackTerritory : Nat) : ℚ) := rfl
  have hw : finalWhite t = ((t.whiteCount + t.whiteTerritory : Nat) : ℚ) + 3.75 := rfl
  by_cases hgt : finalBlack t > finalWhite t
  · have hge := hgap.1 (by rw [← hb, ← hw]; exact hgt)
    refine ⟨t, PieceColor.BLACK, ht, ?_, hb, hw, (by rw [hb, hw]; exact hne), ?_, ?_, ?_⟩
    · simp only [checkWin, ht, not_true_eq_false, if_false, Option.map_some', if_pos hgt]
    · exact ⟨fun _ => hge, fun _ => rfl⟩
    · exact ⟨fun h => (by cases h), fun h => by omega⟩
    · intro h; cases h
  · have hlt : ¬ (t.blackCount + t.blackTerritory ≥ t.whiteCount + t.whiteTerritory + 4) :=
      fun h => hgt (by rw [hb, hw]; exact hgap.2 h)
    refine ⟨t, PieceColor.WHITE, ht, ?_, hb, hw, (by rw [hb, hw]; exact hne), ?_, ?_, ?_⟩
    · simp only [checkWin, ht, not_true_eq_false, if_false, Option.map_some', if_neg hgt]
    · exact ⟨fun h => (by cases h), fun h => absurd h hlt⟩
    · exact ⟨fun _ => by omega, fun _ => rfl⟩
    · intro _
      have hne' : finalBlack t ≠ finalWhite t := by rw [hb, hw]; exact hne
      exact lt_of_le_of_ne (not_lt.1 hgt) hne'

end GoWinStrategy

/-! ## Moves taken back one by one -/

namespace AbstractGame

theorem SameState.rfl_state (a : AbstractGame) : SameState a a :=
  ⟨rfl, rfl, rfl, rfl, rfl, rfl⟩

theorem SameState.trans_state {a b c : AbstractGame} (h1 : SameState a b) (h2 : SameState b c) :
    SameState a c :=
  ⟨h1.1.trans h2.1, h1.2.1.trans h2.2.1, h1.2.2.1.trans h2.2.2.1,
    h1.2.2.2.1.trans h2.2.2.2.1, h1.2.2.2.2.1.trans h2.2.2.2.2.1,
    h1.2.2.2.2.2.trans h2.2.2.2.2.2⟩

/-- What `undo` does depends on the engine state proper only. -/
theorem SameState.undo_state {a b : AbstractGame} (h : SameState a b) :
    a.undo.thrown = b.undo.thrown ∧ SameState a.undo.state b.undo.state := by
  obtain ⟨h1, h2, h3, h4, h5, h6⟩ := h
  unfold undo
  cases ha : a.history with
  | nil =>
    rw [← h6, ha]
    exact ⟨rfl, h1, h2, h3, h4, h5, by rw [← h6]⟩
  | cons m rest =>
    rw [← h6, ha]
    exact ⟨rfl, h1, rfl, rfl, rfl, rfl, rfl⟩

/-- A successful `makeMove` in a state with pass counter 0, followed by `undo`,
gives back the state in which the move was made. -/
theorem makeMove_undo_same (g : AbstractGame) (x y : Int) (o : Outcome)
    (hpc : g.passCount = 0) (hm : g.makeMove x y = some o) (hok : o.thrown = none) :
    o.state.passCount = 0 ∧ o.state.undo.thrown = none ∧ SameState o.state.undo.state g := by
  obtain ⟨hrange, hempty⟩ := makeMove_ok_legal g x y o hm hok
  obtain ⟨o1, ho1, _, hpc1, _⟩ := makeMove_legal g x y hrange hempty
  obtain ⟨o2, ho2, _, h1, h2, h3, h4, h5, h6, h7⟩ := makeMove_undo g x y hrange hempty
  rw [hm] at ho1 ho2
  cases ho1
  cases ho2
  exact ⟨hpc1, h1, h6, h4, h2, h3, h7.trans hpc.symm, h5⟩

theorem undoTimes_succ (i : Nat) (g : AbstractGame) :
    undoTimes (i + 1) g =
      (undoTimes i g).bind fun u => if u.undo.thrown = none then some u.undo.state else none := by
  induction i generalizing g with
  | zero =>
    simp only [undoTimes, Option.some_bind]
  | succ i ih =>
    rw [undoTimes]
    by_cases h : g.undo.thrown = none
    · rw [if_pos h, ih g.undo.state]
      conv_rhs => rw [undoTimes, if_pos h]
    · rw [if_neg h]
      conv_rhs => rw [undoTimes, if_neg h]
      rfl

/-- The first of the states of a sequence of moves is the state it starts in. -/
theorem playMoves_head (moves : List Point) (g : AbstractGame) (states : List AbstractGame)
    (final : AbstractGame) (h : g.playMoves moves = some (states, final)) :
    (states ++ [final])[0]? = some g := by
  cases moves with
  | nil =>
    simp only [playMoves, Option.some.injEq, Prod.mk.injEq] at h
    obtain ⟨rfl, rfl⟩ := h
    rfl
  | cons m ms =>
    rw [playMoves] at h
    cases hmv : g.makeMove m.1 m.2 with
    | none => rw [hmv] at h; cases h
    | some o =>
      rw [hmv] at h
      simp only at h
      split_ifs at h
      cases hr : playMoves o.state ms with
      | none => rw [hr] at h; cases h
      | some r =>
        rw [hr] at h
        simp only [Option.map_some', Option.some.injEq, Prod.mk.injEq] at h
        obtain ⟨rfl, rfl⟩ := h
        simp

/-- After a sequence of successful moves from a state with pass counter 0, `i`
undos succeed for every `i` up to the number of moves, and they lead to the state
in which the move number `k - i + 1` was made (to the final state for `i = 0`). -/
theorem playMoves_undoTimes (moves : List Point) :
    ∀ (g : AbstractGame) (states : List AbstractGame) (final : AbstractGame),
      g.passCount = 0 → g.playMoves moves = some (states, final) →
      states.length = moves.length ∧
      ∀ i, i ≤ moves.length → ∃ u s, final.undoTimes i = some u ∧
        (states ++ [final])[moves.length - i]? = some s ∧ SameState u s := by
  induction moves with
  | nil =>
    intro g states final _ h
    simp only [playMoves, Option.some.injEq, Prod.mk.injEq] at h
    obtain ⟨rfl, rfl⟩ := h
    refine ⟨rfl, ?_⟩
    intro i hi
    have hi0 : i = 0 := by simpa using hi
    subst hi0
    exact ⟨g, g, rfl, rfl, SameState.rfl_state g⟩
  | cons m ms ih =>
    intro g states final hpc h
    have hfull := h
    rw [playMoves] at h
    cases hmv : g.makeMove m.1 m.2 with
    | none => rw [hmv] at h; cases h
    | some o =>
      rw [hmv] at h
      simp only at h
      by_cases hok : o.thrown = none
      · rw [if_pos hok] at h
        cases hr : playMoves o.state ms with
        | none => rw [hr] at h; cases h
        | some r =>
          rw [hr] at h
          simp only [Option.map_some', Option.some.injEq, Prod.mk.injEq] at h
          obtain ⟨rfl, rfl⟩ := h
          obtain ⟨hpc1, hundo, hsame⟩ := makeMove_undo_same g m.1 m.2 o hpc hmv hok
          obtain ⟨hlen, hall⟩ := ih o.state r.1 r.2 hpc1 hr
          refine ⟨by simp [hlen], ?_⟩
          intro i hi
          simp only [List.length_cons] at hi ⊢
          by_cases hlt : i ≤ ms.length
          · obtain ⟨u, s, hu, hs, hus⟩ := hall i hlt
            refine ⟨u, s, hu, ?_, hus⟩
            have hidx : ms.length + 1 - i = (ms.length - i) + 1 := by omega
            rw [hidx, List.cons_append, List.getElem?_cons_succ]
            exact hs
          · have hi1 : i = ms.length + 1 := by omega
            subst hi1
            obtain ⟨u, s, hu, hs, hus⟩ := hall ms.length (le_refl _)
            have hs0 : (r.1 ++ [r.2])[0]? = some o.state := playMoves_head ms o.state r.1 r.2 hr
            rw [Nat.sub_self, hs0] at hs
            cases hs
            obtain ⟨hthr, hst⟩ := hus.undo_state
            refine ⟨u.undo.state, g, ?_, by simp, hst.trans_state hsame⟩
            rw [undoTimes_succ, hu]
            simp only [Option.some_bind]
            rw [if_pos (hthr.trans hundo)]
      · rw [if_neg hok] at h
        cases h

end AbstractGame

/-! ## The win check of the single-file program against the modular one -/

namespace Monolithic

/-- The counting loop adds one for every remaining `k` exactly when every one of
these cells lies in the grid and holds `currentVal`. -/
theorem countLine_full (board : Board) (size : Nat) (i j currentVal : Int) (d : Point) :
    ∀ (ks : List Int) (count : Nat),
      countLine board size i j currentVal d ks count ≤ count + ks.length ∧
      (countLine board size i j currentVal d ks count = count + ks.length ↔
        ∀ k ∈ ks, InGrid size (i + d.1 * k, j + d.2 * k) ∧
          board.cell (i + d.1 * k) (j + d.2 * k) = currentVal) := by
  intro ks
  induction ks with
  | nil => intro count; simp [countLine]
  | cons k ks ih =>
    intro count
    rw [countLine]
    by_cases hbad : i + d.1 * k < 0 ∨ i + d.1 * k ≥ size ∨ j + d.2 * k < 0 ∨ j + d.2 * k ≥ size ∨
        board.cell (i + d.1 * k) (j + d.2 * k) ≠ currentVal
    · rw [if_pos hbad]
      refine ⟨by simp, ?_⟩
      constructor
      · intro h
        simp only [List.length_cons] at h
        omega
      · intro h
        exfalso
        obtain ⟨hin, hcell⟩ := h k (List.mem_cons_self _ _)
        unfold InGrid at hin
        simp only at hin
        rcases hbad with hb | hb | hb | hb | hb
        · omega
        · omega
        · omega
        · omega
        · exact hb hcell
    · rw [if_neg hbad]
      obtain ⟨hle, hiff⟩ := ih (count + 1)
      refine ⟨by simp only [List.length_cons]; omega, ?_⟩
      have hk : InGrid size (i + d.1 * k, j + d.2 * k) ∧
          board.cell (i + d.1 * k) (j + d.2 * k) = currentVal := by
        unfold InGrid
        simp only
        refine ⟨⟨?_, ?_, ?_, ?_⟩, ?_⟩
        · by_contra hc; exact hbad (Or.inl (by omega))
        · by_contra hc; exact hbad (Or.inr (Or.inl (by omega)))
        · by_contra hc; exact hbad (Or.inr (Or.inr (Or.inl (by omega))))
        · by_contra hc; exact hbad (Or.inr (Or.inr (Or.inr (Or.inl (by omega)))))
        · by_contra hc; exact hbad (Or.inr (Or.inr (Or.inr (Or.inr hc))))
      simp only [List.length_cons, List.mem_cons, forall_eq_or_imp]
      constructor
      · intro h
        exact ⟨hk, hiff.1 (by omega)⟩
      · intro h
        have := hiff.2 h.2
        omega

/-- The counting loop of one direction ends with 5 exactly when a line of five
starts at the occupied grid cell `(i, j)` in that direction. -/
theorem countLine_five (board : Board) (size : Nat) (i j : Int) (d : Point)
    (hin : InGrid size (i, j)) (hne : board.cell i j ≠ 0) :
    countLine board size i j (board.cell i j) d [1, 2, 3, 4] 1 = 5 ↔
      FiveInRow board size i j d := by
  have h := (countLine_full board size i j (board.cell i j) d [1, 2, 3, 4] 1).2
  simp only [List.length_cons, List.length_nil] at h
  rw [h]
  unfold FiveInRow
  rw [forall_zero_to_four]
  simp only [List.mem_cons, List.mem_singleton, List.not_mem_nil, or_false, forall_eq_or_imp,
    forall_eq, mul_comm d.1, mul_comm d.2]
  constructor
  · rintro ⟨h1, h2, h3, h4⟩
    refine ⟨hne, ⟨?_, ?_⟩, h1, h2, h3, h4⟩
    · simpa using hin
    · simp
  · rintro ⟨_, _, h1, h2, h3, h4⟩
    exact ⟨h1, h2, h3, h4⟩

theorem mem_dirs_iff (d : Point) : d ∈ dirs ↔ d ∈ scanDirs := by
  simp only [dirs, scanDirs, List.mem_cons, List.mem_singleton, List.not_mem_nil, or_false]
  tauto

/-- One iteration of the single-file scan returns exactly when a line of five
starts at the grid cell, and then the side of that cell. -/
theorem checkAt_eq_some_iff (board : Board) (size : Nat) (i j : Int) (hin : InGrid size (i, j))
    (w : PieceColor) :
    checkAt board size i j = some w ↔
      (∃ d, d ∈ scanDirs ∧ FiveInRow board size i j d) ∧
      w = if board.cell i j = 1 then PieceColor.BLACK else PieceColor.WHITE := by
  unfold checkAt
  by_cases h0 : board.cell i j = 0
  · rw [if_pos h0]
    constructor
    · intro h; cases h
    · rintro ⟨⟨d, _, hfive⟩, _⟩
      exact absurd h0 hfive.1
  · rw [if_neg h0]
    simp only
    rw [List.findSome?_eq_some_iff]
    constructor
    · rintro ⟨l1, d, l2, hsplit, hd, _⟩
      have hmem : d ∈ dirs := by rw [hsplit]; simp
      by_cases h5 : countLine board size i j (board.cell i j) d [1, 2, 3, 4] 1 = 5
      · rw [if_pos h5] at hd
        exact ⟨⟨d, (mem_dirs_iff d).1 hmem, (countLine_five board size i j d hin h0).1 h5⟩,
          (Option.some.inj hd).symm⟩
      · rw [if_neg h5] at hd
        cases hd
    · rintro ⟨⟨d, hd, hfive⟩, hw⟩
      have hex : (dirs.findSome? fun d =>
          if countLine board size i j (board.cell i j) d [1, 2, 3, 4] 1 = 5 then
            some (if board.cell i j = 1 then PieceColor.BLACK else PieceColor.WHITE)
          else none) = some w := by
        cases hf : (dirs.findSome? fun d =>
            if countLine board size i j (board.cell i j) d [1, 2, 3, 4] 1 = 5 then
              some (if board.cell i j = 1 then PieceColor.BLACK else PieceColor.WHITE)
            else none) with
        | none =>
          rw [List.findSome?_eq_none_iff] at hf
          have := hf d ((mem_dirs_iff d).2 hd)
          rw [if_pos ((countLine_five board size i j d hin h0).2 hfive)] at this
          cases this
        | some w' =>
          obtain ⟨d', _, hw'⟩ := List.exists_of_findSome?_eq_some hf
          by_cases h5 : countLine board size i j (board.cell i j) d' [1, 2, 3, 4] 1 = 5
          · rw [if_pos h5] at hw'
            rw [← hw', hw]
          · rw [if_neg h5] at hw'
            cases hw'
      exact List.findSome?_eq_some_iff.1 hex

/-- At a grid cell the two scans do the same. -/
theorem checkAt_eq (board : Board) (size : Nat) (i j : Int) (hin : InGrid size (i, j)) :
    checkAt board size i j = GomokuWinStrategy.checkAt board size i j := by
  cases hm : GomokuWinStrategy.checkAt board size i j with
  | none =>
    cases hs : checkAt board size i j with
    | none => rfl
    | some w =>
      have hfive := ((checkAt_eq_some_iff board size i j hin w).1 hs).1
      have := (GomokuWinStrategy.checkAt_isSome_iff board size i j hin).2 hfive
      rw [hm] at this
      cases this
  | some w =>
    have hfive := (GomokuWinStrategy.checkAt_isSome_iff board size i j hin).1 (by rw [hm]; rfl)
    have hw := GomokuWinStrategy.checkAt_color board size i j w hm
    exact (checkAt_eq_some_iff board size i j hin w).2 ⟨hfive, hw⟩

theorem findSome_congr {α β : Type} (f g : α → Option β) (l : List α)
    (h : ∀ a ∈ l, f a = g a) : l.findSome? f = l.findSome? g := by
  induction l with
  | nil => rfl
  | cons a l ih =>
    rw [List.findSome?_cons, List.findSome?_cons, h a (List.mem_cons_self _ _),
      ih (fun b hb => h b (List.mem_cons_of_mem _ hb))]

/-- The two scans return the same winner on every grid. -/
theorem checkWin_eq (board : Board) (size : Nat) (forceEnd : Bool) :
    checkWin board size forceEnd = GomokuWinStrategy.checkWin board size forceEnd := by
  unfold checkWin GomokuWinStrategy.checkWin
  rw [findSome_congr _ (fun p => GomokuWinStrategy.checkAt board size p.1 p.2)]
  intro p hp
  exact checkAt_eq board size p.1 p.2 ((mem_gridCells size p).1 hp)

end Monolithic

/-! ## Settlement with the two sides exchanged -/

namespace GoWinStrategy

theorem swapCell_eq_one (v : Int) : swapCell v = 1 ↔ v = 2 := by
  unfold swapCell
  split_ifs <;> omega

theorem swapCell_eq_two (v : Int) : swapCell v = 2 ↔ v = 1 := by
  unfold swapCell
  split_ifs <;> omega

theorem cell_swapSides (board : Board) (x y : Int) :
    (swapSides board).cell x y = swapCell (board.cell x y) := by
  unfold Board.cell swapSides
  by_cases h : 0 ≤ x ∧ 0 ≤ y
  · rw [if_pos h, if_pos h]
    simp only [List.getD_eq_getElem?_getD, List.getElem?_map]
    cases hrow : board[x.toNat]? with
    | none => simp [swapCell]
    | some row =>
      simp only [Option.map_some', Option.getD_some, List.getElem?_map]
      cases hv : row[y.toNat]? with
      | none => simp [swapCell]
      | some v => simp
  · rw [if_neg h, if_neg h]
    simp [swapCell]

theorem visit_swap (board : Board) (size : Nat) (st : FloodState) (nx ny : Int) :
    visit (swapSides board) size (FloodState.swap st) nx ny =
      FloodState.swap (visit board size st nx ny) := by
  unfold visit
  by_cases hin : nx ≥ 0 ∧ nx < size ∧ ny ≥ 0 ∧ ny < size
  · rw [if_pos hin, if_pos hin]
    simp only [cell_swapSides, swapCell_eq_one, swapCell_eq_two]
    by_cases h1 : board.cell nx ny = 1
    · simp [h1, FloodState.swap]
    · by_cases h2 : board.cell nx ny = 2
      · simp [h2, FloodState.swap]
      · by_cases hv : (nx, ny) ∈ st.visited
        · simp [h1, h2, hv, FloodState.swap]
        · simp [h1, h2, hv, FloodState.swap]
  · rw [if_neg hin, if_neg hin]

theorem visit_loop_swap (board : Board) (size : Nat) (x y : Int) :
    ∀ (ds : List Point) (st : FloodState),
      ds.foldl (fun s d => visit (swapSides board) size s (x + d.1) (y + d.2))
          (FloodState.swap st) =
        FloodState.swap (ds.foldl (fun s d => visit board size s (x + d.1) (y + d.2)) st) := by
  intro ds
  induction ds with
  | nil => intro st; rfl
  | cons d ds ih =>
    intro st
    simp only [List.foldl_cons]
    rw [visit_swap, ih]

theorem floodLoop_swap (board : Board) (size : Nat) :
    ∀ (fuel : Nat) (st : FloodState),
      floodLoop (swapSides board) size fuel (FloodState.swap st) =
        (floodLoop board size fuel st).map FloodState.swap := by
  intro fuel
  induction fuel with
  | zero =>
    intro st
    unfold floodLoop
    by_cases h : st.head < st.q.length
    · rw [if_pos h, if_pos (by exact h)]
      rfl
    · rw [if_neg h, if_neg (by exact h)]
      rfl
  | succ fuel ih =>
    intro st
    unfold floodLoop
    by_cases h : st.head < st.q.length
    · rw [if_pos h, if_pos (by exact h)]
      simp only
      have := visit_loop_swap board size (st.q.getD st.head (0, 0)).1
        (st.q.getD st.head (0, 0)).2 dirs
        { st with head := st.head + 1, areaSize := st.areaSize + 1 }
      rw [← ih]
      exact congrArg _ this
    · rw [if_neg h, if_neg (by exact h)]
      rfl

theorem tallyAt_swap (board : Board) (size : Nat) (t : Tally) (i j : Int) :
    tallyAt (swapSides board) size (Tally.swap t) i j =
      (tallyAt board size t i j).map Tally.swap := by
  unfold tallyAt
  simp only [cell_swapSides, swapCell_eq_one, swapCell_eq_two]
  by_cases h1 : board.cell i j = 1
  · simp [h1, Tally.swap]
  · by_cases h2 : board.cell i j = 2
    · simp [h2, Tally.swap]
    · by_cases hv : (i, j) ∈ t.visited
      · have hv' : (i, j) ∈ (Tally.swap t).visited := hv
        simp [h1, h2, hv, hv']
      · have hv' : (i, j) ∉ (Tally.swap t).visited := hv
        rw [if_neg h2, if_neg h1, if_pos hv', if_neg h1, if_neg h2, if_pos hv]
        have hfl := floodLoop_swap board size (size * size)
          { q := [(i, j)], head := 0, areaSize := 0, touchBlack := false, touchWhite := false,
            visited := (i, j) :: t.visited }
        have hinit : FloodState.swap
            { q := [(i, j)], head := 0, areaSize := 0, touchBlack := false, touchWhite := false,
              visited := (i, j) :: t.visited } =
            { q := [(i, j)], head := 0, areaSize := 0, touchBlack := false, touchWhite := false,
              visited := (i, j) :: (Tally.swap t).visited } := rfl
        rw [← hinit, hfl]
        cases hr : floodLoop board size (size * size)
            { q := [(i, j)], head := 0, areaSize := 0, touchBlack := false, touchWhite := false,
              visited := (i, j) :: t.visited } with
        | none => rfl
        | some st =>
          simp only [Option.map_some', Option.some.injEq]
          cases hb : st.touchBlack <;> cases hw : st.touchWhite <;>
            simp [FloodState.swap, Tally.swap, hb, hw]

theorem tally_loop_swap (board : Board) (size : Nat) :
    ∀ (cs : List Point) (t : Tally),
      cs.foldlM (fun t p => tallyAt (swapSides board) size t p.1 p.2) (Tally.swap t) =
        (cs.foldlM (fun t p => tallyAt board size t p.1 p.2) t).map Tally.swap := by
  intro cs
  induction cs with
  | nil => intro t; rfl
  | cons c cs ih =>
    intro t
    rw [List.foldlM_cons, List.foldlM_cons, tallyAt_swap]
    cases hstep : tallyAt board size t c.1 c.2 with
    | none => rfl
    | some t1 =>
      simp only [Option.map_some', Option.some_bind]
      exact ih t1

/-- Exchanging the two sides on the grid exchanges the counters of the
settlement. -/
theorem tally_swap (board : Board) (size : Nat) :
    tally (swapSides board) size = (tally board size).map Tally.swap :=
  tally_loop_swap board size (gridCells size)
    { blackCount := 0, whiteCount := 0, blackTerritory := 0, whiteTerritory := 0, visited := [] }

end GoWinStrategy

/-! ## Settlement: the region sizes add up to the number of Empty cells -/

namespace GoWinStrategy

/-- The log does not change what the counting loops compute. -/
theorem tallyAtLog_fst (board : Board) (size : Nat) (acc : Tally × List Nat) (i j : Int) :
    (tallyAtLog board size acc i j).map Prod.fst = tallyAt board size acc.1 i j := by
  unfold tallyAtLog tallyAt
  simp only
  by_cases h1 : board.cell i j = 1
  · rw [if_pos h1, if_pos h1]; rfl
  rw [if_neg h1, if_neg h1]
  by_cases h2 : board.cell i j = 2
  · rw [if_pos h2, if_pos h2]; rfl
  rw [if_neg h2, if_neg h2]
  by_cases hv : (i, j) ∉ acc.1.visited
  · rw [if_pos hv, if_pos hv, Option.map_map]
    congr 1
  · rw [if_neg hv, if_neg hv]; rfl

/-- One iteration of the counting loops with the log: the sizes logged so far add
up to the number of cells marked so far. -/
theorem tallyAtLog_spec (board : Board) (size : Nat)
    (hcells : ∀ x y, board.cell x y = 0 ∨ board.cell x y = 1 ∨ board.cell x y = 2)
    (pre : List Point) (acc : Tally × List Nat) (c : Point) (hc : InGrid size c)
    (inv : TallyInv board size pre acc.1) (hsum : acc.2.sum = acc.1.visited.length) :
    ∃ acc', tallyAtLog board size acc c.1 c.2 = some acc' ∧
      tallyAt board size acc.1 c.1 c.2 = some acc'.1 ∧
      TallyInv board size (pre ++ [c]) acc'.1 ∧ acc'.2.sum = acc'.1.visited.length := by
  obtain ⟨t', ht', inv'⟩ := tallyAt_spec board size hcells pre acc.1 c hc inv
  have hfst := tallyAtLog_fst board size acc c.1 c.2
  rw [ht'] at hfst
  cases hlog : tallyAtLog board size acc c.1 c.2 with
  | none => rw [hlog] at hfst; cases hfst
  | some acc' =>
    rw [hlog] at hfst
    simp only [Option.map_some', Option.some.injEq] at hfst
    subst hfst
    refine ⟨acc', rfl, ht', inv', ?_⟩
    unfold tallyAtLog at hlog
    simp only at hlog
    by_cases h1 : board.cell c.1 c.2 = 1
    · rw [if_pos h1] at hlog
      cases hlog
      exact hsum
    rw [if_neg h1] at hlog
    by_cases h2 : board.cell c.1 c.2 = 2
    · rw [if_pos h2] at hlog
      cases hlog
      exact hsum
    rw [if_neg h2] at hlog
    by_cases hv : (c.1, c.2) ∉ acc.1.visited
    · rw [if_pos hv] at hlog
      have h0 : board.cell c.1 c.2 = 0 := by
        rcases hcells c.1 c.2 with h | h | h
        · exact h
        · exact absurd h h1
        · exact absurd h h2
      obtain ⟨st, hfl, _, _, hvis, _, harea, _, _⟩ :=
        flood_spec board size hcells acc.1.visited c ⟨hc, h0⟩ hv inv.nodup inv.closed
      have hfl' : floodLoop board size (size * size)
          { q := [(c.1, c.2)], head := 0, areaSize := 0, touchBlack := false,
            touchWhite := false, visited := (c.1, c.2) :: acc.1.visited } = some st := hfl
      rw [hfl'] at hlog
      simp only [Option.map_some', Option.some.injEq] at hlog
      have hlen : st.visited.length = acc.1.visited.length + st.areaSize := by
        rw [hvis, harea]
        simp only [List.length_append, List.length_reverse]
        omega
      subst hlog
      simp only [List.sum_append, List.sum_cons, List.sum_nil, add_zero]
      split_ifs <;> (simp only; omega)
    · rw [if_neg hv] at hlog
      cases hlog
      exact hsum

theorem tallyLog_loop (board : Board) (size : Nat)
    (hcells : ∀ x y, board.cell x y = 0 ∨ board.cell x y = 1 ∨ board.cell x y = 2) :
    ∀ (cs pre : List Point) (acc : Tally × List Nat), (∀ c ∈ cs, InGrid size c) →
      TallyInv board size pre acc.1 → acc.2.sum = acc.1.visited.length →
      ∃ acc', cs.foldlM (fun acc p => tallyAtLog board size acc p.1 p.2) acc = some acc' ∧
        cs.foldlM (fun t p => tallyAt board size t p.1 p.2) acc.1 = some acc'.1 ∧
        TallyInv board size (pre ++ cs) acc'.1 ∧ acc'.2.sum = acc'.1.visited.length := by
  intro cs
  induction cs with
  | nil =>
    intro pre acc _ inv hsum
    exact ⟨acc, rfl, rfl, by simpa using inv, hsum⟩
  | cons c cs ih =>
    intro pre acc hcs inv hsum
    obtain ⟨acc1, hstep, hstep', inv1, hsum1⟩ := tallyAtLog_spec board size hcells pre acc c
      (hcs c (List.mem_cons_self _ _)) inv hsum
    obtain ⟨acc', hfold, hfold', inv', hsum'⟩ := ih (pre ++ [c]) acc1
      (fun c' hc' => hcs c' (List.mem_cons_of_mem _ hc')) inv1 hsum1
    refine ⟨acc', ?_, ?_, by simpa using inv', hsum'⟩
    · rw [List.foldlM_cons, hstep]; exact hfold
    · rw [List.foldlM_cons, hstep']; exact hfold'

/-- On a grid with cells in {0, 1, 2} the counting loops with the log return; the
counters are those of `tally`; every Empty cell of the grid is marked, and so
enqueued, exactly once; and the region sizes logged add up to the number of
Empty cells. -/
theorem tallyLog_spec (board : Board) (size : Nat)
    (hcells : ∀ x y, board.cell x y = 0 ∨ board.cell x y = 1 ∨ board.cell x y = 2) :
    ∃ t areas, tallyLog board size = some (t, areas) ∧ tally board size = some t ∧
      t.visited.Nodup ∧ (∀ p, p ∈ t.visited ↔ EmptyCell board size p) ∧
      areas.sum = t.visited.length ∧ t.visited.length = stoneCount board size 0 := by
  have init : TallyInv board size []
      { blackCount := 0, whiteCount := 0, blackTerritory := 0, whiteTerritory := 0,
        visited := [] } := by
    refine ⟨List.nodup_nil, ?_, ?_, ?_, rfl, rfl, ⟨[], List.nodup_nil, ?_, rfl⟩,
      ⟨[], List.nodup_nil, ?_, rfl⟩⟩
    · intro p hp; exact absurd hp (List.not_mem_nil p)
    · intro p hp; exact absurd hp (List.not_mem_nil p)
    · intro p hp; exact absurd hp (List.not_mem_nil p)
    · intro p; simp
    · intro p; simp
  obtain ⟨acc, hfold, hfold', inv, hsum⟩ := tallyLog_loop board size hcells (gridCells size) []
    ({ blackCount := 0, whiteCount := 0, blackTerritory := 0, whiteTerritory := 0,
       visited := [] }, [])
    (fun c hc => (mem_gridCells size c).1 hc) init rfl
  have inv' : TallyInv board size (gridCells size) acc.1 := by simpa using inv
  refine ⟨acc.1, acc.2, hfold, hfold', inv'.nodup, inv'.mem_visited_iff, hsum, ?_⟩
  unfold stoneCount
  apply List.Perm.length_eq
  rw [List.perm_ext_iff_of_nodup inv'.nodup ((nodup_gridCells size).filter _)]
  intro p
  rw [inv'.mem_visited_iff, List.mem_filter, mem_gridCells]
  simp [EmptyCell]

end GoWinStrategy

/-! ## Go: the recursion of `countLiberties` is bounded by the grid -/

namespace GoGame

/-- Started with an empty set and fuel `size * size`, `countLiberties` returns for
every start position and colour; the set it leaves lists every cell it has
entered once, all of them grid cells holding `color`, so at most `size * size`
cells. -/
theorem countLiberties_bounded (board : Board) (size : Nat) (x y color : Int) :
    ∃ n visited, countLiberties board size (size * size) x y color [] = some (n, visited) ∧
      visited.Nodup ∧
      (∀ q ∈ visited, InGrid size q ∧ board.cell q.1 q.2 = color) ∧
      visited.length ≤ size * size := by
  have key : ∃ n visited, countLiberties board size (size * size) x y color [] =
      some (n, visited) ∧ visited.Nodup ∧
      (∀ q ∈ visited, InGrid size q ∧ board.cell q.1 q.2 = color) := by
    by_cases hcol : color = 0
    · subst hcol
      unfold countLiberties
      by_cases h1 : x < 0 ∨ x ≥ size ∨ y < 0 ∨ y ≥ size
      · rw [if_pos h1]
        exact ⟨0, [], rfl, List.nodup_nil, fun q hq => absurd hq (List.not_mem_nil q)⟩
      · rw [if_neg h1]
        by_cases h2 : board.cell x y = 0
        · rw [if_pos h2]
          exact ⟨1, [], rfl, List.nodup_nil, fun q hq => absurd hq (List.not_mem_nil q)⟩
        · rw [if_neg h2, if_pos h2]
          exact ⟨0, [], rfl, List.nodup_nil, fun q hq => absurd hq (List.not_mem_nil q)⟩
    · obtain ⟨n, v, hcall, spec⟩ := countLiberties_spec board size color hcol (size * size) x y []
        (freeCells_le size [])
      refine ⟨n, v, hcall, spec.nodup List.nodup_nil, ?_⟩
      intro q hq
      exact (spec.stones q hq (List.not_mem_nil q)).2.1
  obtain ⟨n, visited, hcall, hnd, hmem⟩ := key
  refine ⟨n, visited, hcall, hnd, hmem, ?_⟩
  have hsub : visited ⊆ gridCells size := fun p hp => (mem_gridCells size p).2 (hmem p hp).1
  have := (List.subperm_of_subset hnd hsub).length_le
  rwa [length_gridCells] at this

end GoGame

/-! ## Go: the capture step does not depend on the order of the neighbours -/

/-- Two boards of the same square shape with the same cells are equal. -/
theorem Board.ext_of_cells (b1 b2 : Board) (n : Nat) (h1 : b1.Square n) (h2 : b2.Square n)
    (h : ∀ x y, b1.cell x y = b2.cell x y) : b1 = b2 := by
  rw [← Board.rows_eq b1 n h1, ← Board.rows_eq b2 n h2]
  simp only [h]

namespace GoGame

theorem postMoveProcessIn_dirs (g : AbstractGame) (x y : Int) :
    postMoveProcessIn dirs g x y = postMoveProcess g x y := rfl

theorem CapturedVia.congr_dirs (board : Board) (size : Nat) (color : Int) (r c : Int)
    (ds1 ds2 : List Point) (h : ∀ d, d ∈ ds1 ↔ d ∈ ds2) (p : Point) :
    CapturedVia board size color r c ds1 p ↔ CapturedVia board size color r c ds2 p := by
  unfold CapturedVia
  constructor
  · rintro ⟨hdead, d, hd, hrest⟩
    exact ⟨hdead, d, (h d).1 hd, hrest⟩
  · rintro ⟨hdead, d, hd, hrest⟩
    exact ⟨hdead, d, (h d).2 hd, hrest⟩

/-- The capture loop over any list of directions returns, and it clears exactly
the cells captured through these directions, as judged on the grid before the
loop. -/
theorem postMoveProcessIn_spec (ds : List Point) (g0 : AbstractGame) (r c : Int)
    (hsq : g0.board.Square g0.size) :
    ∃ g, postMoveProcessIn ds g0 r c = some g ∧
      CaptureInv (if g0.board.cell r c = 1 then 2 else 1) r c ds g0 g := by
  have hcol : (if g0.board.cell r c = 1 then (2 : Int) else 1) ≠ 0 := by
    split <;> norm_num
  have init : CaptureInv (if g0.board.cell r c = 1 then 2 else 1) r c [] g0 g0 := by
    refine ⟨hsq, rfl, rfl, rfl, rfl, rfl, rfl, ⟨[], by simp⟩, ?_, fun _ _ => rfl⟩
    rintro p ⟨_, d, hd, _⟩
    exact absurd hd (List.not_mem_nil d)
  obtain ⟨g, hfold, inv⟩ := postMoveProcess_loop _ hcol r c g0 ds [] g0 init
  exact ⟨g, hfold, by simpa using inv⟩

/-- Whatever the order in which the four neighbours are taken, the capture loop
leaves the same grid as `postMoveProcess`, and the same size, side to move,
history and pass counter. -/
theorem postMoveProcessIn_order (ds : List Point) (hds : ∀ d, d ∈ ds ↔ d ∈ dirs)
    (g0 : AbstractGame) (r c : Int) (hsq : g0.board.Square g0.size) :
    ∃ g g', postMoveProcess g0 r c = some g ∧ postMoveProcessIn ds g0 r c = some g' ∧
      g'.board = g.board ∧ g'.size = g.size ∧ g'.currentPlayer = g.currentPlayer ∧
      g'.history = g.history ∧ g'.passCount = g.passCount ∧ g'.type = g.type := by
  obtain ⟨g, hg, inv⟩ := postMoveProcessIn_spec dirs g0 r c hsq
  obtain ⟨g', hg', inv'⟩ := postMoveProcessIn_spec ds g0 r c hsq
  refine ⟨g, g', hg, hg', ?_, inv'.size_eq.trans inv.size_eq.symm,
    inv'.currentPlayer_eq.trans inv.currentPlayer_eq.symm,
    inv'.history_eq.trans inv.history_eq.symm, inv'.passCount_eq.trans inv.passCount_eq.symm,
    inv'.type_eq.trans inv.type_eq.symm⟩
  apply Board.ext_of_cells g'.board g.board g0.size inv'.square inv.square
  intro x y
  by_cases hcap : CapturedVia g0.board g0.size (if g0.board.cell r c = 1 then 2 else 1) r c
      dirs (x, y)
  · rw [inv.cleared (x, y) hcap,
      inv'.cleared (x, y) ((CapturedVia.congr_dirs _ _ _ _ _ ds dirs hds (x, y)).2 hcap)]
  · rw [inv.kept (x, y) hcap,
      inv'.kept (x, y) (fun h => hcap ((CapturedVia.congr_dirs _ _ _ _ _ ds dirs hds (x, y)).1 h))]

/-- What one call of `removeDeadGroup` on a stone of `color` does to the grid:
it clears the cells of a list `group` without repetition, all of which held
`color`, and nothing else; and it reports the length of the list when the list
is not empty. -/
theorem removeDeadGroup_cleared (g g' : AbstractGame) (x y color : Int) (hcol : color ≠ 0)
    (hsq : g.board.Square g.size) (hin : InGrid g.size (x, y))
    (hcell : g.board.cell x y = color) (h : removeDeadGroup g x y color = some g') :
    ∃ group : List Point, group.Nodup ∧
      (∀ p ∈ group, g.board.cell p.1 p.2 = color) ∧
      (∀ p : Point, p ∈ group → g'.board.cell p.1 p.2 = 0) ∧
      (∀ p : Point, p ∉ group → g'.board.cell p.1 p.2 = g.board.cell p.1 p.2) ∧
      g'.events = g.events ++
        (if group = [] then [] else [Event.message (Message.captured group.length)]) ∧
      g'.size = g.size ∧ g'.board.Square g.size := by
  obtain ⟨n, grp, hcall, hnodup, hmem, _⟩ := countLiberties_group g.board g.size color hcol
    (x, y) hin hcell
  unfold removeDeadGroup at h
  rw [hcall] at h
  simp only [Option.map_some', Option.some.injEq] at h
  by_cases hn0 : n = 0
  · rw [if_pos hn0] at h
    have hstone : ∀ q ∈ grp, InGrid g.size q ∧ g.board.cell q.1 q.2 = color := fun q hq =>
      (SameGroup.group_symm ⟨hin, hcell⟩ ((hmem q).1 hq)).1
    obtain ⟨hsq', hcells⟩ := cell_clear g.size grp (fun q hq => (hstone q hq).1) g.board hsq
    by_cases hne : grp ≠ []
    · rw [if_pos hne] at h
      subst h
      refine ⟨grp, hnodup, fun p hp => (hstone p hp).2, fun p hp => (hcells p.1 p.2).1 hp,
        fun p hp => (hcells p.1 p.2).2 hp, ?_, rfl, hsq'⟩
      rw [if_neg hne]
      rfl
    · rw [if_neg hne] at h
      subst h
      refine ⟨grp, hnodup, fun p hp => (hstone p hp).2, fun p hp => (hcells p.1 p.2).1 hp,
        fun p hp => (hcells p.1 p.2).2 hp, ?_, rfl, hsq'⟩
      rw [if_pos (not_not.1 hne)]
      simp
  · rw [if_neg hn0] at h
    subst h
    exact ⟨[], List.nodup_nil, fun p hp => absurd hp (List.not_mem_nil p),
      fun p hp => absurd hp (List.not_mem_nil p), fun _ _ => rfl, by simp, rfl, hsq⟩

/-- One iteration of the capture loop keeps the account of the cleared cells. -/
theorem clearedOnce_step (color : Int) (hcol : color ≠ 0) (r c : Int) (d : Point)
    (g0 g : AbstractGame) (changed : List Point) (hsize : g.size = g0.size)
    (hsq : g.board.Square g0.size) (inv : ClearedOnce g0 g changed) :
    ∃ g' changed', (if r + d.1 ≥ 0 ∧ r + d.1 < g.size ∧ c + d.2 ≥ 0 ∧ c + d.2 < g.size ∧
            g.board.cell (r + d.1) (c + d.2) = color
          then removeDeadGroup g (r + d.1) (c + d.2) color else some g) = some g' ∧
      g'.size = g0.size ∧ g'.board.Square g0.size ∧ ClearedOnce g0 g' changed' := by
  by_cases hcond : r + d.1 ≥ 0 ∧ r + d.1 < g.size ∧ c + d.2 ≥ 0 ∧ c + d.2 < g.size ∧
      g.board.cell (r + d.1) (c + d.2) = color
  · rw [if_pos hcond]
    have hin : InGrid g.size (r + d.1, c + d.2) := by
      unfold InGrid; simp only; omega
    have hsq' : g.board.Square g.size := by rw [hsize]; exact hsq
    obtain ⟨g1, hfrm, _⟩ := removeDeadGroup_frame g (r + d.1) (c + d.2) color hcol
    obtain ⟨group, hnd, hcolr, hzero, hkeep, hev, hsz, hsq1⟩ :=
      removeDeadGroup_cleared g g1 (r + d.1) (c + d.2) color hcol hsq' hin hcond.2.2.2.2 hfrm
    have hdisj : ∀ p ∈ group, p ∉ changed := by
      intro p hp hpc
      have h0 := inv.empty p hpc
      rw [hcolr p hp] at h0
      exact hcol h0
    refine ⟨g1, group ++ changed, hfrm, hsz.trans hsize, by rw [← hsize]; exact hsq1, ?_⟩
    refine ⟨?_, ?_, ?_, ?_⟩
    · exact List.nodup_append.2 ⟨hnd, inv.nodup, fun p hp hpc => hdisj p hp hpc⟩
    · intro p
      rw [List.mem_append]
      constructor
      · rintro (hp | hp)
        · have hsame : g.board.cell p.1 p.2 = g0.board.cell p.1 p.2 := by
            by_contra hne
            exact hdisj p hp ((inv.mem_iff p).2 hne)
          rw [hzero p hp, ← hsame, hcolr p hp]
          exact fun h => hcol h.symm
        · have hpg : p ∉ group := fun hg => hdisj p hg hp
          rw [hkeep p hpg]
          exact (inv.mem_iff p).1 hp
      · intro hne
        by_cases hpg : p ∈ group
        · exact Or.inl hpg
        · rw [hkeep p hpg] at hne
          exact Or.inr ((inv.mem_iff p).2 hne)
    · intro p hp
      rcases List.mem_append.1 hp with hp | hp
      · exact hzero p hp
      · have hpg : p ∉ group := fun hg => hdisj p hg hp
        rw [hkeep p hpg]
        exact inv.empty p hp
    · obtain ⟨counts, hevs, hsum⟩ := inv.events_eq
      by_cases hnil : group = []
      · refine ⟨counts, ?_, ?_⟩
        · rw [hev, if_pos hnil, List.append_nil, hevs]
        · rw [hnil]; simpa using hsum
      · refine ⟨counts ++ [group.length], ?_, ?_⟩
        · rw [hev, if_neg hnil, hevs]
          simp
        · simp only [List.sum_append, List.sum_cons, List.sum_nil, add_zero, List.length_append]
          omega
  · rw [if_neg hcond]
    exact ⟨g, changed, rfl, hsize, hsq, inv⟩

theorem clearedOnce_loop (color : Int) (hcol : color ≠ 0) (r c : Int) (g0 : AbstractGame) :
    ∀ (ds : List Point) (g : AbstractGame) (changed : List Point), g.size = g0.size →
      g.board.Square g0.size → ClearedOnce g0 g changed →
      ∃ g' changed', ds.foldlM (fun (g : AbstractGame) d =>
          if r + d.1 ≥ 0 ∧ r + d.1 < g.size ∧ c + d.2 ≥ 0 ∧ c + d.2 < g.size ∧
              g.board.cell (r + d.1) (c + d.2) = color
          then removeDeadGroup g (r + d.1) (c + d.2) color else some g) g = some g' ∧
        ClearedOnce g0 g' changed' := by
  intro ds
  induction ds with
  | nil =>
    intro g changed _ _ inv
    exact ⟨g, changed, rfl, inv⟩
  | cons d ds ih =>
    intro g changed hsize hsq inv
    obtain ⟨g1, changed1, hstep, hsize1, hsq1, inv1⟩ :=
      clearedOnce_step color hcol r c d g0 g changed hsize hsq inv
    obtain ⟨g', changed', hfold, inv'⟩ := ih g1 changed1 hsize1 hsq1 inv1
    refine ⟨g', changed', ?_, inv'⟩
    rw [List.foldlM_cons, hstep]
    exact hfold

/-- The capture loop over any list of directions clears no cell twice: the
stones reported in its capture messages add up to the number of cells that
differ from the grid before the loop. -/
theorem postMoveProcessIn_clearedOnce (ds : List Point) (g0 : AbstractGame) (r c : Int)
    (hsq : g0.board.Square g0.size) :
    ∃ g changed, postMoveProcessIn ds g0 r c = some g ∧ ClearedOnce g0 g changed := by
  have hcol : (if g0.board.cell r c = 1 then (2 : Int) else 1) ≠ 0 := by
    split <;> norm_num
  have init : ClearedOnce g0 g0 [] :=
    ⟨List.nodup_nil, fun p => by simp, fun p hp => absurd hp (List.not_mem_nil p),
      ⟨[], by simp, rfl⟩⟩
  exact clearedOnce_loop _ hcol r c g0 ds g0 [] rfl hsq init

end GoGame

/-! ## Checked accesses never fail on a square grid -/

theorem Checked.bind_ok {α β : Type} (a : α) (f : α → Checked β) :
    (Checked.ok a).bind f = f a := rfl

theorem Checked.ofOption_some {α : Type} (a : α) : Checked.ofOption (some a) = Checked.ok a := rfl

theorem Checked.ofOption_map {α β : Type} (o : Option α) (f : α → β) :
    Checked.ofOption (o.map f) = (Checked.ofOption o).bind fun a => Checked.ok (f a) := by
  cases o <;> rfl

theorem Checked.ofOption_bind {α β : Type} (o : Option α) (f : α → Option β) :
    Checked.ofOption (o.bind f) = (Checked.ofOption o).bind fun a => Checked.ofOption (f a) := by
  cases o <;> rfl

/-- A checked loop whose body always gives the value of an unchecked body gives
the value of the unchecked loop. -/
theorem Checked.foldl_ok {α β : Type} (f : β → α → Checked β) (f1 : β → α → β) (l : List α)
    (h : ∀ b a, a ∈ l → f b a = Checked.ok (f1 b a)) (b : β) :
    Checked.foldl f b l = Checked.ok (l.foldl f1 b) := by
  induction l generalizing b with
  | nil => rfl
  | cons a l ih =>
    rw [Checked.foldl, h b a (List.mem_cons_self _ _), Checked.bind_ok, List.foldl_cons]
    exact ih (fun b' a' ha' => h b' a' (List.mem_cons_of_mem _ ha')) _

/-- A checked loop whose body agrees with an unchecked, fuelled body on the
states that satisfy an invariant agrees with the unchecked loop. -/
theorem Checked.foldl_ofOption {α β : Type} (P : β → Prop) (f : β → α → Checked β)
    (f1 : β → α → Option β) (l : List α)
    (h : ∀ b a, P b → a ∈ l → f b a = Checked.ofOption (f1 b a))
    (hP : ∀ b a b1, P b → a ∈ l → f1 b a = some b1 → P b1) (b : β) (hb : P b) :
    Checked.foldl f b l = Checked.ofOption (l.foldlM f1 b) := by
  induction l generalizing b with
  | nil => rfl
  | cons a l ih =>
    rw [Checked.foldl, h b a hb (List.mem_cons_self _ _), List.foldlM_cons]
    cases hstep : f1 b a with
    | none => rfl
    | some b1 =>
      exact ih (fun b' a' hb' ha' => h b' a' hb' (List.mem_cons_of_mem _ ha'))
        (fun b' a' b2 hb' ha' => hP b' a' b2 hb' (List.mem_cons_of_mem _ ha')) b1
        (hP b a b1 hb (List.mem_cons_self _ _) hstep)

theorem Board.row_length (board : Board) (n : Nat) (hsq : board.Square n) (x : Int)
    (h0 : 0 ≤ x) (h1 : x < n) : (board.getD x.toNat []).length = n := by
  obtain ⟨hlen, hrow⟩ := hsq
  have hx : x.toNat < board.length := by omega
  rw [List.getD_eq_getElem?_getD, List.getElem?_eq_getElem hx, Option.getD_some]
  exact hrow _ (List.getElem_mem _)

/-- On a square grid a read at a grid position gives the cell. -/
theorem Board.read_ok (board : Board) (n : Nat) (hsq : board.Square n) (x y : Int)
    (hin : InGrid n (x, y)) : board.read x y = Checked.ok (board.cell x y) := by
  obtain ⟨h1, h2, h3, h4⟩ := hin
  simp only at h1 h2 h3 h4
  unfold Board.read
  rw [if_pos ⟨h1, by rw [hsq.1]; exact h2⟩,
    if_pos ⟨h3, by rw [Board.row_length board n hsq x h1 h2]; exact h4⟩]

/-- On a square grid a write at a grid position sets the cell. -/
theorem Board.write_ok (board : Board) (n : Nat) (hsq : board.Square n) (x y v : Int)
    (hin : InGrid n (x, y)) : board.write x y v = Checked.ok (board.setCell x y v) := by
  obtain ⟨h1, h2, h3, h4⟩ := hin
  simp only at h1 h2 h3 h4
  unfold Board.write
  rw [if_pos ⟨h1, by rw [hsq.1]; exact h2⟩,
    if_pos ⟨h3, by rw [Board.row_length board n hsq x h1 h2]; exact h4⟩]

theorem Checked.allEqual_ok (board : Board) (n : Nat) (hsq : board.Square n) (c : Int) :
    ∀ cells : List Point, (∀ p ∈ cells, InGrid n p) →
      Checked.allEqual board c cells =
        Checked.ok (decide (∀ p ∈ cells, board.cell p.1 p.2 = c)) := by
  intro cells
  induction cells with
  | nil => intro _; simp [Checked.allEqual]
  | cons p ps ih =>
    intro hin
    rw [Checked.allEqual, Board.read_ok board n hsq p.1 p.2 (hin p (List.mem_cons_self _ _)),
      Checked.bind_ok]
    by_cases hp : board.cell p.1 p.2 = c
    · rw [if_pos hp, ih (fun q hq => hin q (List.mem_cons_of_mem _ hq))]
      simp [hp]
    · rw [if_neg hp]
      simp [hp]

theorem Checked.probe_ok (board : Board) (n : Nat) (hsq : board.Square n) (c : Int)
    (guard : Prop) [Decidable guard] (cells : List Point)
    (hin : guard → ∀ p ∈ cells, InGrid n p) :
    Checked.probe board c (decide guard) cells =
      Checked.ok (decide (guard ∧ ∀ p ∈ cells, board.cell p.1 p.2 = c)) := by
  unfold Checked.probe
  by_cases hg : guard
  · simp only [hg, decide_True, if_true, true_and]
    exact Checked.allEqual_ok board n hsq c cells (hin hg)
  · simp [hg]

/-! ### The Gomoku scan -/

theorem checked_gomoku_checkAt (board : Board) (n : Nat) (hsq : board.Square n) (i j : Int)
    (hin : InGrid n (i, j)) :
    Checked.GomokuWinStrategy.checkAt board n i j =
      Checked.ok (GomokuWinStrategy.checkAt board n i j) := by
  obtain ⟨h1, h2, h3, h4⟩ := hin
  simp only at h1 h2 h3 h4
  unfold Checked.GomokuWinStrategy.checkAt
  rw [Board.read_ok board n hsq i j ⟨h1, h2, h3, h4⟩, Checked.bind_ok]
  unfold GomokuWinStrategy.checkAt
  by_cases hc0 : board.cell i j = 0
  · simp only [hc0, if_true]
  · simp only [if_neg hc0]
    rw [Checked.probe_ok board n hsq _ (j + 4 < n) _ (by
        intro hg p hp
        simp only [List.mem_cons, List.mem_singleton, List.not_mem_nil, or_false] at hp
        rcases hp with rfl | rfl | rfl | rfl <;> (unfold InGrid; simp only; omega)),
      Checked.probe_ok board n hsq _ (i + 4 < n) _ (by
        intro hg p hp
        simp only [List.mem_cons, List.mem_singleton, List.not_mem_nil, or_false] at hp
        rcases hp with rfl | rfl | rfl | rfl <;> (unfold InGrid; simp only; omega)),
      Checked.probe_ok board n hsq _ (i + 4 < n ∧ j + 4 < n) _ (by
        intro hg p hp
        simp only [List.mem_cons, List.mem_singleton, List.not_mem_nil, or_false] at hp
        rcases hp with rfl | rfl | rfl | rfl <;> (unfold InGrid; simp only; omega)),
      Checked.probe_ok board n hsq _ (i + 4 < n ∧ j - 4 ≥ 0) _ (by
        intro hg p hp
        simp only [List.mem_cons, List.mem_singleton, List.not_mem_nil, or_false] at hp
        rcases hp with rfl | rfl | rfl | rfl <;> (unfold InGrid; simp only; omega))]
    simp only [Checked.bind_ok, List.forall_mem_cons, List.not_mem_nil, IsEmpty.forall_iff,
      implies_true, and_true, decide_eq_true_eq, and_assoc]
    by_cases hh : j + 4 < n ∧ board.cell i (j+1) = board.cell i j ∧
        board.cell i (j+2) = board.cell i j ∧ board.cell i (j+3) = board.cell i j ∧
        board.cell i (j+4) = board.cell i j
    · rw [if_pos hh, if_pos hh]
    rw [if_neg hh, if_neg hh]
    by_cases hv : i + 4 < n ∧ board.cell (i+1) j = board.cell i j ∧
        board.cell (i+2) j = board.cell i j ∧ board.cell (i+3) j = board.cell i j ∧
        board.cell (i+4) j = board.cell i j
    · rw [if_pos hv, if_pos hv]
    rw [if_neg hv, if_neg hv]
    by_cases hd : i + 4 < n ∧ j + 4 < n ∧ board.cell (i+1) (j+1) = board.cell i j ∧
        board.cell (i+2) (j+2) = board.cell i j ∧ board.cell (i+3) (j+3) = board.cell i j ∧
        board.cell (i+4) (j+4) = board.cell i j
    · rw [if_pos hd, if_pos hd]
    rw [if_neg hd, if_neg hd]
    by_cases ha : i + 4 < n ∧ j - 4 ≥ 0 ∧ board.cell (i+1) (j-1) = board.cell i j ∧
        board.cell (i+2) (j-2) = board.cell i j ∧ board.cell (i+3) (j-3) = board.cell i j ∧
        board.cell (i+4) (j-4) = board.cell i j
    · rw [if_pos ha, if_pos ha]
    rw [if_neg ha, if_neg ha]

theorem checked_gomoku_scan (board : Board) (n : Nat) (hsq : board.Square n) :
    ∀ cells : List Point, (∀ p ∈ cells, InGrid n p) →
      Checked.GomokuWinStrategy.scan board n cells =
        Checked.ok ((cells.findSome? fun p => GomokuWinStrategy.checkAt board n p.1 p.2).getD
          PieceColor.NONE) := by
  intro cells
  induction cells with
  | nil => intro _; rfl
  | cons p ps ih =>
    intro hin
    rw [Checked.GomokuWinStrategy.scan,
      checked_gomoku_checkAt board n hsq p.1 p.2 (hin p (List.mem_cons_self _ _)),
      Checked.bind_ok, List.findSome?_cons]
    cases hat : GomokuWinStrategy.checkAt board n p.1 p.2 with
    | some w => rfl
    | none => exact ih (fun q hq => hin q (List.mem_cons_of_mem _ hq))

/-- On a square grid of any size the Gomoku win check reads grid cells only, and
gives the winner of the unchecked scan. -/
theorem checked_gomoku_checkWin (board : Board) (n : Nat) (hsq : board.Square n)
    (forceEnd : Bool) :
    Checked.GomokuWinStrategy.checkWin board n forceEnd =
      Checked.ok (GomokuWinStrategy.checkWin board n forceEnd) :=
  checked_gomoku_scan board n hsq (gridCells n) (fun p hp => (mem_gridCells n p).1 hp)

/-! ### The settlement -/

theorem checked_visit (board : Board) (n : Nat) (hsq : board.Square n) (st : FloodState)
    (nx ny : Int) :
    Checked.GoWinStrategy.visit board n st nx ny =
      Checked.ok (GoWinStrategy.visit board n st nx ny) := by
  unfold Checked.GoWinStrategy.visit GoWinStrategy.visit
  by_cases hin : nx ≥ 0 ∧ nx < n ∧ ny ≥ 0 ∧ ny < n
  · rw [if_pos hin, if_pos hin,
      Board.read_ok board n hsq nx ny ⟨hin.1, hin.2.1, hin.2.2.1, hin.2.2.2⟩, Checked.bind_ok]
    simp only
    split_ifs <;> rfl
  · rw [if_neg hin, if_neg hin]

theorem checked_floodLoop (board : Board) (n : Nat) (hsq : board.Square n) :
    ∀ (fuel : Nat) (st : FloodState),
      Checked.GoWinStrategy.floodLoop board n fuel st =
        Checked.ofOption (GoWinStrategy.floodLoop board n fuel st) := by
  intro fuel
  induction fuel with
  | zero =>
    intro st
    unfold Checked.GoWinStrategy.floodLoop GoWinStrategy.floodLoop
    by_cases h : st.head < st.q.length
    · rw [if_pos h, if_pos h]; rfl
    · rw [if_neg h, if_neg h]; rfl
  | succ fuel ih =>
    intro st
    unfold Checked.GoWinStrategy.floodLoop GoWinStrategy.floodLoop
    by_cases h : st.head < st.q.length
    · rw [if_pos h, if_pos h]
      simp only
      rw [Checked.foldl_ok _
        (fun s d => GoWinStrategy.visit board n s ((st.q.getD st.head (0, 0)).1 + d.1)
          ((st.q.getD st.head (0, 0)).2 + d.2)) dirs
        (fun s d _ => checked_visit board n hsq s _ _), Checked.bind_ok]
      exact ih _
    · rw [if_neg h, if_neg h]; rfl

theorem checked_tallyAt (board : Board) (n : Nat) (hsq : board.Square n) (t : Tally)
    (i j : Int) (hin : InGrid n (i, j)) :
    Checked.GoWinStrategy.tallyAt board n t i j =
      Checked.ofOption (GoWinStrategy.tallyAt board n t i j) := by
  unfold Checked.GoWinStrategy.tallyAt GoWinStrategy.tallyAt
  rw [Board.read_ok board n hsq i j hin, Checked.bind_ok]
  by_cases h1 : board.cell i j = 1
  · rw [if_pos h1, if_pos h1]; rfl
  rw [if_neg h1, if_neg h1]
  by_cases h2 : board.cell i j = 2
  · rw [if_pos h2, if_pos h2]; rfl
  rw [if_neg h2, if_neg h2]
  by_cases hv : (i, j) ∉ t.visited
  · rw [if_pos hv, if_pos hv, checked_floodLoop board n hsq, Checked.ofOption_map]
  · rw [if_neg hv, if_neg hv]; rfl

/-- On a square grid of any size the counting loops of the settlement read grid
cells only, and give the counters of the unchecked loops. -/
theorem checked_tally (board : Board) (n : Nat) (hsq : board.Square n) :
    Checked.GoWinStrategy.tally board n = Checked.ofOption (GoWinStrategy.tally board n) := by
  unfold Checked.GoWinStrategy.tally GoWinStrategy.tally
  exact Checked.foldl_ofOption (fun _ => True) _
    (fun t p => GoWinStrategy.tallyAt board n t p.1 p.2) (gridCells n)
    (fun t p _ hp => checked_tallyAt board n hsq t p.1 p.2 ((mem_gridCells n p).1 hp))
    (fun _ _ _ _ _ _ => trivial) _ trivial

theorem checked_go_checkWin (rd : Option ResultDesc) (board : Board) (n : Nat)
    (hsq : board.Square n) (forceEnd : Bool) :
    Checked.GoWinStrategy.checkWin rd board n forceEnd =
      Checked.ofOption (GoWinStrategy.checkWin rd board n forceEnd) := by
  unfold Checked.GoWinStrategy.checkWin GoWinStrategy.checkWin
  by_cases hf : ¬ forceEnd
  · rw [if_pos hf, if_pos hf]; rfl
  · rw [if_neg hf, if_neg hf, checked_tally board n hsq]
    cases GoWinStrategy.tally board n with
    | none => rfl
    | some t =>
      simp only [Checked.ofOption, Checked.bind_ok, Option.map_some']
      split_ifs <;> rfl

/-! ### Liberties and capture -/

theorem checked_countLiberties (board : Board) (n : Nat) (hsq : board.Square n) :
    ∀ (fuel : Nat) (x y color : Int) (visited : List Point),
      Checked.GoGame.countLiberties board n fuel x y color visited =
        Checked.ofOption (GoGame.countLiberties board n fuel x y color visited) := by
  intro fuel
  induction fuel with
  | zero =>
    intro x y color visited
    unfold Checked.GoGame.countLiberties GoGame.countLiberties
    by_cases h1 : x < 0 ∨ x ≥ n ∨ y < 0 ∨ y ≥ n
    · rw [if_pos h1, if_pos h1]; rfl
    rw [if_neg h1, if_neg h1,
      Board.read_ok board n hsq x y (by unfold InGrid; simp only; omega), Checked.bind_ok]
    by_cases h2 : board.cell x y = 0
    · rw [if_pos h2, if_pos h2]; rfl
    rw [if_neg h2, if_neg h2]
    by_cases h3 : board.cell x y ≠ color
    · rw [if_pos h3, if_pos h3]; rfl
    rw [if_neg h3, if_neg h3]
    by_cases h4 : (x, y) ∈ visited
    · rw [if_pos h4, if_pos h4]; rfl
    rw [if_neg h4, if_neg h4]
    rfl
  | succ fuel ih =>
    intro x y color visited
    unfold Checked.GoGame.countLiberties GoGame.countLiberties
    by_cases h1 : x < 0 ∨ x ≥ n ∨ y < 0 ∨ y ≥ n
    · rw [if_pos h1, if_pos h1]; rfl
    rw [if_neg h1, if_neg h1,
      Board.read_ok board n hsq x y (by unfold InGrid; simp only; omega), Checked.bind_ok]
    by_cases h2 : board.cell x y = 0
    · rw [if_pos h2, if_pos h2]; rfl
    rw [if_neg h2, if_neg h2]
    by_cases h3 : board.cell x y ≠ color
    · rw [if_pos h3, if_pos h3]; rfl
    rw [if_neg h3, if_neg h3]
    by_cases h4 : (x, y) ∈ visited
    · rw [if_pos h4, if_pos h4]; rfl
    rw [if_neg h4, if_neg h4]
    simp only
    exact Checked.foldl_ofOption (fun _ => True)
      (fun (acc : Nat × List Point) d =>
        (Checked.GoGame.countLiberties board n fuel (x + d.1) (y + d.2) color acc.2).bind
          fun r => Checked.ok (acc.1 + r.1, r.2))
      (fun (acc : Nat × List Point) d =>
        (GoGame.countLiberties board n fuel (x + d.1) (y + d.2) color acc.2).map fun r =>
          (acc.1 + r.1, r.2)) dirs
      (fun acc d _ _ => by simp only [ih, Checked.ofOption_map])
      (fun _ _ _ _ _ _ => trivial) _ trivial

theorem checked_clear (n : Nat) :
    ∀ (group : List Point) (b : Board), b.Square n → (∀ p ∈ group, InGrid n p) →
      Checked.foldl (fun (b : Board) (p : Point) => b.write p.1 p.2 0) b group =
        Checked.ok (group.foldl (fun b p => b.setCell p.1 p.2 0) b) := by
  intro group
  induction group with
  | nil => intro b _ _; rfl
  | cons p ps ih =>
    intro b hsq hin
    rw [Checked.foldl, Board.write_ok b n hsq p.1 p.2 0 (hin p (List.mem_cons_self _ _)),
      Checked.bind_ok, List.foldl_cons]
    exact ih _ (Board.square_setCell b n p.1 p.2 0 hsq)
      (fun q hq => hin q (List.mem_cons_of_mem _ hq))

theorem checked_removeDeadGroup (g : AbstractGame) (hsq : g.board.Square g.size)
    (x y color : Int) :
    Checked.GoGame.removeDeadGroup g x y color =
      Checked.ofOption (GoGame.removeDeadGroup g x y color) := by
  unfold Checked.GoGame.removeDeadGroup GoGame.removeDeadGroup
  rw [checked_countLiberties g.board g.size hsq]
  obtain ⟨k, visited, hcall, _, hmem, _⟩ := GoGame.countLiberties_bounded g.board g.size x y color
  rw [hcall]
  simp only [Checked.ofOption, Checked.bind_ok, Option.map_some']
  by_cases h0 : k = 0
  · rw [if_pos h0, if_pos h0,
      checked_clear g.size visited g.board hsq (fun p hp => (hmem p hp).1), Checked.bind_ok]
  · rw [if_neg h0, if_neg h0]

/-- The capture step, called for a grid position of a square grid, reads and
writes grid cells only, and gives the state of the unchecked capture step. -/
theorem checked_go_postMoveProcess (g : AbstractGame) (hsq : g.board.Square g.size)
    (x y : Int) (hin : InGrid g.size (x, y)) :
    Checked.GoGame.postMoveProcess g x y = Checked.ofOption (GoGame.postMoveProcess g x y) := by
  unfold Checked.GoGame.postMoveProcess GoGame.postMoveProcess
  rw [Board.read_ok g.board g.size hsq x y hin, Checked.bind_ok]
  simp only
  have hcol : (if g.board.cell x y = 1 then (2 : Int) else 1) ≠ 0 := by
    split <;> norm_num
  generalize (if g.board.cell x y = 1 then (2 : Int) else 1) = op at hcol ⊢
  apply Checked.foldl_ofOption (fun (s : AbstractGame) => s.size = g.size ∧ s.board.Square g.size)
  · intro s d hs _
    by_cases hg : x + d.1 ≥ 0 ∧ x + d.1 < s.size ∧ y + d.2 ≥ 0 ∧ y + d.2 < s.size
    · have hsqs : s.board.Square s.size := by rw [hs.1]; exact hs.2
      rw [if_pos hg, Board.read_ok s.board s.size hsqs _ _ ⟨hg.1, hg.2.1, hg.2.2.1, hg.2.2.2⟩,
        Checked.bind_ok]
      by_cases hv : s.board.cell (x + d.1) (y + d.2) = op
      · have hc : x + d.1 ≥ 0 ∧ x + d.1 < s.size ∧ y + d.2 ≥ 0 ∧ y + d.2 < s.size ∧
            s.board.cell (x + d.1) (y + d.2) = op := ⟨hg.1, hg.2.1, hg.2.2.1, hg.2.2.2, hv⟩
        rw [if_pos hv, if_pos hc]
        exact checked_removeDeadGroup s hsqs _ _ _
      · have hc : ¬ (x + d.1 ≥ 0 ∧ x + d.1 < s.size ∧ y + d.2 ≥ 0 ∧ y + d.2 < s.size ∧
            s.board.cell (x + d.1) (y + d.2) = op) := fun h => hv h.2.2.2.2
        rw [if_neg hv, if_neg hc]
        rfl
    · have hc : ¬ (x + d.1 ≥ 0 ∧ x + d.1 < s.size ∧ y + d.2 ≥ 0 ∧ y + d.2 < s.size ∧
          s.board.cell (x + d.1) (y + d.2) = op) := fun h => hg ⟨h.1, h.2.1, h.2.2.1, h.2.2.2.1⟩
      rw [if_neg hg, if_neg hc]
      rfl
  · intro s d s1 hs _ hstep
    by_cases hc : x + d.1 ≥ 0 ∧ x + d.1 < s.size ∧ y + d.2 ≥ 0 ∧ y + d.2 < s.size ∧
        s.board.cell (x + d.1) (y + d.2) = op
    · rw [if_pos hc] at hstep
      have hsqs : s.board.Square s.size := by rw [hs.1]; exact hs.2
      obtain ⟨_, _, _, _, _, _, hsz, hsq1⟩ := GoGame.removeDeadGroup_cleared s s1 _ _ _ hcol hsqs
        ⟨hc.1, hc.2.1, hc.2.2.1, hc.2.2.2.1⟩ hc.2.2.2.2 hstep
      exact ⟨hsz.trans hs.1, by rw [← hs.1]; exact hsq1⟩
    · rw [if_neg hc] at hstep
      cases hstep
      exact hs
  · exact ⟨rfl, hsq⟩

/-! ### makeMove -/

theorem checked_checkWin_false (s : AbstractGame)
    (hsq : s.type = GameType.GOMOKU → s.board.Square s.size) :
    Checked.AbstractGame.checkWin s false = Checked.ofOption (s.checkWin false) := by
  unfold Checked.AbstractGame.checkWin AbstractGame.checkWin
  cases hty : s.type with
  | GOMOKU =>
    simp only
    rw [checked_gomoku_checkWin s.board s.size (hsq hty)]
    rfl
  | GO => rfl

/-- The part of `makeMove` after the stone is placed: the capture step and the
win check, followed by any way `k` of building the outcome. -/
theorem checked_makeMove_tail (g3 : AbstractGame) (hsq : g3.board.Square g3.size) (x y : Int)
    (hin : InGrid g3.size (x, y)) (k : PieceColor × AbstractGame → Outcome) :
    ((Checked.AbstractGame.postMoveProcess g3 x y).bind fun g4 =>
      (Checked.AbstractGame.checkWin g4 false).bind fun r => Checked.ok (k r)) =
    Checked.ofOption ((g3.postMoveProcess x y).bind fun g4 => (g4.checkWin false).map k) := by
  unfold Checked.AbstractGame.postMoveProcess AbstractGame.postMoveProcess
  cases hty : g3.type with
  | GOMOKU =>
    simp only [Checked.bind_ok, Option.some_bind]
    rw [checked_checkWin_false g3 (fun _ => hsq), Checked.ofOption_map]
  | GO =>
    simp only
    rw [checked_go_postMoveProcess g3 hsq x y hin]
    obtain ⟨g4, hg4, frame⟩ := GoGame.postMoveProcess_frame g3 x y
    rw [hg4]
    simp only [Checked.ofOption_some, Checked.bind_ok, Option.some_bind]
    have hty4 : g4.type = GameType.GO := frame.type_eq.trans hty
    rw [checked_checkWin_false g4 (fun h => by rw [hty4] at h; cases h), Checked.ofOption_map]

/-- On a square grid `makeMove` reads and writes grid cells only, and then only
after its range check, and gives the outcome of the unchecked `makeMove`. -/
theorem checked_makeMove (g : AbstractGame) (hsq : g.board.Square g.size) (x y : Int) :
    Checked.AbstractGame.makeMove g x y = Checked.ofOption (g.makeMove x y) := by
  unfold Checked.AbstractGame.makeMove AbstractGame.makeMove
  by_cases h : x < 0 ∨ x ≥ g.size ∨ y < 0 ∨ y ≥ g.size
  · rw [if_pos h, if_pos h]; rfl
  rw [if_neg h, if_neg h]
  have hin : InGrid g.size (x, y) := by unfold InGrid; simp only; omega
  unfold Checked.AbstractGame.isValid
  rw [Board.read_ok g.board g.size hsq x y hin, Checked.bind_ok, Checked.bind_ok]
  have hval : g.isValid x y = (g.board.cell x y == 0) := by
    unfold AbstractGame.isValid
    cases g.type <;> rfl
  rw [hval]
  by_cases hc : ¬ ((g.board.cell x y == 0) = true)
  · rw [if_pos hc, if_pos hc]; rfl
  rw [if_neg hc, if_neg hc]
  simp only
  have hw := Board.write_ok g.board g.size hsq x y
    (if g.currentPlayer = PieceColor.BLACK then 1 else 2) hin
  have hw' : Board.write ({ g with passCount := 0 } : AbstractGame).saveStateToHistory.board x y
      (if ({ g with passCount := 0 } : AbstractGame).saveStateToHistory.currentPlayer =
        PieceColor.BLACK then 1 else 2) =
      Checked.ok (g.placeStone x y).board := hw
  rw [hw', Checked.bind_ok]
  exact checked_makeMove_tail (g.placeStone x y)
    (Board.square_setCell g.board g.size x y _ hsq) x y hin _

/-! ## The claims -/

/-- C1 (the code breaks it): in a Go match `passTurn` brings the pass counter to 1;
a following legal `makeMove(0, 0)` and `undo()` both succeed and restore the
grid and the side to move, but leave the pass counter at 0, not at the value 1
it had immediately before `makeMove`. -/
theorem makeMove_undo_loses_pass_counter :
    ∃ o1 o2, (AbstractGame.create GameType.GO 8).passTurn = some o1 ∧
      o1.state.makeMove 0 0 = some o2 ∧
      o1.thrown = none ∧ o1.state.passCount = 1 ∧ o2.thrown = none ∧
      o2.state.undo.thrown = none ∧
      o2.state.undo.state.board = o1.state.board ∧
      o2.state.undo.state.currentPlayer = o1.state.currentPlayer ∧
      o2.state.undo.state.passCount = 0 ∧
      o2.state.undo.state.passCount ≠ o1.state.passCount := by
  refine ⟨_, _, rfl, rfl, ?_⟩
  decide

/-- C2: on every grid, `GomokuWinStrategy::checkWin` returns a winner other
than NONE if and only if some start cell and one of the four scan directions
give five consecutive cells inside the grid that all hold the same non-empty
value, whatever `forceEnd` is; a run of exactly four and a run of five with
mixed sides yield NONE. -/
theorem gomoku_checkWin_iff_five_in_row (size : Nat) (board : Board) (forceEnd : Bool) :
    (GomokuWinStrategy.checkWin board size forceEnd ≠ PieceColor.NONE ↔
      ∃ i j d, d ∈ scanDirs ∧ FiveInRow board size i j d) ∧
    GomokuWinStrategy.checkWin fourInRowBoard 8 forceEnd = PieceColor.NONE ∧
    GomokuWinStrategy.checkWin mixedFiveBoard 8 forceEnd = PieceColor.NONE :=
  ⟨GomokuWinStrategy.checkWin_ne_NONE_iff board size forceEnd,
    by cases forceEnd <;> decide, by cases forceEnd <;> decide⟩

/-- C3: in a Go state with a size x size grid, after a stone of the side to move
is placed on the Empty grid cell `(r, c)`, `postMoveProcess(r, c)` returns; the
cells it sets to Empty are exactly the captured cells, i.e. the stones of the
opposing colour whose group contains an orthogonal neighbour of `(r, c)` and
has no liberty on the board after the placement; every other cell is unchanged. -/
theorem postMoveProcess_clears_exactly_captured (g : AbstractGame) (r c : Int)
    (hty : g.type = GameType.GO) (hsq : g.board.Square g.size)
    (hin : InGrid g.size (r, c)) :
    ∃ g', (g.placeStone r c).postMoveProcess r c = some g' ∧
      ∀ p : Point,
        (GoGame.Captured (g.placeStone r c).board g.size g.opposing r c p →
          (g.placeStone r c).board.cell p.1 p.2 = g.opposing ∧ g'.board.cell p.1 p.2 = 0) ∧
        (¬ GoGame.Captured (g.placeStone r c).board g.size g.opposing r c p →
          g'.board.cell p.1 p.2 = (g.placeStone r c).board.cell p.1 p.2) := by
  have hsq1 : (g.placeStone r c).board.Square (g.placeStone r c).size :=
    Board.square_setCell g.board g.size r c _ hsq
  have hstone : (g.placeStone r c).board.cell r c =
      if g.currentPlayer = PieceColor.BLACK then 1 else 2 :=
    Board.cell_setCell_same g.board g.size r c _ hsq hin
  have hop : (if (g.placeStone r c).board.cell r c = 1 then (2 : Int) else 1) = g.opposing := by
    rw [hstone]
    unfold AbstractGame.opposing
    split <;> simp
  obtain ⟨g', hpost, inv⟩ := GoGame.postMoveProcess_spec (g.placeStone r c) r c hsq1
  rw [hop] at inv
  refine ⟨g', ?_, ?_⟩
  · unfold AbstractGame.postMoveProcess
    have : (g.placeStone r c).type = GameType.GO := hty
    rw [this]
    exact hpost
  · intro p
    constructor
    · intro hcap
      exact ⟨hcap.1.2.1, inv.cleared p ((GoGame.CapturedVia.dirs_iff _ _ _ _ _ _).2 hcap)⟩
    · intro hcap
      exact inv.kept p (fun h => hcap ((GoGame.CapturedVia.dirs_iff _ _ _ _ _ _).1 h))

/-- C3, at a position where Black's placement at (0,1) captures the corner stone. -/
theorem postMoveProcess_clears_exactly_captured_witness :
    cornerAtari.type = GameType.GO ∧ cornerAtari.board.Square cornerAtari.size ∧
    InGrid cornerAtari.size (0, 1) ∧
    ∃ g', (cornerAtari.placeStone 0 1).postMoveProcess 0 1 = some g' ∧
      ∀ p : Point,
        (GoGame.Captured (cornerAtari.placeStone 0 1).board cornerAtari.size
            cornerAtari.opposing 0 1 p →
          (cornerAtari.placeStone 0 1).board.cell p.1 p.2 = cornerAtari.opposing ∧
          g'.board.cell p.1 p.2 = 0) ∧
        (¬ GoGame.Captured (cornerAtari.placeStone 0 1).board cornerAtari.size
            cornerAtari.opposing 0 1 p →
          g'.board.cell p.1 p.2 = (cornerAtari.placeStone 0 1).board.cell p.1 p.2) :=
  ⟨by decide, by decide, by decide,
    postMoveProcess_clears_exactly_captured cornerAtari 0 1 (by decide) (by decide) (by decide)⟩

/-- C4: on a grid with cells in {0, 1, 2}, the settlement
(`checkWin` with `forceEnd = true`) returns, and the territory it credits to
Black is the number of Empty cells whose region touches a Black stone and no
White stone; symmetrically for White; so Empty cells of regions touching both
sides or neither are credited to nobody. Every Empty cell is marked (enqueued)
exactly once. -/
theorem settlement_territory (rd : Option ResultDesc) (board : Board) (size : Nat)
    (hvalid : board.Valid) :
    ∃ t w, GoWinStrategy.tally board size = some t ∧
      GoWinStrategy.checkWin rd board size true = some (w, some (GoWinStrategy.describe t)) ∧
      (GoWinStrategy.describe t).blackTerritory = t.blackTerritory ∧
      (GoWinStrategy.describe t).whiteTerritory = t.whiteTerritory ∧
      (∃ lb : List Point, lb.Nodup ∧
        (∀ p, p ∈ lb ↔ GoWinStrategy.TerritoryOf board size 1 2 p) ∧
        t.blackTerritory = lb.length) ∧
      (∃ lw : List Point, lw.Nodup ∧
        (∀ p, p ∈ lw ↔ GoWinStrategy.TerritoryOf board size 2 1 p) ∧
        t.whiteTerritory = lw.length) ∧
      t.visited.Nodup ∧ ∀ p, p ∈ t.visited ↔ GoWinStrategy.EmptyCell board size p := by
  obtain ⟨t, ht, inv⟩ := GoWinStrategy.tally_spec board size (Board.cell_of_valid board hvalid)
  obtain ⟨lb, hlb, hlbmem, hlblen⟩ := inv.black
  obtain ⟨lw, hlw, hlwmem, hlwlen⟩ := inv.white
  have hb : ∀ p, p ∈ lb ↔ GoWinStrategy.TerritoryOf board size 1 2 p := fun p =>
    (hlbmem p).trans ⟨fun h => h.2, fun h => ⟨(inv.mem_visited_iff p).2 h.1, h⟩⟩
  have hw : ∀ p, p ∈ lw ↔ GoWinStrategy.TerritoryOf board size 2 1 p := fun p =>
    (hlwmem p).trans ⟨fun h => h.2, fun h => ⟨(inv.mem_visited_iff p).2 h.1, h⟩⟩
  by_cases hgt : GoWinStrategy.finalBlack t > GoWinStrategy.finalWhite t
  · refine ⟨t, PieceColor.BLACK, ht, ?_, rfl, rfl, ⟨lb, hlb, hb, hlblen⟩,
      ⟨lw, hlw, hw, hlwlen⟩, inv.nodup, inv.mem_visited_iff⟩
    simp only [GoWinStrategy.checkWin, ht, not_true_eq_false, if_false, Option.map_some',
      if_pos hgt]
  · refine ⟨t, PieceColor.WHITE, ht, ?_, rfl, rfl, ⟨lb, hlb, hb, hlblen⟩,
      ⟨lw, hlw, hw, hlwlen⟩, inv.nodup, inv.mem_visited_iff⟩
    simp only [GoWinStrategy.checkWin, ht, not_true_eq_false, if_false, Option.map_some',
      if_neg hgt]

/-- C4, at an 8 x 8 board with one Black and one White stone. -/
theorem settlement_territory_witness :
    twoStonesBoard.Valid ∧
    ∃ t w, GoWinStrategy.tally twoStonesBoard 8 = some t ∧
      GoWinStrategy.checkWin none twoStonesBoard 8 true =
        some (w, some (GoWinStrategy.describe t)) ∧
      (GoWinStrategy.describe t).blackTerritory = t.blackTerritory ∧
      (GoWinStrategy.describe t).whiteTerritory = t.whiteTerritory ∧
      (∃ lb : List Point, lb.Nodup ∧
        (∀ p, p ∈ lb ↔ GoWinStrategy.TerritoryOf twoStonesBoard 8 1 2 p) ∧
        t.blackTerritory = lb.length) ∧
      (∃ lw : List Point, lw.Nodup ∧
        (∀ p, p ∈ lw ↔ GoWinStrategy.TerritoryOf twoStonesBoard 8 2 1 p) ∧
        t.whiteTerritory = lw.length) ∧
      t.visited.Nodup ∧ ∀ p, p ∈ t.visited ↔ GoWinStrategy.EmptyCell twoStonesBoard 8 p :=
  ⟨by decide, settlement_territory none twoStonesBoard 8 (by decide)⟩

/-- C5: on a grid with cells in {0, 1, 2}, the settlement (`checkWin` with
`forceEnd = true`) returns BLACK exactly when Black's stones plus Black's
territory are strictly more than White's stones plus White's territory plus
3.75, and WHITE in every other case; it never returns NONE. -/
theorem settlement_winner (rd : Option ResultDesc) (board : Board) (size : Nat)
    (hvalid : board.Valid) :
    ∃ (w : PieceColor) (lb lw : List Point),
      (∃ d, GoWinStrategy.checkWin rd board size true = some (w, some d)) ∧
      lb.Nodup ∧ (∀ p, p ∈ lb ↔ GoWinStrategy.TerritoryOf board size 1 2 p) ∧
      lw.Nodup ∧ (∀ p, p ∈ lw ↔ GoWinStrategy.TerritoryOf board size 2 1 p) ∧
      (w = PieceColor.BLACK ↔
        (((GoWinStrategy.stoneCount board size 1 + lb.length : Nat) : ℚ) >
          ((GoWinStrategy.stoneCount board size 2 + lw.length : Nat) : ℚ) + 3.75)) ∧
      (w ≠ PieceColor.BLACK → w = PieceColor.WHITE) ∧ w ≠ PieceColor.NONE := by
  obtain ⟨t, ht, inv⟩ := GoWinStrategy.tally_spec board size (Board.cell_of_valid board hvalid)
  obtain ⟨lb, hlb, hlbmem, hlblen⟩ := inv.black
  obtain ⟨lw, hlw, hlwmem, hlwlen⟩ := inv.white
  have hb : ∀ p, p ∈ lb ↔ GoWinStrategy.TerritoryOf board size 1 2 p := fun p =>
    (hlbmem p).trans ⟨fun h => h.2, fun h => ⟨(inv.mem_visited_iff p).2 h.1, h⟩⟩
  have hw : ∀ p, p ∈ lw ↔ GoWinStrategy.TerritoryOf board size 2 1 p := fun p =>
    (hlwmem p).trans ⟨fun h => h.2, fun h => ⟨(inv.mem_visited_iff p).2 h.1, h⟩⟩
  have hfb : GoWinStrategy.finalBlack t =
      ((GoWinStrategy.stoneCount board size 1 + lb.length : Nat) : ℚ) := by
    unfold GoWinStrategy.finalBlack GoWinStrategy.stoneCount
    rw [inv.blackCount_eq, hlblen]
  have hfw : GoWinStrategy.finalWhite t =
      ((GoWinStrategy.stoneCount board size 2 + lw.length : Nat) : ℚ) + 3.75 := by
    unfold GoWinStrategy.finalWhite GoWinStrategy.stoneCount
    rw [inv.whiteCount_eq, hlwlen]
  by_cases hgt : GoWinStrategy.finalBlack t > GoWinStrategy.finalWhite t
  · refine ⟨PieceColor.BLACK, lb, lw, ⟨GoWinStrategy.describe t, ?_⟩, hlb, hb, hlw, hw, ?_, ?_, ?_⟩
    · simp only [GoWinStrategy.checkWin, ht, not_true_eq_false, if_false, Option.map_some',
        if_pos hgt]
    · rw [← hfb, ← hfw]; exact ⟨fun _ => hgt, fun _ => rfl⟩
    · intro h; exact absurd rfl h
    · decide
  · refine ⟨PieceColor.WHITE, lb, lw, ⟨GoWinStrategy.describe t, ?_⟩, hlb, hb, hlw, hw, ?_, ?_, ?_⟩
    · simp only [GoWinStrategy.checkWin, ht, not_true_eq_false, if_false, Option.map_some',
        if_neg hgt]
    · rw [← hfb, ← hfw]
      constructor
      · intro h; cases h
      · intro h; exact absurd h hgt
    · intro _; rfl
    · decide

/-- C5, at an 8 x 8 board with one Black and one White stone. -/
theorem settlement_winner_witness :
    twoStonesBoard.Valid ∧
    ∃ (w : PieceColor) (lb lw : List Point),
      (∃ d, GoWinStrategy.checkWin none twoStonesBoard 8 true = some (w, some d)) ∧
      lb.Nodup ∧ (∀ p, p ∈ lb ↔ GoWinStrategy.TerritoryOf twoStonesBoard 8 1 2 p) ∧
      lw.Nodup ∧ (∀ p, p ∈ lw ↔ GoWinStrategy.TerritoryOf twoStonesBoard 8 2 1 p) ∧
      (w = PieceColor.BLACK ↔
        (((GoWinStrategy.stoneCount twoStonesBoard 8 1 + lb.length : Nat) : ℚ) >
          ((GoWinStrategy.stoneCount twoStonesBoard 8 2 + lw.length : Nat) : ℚ) + 3.75)) ∧
      (w ≠ PieceColor.BLACK → w = PieceColor.WHITE) ∧ w ≠ PieceColor.NONE :=
  ⟨by decide, settlement_winner none twoStonesBoard 8 (by decide)⟩

/-- C6: `makeMove(x, y)` returns, and it fails if and only if `(x, y)` lies outside
`[0, size) x [0, size)` (then with the out-of-range error, which is checked
first) or the target cell is not Empty (then with the illegal-move error);
when it fails, the whole state (grid, side to move, pass counter, history and
the events sent to the observers) is what it was before the call. -/
theorem makeMove_fails_iff (g : AbstractGame) (x y : Int) :
    ∃ o, g.makeMove x y = some o ∧
      (o.thrown ≠ none ↔ (¬ InGrid g.size (x, y) ∨ g.board.cell x y ≠ 0)) ∧
      (¬ InGrid g.size (x, y) → o.thrown = some GameException.outOfRange) ∧
      (InGrid g.size (x, y) → g.board.cell x y ≠ 0 →
        o.thrown = some GameException.cannotPlaceHere) ∧
      (o.thrown ≠ none → o.state = g) := by
  have hgrid : InGrid g.size (x, y) ↔ ¬ (x < 0 ∨ x ≥ g.size ∨ y < 0 ∨ y ≥ g.size) := by
    unfold InGrid; simp only; omega
  by_cases h : x < 0 ∨ x ≥ g.size ∨ y < 0 ∨ y ≥ g.size
  · have hng : ¬ InGrid g.size (x, y) := fun hg => (hgrid.1 hg) h
    refine ⟨_, AbstractGame.makeMove_outOfRange g x y h, ?_, fun _ => rfl,
      fun hg => absurd hg hng, fun _ => rfl⟩
    simp [hng]
  · have hg : InGrid g.size (x, y) := hgrid.2 h
    by_cases hc : g.board.cell x y = 0
    · obtain ⟨o, ho, hthrown, _⟩ := AbstractGame.makeMove_legal g x y h hc
      refine ⟨o, ho, ?_, fun hng => absurd hg hng, fun _ hne => absurd hc hne, ?_⟩
      · simp [hthrown, hg, hc]
      · intro hne; exact absurd hthrown hne
    · refine ⟨_, AbstractGame.makeMove_occupied g x y h hc, ?_, fun hng => absurd hg hng,
        fun _ _ => rfl, fun _ => rfl⟩
      simp [hc]

/-- C7: `undo()` fails if and only if the history is empty; it fails on a freshly
created match of either variant and any size; and when it fails the whole
state is unchanged. -/
theorem undo_fails_iff (g : AbstractGame) (type : GameType) (n : Nat) :
    (g.undo.thrown ≠ none ↔ g.history = []) ∧
    (g.undo.thrown ≠ none → g.undo.thrown = some GameException.nothingToUndo ∧ g.undo.state = g) ∧
    (AbstractGame.create type n).undo.thrown = some GameException.nothingToUndo ∧
    (AbstractGame.create type n).undo.state = AbstractGame.create type n := by
  refine ⟨?_, ?_, rfl, rfl⟩
  · unfold AbstractGame.undo
    cases g.history <;> simp
  · unfold AbstractGame.undo
    cases hh : g.history <;> simp

/-- C8: `passTurn()` returns, and it fails if and only if the variant is GOMOKU;
when it fails, the whole state is unchanged, so no snapshot was pushed. -/
theorem passTurn_fails_iff (g : AbstractGame) :
    ∃ o, g.passTurn = some o ∧
      (o.thrown ≠ none ↔ g.type = GameType.GOMOKU) ∧
      (o.thrown ≠ none → o.thrown = some GameException.gomokuCannotPass ∧ o.state = g) := by
  cases h : g.type with
  | GOMOKU =>
    exact ⟨_, AbstractGame.passTurn_gomoku g h, by simp, fun _ => ⟨rfl, rfl⟩⟩
  | GO =>
    obtain ⟨o, ho, hthrown, _⟩ := AbstractGame.passTurn_go g h
    exact ⟨o, ho, by simp [hthrown], fun hne => absurd hthrown hne⟩

/-- C9: every sequence `cs` of `makeMove` and `passTurn` calls on a fresh Go match
of size `n` returns, and so does a further call `c`; if `c` is a successful
`makeMove` the pass counter is 0 after it; if `c` is a `passTurn` that brings
the counter to 2 (it passes the test `passCount >= 2` and settles), then the
last call of `cs` that did not throw was a `passTurn` that did not settle;
and conversely a `passTurn` made right after such a pass settles. -/
theorem pass_counter_reaches_two_only_after_pass (n : Nat) (cs : List Call) (c : Call) :
    ∃ g es o, (AbstractGame.create GameType.GO n).run cs = some (g, es) ∧
      g.call c = some o ∧
      (g.effectOf c o = Effect.moved → o.state.passCount = 0) ∧
      (g.effectOf c o = Effect.settled →
        c = Call.passTurn ∧ g.passCountAfterIncrement = 2 ∧
        lastSuccessful es = some Effect.passed) ∧
      (c = Call.passTurn → lastSuccessful es = some Effect.passed →
        g.effectOf c o = Effect.settled) := by
  obtain ⟨g, es, hrun, inv⟩ := PassInv.run_fresh n cs
  obtain ⟨o, ho, _, hmoved, hsettled, htwo⟩ := inv.pass_step c
  exact ⟨g, es, o, hrun, ho, hmoved,
    fun h => ⟨(hsettled.1 h).1, htwo h, (hsettled.1 h).2⟩,
    fun hc hl => hsettled.2 ⟨hc, hl⟩⟩

/-- C10: for every grid of every size, `GoWinStrategy::checkWin` with
`forceEnd = false` returns NONE (and leaves the result text as it was). -/
theorem go_checkWin_without_forceEnd (rd : Option ResultDesc) (board : Board) (size : Nat) :
    GoWinStrategy.checkWin rd board size false = some (PieceColor.NONE, rd) := by
  simp [GoWinStrategy.checkWin]

/-- C11 (as stated it fails): on an 8 x 8 board reached after three moves of each
side, `countLiberties(0, 1, 1, {})` returns 3, while the Black group of (0,1),
which is (0,0), (0,1), (1,0), has 2 distinct liberties, (1,1) and (2,0): the
Empty cell (1,1) is adjacent to two stones of the group and is counted twice. -/
theorem countLiberties_counts_shared_liberty_twice :
    sharedLibertyBoard.cell 0 1 = 1 ∧
    GoGame.countLiberties sharedLibertyBoard 8 (8 * 8) 0 1 1 [] =
      some (3, [(1, 0), (0, 0), (0, 1)]) ∧
    GoGame.distinctLiberties sharedLibertyBoard 8 [(1, 0), (0, 0), (0, 1)] = 2 := by
  decide

/-- C11 (amended): started on a stone of colour `color` with an empty set,
`countLiberties` returns; the set it leaves holds the stones of the group, each
once; the count is the number of pairs of a stone of the group and a direction
in which that stone faces an Empty grid cell, so an Empty cell adjacent to
several stones of the group is counted once for each of them; and the count is
0 exactly when no stone of the group has a liberty. -/
theorem countLiberties_counts_faces (board : Board) (size : Nat) (color : Int) (p : Point)
    (hcol : color ≠ 0) (hin : InGrid size p) (hp : board.cell p.1 p.2 = color) :
    ∃ n group, GoGame.countLiberties board size (size * size) p.1 p.2 color [] =
        some (n, group) ∧
      group.Nodup ∧ (∀ q, q ∈ group ↔ GoGame.SameGroup board size color p q) ∧
      n = (group.map (GoGame.libertyFaces board size)).sum ∧
      (n = 0 ↔ ∀ q, GoGame.SameGroup board size color p q → ¬ GoGame.HasLiberty board size q) :=
  GoGame.countLiberties_faces board size color hcol p hin hp

/-- C11 (amended), at the Black group of (0,1) on the board of the counterexample. -/
theorem countLiberties_counts_faces_witness :
    (1 : Int) ≠ 0 ∧ InGrid 8 (0, 1) ∧ sharedLibertyBoard.cell 0 1 = 1 ∧
    ∃ n group, GoGame.countLiberties sharedLibertyBoard 8 (8 * 8) 0 1 1 [] = some (n, group) ∧
      group.Nodup ∧ (∀ q, q ∈ group ↔ GoGame.SameGroup sharedLibertyBoard 8 1 (0, 1) q) ∧
      n = (group.map (GoGame.libertyFaces sharedLibertyBoard 8)).sum ∧
      (n = 0 ↔ ∀ q, GoGame.SameGroup sharedLibertyBoard 8 1 (0, 1) q →
        ¬ GoGame.HasLiberty sharedLibertyBoard 8 q) :=
  ⟨by decide, by decide, by decide,
    countLiberties_counts_faces sharedLibertyBoard 8 1 (0, 1) (by decide) (by decide) (by decide)⟩

/-- C12: in a Go state, `passTurn()` with pass counter 0 returns without throwing,
leaves the grid unchanged, switches the side to move, sets the counter to 1
and sends two messages and no game-over event; with pass counter 1 it returns
without throwing, leaves the grid and the side to move unchanged, sends the
settlement message and exactly one game-over event, whose winner is the one
returned by `checkWin(board, size, true)`, and leaves the counter at 0. -/
theorem passTurn_first_and_second (g : AbstractGame) (hty : g.type = GameType.GO) :
    (g.passCount = 0 →
      ∃ o, g.passTurn = some o ∧ o.thrown = none ∧ o.state.board = g.board ∧
        o.state.currentPlayer = g.currentPlayer.next ∧ o.state.passCount = 1 ∧
        o.state.events = g.events ++
          [Event.message (Message.passed g.currentPlayer.next.next),
           Event.message (Message.nextToMove g.currentPlayer.next)]) ∧
    (g.passCount = 1 →
      ∃ o w d, GoWinStrategy.checkWin g.resultDesc g.board g.size true = some (w, d) ∧
        g.passTurn = some o ∧ o.thrown = none ∧ o.state.board = g.board ∧
        o.state.currentPlayer = g.currentPlayer ∧ o.state.passCount = 0 ∧
        o.state.events = g.events ++
          [Event.message (Message.settlement d w), Event.gameOver w]) := by
  constructor
  · intro h0
    obtain ⟨o, ho, hthrown, hb, _, _, hcp, hpc, _, hev⟩ := AbstractGame.passTurn_first g hty h0
    exact ⟨o, ho, hthrown, hb, hcp, hpc, hev⟩
  · intro h1
    obtain ⟨o, w, d, hwin, ho, hthrown, hb, _, _, hcp, hpc, _, hev⟩ :=
      AbstractGame.passTurn_second g hty h1
    exact ⟨o, w, d, hwin, ho, hthrown, hb, hcp, hpc, hev⟩

/-- C12, at a fresh Go match of size 8. -/
theorem passTurn_first_and_second_witness :
    (AbstractGame.create GameType.GO 8).type = GameType.GO ∧
    (((AbstractGame.create GameType.GO 8).passCount = 0 →
      ∃ o, (AbstractGame.create GameType.GO 8).passTurn = some o ∧ o.thrown = none ∧
        o.state.board = (AbstractGame.create GameType.GO 8).board ∧
        o.state.currentPlayer = (AbstractGame.create GameType.GO 8).currentPlayer.next ∧
        o.state.passCount = 1 ∧
        o.state.events = (AbstractGame.create GameType.GO 8).events ++
          [Event.message (Message.passed
            (AbstractGame.create GameType.GO 8).currentPlayer.next.next),
           Event.message (Message.nextToMove
            (AbstractGame.create GameType.GO 8).currentPlayer.next)]) ∧
    ((AbstractGame.create GameType.GO 8).passCount = 1 →
      ∃ o w d, GoWinStrategy.checkWin (AbstractGame.create GameType.GO 8).resultDesc
          (AbstractGame.create GameType.GO 8).board (AbstractGame.create GameType.GO 8).size true
          = some (w, d) ∧
        (AbstractGame.create GameType.GO 8).passTurn = some o ∧ o.thrown = none ∧
        o.state.board = (AbstractGame.create GameType.GO 8).board ∧
        o.state.currentPlayer = (AbstractGame.create GameType.GO 8).currentPlayer ∧
        o.state.passCount = 0 ∧
        o.state.events = (AbstractGame.create GameType.GO 8).events ++
          [Event.message (Message.settlement d w), Event.gameOver w])) :=
  ⟨rfl, passTurn_first_and_second (AbstractGame.create GameType.GO 8) rfl⟩

/-- C13: a successful `makeMove` or `passTurn` puts one new entry on top of the
history, a snapshot that holds the grid (and side, size and variant) as they
were before the call, and leaves the earlier entries as they were; a
successful `undo` removes the top entry; `resign` and every failing call leave
the history unchanged. -/
theorem history_grows_and_shrinks_by_one (g : AbstractGame) (x y : Int) :
    (∃ o, g.makeMove x y = some o ∧
      (o.thrown = none → ∃ m, o.state.history = m :: g.history ∧ m.boardData = g.board ∧
        m.currentPlayer = g.currentPlayer ∧ m.boardSize = g.size ∧ m.type = g.type) ∧
      (o.thrown ≠ none → o.state.history = g.history)) ∧
    (∃ o, g.passTurn = some o ∧
      (o.thrown = none → ∃ m, o.state.history = m :: g.history ∧ m.boardData = g.board ∧
        m.currentPlayer = g.currentPlayer ∧ m.boardSize = g.size ∧ m.type = g.type) ∧
      (o.thrown ≠ none → o.state.history = g.history)) ∧
    (g.undo.thrown = none → ∃ m, g.history = m :: g.undo.state.history) ∧
    (g.undo.thrown ≠ none → g.undo.state.history = g.history) ∧
    g.resign.thrown = none ∧ g.resign.state.history = g.history := by
  refine ⟨?_, ?_, ?_, ?_, rfl, rfl⟩
  · by_cases h : x < 0 ∨ x ≥ g.size ∨ y < 0 ∨ y ≥ g.size
    · exact ⟨_, AbstractGame.makeMove_outOfRange g x y h, fun hn => Option.noConfusion hn,
        fun _ => rfl⟩
    · by_cases hc : g.board.cell x y = 0
      · obtain ⟨o, ho, hthrown, _, _, _, hh⟩ := AbstractGame.makeMove_legal g x y h hc
        exact ⟨o, ho, fun _ => ⟨_, hh, rfl, rfl, rfl, rfl⟩, fun hne => absurd hthrown hne⟩
      · exact ⟨_, AbstractGame.makeMove_occupied g x y h hc, fun hn => Option.noConfusion hn,
          fun _ => rfl⟩
  · cases hty : g.type with
    | GOMOKU =>
      exact ⟨_, AbstractGame.passTurn_gomoku g hty, fun hn => Option.noConfusion hn,
        fun _ => rfl⟩
    | GO =>
      obtain ⟨o, ho, hthrown, _, _, hh⟩ := AbstractGame.passTurn_go g hty
      refine ⟨o, ho, fun _ => ⟨_, hh, rfl, rfl, rfl, ?_⟩, fun hne => absurd hthrown hne⟩
      exact hty
  · cases hh : g.history with
    | nil =>
      rw [AbstractGame.undo_nil g hh]
      intro hn
      exact Option.noConfusion hn
    | cons m rest =>
      intro _
      exact ⟨m, by rw [(AbstractGame.undo_cons g m rest hh).2.1]⟩
  · cases hh : g.history with
    | nil =>
      rw [AbstractGame.undo_nil g hh]
      intro _
      exact hh
    | cons m rest =>
      intro hn
      exact absurd (AbstractGame.undo_cons g m rest hh).1 hn

/-- C14: `resign()` never fails; it sends the resignation message and a game-over
event whose winner is the side not to move (WHITE when BLACK is to move, BLACK
when WHITE is to move), and changes nothing else: grid, side to move, pass
counter and history stay as they were. -/
theorem resign_declares_other_side (g : AbstractGame) :
    g.resign.thrown = none ∧
    g.resign.state =
      { g with events := g.events ++
          [Event.message (Message.resigned g.currentPlayer.next),
           Event.gameOver g.currentPlayer.next] } ∧
    (g.currentPlayer = PieceColor.BLACK → g.currentPlayer.next = PieceColor.WHITE) ∧
    (g.currentPlayer = PieceColor.WHITE → g.currentPlayer.next = PieceColor.BLACK) := by
  refine ⟨rfl, ?_, ?_, ?_⟩
  · simp [AbstractGame.resign, AbstractGame.notifyMessage, AbstractGame.notifyGameOver,
      PieceColor.next]
  · intro h; rw [h]; rfl
  · intro h; rw [h]; rfl

/-- C15: in a Gomoku state with a square grid that contains no line of five, with
BLACK or WHITE to move, a legal `makeMove(r, c)` succeeds and places the
mover's stone; if the grid then contains a line of five, the move sends the
board update, the decision message and one game-over event, both naming the
mover as winner, and the side to move stays; otherwise it sends the board
update and the next-turn message, no game-over event, and the side to move is
switched. Every line of five on the new grid passes through `(r, c)` and
consists of the mover's stones. On the 8 x 8 grid seeded with Black on
(0,0)..(0,3), which has no line of five, Black's move at (0,4) is reported as
a Black win. -/
theorem gomoku_move_wins_iff_completes_five (g : AbstractGame) (r c : Int)
    (hty : g.type = GameType.GOMOKU) (hsq : g.board.Square g.size)
    (hside : g.currentPlayer = PieceColor.BLACK ∨ g.currentPlayer = PieceColor.WHITE)
    (hnone : ¬ ∃ i j d, d ∈ scanDirs ∧ FiveInRow g.board g.size i j d)
    (hin : InGrid g.size (r, c)) (hempty : g.board.cell r c = 0) :
    (∃ o, g.makeMove r c = some o ∧ o.thrown = none ∧
      o.state.board = g.board.setCell r c g.currentPlayer.stone ∧
      ((∃ i j d, d ∈ scanDirs ∧
          FiveInRow (g.board.setCell r c g.currentPlayer.stone) g.size i j d) →
        o.state.events = g.events ++
          [Event.boardUpdate (g.board.setCell r c g.currentPlayer.stone) g.size,
           Event.message (Message.decided g.currentPlayer),
           Event.gameOver g.currentPlayer] ∧
        o.state.currentPlayer = g.currentPlayer) ∧
      ((¬ ∃ i j d, d ∈ scanDirs ∧
          FiveInRow (g.board.setCell r c g.currentPlayer.stone) g.size i j d) →
        o.state.events = g.events ++
          [Event.boardUpdate (g.board.setCell r c g.currentPlayer.stone) g.size,
           Event.message (Message.nextToMove g.currentPlayer.next)] ∧
        o.state.currentPlayer = g.currentPlayer.next)) ∧
    (∀ i j d, d ∈ scanDirs →
      FiveInRow (g.board.setCell r c g.currentPlayer.stone) g.size i j d →
      (g.board.setCell r c g.currentPlayer.stone).cell i j = g.currentPlayer.stone ∧
      ∃ k : Int, 0 ≤ k ∧ k ≤ 4 ∧ (i + k * d.1, j + k * d.2) = (r, c)) ∧
    GomokuWinStrategy.checkWin fourInRowGame.board 8 false = PieceColor.NONE ∧
    (fourInRowGame.makeMove 0 4).map (fun o => (o.thrown, o.state.events)) =
      some (none, winningMoveEvents) := by
  have hrange : ¬ (r < 0 ∨ r ≥ g.size ∨ c < 0 ∨ c ≥ g.size) := by
    unfold InGrid at hin; simp only at hin; omega
  have hthrough := fun i j d hd hfive =>
    five_through_placed g.board g.size r c g.currentPlayer.stone hsq hin hnone i j d hd hfive
  refine ⟨?_, hthrough, by decide, by decide⟩
  obtain ⟨g4, w, hpost, _, hwin, hmove⟩ := AbstractGame.makeMove_legal_full g r c hrange hempty
  have hg4 : g4 = g.placeStone r c := by
    unfold AbstractGame.postMoveProcess at hpost
    have : (g.placeStone r c).type = GameType.GOMOKU := hty
    rw [this] at hpost
    exact (Option.some.inj hpost).symm
  subst hg4
  have hw : w = GomokuWinStrategy.checkWin (g.board.setCell r c g.currentPlayer.stone)
      g.size false := by
    unfold AbstractGame.checkWin at hwin
    have : (g.placeStone r c).type = GameType.GOMOKU := hty
    rw [this] at hwin
    exact (congrArg Prod.fst (Option.some.inj hwin)).symm
  by_cases hfive : ∃ i j d, d ∈ scanDirs ∧
      FiveInRow (g.board.setCell r c g.currentPlayer.stone) g.size i j d
  · have hne : GomokuWinStrategy.checkWin (g.board.setCell r c g.currentPlayer.stone)
        g.size false ≠ PieceColor.NONE :=
      (GomokuWinStrategy.checkWin_ne_NONE_iff _ _ _).2 hfive
    obtain ⟨i, j, d, hd, hf, hcolor⟩ := GomokuWinStrategy.checkWin_color _ _ _ hne
    have hcell := (hthrough i j d hd hf).1
    have hwmover : w = g.currentPlayer := by
      rw [hw, hcolor, hcell]
      unfold PieceColor.stone
      rcases hside with h | h <;> rw [h] <;> decide
    have hwne : w ≠ PieceColor.NONE := by rw [hw]; exact hne
    rw [if_pos hwne, hwmover] at hmove
    exact ⟨_, hmove, rfl, rfl, fun _ => ⟨by
      simp [AbstractGame.notifyGameOver, AbstractGame.notifyMessage,
        AbstractGame.notifyBoardUpdate, AbstractGame.placeStone,
        AbstractGame.saveStateToHistory, PieceColor.stone], rfl⟩,
      fun hno => absurd hfive hno⟩
  · have hwn : w = PieceColor.NONE := by
      rw [hw]
      by_contra hne
      exact hfive ((GomokuWinStrategy.checkWin_ne_NONE_iff _ _ _).1 hne)
    rw [if_neg (by rw [hwn]; exact fun h => h rfl)] at hmove
    exact ⟨_, hmove, rfl, rfl, fun hyes => absurd hyes hfive, fun _ => ⟨by
      simp [AbstractGame.notifyMessage, AbstractGame.switchPlayer,
        AbstractGame.notifyBoardUpdate, AbstractGame.placeStone,
        AbstractGame.saveStateToHistory, PieceColor.stone, PieceColor.next], rfl⟩⟩

/-- C15, at the seeded 8 x 8 grid and Black's move at (0,4). -/
theorem gomoku_move_wins_iff_completes_five_witness :
    fourInRowGame.type = GameType.GOMOKU ∧ fourInRowGame.board.Square fourInRowGame.size ∧
    (fourInRowGame.currentPlayer = PieceColor.BLACK ∨
      fourInRowGame.currentPlayer = PieceColor.WHITE) ∧
    (¬ ∃ i j d, d ∈ scanDirs ∧ FiveInRow fourInRowGame.board fourInRowGame.size i j d) ∧
    InGrid fourInRowGame.size (0, 4) ∧ fourInRowGame.board.cell 0 4 = 0 ∧
    ((∃ o, fourInRowGame.makeMove 0 4 = some o ∧ o.thrown = none ∧
      o.state.board = fourInRowGame.board.setCell 0 4 fourInRowGame.currentPlayer.stone ∧
      ((∃ i j d, d ∈ scanDirs ∧
          FiveInRow (fourInRowGame.board.setCell 0 4 fourInRowGame.currentPlayer.stone)
            fourInRowGame.size i j d) →
        o.state.events = fourInRowGame.events ++
          [Event.boardUpdate (fourInRowGame.board.setCell 0 4 fourInRowGame.currentPlayer.stone)
            fourInRowGame.size,
           Event.message (Message.decided fourInRowGame.currentPlayer),
           Event.gameOver fourInRowGame.currentPlayer] ∧
        o.state.currentPlayer = fourInRowGame.currentPlayer) ∧
      ((¬ ∃ i j d, d ∈ scanDirs ∧
          FiveInRow (fourInRowGame.board.setCell 0 4 fourInRowGame.currentPlayer.stone)
            fourInRowGame.size i j d) →
        o.state.events = fourInRowGame.events ++
          [Event.boardUpdate (fourInRowGame.board.setCell 0 4 fourInRowGame.currentPlayer.stone)
            fourInRowGame.size,
           Event.message (Message.nextToMove fourInRowGame.currentPlayer.next)] ∧
        o.state.currentPlayer = fourInRowGame.currentPlayer.next)) ∧
    (∀ i j d, d ∈ scanDirs →
      FiveInRow (fourInRowGame.board.setCell 0 4 fourInRowGame.currentPlayer.stone)
        fourInRowGame.size i j d →
      (fourInRowGame.board.setCell 0 4 fourInRowGame.currentPlayer.stone).cell i j =
        fourInRowGame.currentPlayer.stone ∧
      ∃ k : Int, 0 ≤ k ∧ k ≤ 4 ∧ (i + k * d.1, j + k * d.2) = (0, 4)) ∧
    GomokuWinStrategy.checkWin fourInRowGame.board 8 false = PieceColor.NONE ∧
    (fourInRowGame.makeMove 0 4).map (fun o => (o.thrown, o.state.events)) =
      some (none, winningMoveEvents)) :=
  have hnone : ¬ ∃ i j d, d ∈ scanDirs ∧
      FiveInRow fourInRowGame.board fourInRowGame.size i j d := fun h =>
    (GomokuWinStrategy.checkWin_ne_NONE_iff fourInRowGame.board fourInRowGame.size false).2 h
      (by decide)
  ⟨rfl, by decide, Or.inl rfl, hnone, by decide, by decide,
    gomoku_move_wins_iff_completes_five fourInRowGame 0 4 rfl (by decide) (Or.inl rfl) hnone
      (by decide) (by decide)⟩

/-- C16: on a size x size grid that holds stones of one side only, and at least
one, the settlement (`checkWin` with `forceEnd = true`) returns and credits
every Empty cell to that side: its territory is the number of Empty cells,
its stones plus territory are `size * size`, and the other side has no stone
and no territory, so White scores just the 3.75 bonus when the stones are
Black and Black scores 0 when they are White. On the 8 x 8 board with a
single Black stone at (0,0) the result is Black 1 + 63 = 64, White
0 + 0 + 3.75, winner BLACK, and the result text holds both breakdowns. -/
theorem one_sided_settlement (rd : Option ResultDesc) (board : Board) (size : Nat)
    (color : Int) (hsq : board.Square size) (hcolor : color = 1 ∨ color = 2)
    (hone : ∀ p, InGrid size p → board.cell p.1 p.2 = 0 ∨ board.cell p.1 p.2 = color)
    (hstone : ∃ s, InGrid size s ∧ board.cell s.1 s.2 = color) :
    (∃ t w, GoWinStrategy.tally board size = some t ∧
      GoWinStrategy.checkWin rd board size true = some (w, some (GoWinStrategy.describe t)) ∧
      (color = 1 →
        t.blackTerritory = GoWinStrategy.stoneCount board size 0 ∧
        t.blackCount + t.blackTerritory = size * size ∧
        t.whiteCount = 0 ∧ t.whiteTerritory = 0 ∧
        GoWinStrategy.finalBlack t = ((size * size : Nat) : ℚ) ∧
        GoWinStrategy.finalWhite t = 3.75) ∧
      (color = 2 →
        t.whiteTerritory = GoWinStrategy.stoneCount board size 0 ∧
        t.whiteCount + t.whiteTerritory = size * size ∧
        t.blackCount = 0 ∧ t.blackTerritory = 0 ∧
        GoWinStrategy.finalBlack t = 0 ∧
        GoWinStrategy.finalWhite t = ((size * size : Nat) : ℚ) + 3.75)) ∧
    GoWinStrategy.checkWin none singleBlackBoard 8 true =
      some (PieceColor.BLACK, some singleBlackDesc) := by
  refine ⟨?_, by decide!⟩
  have hcells : ∀ x y, board.cell x y = 0 ∨ board.cell x y = 1 ∨ board.cell x y = 2 := by
    intro x y
    by_cases hin : InGrid size (x, y)
    · rcases hone (x, y) hin with h | h
      · exact Or.inl h
      · rcases hcolor with hc | hc
        · exact Or.inr (Or.inl (h.trans hc))
        · exact Or.inr (Or.inr (h.trans hc))
    · exact Or.inl (Board.cell_outside board size x y hsq hin)
  obtain ⟨t, ht, inv⟩ := GoWinStrategy.tally_spec board size hcells
  obtain ⟨lb, hlb, hlbmem, hlblen⟩ := inv.black
  obtain ⟨lw, hlw, hlwmem, hlwlen⟩ := inv.white
  have hbc : t.blackCount = GoWinStrategy.stoneCount board size 1 := inv.blackCount_eq
  have hwc : t.whiteCount = GoWinStrategy.stoneCount board size 2 := inv.whiteCount_eq
  have hwin : ∃ w, GoWinStrategy.checkWin rd board size true =
      some (w, some (GoWinStrategy.describe t)) := by
    by_cases hgt : GoWinStrategy.finalBlack t > GoWinStrategy.finalWhite t
    · exact ⟨PieceColor.BLACK, by
        simp only [GoWinStrategy.checkWin, ht, not_true_eq_false, if_false, Option.map_some',
          if_pos hgt]⟩
    · exact ⟨PieceColor.WHITE, by
        simp only [GoWinStrategy.checkWin, ht, not_true_eq_false, if_false, Option.map_some',
          if_neg hgt]⟩
  obtain ⟨w, hw⟩ := hwin
  refine ⟨t, w, ht, hw, ?_, ?_⟩
  · intro hc
    subst hc
    obtain ⟨hA, hB, hC, hD⟩ := GoWinStrategy.one_sided_counts board size 1 2 (by norm_num)
      (by norm_num) (by norm_num) hone hstone t.visited inv.mem_visited_iff
    have e1 : t.blackTerritory = GoWinStrategy.stoneCount board size 0 :=
      hlblen.trans (hA lb hlb hlbmem)
    have e2 : t.whiteTerritory = 0 := hlwlen.trans (hB lw hlwmem)
    have e3 : t.whiteCount = 0 := hwc.trans hD
    have e4 : t.blackCount + t.blackTerritory = size * size := by rw [hbc, e1]; exact hC
    refine ⟨e1, e4, e3, e2, ?_, ?_⟩
    · unfold GoWinStrategy.finalBlack; rw [e4]
    · unfold GoWinStrategy.finalWhite; rw [e3, e2]; norm_num
  · intro hc
    subst hc
    obtain ⟨hA, hB, hC, hD⟩ := GoWinStrategy.one_sided_counts board size 2 1 (by norm_num)
      (by norm_num) (by norm_num) hone hstone t.visited inv.mem_visited_iff
    have e1 : t.whiteTerritory = GoWinStrategy.stoneCount board size 0 :=
      hlwlen.trans (hA lw hlw hlwmem)
    have e2 : t.blackTerritory = 0 := hlblen.trans (hB lb hlbmem)
    have e3 : t.blackCount = 0 := hbc.trans hD
    have e4 : t.whiteCount + t.whiteTerritory = size * size := by rw [hwc, e1]; exact hC
    refine ⟨e1, e4, e3, e2, ?_, ?_⟩
    · unfold GoWinStrategy.finalBlack; rw [e3, e2]; norm_num
    · unfold GoWinStrategy.finalWhite; rw [e4]

/-- C16, at the 8 x 8 board with a single Black stone at (0,0). -/
theorem one_sided_settlement_witness :
    singleBlackBoard.Square 8 ∧ ((1 : Int) = 1 ∨ (1 : Int) = 2) ∧
    (∀ p, InGrid 8 p → singleBlackBoard.cell p.1 p.2 = 0 ∨ singleBlackBoard.cell p.1 p.2 = 1) ∧
    (∃ s, InGrid 8 s ∧ singleBlackBoard.cell s.1 s.2 = 1) ∧
    ((∃ t w, GoWinStrategy.tally singleBlackBoard 8 = some t ∧
      GoWinStrategy.checkWin none singleBlackBoard 8 true =
        some (w, some (GoWinStrategy.describe t)) ∧
      ((1 : Int) = 1 →
        t.blackTerritory = GoWinStrategy.stoneCount singleBlackBoard 8 0 ∧
        t.blackCount + t.blackTerritory = 8 * 8 ∧
        t.whiteCount = 0 ∧ t.whiteTerritory = 0 ∧
        GoWinStrategy.finalBlack t = ((8 * 8 : Nat) : ℚ) ∧
        GoWinStrategy.finalWhite t = 3.75) ∧
      ((1 : Int) = 2 →
        t.whiteTerritory = GoWinStrategy.stoneCount singleBlackBoard 8 0 ∧
        t.whiteCount + t.whiteTerritory = 8 * 8 ∧
        t.blackCount = 0 ∧ t.blackTerritory = 0 ∧
        GoWinStrategy.finalBlack t = 0 ∧
        GoWinStrategy.finalWhite t = ((8 * 8 : Nat) : ℚ) + 3.75)) ∧
    GoWinStrategy.checkWin none singleBlackBoard 8 true =
      some (PieceColor.BLACK, some singleBlackDesc)) :=
  ⟨by decide, Or.inl rfl, singleBlackBoard_one_sided, ⟨(0, 0), by decide, by decide⟩,
    one_sided_settlement none singleBlackBoard 8 1 (by decide) (Or.inl rfl)
      singleBlackBoard_one_sided ⟨(0, 0), by decide, by decide⟩⟩

/-- C17: every state reachable from a fresh match of size `n` of either variant by
`makeMove`, `passTurn`, `undo` and `resign` calls, successful or failing, has
size field `n`, a grid of exactly `n` rows of `n` cells, and 0, 1 or 2 in
every cell; and from it every one of the four operations returns. -/
theorem reachable_state_is_wellFormed (type : GameType) (n : Nat) (g : AbstractGame)
    (h : Reachable type n g) :
    g.size = n ∧ g.board.Square n ∧ g.board.Valid ∧
    (∀ x y, g.board.cell x y = 0 ∨ g.board.cell x y = 1 ∨ g.board.cell x y = 2) ∧
    ∀ op, ∃ o, g.perform op = some o := by
  have wf := AbstractGame.Reachable.wellFormed h
  refine ⟨wf.size_eq, wf.square, wf.valid, Board.cell_of_valid g.board wf.valid, ?_⟩
  intro op
  obtain ⟨o, ho, _⟩ := AbstractGame.perform_wellFormed n g op wf
  exact ⟨o, ho⟩

/-- C17, at the state after `resign` on a fresh Go match of size 8. -/
theorem reachable_state_is_wellFormed_witness :
    Reachable GameType.GO 8 (AbstractGame.create GameType.GO 8).resign.state ∧
    ((AbstractGame.create GameType.GO 8).resign.state.size = 8 ∧
      (AbstractGame.create GameType.GO 8).resign.state.board.Square 8 ∧
      (AbstractGame.create GameType.GO 8).resign.state.board.Valid ∧
      (∀ x y, (AbstractGame.create GameType.GO 8).resign.state.board.cell x y = 0 ∨
        (AbstractGame.create GameType.GO 8).resign.state.board.cell x y = 1 ∨
        (AbstractGame.create GameType.GO 8).resign.state.board.cell x y = 2) ∧
      ∀ op, ∃ o, (AbstractGame.create GameType.GO 8).resign.state.perform op = some o) :=
  ⟨Reachable.step _ Op.resign _ Reachable.fresh rfl,
    reachable_state_is_wellFormed GameType.GO 8 _
      (Reachable.step _ Op.resign _ Reachable.fresh rfl)⟩

/-- C18: constructing an engine of size `n` of either variant gives a grid of `n`
rows of `n` cells in which every cell is Empty, BLACK to move, pass counter 0
and an empty history. -/
theorem create_gives_fresh_match (type : GameType) (n : Nat) :
    (AbstractGame.create type n).type = type ∧ (AbstractGame.create type n).size = n ∧
    (AbstractGame.create type n).board.Square n ∧
    (∀ x y, (AbstractGame.create type n).board.cell x y = 0) ∧
    (AbstractGame.create type n).currentPlayer = PieceColor.BLACK ∧
    (AbstractGame.create type n).passCount = 0 ∧
    (AbstractGame.create type n).history = [] :=
  ⟨rfl, rfl, Board.fresh_square n, Board.cell_fresh n, rfl, rfl, rfl⟩

/-- C19: for every snapshot whose board has `boardSize` rows of `boardSize` cells,
`deserialize` applied to the text written by `serialize` returns the same
snapshot: same variant, board size, pass counter, side to move and cells; and
`stringToColor (colorToString c) = c` for each colour `c`. -/
theorem deserialize_serialize_roundtrip (m : GameMemento) (c : PieceColor)
    (hsq : m.boardData.Square m.boardSize) :
    GameMemento.deserialize m.serialize = some m ∧ stringToColor (colorToString c) = c :=
  ⟨GameMemento.deserialize_serialize m hsq, stringToColor_colorToString c⟩

/-- C19, at the snapshot of the Go position `cornerAtari`. -/
theorem deserialize_serialize_roundtrip_witness :
    cornerAtari.createMemento.boardData.Square cornerAtari.createMemento.boardSize ∧
    (GameMemento.deserialize cornerAtari.createMemento.serialize =
        some cornerAtari.createMemento ∧
      stringToColor (colorToString PieceColor.WHITE) = PieceColor.WHITE) :=
  ⟨by decide, deserialize_serialize_roundtrip cornerAtari.createMemento PieceColor.WHITE
    (by decide)⟩

/-- C20: for every state `e` reachable from a fresh match, whatever its history,
the load path applied to the text saved from `e` returns an engine with the
same variant, size, grid, side to move and pass counter as `e` and an empty
history, so `undo()` on it fails. -/
theorem load_after_save (type : GameType) (n : Nat) (e : AbstractGame)
    (h : Reachable type n e) :
    ∃ g, GameSystem.loadGame (GameSystem.saveText e) = some g ∧
      g.type = e.type ∧ g.size = e.size ∧ g.board = e.board ∧
      g.currentPlayer = e.currentPlayer ∧ g.passCount = e.passCount ∧
      g.history = [] ∧ g.undo.thrown = some GameException.nothingToUndo := by
  have wf := AbstractGame.Reachable.wellFormed h
  have hsq : e.createMemento.boardData.Square e.createMemento.boardSize := by
    show e.board.Square e.size
    rw [wf.size_eq]; exact wf.square
  refine ⟨((AbstractGame.create e.type e.size).restoreMemento e.createMemento).refresh, ?_,
    rfl, rfl, rfl, rfl, rfl, rfl, rfl⟩
  unfold GameSystem.loadGame GameSystem.saveText
  rw [GameMemento.deserialize_serialize e.createMemento hsq]
  rfl

/-- C20, at the state after `passTurn` on a fresh Go match of size 8, whose
history is not empty. -/
theorem load_after_save_witness :
    Reachable GameType.GO 8 afterFirstPass.state ∧
    ∃ g, GameSystem.loadGame (GameSystem.saveText afterFirstPass.state) = some g ∧
      g.type = afterFirstPass.state.type ∧ g.size = afterFirstPass.state.size ∧
      g.board = afterFirstPass.state.board ∧
      g.currentPlayer = afterFirstPass.state.currentPlayer ∧
      g.passCount = afterFirstPass.state.passCount ∧
      g.history = [] ∧ g.undo.thrown = some GameException.nothingToUndo :=
  ⟨Reachable.step (AbstractGame.create GameType.GO 8) Op.passTurn afterFirstPass
      Reachable.fresh (by decide),
    load_after_save GameType.GO 8 afterFirstPass.state
      (Reachable.step (AbstractGame.create GameType.GO 8) Op.passTurn afterFirstPass
        Reachable.fresh (by decide))⟩

/-- C21 (as stated it fails): `restoreMemento` does not reject a structurally
inconsistent snapshot. Given the snapshot `raggedMemento`, which says size 8 and
whose first row has 7 cells, a fresh Go engine of size 8 takes over the ragged
board and the side WHITE: its state has changed, and nothing was thrown (the
function has no `throw` and returns the new state). -/
theorem restoreMemento_accepts_ragged_snapshot :
    ¬ raggedMemento.boardData.Square raggedMemento.boardSize ∧
    ((AbstractGame.create GameType.GO 8).restoreMemento raggedMemento).board =
      raggedMemento.boardData ∧
    ((AbstractGame.create GameType.GO 8).restoreMemento raggedMemento).currentPlayer =
      PieceColor.WHITE ∧
    (AbstractGame.create GameType.GO 8).restoreMemento raggedMemento ≠
      AbstractGame.create GameType.GO 8 := by
  decide

/-- C21 (amended): `restoreMemento` checks nothing and never fails: for every
snapshot, consistent or not, the engine takes over the board, the side to move,
the size and the pass counter of the snapshot, and keeps its variant, history,
result text and observers. The snapshots it is given are consistent because
their producers make them so: every snapshot in the history of a reachable
state, and every snapshot returned by `deserialize`, has `boardSize` rows of
`boardSize` cells. -/
theorem restoreMemento_copies_unchecked (g : AbstractGame) (mem : GameMemento)
    (type : GameType) (n : Nat) (e : AbstractGame) (tokens : List Token) (loaded : GameMemento)
    (hreach : Reachable type n e) (hload : GameMemento.deserialize tokens = some loaded) :
    (g.restoreMemento mem).board = mem.boardData ∧
    (g.restoreMemento mem).currentPlayer = mem.currentPlayer ∧
    (g.restoreMemento mem).size = mem.boardSize ∧
    (g.restoreMemento mem).passCount = mem.passCount ∧
    (g.restoreMemento mem).type = g.type ∧
    (g.restoreMemento mem).history = g.history ∧
    (g.restoreMemento mem).resultDesc = g.resultDesc ∧
    (g.restoreMemento mem).events = g.events ∧
    (∀ m ∈ e.history, m.boardData.Square m.boardSize) ∧
    e.createMemento.boardData.Square e.createMemento.boardSize ∧
    loaded.boardData.Square loaded.boardSize := by
  have wf := AbstractGame.Reachable.wellFormed hreach
  refine ⟨rfl, rfl, rfl, rfl, rfl, rfl, rfl, rfl, ?_, ?_, ?_⟩
  · intro m hm
    obtain ⟨h1, h2, _⟩ := wf.history m hm
    rw [h1]
    exact h2
  · show e.board.Square e.size
    rw [wf.size_eq]
    exact wf.square
  · exact GameMemento.deserialize_square tokens loaded hload

/-- C21 (amended), at the state after a first pass on a fresh Go match of size 8,
whose history holds one snapshot, and at the text of a 3 x 3 save file; the
snapshot restored is the ragged one. -/
theorem restoreMemento_copies_unchecked_witness :
    Reachable GameType.GO 8 afterFirstPass.state ∧
    GameMemento.deserialize smallSaveText = some smallMemento ∧
    (afterFirstPass.state.restoreMemento raggedMemento).board = raggedMemento.boardData ∧
    (∀ m ∈ afterFirstPass.state.history, m.boardData.Square m.boardSize) :=
  have hreach : Reachable GameType.GO 8 afterFirstPass.state :=
    Reachable.step (AbstractGame.create GameType.GO 8) Op.passTurn afterFirstPass
      Reachable.fresh (by decide)
  have h := restoreMemento_copies_unchecked afterFirstPass.state raggedMemento GameType.GO 8
    afterFirstPass.state smallSaveText smallMemento hreach (by decide)
  ⟨hreach, by decide, h.1, h.2.2.2.2.2.2.2.2.1⟩

/-- C22: for every grid and every position `(x, y)`, in particular every one in
range, `GomokuMoveStrategy::isValid` and `GoMoveStrategy::isValid` return the
same value, and it is `true` exactly when the cell `(x, y)` is Empty. Both take
the grid by constant reference and return the truth value only, so neither can
change the grid; the engine, which dispatches on the variant, gets the same
answer from either. -/
theorem isValid_same_rule (board : Board) (size : Nat) (x y : Int) (g : AbstractGame) :
    GomokuMoveStrategy.isValid x y board size = GoMoveStrategy.isValid x y board size ∧
    (GomokuMoveStrategy.isValid x y board size = true ↔ board.cell x y = 0) ∧
    (GoMoveStrategy.isValid x y board size = true ↔ board.cell x y = 0) ∧
    g.isValid x y = GomokuMoveStrategy.isValid x y g.board g.size ∧
    g.isValid x y = GoMoveStrategy.isValid x y g.board g.size := by
  refine ⟨rfl, ?_, ?_, ?_, ?_⟩
  · simp [GomokuMoveStrategy.isValid]
  · simp [GoMoveStrategy.isValid]
  · unfold AbstractGame.isValid; cases g.type <;> rfl
  · unfold AbstractGame.isValid; cases g.type <;> rfl

set_option maxRecDepth 100000 in
/-- C23 (the code diverges): the controller gives up its engine in the
`resign` branch only, and there it breaks on it. After the Gomoku command
lines `winningCommands`, whose last move sends game-over for BLACK, the
controller still holds the engine, BLACK still to move; the next command
`move 3 3` is not answered with "game not started" but places a Black stone on
(2,2). After the Go command lines `settlingCommands`, whose second pass sends
game-over for WHITE, the engine is still held and `move 1 1` places a White
stone on (0,0). After `start go 8` the `BoardComponent` of the UI has the
address of the engine's board; the `try` block of `resign` sends game-over for
WHITE and ends without exception, with no engine held and that address
dangling; the `render` that ends the same call reads the board behind it, so
`processCommand` has no defined result for `resign`, and the command lines
`resigningCommands` have none either: no state is reached in which a following
`move` could be answered. -/
theorem controller_keeps_engine_after_game_over :
    (∃ s, GameSystem.runCommands (GameSystem.initial []) winningCommands = some s ∧
      UiCall.engine (Event.gameOver PieceColor.BLACK) ∈ s.ui ∧
      ∃ g, s.game = some g ∧ g.board.cell 2 2 = 0 ∧ g.currentPlayer = PieceColor.BLACK ∧
      ∃ s2, GameSystem.processCommand s (Command.move 3 3) = some s2 ∧
      UiCall.onMessage (Notice.error SystemError.notStarted) ∉ s2.ui ∧
      ∃ g2, s2.game = some g2 ∧ g2.board.cell 2 2 = 1) ∧
    (∃ s, GameSystem.runCommands (GameSystem.initial []) settlingCommands = some s ∧
      UiCall.engine (Event.gameOver PieceColor.WHITE) ∈ s.ui ∧
      ∃ g, s.game = some g ∧ g.board.cell 0 0 = 0 ∧ g.currentPlayer = PieceColor.WHITE ∧
      ∃ s2, GameSystem.processCommand s (Command.move 1 1) = some s2 ∧
      UiCall.onMessage (Notice.error SystemError.notStarted) ∉ s2.ui ∧
      ∃ g2, s2.game = some g2 ∧ g2.board.cell 0 0 = 2) ∧
    (∃ s, GameSystem.processCommand (GameSystem.initial []) (Command.start "go" 8) = some s ∧
      s.running = true ∧ s.boardData = BoardRef.held ∧
      GameSystem.processCommand s Command.resign = none ∧
      GameSystem.runCommands (GameSystem.initial []) resigningCommands = none ∧
      ∃ r, GameSystem.tryCommand s Command.resign = some r ∧ r.1 = none ∧
      UiCall.engine (Event.gameOver PieceColor.WHITE) ∈ r.2.ui ∧ r.2.game = none ∧
      r.2.running = true ∧ r.2.boardData = BoardRef.freed ∧
      GameSystem.render r.2 = none) := by
  refine ⟨?_, ?_, ?_⟩ <;> decide!

set_option maxRecDepth 100000 in
/-- C24 (the code diverges): `start` checks the size, `load` does not. With the
file `small.sav` holding the text of a 3 x 3 Go match, `start go 3` is rejected
with the size error and no engine is held; `start go 8` creates an engine of
size 8, and the following `load small.sav` replaces it by an engine of size 3;
the UI is shown the new board and the message that the game was read, and no
error. -/
theorem load_creates_engine_of_size_three :
    GameSystem.processCommand (GameSystem.initial [("small.sav", smallSaveText)])
        (Command.start "go" 3) =
      some { GameSystem.initial [("small.sav", smallSaveText)] with
             ui := [UiCall.onMessage (Notice.error SystemError.badSize), UiCall.render] } ∧
    (∃ s, GameSystem.processCommand (GameSystem.initial [("small.sav", smallSaveText)])
        (Command.start "go" 8) = some s ∧
      (∃ g, s.game = some g ∧ g.size = 8) ∧
      ∃ s2, GameSystem.processCommand s (Command.load "small.sav") = some s2 ∧
      s2.ui = s.ui ++
        [UiCall.updateGameStatus GameType.GO,
         UiCall.engine (Event.boardUpdate (Board.fresh 3) 3),
         UiCall.engine (Event.message (Message.currentTurn PieceColor.BLACK)),
         UiCall.onMessage (Notice.loaded "small.sav"), UiCall.render] ∧
      ∃ g2, s2.game = some g2 ∧ g2.size = 3 ∧ g2.board = Board.fresh 3 ∧
        g2.type = GameType.GO) := by
  decide!

/-- C25: in every state reachable from a fresh match of either variant, the side
to move is BLACK or WHITE, never NONE, and so is the side recorded in every
snapshot of the history; `makeMove` returns, and when it does not throw, the
cell was Empty and now holds the stone of the side that was to move: 1 when
BLACK was to move, 2 when WHITE was. -/
theorem reachable_side_is_never_NONE (type : GameType) (n : Nat) (g : AbstractGame)
    (x y : Int) (hreach : Reachable type n g) :
    (g.currentPlayer = PieceColor.BLACK ∨ g.currentPlayer = PieceColor.WHITE) ∧
    g.currentPlayer ≠ PieceColor.NONE ∧
    (∀ m ∈ g.history, m.currentPlayer ≠ PieceColor.NONE) ∧
    ∃ o, g.makeMove x y = some o ∧
      (o.thrown = none →
        g.board.cell x y = 0 ∧
        ((g.currentPlayer = PieceColor.BLACK ∧ o.state.board.cell x y = 1) ∨
         (g.currentPlayer = PieceColor.WHITE ∧ o.state.board.cell x y = 2))) := by
  have inv := AbstractGame.Reachable.sideInv hreach
  have wf := AbstractGame.Reachable.wellFormed hreach
  have hne : ∀ c : PieceColor, c = PieceColor.BLACK ∨ c = PieceColor.WHITE →
      c ≠ PieceColor.NONE := by
    rintro c (rfl | rfl) <;> decide
  refine ⟨inv.side, hne _ inv.side, fun m hm => hne _ (inv.history m hm), ?_⟩
  obtain ⟨o, ho⟩ := AbstractGame.makeMove_total g x y
  refine ⟨o, ho, fun hok => ?_⟩
  obtain ⟨hrange, hempty⟩ := AbstractGame.makeMove_ok_legal g x y o ho hok
  have hsq : g.board.Square g.size := by rw [wf.size_eq]; exact wf.square
  obtain ⟨o', ho', _, hcell, _⟩ := AbstractGame.makeMove_placed g x y hsq hrange hempty
  rw [ho] at ho'
  cases ho'
  refine ⟨hempty, ?_⟩
  rcases inv.side with hb | hw
  · exact Or.inl ⟨hb, by rw [hcell, hb]; rfl⟩
  · exact Or.inr ⟨hw, by rw [hcell, hw]; rfl⟩

/-- C25, at the state after a first pass on a fresh Go match of size 8: WHITE is
to move, and the move at (0,0) puts a 2 there. -/
theorem reachable_side_is_never_NONE_witness :
    Reachable GameType.GO 8 afterFirstPass.state ∧
    afterFirstPass.state.currentPlayer = PieceColor.WHITE ∧
    (∃ o, afterFirstPass.state.makeMove 0 0 = some o ∧ o.thrown = none ∧
      o.state.board.cell 0 0 = 2) ∧
    afterFirstPass.state.currentPlayer ≠ PieceColor.NONE :=
  have hreach : Reachable GameType.GO 8 afterFirstPass.state :=
    Reachable.step (AbstractGame.create GameType.GO 8) Op.passTurn afterFirstPass
      Reachable.fresh (by decide)
  ⟨hreach, by decide, by decide,
    (reachable_side_is_never_NONE GameType.GO 8 afterFirstPass.state 0 0 hreach).2.1⟩

/-- C26: on a grid with cells in {0, 1, 2} that holds at least one line of five,
`GomokuWinStrategy::checkWin` returns the side of the cell `p` that is first in
row-major order among the cells at which a line of five starts (five equal
non-empty cells going right, down, down-right or down-left): BLACK when `p`
holds 1, WHITE when it holds 2. So when both sides have a line of five, the
side whose start cell comes first in row-major order is returned. -/
theorem gomoku_checkWin_first_in_row_major (board : Board) (size : Nat) (forceEnd : Bool)
    (hvalid : board.Valid)
    (hfive : ∃ i j d, d ∈ scanDirs ∧ FiveInRow board size i j d) :
    ∃ p, InGrid size p ∧ StartsFive board size p ∧
      (∀ q, InGrid size q → StartsFive board size q → RowMajorLE p q) ∧
      ((board.cell p.1 p.2 = 1 ∧
          GomokuWinStrategy.checkWin board size forceEnd = PieceColor.BLACK) ∨
       (board.cell p.1 p.2 = 2 ∧
          GomokuWinStrategy.checkWin board size forceEnd = PieceColor.WHITE)) := by
  obtain ⟨p, hin, hstart, hfirst, hwin⟩ :=
    GomokuWinStrategy.checkWin_first board size forceEnd hfive
  refine ⟨p, hin, hstart, hfirst, ?_⟩
  obtain ⟨d, _, hline⟩ := hstart
  have hne : board.cell p.1 p.2 ≠ 0 := hline.1
  rcases Board.cell_of_valid board hvalid p.1 p.2 with h0 | h1 | h2
  · exact absurd h0 hne
  · exact Or.inl ⟨h1, by rw [hwin, if_pos h1]⟩
  · exact Or.inr ⟨h2, by rw [hwin, if_neg (by rw [h2]; norm_num)]⟩

/-- C26, at the board with White on (0,3)..(0,7) and Black on (1,0)..(1,4):
both sides have a line of five, White's starts first in row-major order
although Black's starts in an earlier column, and WHITE is returned. -/
theorem gomoku_checkWin_first_in_row_major_witness :
    twoFivesBoard.Valid ∧
    FiveInRow twoFivesBoard 8 0 3 (0, 1) ∧ FiveInRow twoFivesBoard 8 1 0 (0, 1) ∧
    twoFivesBoard.cell 0 3 = 2 ∧ twoFivesBoard.cell 1 0 = 1 ∧
    GomokuWinStrategy.checkWin twoFivesBoard 8 false = PieceColor.WHITE ∧
    ∃ p, InGrid 8 p ∧ StartsFive twoFivesBoard 8 p ∧
      (∀ q, InGrid 8 q → StartsFive twoFivesBoard 8 q → RowMajorLE p q) ∧
      ((twoFivesBoard.cell p.1 p.2 = 1 ∧
          GomokuWinStrategy.checkWin twoFivesBoard 8 false = PieceColor.BLACK) ∨
       (twoFivesBoard.cell p.1 p.2 = 2 ∧
          GomokuWinStrategy.checkWin twoFivesBoard 8 false = PieceColor.WHITE)) :=
  have hwhite : FiveInRow twoFivesBoard 8 0 3 (0, 1) :=
    ⟨by decide, (forall_zero_to_four _).2 (by decide)⟩
  have hblack : FiveInRow twoFivesBoard 8 1 0 (0, 1) :=
    ⟨by decide, (forall_zero_to_four _).2 (by decide)⟩
  ⟨by decide, hwhite, hblack, by decide, by decide, by decide,
    gomoku_checkWin_first_in_row_major twoFivesBoard 8 false (by decide)
      ⟨0, 3, (0, 1), by decide, hwhite⟩⟩

/-- C27 (as stated it fails): the board `sixGapBoard`, after five moves of each
side, holds no line of five (the scan returns NONE) and its cell (0,4) is
Empty; Black's stone there makes the run (0,0)..(0,5) of six, and the grid then
holds two lines of five, the one starting at (0,0) and the one starting at
(0,1), both going right. -/
theorem placement_completes_two_lines :
    (¬ ∃ i j d, d ∈ scanDirs ∧ FiveInRow sixGapBoard 8 i j d) ∧
    sixGapBoard.cell 0 4 = 0 ∧
    (({ AbstractGame.create GameType.GOMOKU 8 with board := sixGapBoard }).makeMove 0 4).map
        (fun (o : Outcome) => (o.thrown, o.state.board)) =
      some (none, sixGapBoard.setCell 0 4 1) ∧
    FiveInRow (sixGapBoard.setCell 0 4 1) 8 0 0 (0, 1) ∧
    FiveInRow (sixGapBoard.setCell 0 4 1) 8 0 1 (0, 1) ∧
    ((0 : Int), (0 : Int), ((0, 1) : Point)) ≠ (0, 1, (0, 1)) := by
  refine ⟨?_, by decide, by decide, ⟨by decide, (forall_zero_to_four _).2 (by decide)⟩,
    ⟨by decide, (forall_zero_to_four _).2 (by decide)⟩, by decide⟩
  intro h
  exact (GomokuWinStrategy.checkWin_ne_NONE_iff sixGapBoard 8 false).2 h (by decide)

/-- C27 (amended): on a square grid without a line of five, after a stone `s` is
put on a grid cell `(r, c)`, as a legal placement does, every line of five of the resulting grid
passes through `(r, c)` and consists of stones `s`: its start cell lies at most
four steps before `(r, c)` in its direction. There can be several such lines,
and the scan, whichever of them it meets first, returns NONE or the side of
`s`, never the other side. -/
theorem new_lines_pass_through_placed (board : Board) (size : Nat) (r c s : Int)
    (forceEnd : Bool)
    (hsq : board.Square size) (hin : InGrid size (r, c))
    (hnone : ¬ ∃ i j d, d ∈ scanDirs ∧ FiveInRow board size i j d) :
    (∀ i j d, d ∈ scanDirs → FiveInRow (board.setCell r c s) size i j d →
      (∃ k : Int, 0 ≤ k ∧ k ≤ 4 ∧ (i + k * d.1, j + k * d.2) = (r, c)) ∧
      ∀ k : Int, 0 ≤ k → k ≤ 4 → (board.setCell r c s).cell (i + k * d.1) (j + k * d.2) = s) ∧
    (GomokuWinStrategy.checkWin (board.setCell r c s) size forceEnd = PieceColor.NONE ∨
     GomokuWinStrategy.checkWin (board.setCell r c s) size forceEnd =
       if s = 1 then PieceColor.BLACK else PieceColor.WHITE) := by
  have hline : ∀ i j d, d ∈ scanDirs → FiveInRow (board.setCell r c s) size i j d →
      (board.setCell r c s).cell i j = s ∧
      ∃ k : Int, 0 ≤ k ∧ k ≤ 4 ∧ (i + k * d.1, j + k * d.2) = (r, c) :=
    fun i j d hd h => five_through_placed board size r c s hsq hin hnone i j d hd h
  refine ⟨?_, ?_⟩
  · intro i j d hd h
    obtain ⟨hstart, hthrough⟩ := hline i j d hd h
    refine ⟨hthrough, fun k hk0 hk4 => ?_⟩
    rw [(h.2 k hk0 hk4).2, hstart]
  · by_cases hw : GomokuWinStrategy.checkWin (board.setCell r c s) size forceEnd = PieceColor.NONE
    · exact Or.inl hw
    · obtain ⟨i, j, d, hd, h, hcol⟩ :=
        GomokuWinStrategy.checkWin_color (board.setCell r c s) size forceEnd hw
      rw [(hline i j d hd h).1] at hcol
      exact Or.inr hcol

/-- C27 (amended), at `sixGapBoard` and Black's stone on (0,4). -/
theorem new_lines_pass_through_placed_witness :
    sixGapBoard.Square 8 ∧ InGrid 8 (0, 4) ∧
    (¬ ∃ i j d, d ∈ scanDirs ∧ FiveInRow sixGapBoard 8 i j d) ∧
    GomokuWinStrategy.checkWin (sixGapBoard.setCell 0 4 1) 8 false = PieceColor.BLACK ∧
    (GomokuWinStrategy.checkWin (sixGapBoard.setCell 0 4 1) 8 false = PieceColor.NONE ∨
     GomokuWinStrategy.checkWin (sixGapBoard.setCell 0 4 1) 8 false =
       if (1 : Int) = 1 then PieceColor.BLACK else PieceColor.WHITE) :=
  have hnone : ¬ ∃ i j d, d ∈ scanDirs ∧ FiveInRow sixGapBoard 8 i j d :=
    fun h => (GomokuWinStrategy.checkWin_ne_NONE_iff sixGapBoard 8 false).2 h (by decide)
  ⟨by decide, by decide, hnone, by decide,
    (new_lines_pass_through_placed sixGapBoard 8 0 4 1 false (by decide) (by decide) hnone).2⟩

/-- C28: in a Go state, a placement on an Empty grid cell returns without
throwing and sends no game-over event: the observers get the capture messages,
if any, the new board and the message naming the next side, and nothing else;
the side to move is switched; and the result text of the scoring is untouched,
because `checkWin(board, size, false)` answers NONE at once on every grid
without counting anything. -/
theorem go_makeMove_never_settles (g : AbstractGame) (x y : Int) (board : Board) (size : Nat)
    (rd : Option ResultDesc)
    (hty : g.type = GameType.GO)
    (hrange : ¬ (x < 0 ∨ x ≥ g.size ∨ y < 0 ∨ y ≥ g.size)) (hempty : g.board.cell x y = 0) :
    (∃ (o : Outcome) (counts : List Nat), g.makeMove x y = some o ∧ o.thrown = none ∧
      o.state.events = g.events ++
        (counts.map fun k => Event.message (Message.captured k)) ++
        [Event.boardUpdate o.state.board o.state.size,
         Event.message (Message.nextToMove g.currentPlayer.next)] ∧
      (∀ w, Event.gameOver w ∉ GameSystem.newEvents g o.state) ∧
      o.state.currentPlayer =
        (if g.currentPlayer = PieceColor.BLACK then PieceColor.WHITE else PieceColor.BLACK) ∧
      o.state.resultDesc = g.resultDesc) ∧
    GoWinStrategy.checkWin rd board size false = some (PieceColor.NONE, rd) := by
  refine ⟨?_, rfl⟩
  obtain ⟨o, counts, ho, hok, hev, hcp, hrd⟩ :=
    AbstractGame.makeMove_go_legal g x y hty hrange hempty
  refine ⟨o, counts, ho, hok, hev, ?_, hcp, hrd⟩
  intro w hw
  unfold GameSystem.newEvents at hw
  rw [hev, List.append_assoc, List.drop_left] at hw
  simp at hw

/-- C28, at the Go position `cornerAtari` and Black's capturing move at (0,1):
the events are the capture message, the board and the next side. -/
theorem go_makeMove_never_settles_witness :
    cornerAtari.type = GameType.GO ∧ cornerAtari.board.cell 0 1 = 0 ∧
    (cornerAtari.makeMove 0 1).map
        (fun (o : Outcome) => (o.thrown, o.state.events, o.state.currentPlayer)) =
      some (none,
        [Event.message (Message.captured 1),
         Event.boardUpdate (((Board.fresh 8).setCell 1 0 1).setCell 0 1 1) 8,
         Event.message (Message.nextToMove PieceColor.WHITE)],
        PieceColor.WHITE) ∧
    (∃ (o : Outcome) (counts : List Nat), cornerAtari.makeMove 0 1 = some o ∧ o.thrown = none ∧
      o.state.events = cornerAtari.events ++
        (counts.map fun k => Event.message (Message.captured k)) ++
        [Event.boardUpdate o.state.board o.state.size,
         Event.message (Message.nextToMove cornerAtari.currentPlayer.next)] ∧
      (∀ w, Event.gameOver w ∉ GameSystem.newEvents cornerAtari o.state) ∧
      o.state.currentPlayer =
        (if cornerAtari.currentPlayer = PieceColor.BLACK then PieceColor.WHITE
          else PieceColor.BLACK) ∧
      o.state.resultDesc = cornerAtari.resultDesc) ∧
    GoWinStrategy.checkWin none twoStonesBoard 8 false = some (PieceColor.NONE, none) :=
  ⟨by decide, by decide, by decide,
    go_makeMove_never_settles cornerAtari 0 1 twoStonesBoard 8 none (by decide) (by decide)
      (by decide)⟩

/-- C29: in a state with a square grid, of a Go match in particular, a placement
on an Empty grid cell `(r, c)` returns without throwing; afterwards `(r, c)` holds the mover's stone,
every cell that held a mover's stone still holds it, and a cell that differs
from the grid with the stone placed held a stone of the opposing side and is
now Empty. Nothing in this depends on the liberties of the placed stone's own
group: the capture step only looks at opposing neighbours. -/
theorem go_capture_spares_mover (g : AbstractGame) (r c : Int)
    (hsq : g.board.Square g.size)
    (hrange : ¬ (r < 0 ∨ r ≥ g.size ∨ c < 0 ∨ c ≥ g.size)) (hempty : g.board.cell r c = 0) :
    ∃ o, g.makeMove r c = some o ∧ o.thrown = none ∧
      o.state.board.cell r c = g.currentPlayer.stone ∧
      (∀ p : Point, g.board.cell p.1 p.2 = g.currentPlayer.stone →
        o.state.board.cell p.1 p.2 = g.currentPlayer.stone) ∧
      (∀ p : Point,
        o.state.board.cell p.1 p.2 ≠ (g.board.setCell r c g.currentPlayer.stone).cell p.1 p.2 →
        g.board.cell p.1 p.2 = g.opposing ∧ o.state.board.cell p.1 p.2 = 0) := by
  obtain ⟨o, ho, hok, hcell, hdiff⟩ := AbstractGame.makeMove_placed g r c hsq hrange hempty
  refine ⟨o, ho, hok, hcell, ?_, fun p hp => (hdiff p hp).2⟩
  intro p hp
  by_cases hchg :
      o.state.board.cell p.1 p.2 = (g.board.setCell r c g.currentPlayer.stone).cell p.1 p.2
  · rw [hchg]
    by_cases hpos : (p.1, p.2) = (r, c)
    · have e1 : p.1 = r := congrArg Prod.fst hpos
      have e2 : p.2 = c := congrArg Prod.snd hpos
      rw [e1, e2, hempty] at hp
      exact absurd hp.symm (by unfold PieceColor.stone; split <;> norm_num)
    · rw [Board.cell_setCell_other g.board r c _ p.1 p.2 hpos]
      exact hp
  · have hop := (hdiff p hchg).2.1
    rw [hp] at hop
    exact absurd hop (AbstractGame.stone_ne_opposing g)

/-- C29, at the Go position `cornerSuicide` and White's move into the corner
(0,0): the stone has no liberty afterwards (its group is the stone alone and
the liberty count is 0), it stays on the board, and so do the two Black
stones. -/
theorem go_capture_spares_mover_witness :
    cornerSuicide.type = GameType.GO ∧ cornerSuicide.board.Square cornerSuicide.size ∧
    cornerSuicide.board.cell 0 0 = 0 ∧
    (cornerSuicide.makeMove 0 0).map (fun (o : Outcome) => (o.thrown, o.state.board)) =
      some (none, deadCornerBoard) ∧
    deadCornerBoard.cell 0 0 = 2 ∧
    GoGame.countLiberties deadCornerBoard 8 (8 * 8) 0 0 2 [] = some (0, [(0, 0)]) ∧
    ∃ o, cornerSuicide.makeMove 0 0 = some o ∧ o.thrown = none ∧
      o.state.board.cell 0 0 = cornerSuicide.currentPlayer.stone ∧
      (∀ p : Point, cornerSuicide.board.cell p.1 p.2 = cornerSuicide.currentPlayer.stone →
        o.state.board.cell p.1 p.2 = cornerSuicide.currentPlayer.stone) ∧
      (∀ p : Point,
        o.state.board.cell p.1 p.2 ≠
          (cornerSuicide.board.setCell 0 0 cornerSuicide.currentPlayer.stone).cell p.1 p.2 →
        cornerSuicide.board.cell p.1 p.2 = cornerSuicide.opposing ∧
          o.state.board.cell p.1 p.2 = 0) :=
  ⟨by decide, by decide, by decide, by decide, by decide, by decide,
    go_capture_spares_mover cornerSuicide 0 0 (by decide) (by decide) (by decide)⟩

/-- C30: started on an occupied grid cell `p` of colour `color` with an empty
set, `countLiberties` returns; the count is 0 exactly when no stone of the group
of `p` has an orthogonally adjacent Empty grid cell; and the set it leaves holds
exactly the cells of that group, each once, whatever the count is. -/
theorem countLiberties_zero_iff_and_group (board : Board) (size : Nat) (color : Int)
    (p : Point) (hcol : color ≠ 0) (hin : InGrid size p) (hp : board.cell p.1 p.2 = color) :
    ∃ n visited, GoGame.countLiberties board size (size * size) p.1 p.2 color [] =
        some (n, visited) ∧
      (n = 0 ↔ ∀ q, GoGame.SameGroup board size color p q → ¬ GoGame.HasLiberty board size q) ∧
      (∀ q, q ∈ visited ↔ GoGame.SameGroup board size color p q) ∧
      visited.Nodup := by
  obtain ⟨n, group, hcall, hnodup, hmem, hzero⟩ :=
    GoGame.countLiberties_group board size color hcol p hin hp
  exact ⟨n, group, hcall, hzero, hmem, hnodup⟩

/-- C30, at the shut-in White corner stone of `deadCornerBoard`, where the count
is 0, with the Black group of (0,1) on `sharedLibertyBoard`, where it is 3, for
comparison: in both cases the set left is the group. -/
theorem countLiberties_zero_iff_and_group_witness :
    (2 : Int) ≠ 0 ∧ InGrid 8 (0, 0) ∧ deadCornerBoard.cell 0 0 = 2 ∧
    GoGame.countLiberties deadCornerBoard 8 (8 * 8) 0 0 2 [] = some (0, [(0, 0)]) ∧
    GoGame.countLiberties sharedLibertyBoard 8 (8 * 8) 0 1 1 [] =
      some (3, [(1, 0), (0, 0), (0, 1)]) ∧
    ∃ n visited, GoGame.countLiberties deadCornerBoard 8 (8 * 8) 0 0 2 [] = some (n, visited) ∧
      (n = 0 ↔ ∀ q, GoGame.SameGroup deadCornerBoard 8 2 (0, 0) q →
        ¬ GoGame.HasLiberty deadCornerBoard 8 q) ∧
      (∀ q, q ∈ visited ↔ GoGame.SameGroup deadCornerBoard 8 2 (0, 0) q) ∧
      visited.Nodup :=
  ⟨by decide, by decide, by decide, by decide, by decide,
    countLiberties_zero_iff_and_group deadCornerBoard 8 2 (0, 0) (by decide) (by decide)
      (by decide)⟩

/-- C32: on every grid the settlement returns, and its two final scores are never
equal: Black's is the whole number of Black's stones and territory, White's is
the whole number of White's stones and territory plus 3.75. So the `else`
branch is only ever taken with Black's score strictly below White's, and
`checkWin(grid, true)` returns BLACK exactly when Black's stones plus territory
exceed White's stones plus territory by at least 4, and WHITE otherwise. The
scores are `double`s in the source; whole numbers of this size and their sum
with 3.75 are exact there, and are kept as rationals here. -/
theorem settlement_scores_never_tie (rd : Option ResultDesc) (board : Board) (size : Nat) :
    ∃ t w, GoWinStrategy.tally board size = some t ∧
      GoWinStrategy.checkWin rd board size true = some (w, some (GoWinStrategy.describe t)) ∧
      GoWinStrategy.finalBlack t = ((t.blackCount + t.blackTerritory : Nat) : ℚ) ∧
      GoWinStrategy.finalWhite t = ((t.whiteCount + t.whiteTerritory : Nat) : ℚ) + 3.75 ∧
      GoWinStrategy.finalBlack t ≠ GoWinStrategy.finalWhite t ∧
      (w = PieceColor.BLACK ↔
        t.blackCount + t.blackTerritory ≥ t.whiteCount + t.whiteTerritory + 4) ∧
      (w = PieceColor.WHITE ↔
        t.blackCount + t.blackTerritory < t.whiteCount + t.whiteTerritory + 4) ∧
      (w = PieceColor.WHITE → GoWinStrategy.finalBlack t < GoWinStrategy.finalWhite t) :=
  GoWinStrategy.checkWin_gap rd board size

/-- C33: in a state of either variant, a placement on an Empty grid cell followed
by `undo`: both calls succeed, whichever branch `makeMove` took, and the grid
(with every stone a capture had removed), the side to move, the size, the
history and the variant are exactly as before the move. -/
theorem makeMove_then_undo_restores (g : AbstractGame) (x y : Int)
    (hrange : ¬ (x < 0 ∨ x ≥ g.size ∨ y < 0 ∨ y ≥ g.size)) (hempty : g.board.cell x y = 0) :
    ∃ o, g.makeMove x y = some o ∧ o.thrown = none ∧ o.state.undo.thrown = none ∧
      o.state.undo.state.board = g.board ∧
      o.state.undo.state.currentPlayer = g.currentPlayer ∧
      o.state.undo.state.size = g.size ∧
      o.state.undo.state.history = g.history ∧
      o.state.undo.state.type = g.type := by
  obtain ⟨o, ho, hok, h1, h2, h3, h4, h5, h6, _⟩ := AbstractGame.makeMove_undo g x y hrange hempty
  exact ⟨o, ho, hok, h1, h2, h3, h4, h5, h6⟩

/-- C33, at the Go position `cornerAtari` and Black's move at (0,1), which takes
the White corner stone (the non-winning branch), with the winning move of
`fourInRowGame` for comparison: after `undo` the White stone is back on (0,0),
and the Gomoku grid is the seeded one again. -/
theorem makeMove_then_undo_restores_witness :
    cornerAtari.board.cell 0 1 = 0 ∧ cornerAtari.board.cell 0 0 = 2 ∧
    (cornerAtari.makeMove 0 1).map (fun (o : Outcome) => o.state.board.cell 0 0) = some 0 ∧
    (cornerAtari.makeMove 0 1).map (fun (o : Outcome) => o.state.undo.state.board) =
      some cornerAtari.board ∧
    (∃ o, fourInRowGame.makeMove 0 4 = some o ∧
      Event.gameOver PieceColor.BLACK ∈ o.state.events ∧ o.state.undo.thrown = none ∧
      o.state.undo.state.board = fourInRowBoard ∧
      o.state.undo.state.currentPlayer = PieceColor.BLACK ∧ o.state.undo.state.history = []) ∧
    ∃ o, cornerAtari.makeMove 0 1 = some o ∧ o.thrown = none ∧ o.state.undo.thrown = none ∧
      o.state.undo.state.board = cornerAtari.board ∧
      o.state.undo.state.currentPlayer = cornerAtari.currentPlayer ∧
      o.state.undo.state.size = cornerAtari.size ∧
      o.state.undo.state.history = cornerAtari.history ∧
      o.state.undo.state.type = cornerAtari.type :=
  ⟨by decide, by decide, by decide, by decide, by decide,
    makeMove_then_undo_restores cornerAtari 0 1 (by decide) (by decide)⟩

/-- C34: in a Go state, `passTurn` followed by `undo`: both calls succeed, and
the grid, the side to move, the pass counter, the history, the size and the
variant are exactly as before the pass, whatever the pass counter was: after a
first pass (counter 0, then 1) as after a settling pass (counter 1, then the
settlement and the reset to 0). -/
theorem passTurn_then_undo_restores (g : AbstractGame) (hty : g.type = GameType.GO) :
    ∃ o, g.passTurn = some o ∧ o.thrown = none ∧ o.state.undo.thrown = none ∧
      o.state.undo.state.board = g.board ∧
      o.state.undo.state.currentPlayer = g.currentPlayer ∧
      o.state.undo.state.size = g.size ∧
      o.state.undo.state.passCount = g.passCount ∧
      o.state.undo.state.history = g.history ∧
      o.state.undo.state.type = g.type :=
  AbstractGame.passTurn_undo g hty

set_option maxRecDepth 100000 in
/-- C34, at the state after a first pass on a fresh Go match of size 8 (counter
1): the second pass settles and leaves the counter at 0, and `undo` brings back
the counter 1, the side WHITE and the history of one snapshot; with the first
pass on the fresh match for comparison. -/
theorem passTurn_then_undo_restores_witness :
    afterFirstPass.state.type = GameType.GO ∧ afterFirstPass.state.passCount = 1 ∧
    (∃ o, afterFirstPass.state.passTurn = some o ∧
      Event.gameOver PieceColor.WHITE ∈ o.state.events ∧ o.state.passCount = 0 ∧
      o.state.undo.thrown = none ∧ o.state.undo.state.passCount = 1 ∧
      o.state.undo.state.currentPlayer = PieceColor.WHITE ∧
      o.state.undo.state.history.length = 1) ∧
    (∃ o, (AbstractGame.create GameType.GO 8).passTurn = some o ∧ o.state.passCount = 1 ∧
      o.state.undo.thrown = none ∧ o.state.undo.state.passCount = 0 ∧
      o.state.undo.state.currentPlayer = PieceColor.BLACK ∧
      o.state.undo.state.history = []) ∧
    ∃ o, afterFirstPass.state.passTurn = some o ∧ o.thrown = none ∧
      o.state.undo.thrown = none ∧
      o.state.undo.state.board = afterFirstPass.state.board ∧
      o.state.undo.state.currentPlayer = afterFirstPass.state.currentPlayer ∧
      o.state.undo.state.size = afterFirstPass.state.size ∧
      o.state.undo.state.passCount = afterFirstPass.state.passCount ∧
      o.state.undo.state.history = afterFirstPass.state.history ∧
      o.state.undo.state.type = afterFirstPass.state.type :=
  ⟨by decide, by decide, by decide!, by decide,
    passTurn_then_undo_restores afterFirstPass.state (by decide)⟩

/-- C31: on a square grid, the capture loop of `postMoveProcess(r, c)` run over
the four neighbour directions in any order `ds` returns, and leaves the same
grid as `postMoveProcess` itself. The grid is the one before the loop with
exactly the captured cells set to Empty, where "captured" is judged on the grid
before the loop (an opposing stone whose group touches `(r, c)` and has no
liberty there): taking off one group does not change which other groups are
taken off. No cell is cleared twice: the cells that differ from the grid before
the loop are Empty, were not Empty before, and their number is the sum of the
stone counts reported in the capture messages, one count for each group taken
off. -/
theorem postMoveProcess_order_independent (g0 : AbstractGame) (r c : Int) (ds : List Point)
    (hsq : g0.board.Square g0.size) (hds : ds.Perm dirs) :
    ∃ g g' changed, GoGame.postMoveProcess g0 r c = some g ∧
      GoGame.postMoveProcessIn ds g0 r c = some g' ∧ g'.board = g.board ∧
      (∀ p : Point, GoGame.Captured g0.board g0.size (if g0.board.cell r c = 1 then 2 else 1)
          r c p → g.board.cell p.1 p.2 = 0) ∧
      (∀ p : Point, ¬ GoGame.Captured g0.board g0.size (if g0.board.cell r c = 1 then 2 else 1)
          r c p → g.board.cell p.1 p.2 = g0.board.cell p.1 p.2) ∧
      GoGame.ClearedOnce g0 g' changed := by
  have hmem : ∀ d, d ∈ ds ↔ d ∈ dirs := fun d => hds.mem_iff
  obtain ⟨g, g', hg, hg', hboard, _⟩ := GoGame.postMoveProcessIn_order ds hmem g0 r c hsq
  obtain ⟨g1, hg1, inv⟩ := GoGame.postMoveProcess_spec g0 r c hsq
  obtain ⟨g2, changed, hg2, honce⟩ := GoGame.postMoveProcessIn_clearedOnce ds g0 r c hsq
  rw [hg] at hg1
  cases hg1
  rw [hg'] at hg2
  cases hg2
  refine ⟨g, g', changed, hg, hg', hboard, ?_, ?_, honce⟩
  · intro p hp
    exact inv.cleared p ((GoGame.CapturedVia.dirs_iff _ _ _ _ _ p).2 hp)
  · intro p hp
    exact inv.kept p (fun h => hp ((GoGame.CapturedVia.dirs_iff _ _ _ _ _ p).1 h))

/-- C31, at Black's move at (1,1) in `doubleAtari`, which takes the two White
stones (0,1) and (1,0), with the directions in reverse order: both orders leave
the same grid and report two groups of one stone. -/
theorem postMoveProcess_order_independent_witness :
    doubleAtariPlaced.board.Square doubleAtariPlaced.size ∧ dirs.reverse.Perm dirs ∧
    (∃ g, GoGame.postMoveProcess doubleAtariPlaced 1 1 = some g ∧
      g.board = doubleAtariAfter ∧ GoGame.capturedCounts g.events = [1, 1]) ∧
    (∃ g, GoGame.postMoveProcessIn dirs.reverse doubleAtariPlaced 1 1 = some g ∧
      g.board = doubleAtariAfter ∧ GoGame.capturedCounts g.events = [1, 1]) ∧
    ∃ g g' changed, GoGame.postMoveProcess doubleAtariPlaced 1 1 = some g ∧
      GoGame.postMoveProcessIn dirs.reverse doubleAtariPlaced 1 1 = some g' ∧
      g'.board = g.board ∧
      (∀ p : Point, GoGame.Captured doubleAtariPlaced.board doubleAtariPlaced.size
          (if doubleAtariPlaced.board.cell 1 1 = 1 then 2 else 1) 1 1 p →
        g.board.cell p.1 p.2 = 0) ∧
      (∀ p : Point, ¬ GoGame.Captured doubleAtariPlaced.board doubleAtariPlaced.size
          (if doubleAtariPlaced.board.cell 1 1 = 1 then 2 else 1) 1 1 p →
        g.board.cell p.1 p.2 = doubleAtariPlaced.board.cell p.1 p.2) ∧
      GoGame.ClearedOnce doubleAtariPlaced g' changed :=
  ⟨by decide, by decide, by decide, by decide,
    postMoveProcess_order_independent doubleAtariPlaced 1 1 dirs.reverse (by decide)
      (by decide)⟩

/-- C35: after any sequence of `k` successful `makeMove` calls on a fresh match
(of either variant, a Gomoku match in particular), `i` calls of `undo` in a row
succeed for every `i` up to `k`, and they lead to the state in which the move
number `k - i + 1` was made: the same variant, size, grid, side to move, pass
counter and history. After `k` undos this is the fresh state (all-Empty grid,
BLACK to move, pass counter 0, empty history), and one more `undo` fails. -/
theorem undos_take_back_moves (type : GameType) (n : Nat) (moves : List Point)
    (states : List AbstractGame) (final : AbstractGame)
    (hplay : (AbstractGame.create type n).playMoves moves = some (states, final)) :
    states.length = moves.length ∧
    (∀ i, i ≤ moves.length → ∃ u s, final.undoTimes i = some u ∧
      (states ++ [final])[moves.length - i]? = some s ∧ AbstractGame.SameState u s) ∧
    ∃ u, final.undoTimes moves.length = some u ∧
      AbstractGame.SameState u (AbstractGame.create type n) ∧
      u.board = Board.fresh n ∧ u.currentPlayer = PieceColor.BLACK ∧ u.passCount = 0 ∧
      u.history = [] ∧ u.undo.thrown = some GameException.nothingToUndo ∧
      final.undoTimes (moves.length + 1) = none := by
  obtain ⟨hlen, hall⟩ := AbstractGame.playMoves_undoTimes moves (AbstractGame.create type n)
    states final rfl hplay
  refine ⟨hlen, hall, ?_⟩
  obtain ⟨u, s, hu, hs, hus⟩ := hall moves.length (le_refl _)
  rw [Nat.sub_self, AbstractGame.playMoves_head moves _ states final hplay] at hs
  cases hs
  have hsame := hus
  obtain ⟨_, _, h3, h4, h5, h6⟩ := hus
  have hthrown : u.undo.thrown = some GameException.nothingToUndo := by
    rw [AbstractGame.undo_nil u h6]
  refine ⟨u, hu, hsame, h3, h4, h5, h6, hthrown, ?_⟩
  rw [AbstractGame.undoTimes_succ, hu]
  simp only [Option.some_bind]
  rw [if_neg (by rw [hthrown]; exact fun h => Option.noConfusion h)]

set_option maxRecDepth 100000 in
/-- C35, at three opening moves on a fresh Gomoku match of size 8: two undos
lead back to the state before the second move, with Black's first stone on
(3,3), and three undos to the fresh state. -/
theorem undos_take_back_moves_witness :
    (AbstractGame.create GameType.GOMOKU 8).playMoves openingMoves =
      some (openingRun.1, openingRun.2) ∧
    openingRun.2.board.cell 4 4 = 1 ∧ openingRun.2.board.cell 3 4 = 2 ∧
    openingRun.2.history.length = 3 ∧
    (∃ u, openingRun.2.undoTimes 2 = some u ∧ u.board = (Board.fresh 8).setCell 3 3 1 ∧
      u.currentPlayer = PieceColor.WHITE ∧ u.history.length = 1) ∧
    (∃ u, openingRun.2.undoTimes 3 = some u ∧ u.board = Board.fresh 8 ∧ u.history = []) ∧
    openingRun.2.undoTimes 4 = none ∧
    openingRun.1.length = openingMoves.length :=
  ⟨by decide!, by decide!, by decide!, by decide!, by decide!, by decide!, by decide!,
    (undos_take_back_moves GameType.GOMOKU 8 openingMoves openingRun.1 openingRun.2
      (by decide!)).1⟩

/-- C36: on every grid of every size, the win check of the modular program
(`GomokuStrategy.h`, four written-out direction tests in the order right, down,
down-right, down-left) and the win check of the single-file program
(`gchess_main.cpp`, a counting loop over the directions in the order down,
right, down-right, down-left) return the same winner. -/
theorem monolithic_checkWin_agrees (board : Board) (size : Nat) (forceEnd : Bool) :
    Monolithic.checkWin board size forceEnd = GomokuWinStrategy.checkWin board size forceEnd :=
  Monolithic.checkWin_eq board size forceEnd

/-- C38: on a grid with cells in {0, 1, 2}, for every start position and colour,
the recursion of `countLiberties` returns (with fuel `size * size`, one unit
for each cell it can enter); the set it leaves lists every cell entered exactly
once, all of them grid cells of the colour, so at most `size * size` cells. The
counting loops of the settlement return as well; every Empty cell of the grid is
marked, and so enqueued, exactly once over the whole call, and no other cell is;
and the region sizes (`areaSize` at the end of each flood fill) add up to the
number of Empty cells. -/
theorem countLiberties_and_flood_fill_terminate (board : Board) (size : Nat) (x y color : Int)
    (hvalid : board.Valid) :
    (∃ n visited, GoGame.countLiberties board size (size * size) x y color [] =
        some (n, visited) ∧ visited.Nodup ∧
      (∀ q ∈ visited, InGrid size q ∧ board.cell q.1 q.2 = color) ∧
      visited.length ≤ size * size) ∧
    ∃ t areas, GoWinStrategy.tallyLog board size = some (t, areas) ∧
      GoWinStrategy.tally board size = some t ∧
      t.visited.Nodup ∧ (∀ p, p ∈ t.visited ↔ GoWinStrategy.EmptyCell board size p) ∧
      areas.sum = t.visited.length ∧
      areas.sum = GoWinStrategy.stoneCount board size 0 := by
  refine ⟨GoGame.countLiberties_bounded board size x y color, ?_⟩
  obtain ⟨t, areas, h1, h2, h3, h4, h5, h6⟩ :=
    GoWinStrategy.tallyLog_spec board size (Board.cell_of_valid board hvalid)
  exact ⟨t, areas, h1, h2, h3, h4, h5, h5.trans h6⟩

set_option maxRecDepth 100000 in
/-- C38, at the 8 x 8 board with Black on (0,1) and (1,0): the Empty corner (0,0)
is a region of size 1, the other 61 Empty cells form one region, and 1 + 61 is
the number of Empty cells, 62. -/
theorem countLiberties_and_flood_fill_terminate_witness :
    cornerSuicide.board.Valid ∧
    (∃ r, GoWinStrategy.tallyLog cornerSuicide.board 8 = some r ∧ r.2 = [1, 61] ∧
      r.1.visited.length = 62) ∧
    GoWinStrategy.stoneCount cornerSuicide.board 8 0 = 62 ∧
    GoGame.countLiberties cornerSuicide.board 8 (8 * 8) 0 1 1 [] = some (3, [(0, 1)]) ∧
    ∃ t areas, GoWinStrategy.tallyLog cornerSuicide.board 8 = some (t, areas) ∧
      GoWinStrategy.tally cornerSuicide.board 8 = some t ∧
      t.visited.Nodup ∧
      (∀ p, p ∈ t.visited ↔ GoWinStrategy.EmptyCell cornerSuicide.board 8 p) ∧
      areas.sum = t.visited.length ∧
      areas.sum = GoWinStrategy.stoneCount cornerSuicide.board 8 0 :=
  ⟨by decide, by decide!, by decide!, by decide,
    (countLiberties_and_flood_fill_terminate cornerSuicide.board 8 0 1 1 (by decide)).2⟩

/-- C39: on every grid, exchanging the two sides in every cell exchanges the
counters of the settlement: the stone count and the territory computed for
Black on the swapped grid are those computed for White on the original grid,
and the other way round. So the final scores differ only by the 3.75 added to
White: Black's score on the swapped grid plus 3.75 is White's on the original,
and White's on the swapped grid is Black's on the original plus 3.75. -/
theorem settlement_swaps_with_sides (board : Board) (size : Nat) :
    ∃ t t', GoWinStrategy.tally board size = some t ∧
      GoWinStrategy.tally (GoWinStrategy.swapSides board) size = some t' ∧
      t'.blackCount = t.whiteCount ∧ t'.blackTerritory = t.whiteTerritory ∧
      t'.whiteCount = t.blackCount ∧ t'.whiteTerritory = t.blackTerritory ∧
      GoWinStrategy.finalBlack t' + 3.75 = GoWinStrategy.finalWhite t ∧
      GoWinStrategy.finalWhite t' = GoWinStrategy.finalBlack t + 3.75 := by
  obtain ⟨t, ht⟩ := GoWinStrategy.tally_total board size
  refine ⟨t, GoWinStrategy.Tally.swap t, ht, ?_, rfl, rfl, rfl, rfl, rfl, rfl⟩
  rw [GoWinStrategy.tally_swap, ht]
  rfl

/-- C37: with every access to the grid checked against the extent of the vector,
on a grid of `n` rows of `n` cells, for every `n` (0 and the sizes below 5
included), none of the four functions ever leaves the grid: the checked
`GomokuWinStrategy::checkWin`, `GoWinStrategy::checkWin`,
`GoGame::countLiberties` (from any start position and colour) and
`GoGame::postMoveProcess` (called for a grid position, as `makeMove` does) end
with a value, the one the unchecked functions return. The same holds for
`makeMove` on a state `g` with a square grid: it returns; when it throws, the
state is untouched, and when the position is in range and the cell Empty it does
not throw and the snapshot is on the history. On any state `e` whatever, with a
position out of range `makeMove` throws before it reads or writes any cell. -/
theorem accesses_stay_in_grid (board : Board) (n : Nat) (g e : AbstractGame) (x y color : Int)
    (rd : Option ResultDesc) (forceEnd : Bool)
    (hsq : board.Square n) (hgsq : g.board.Square g.size) :
    Checked.GomokuWinStrategy.checkWin board n forceEnd =
      Checked.ok (GomokuWinStrategy.checkWin board n forceEnd) ∧
    (∃ r, GoWinStrategy.checkWin rd board n forceEnd = some r ∧
      Checked.GoWinStrategy.checkWin rd board n forceEnd = Checked.ok r) ∧
    (∃ r, GoGame.countLiberties board n (n * n) x y color [] = some r ∧
      Checked.GoGame.countLiberties board n (n * n) x y color [] = Checked.ok r) ∧
    (InGrid g.size (x, y) → ∃ g', GoGame.postMoveProcess g x y = some g' ∧
      Checked.GoGame.postMoveProcess g x y = Checked.ok g') ∧
    (∃ o, g.makeMove x y = some o ∧ Checked.AbstractGame.makeMove g x y = Checked.ok o ∧
      (o.thrown ≠ none → o.state = g) ∧
      (¬ (x < 0 ∨ x ≥ g.size ∨ y < 0 ∨ y ≥ g.size) → g.board.cell x y = 0 →
        o.thrown = none ∧ o.state.history = (g.placeStone x y).history)) ∧
    ((x < 0 ∨ x ≥ e.size ∨ y < 0 ∨ y ≥ e.size) →
      Checked.AbstractGame.makeMove e x y =
        Checked.ok { thrown := some GameException.outOfRange, state := e }) := by
  refine ⟨checked_gomoku_checkWin board n hsq forceEnd, ?_, ?_, ?_, ?_, ?_⟩
  · have hex : ∃ r, GoWinStrategy.checkWin rd board n forceEnd = some r := by
      cases forceEnd with
      | false => exact ⟨_, rfl⟩
      | true =>
        obtain ⟨t, w, _, h, _⟩ := GoWinStrategy.checkWin_gap rd board n
        exact ⟨_, h⟩
    obtain ⟨r, hr⟩ := hex
    exact ⟨r, hr, by rw [checked_go_checkWin rd board n hsq, hr]; rfl⟩
  · obtain ⟨k, visited, hcall, _⟩ := GoGame.countLiberties_bounded board n x y color
    exact ⟨_, hcall, by rw [checked_countLiberties board n hsq, hcall]; rfl⟩
  · intro hin
    obtain ⟨g', hg', _⟩ := GoGame.postMoveProcess_frame g x y
    exact ⟨g', hg', by rw [checked_go_postMoveProcess g hgsq x y hin, hg']; rfl⟩
  · obtain ⟨o, ho⟩ := AbstractGame.makeMove_total g x y
    refine ⟨o, ho, by rw [checked_makeMove g hgsq, ho]; rfl, ?_, ?_⟩
    · intro hthrown
      by_cases h : x < 0 ∨ x ≥ g.size ∨ y < 0 ∨ y ≥ g.size
      · rw [AbstractGame.makeMove_outOfRange g x y h] at ho
        cases ho
        rfl
      · by_cases hc : g.board.cell x y = 0
        · obtain ⟨o', ho', hok, _⟩ := AbstractGame.makeMove_legal g x y h hc
          rw [ho] at ho'
          cases ho'
          exact absurd hok hthrown
        · rw [AbstractGame.makeMove_occupied g x y h hc] at ho
          cases ho
          rfl
    · intro h hc
      obtain ⟨o', ho', hok, _, _, _, hhist⟩ := AbstractGame.makeMove_legal g x y h hc
      rw [ho] at ho'
      cases ho'
      exact ⟨hok, hhist⟩
  · intro h
    unfold Checked.AbstractGame.makeMove
    rw [if_pos h]

/-- C37, at a Go match on a 3 x 3 grid, a size below 5: the scans of both
variants, the liberty count from the corner and the move at (2,2) run through
without leaving the grid, while a read at (3,0) is outside; and on the ragged
grid of `raggedMemento` the checked read of its missing cell (0,7) is refused,
where the unchecked one reads 0. -/
theorem accesses_stay_in_grid_witness :
    (Board.fresh 3).Square 3 ∧
    (AbstractGame.create GameType.GO 3).board.Square (AbstractGame.create GameType.GO 3).size ∧
    Checked.GomokuWinStrategy.checkWin (Board.fresh 3) 3 false = Checked.ok PieceColor.NONE ∧
    Checked.AbstractGame.makeMove (AbstractGame.create GameType.GO 3) 3 0 =
      Checked.ok { thrown := some GameException.outOfRange,
                   state := AbstractGame.create GameType.GO 3 } ∧
    (Board.fresh 3).read 3 0 = Checked.outOfBounds ∧
    raggedMemento.boardData.read 0 7 = Checked.outOfBounds ∧
    raggedMemento.boardData.cell 0 7 = 0 ∧
    (∃ o, (AbstractGame.create GameType.GO 3).makeMove 2 2 = some o ∧
      Checked.AbstractGame.makeMove (AbstractGame.create GameType.GO 3) 2 2 = Checked.ok o ∧
      (o.thrown ≠ none → o.state = AbstractGame.create GameType.GO 3) ∧
      (¬ ((2 : Int) < 0 ∨ (2 : Int) ≥ (AbstractGame.create GameType.GO 3).size ∨
          (2 : Int) < 0 ∨ (2 : Int) ≥ (AbstractGame.create GameType.GO 3).size) →
        (AbstractGame.create GameType.GO 3).board.cell 2 2 = 0 →
        o.thrown = none ∧
        o.state.history = ((AbstractGame.create GameType.GO 3).placeStone 2 2).history)) :=
  ⟨by decide, by decide, by decide, by decide, by decide, by decide, by decide,
    (accesses_stay_in_grid (Board.fresh 3) 3 (AbstractGame.create GameType.GO 3)
      (AbstractGame.create GameType.GO 3) 2 2 1 none true (by decide) (by decide)).2.2.2.2.1⟩
